import Mathlib

/-! # Asynchronous tiled Mandelbrot zoomer

A shallow embedding of the tiled launcher (`async_tiled.h`), the Mandelbrot
kernel (`fractals.h`) and the slot selection of the zoom coordinator
(`HelloWorldScene.cpp`), followed by the properties proved about them.

Conventions of the embedding.

* `unsigned` is 32 bits wide and `size_t` is 64 bits wide (LP64).  Machine
  integers are natural numbers; every operation that can wrap carries its
  reduction modulo `2^32`, `2^16` or `2^64` explicitly.
* A pointer into the framebuffer is the byte offset from `&framebuffer[0]`.
* `float` is IEEE-754 binary32 with round-to-nearest-even, each operation
  rounded once, without fused multiply-add and without excess precision
  (`F32` below).
* A `Tile2D&` into the tile vector is the position of its referent in the
  vector, together with the referent.
* Asynchronous tasks are embedded by the value their future resolves to; a
  kernel describes its effect on the framebuffer as the sequence of pixel
  stores it performs, in program order, and `runStores` applies a sequence of
  stores to the framebuffer memory.
-/

set_option autoImplicit false

namespace AsyncTiled

/-! ## Data model (`async_tiled.h`) -/

/-- The size `sizeof(RGBA)`: four `uint8_t` components. -/
def sizeofRGBA : Nat := 4

/-- The type `struct RGBA`: a byte-per-component pixel. -/
structure RGBA where
  r : Nat
  g : Nat
  b : Nat
  a : Nat
  deriving DecidableEq, Repr

/-- The constructor `RGBA(unsigned r, unsigned g, unsigned b, unsigned a)`: every component is
narrowed to `uint8_t`. -/
def RGBA.ofUnsigned (r g b a : Nat) : RGBA :=
  ⟨r % 256, g % 256, b % 256, a % 256⟩

/-- The type `struct Dims2U`: two `unsigned` fields. -/
structure Dims2U where
  w : Nat
  h : Nat
  w_lt : w < 4294967296
  h_lt : h < 4294967296

/-- The type `struct Point2U`: two `unsigned` fields. -/
structure Point2U where
  x : Nat
  y : Nat
  deriving DecidableEq, Repr

/-- The type `struct TileSpec`: `w` and `h` are `uint16_t`, `stride` is `unsigned`.
The pixel format has the single value `RGBA8888` and is left out. -/
structure TileSpec where
  w : Nat
  h : Nat
  stride : Nat
  w_lt : w < 65536
  h_lt : h < 65536
  stride_lt : stride < 4294967296

/-- The type `struct Tile2D`: `pixels` is the byte offset of the tile's first pixel
from the start of the framebuffer, `x` and `y` are `uint16_t`. -/
structure Tile2D where
  pixels : Nat
  x : Nat
  y : Nat
  deriving DecidableEq, Repr

/-- A `Tile2D&` into the output tile vector: the position of the referent in
the vector, with the referent's value. -/
structure TileRef where
  index : Nat
  tile : Tile2D
  deriving DecidableEq, Repr

/-- A counted `for (unsigned i = 0; i < n; ++i) body` loop over a state. -/
def forLoop {σ : Type} (n : Nat) (body : Nat → σ → σ) (s : σ) : σ :=
  (List.range n).foldl (fun s i => body i s) s

/-- The call `std::vector::clear()`: whatever the vector held, it is empty afterwards. -/
def vectorClear {α : Type} (_v : List α) : List α := []

/-! ## `LaunchTiles` -/

/-- The expression
`y * spec.h * spec.stride + x * spec.w * sizeof(PixelType)` that `LaunchTiles`
adds to `&framebuffer[0]`: the first summand is computed in `unsigned`, the
second is an `unsigned` product widened to `size_t` before the multiplication
by `sizeof`. -/
def tileCornerOffset (spec : TileSpec) (x y : Nat) : Nat :=
  (y * spec.h % 4294967296 * spec.stride) % 4294967296
    + (x * spec.w % 4294967296 * sizeofRGBA) % 18446744073709551616

/-- The tile `LaunchTiles` emplaces for loop counters `x`, `y`:
`Tile2D(tile_corner, uint16_t(x), uint16_t(y))`. -/
def tileAt (spec : TileSpec) (x y : Nat) : Tile2D :=
  ⟨tileCornerOffset spec x y, x % 65536, y % 65536⟩

/-- The two vectors `LaunchTiles` fills: the caller's `outTiles` and the
returned `tasks`, each future given by the value it resolves to. -/
structure LaunchState (R : Type) where
  outTiles : List Tile2D
  tasks : List R

/-- The body of the inner loop of `LaunchTiles`: emplace the tile at the end of
`outTiles`, launch `func(spec, std::ref(outTiles.back()))`, push the future. -/
def launchOne {R : Type} (spec : TileSpec) (func : TileSpec → TileRef → R)
    (y x : Nat) (st : LaunchState R) : LaunchState R :=
  let tile := tileAt spec x y
  let outTiles := st.outTiles ++ [tile]
  let task := func spec ⟨outTiles.length - 1, tile⟩
  ⟨outTiles, st.tasks ++ [task]⟩

/-- The function `LaunchTiles(spec, bufferTiles, framebuffer, outTiles, func)`.
`outTiles.clear()` discards the previous contents; the two `reserve` calls do
not change the contents of either vector. -/
def LaunchTiles {R : Type} (spec : TileSpec) (bufferTiles : Dims2U)
    (outTiles : List Tile2D) (func : TileSpec → TileRef → R) : LaunchState R :=
  let cleared : LaunchState R := ⟨vectorClear outTiles, []⟩
  forLoop bufferTiles.h
    (fun y st => forLoop bufferTiles.w (fun x st => launchOne spec func y x st) st)
    cleared

/-- The function `pixelDims(spec, tileGridDims)`: both products are `unsigned`. -/
def pixelDims (spec : TileSpec) (tileGridDims : Dims2U) : Dims2U :=
  ⟨spec.w * tileGridDims.w % 4294967296, spec.h * tileGridDims.h % 4294967296,
    Nat.mod_lt _ (by decide), Nat.mod_lt _ (by decide)⟩

/-- The function `addressRow<RGBA>(spec, tile, y)`: `tile.pixels + spec.stride * y`, the
product being `unsigned`. -/
def addressRow (spec : TileSpec) (tile : Tile2D) (y : Nat) : Nat :=
  tile.pixels + spec.stride * y % 4294967296

/-- The function `pixelPosition(spec, tile)`: `{unsigned(spec.w) * tile.x,
unsigned(spec.h) * tile.y}`. -/
def pixelPosition (spec : TileSpec) (tile : Tile2D) : Point2U :=
  ⟨spec.w * tile.x % 4294967296, spec.h * tile.y % 4294967296⟩

/-- Byte `b` lies in the pixel slice of `tile`: in one of the `spec.h` rows
addressed by `addressRow`, each `spec.w` pixels long. -/
def inSlice (spec : TileSpec) (tile : Tile2D) (b : Nat) : Prop :=
  ∃ r, r < spec.h ∧ addressRow spec tile r ≤ b ∧
    b < addressRow spec tile r + spec.w * sizeofRGBA

instance (spec : TileSpec) (tile : Tile2D) (b : Nat) : Decidable (inSlice spec tile b) := by
  unfold inSlice
  exact inferInstance

/-- The state of `LaunchTiles` after `n` tiles have been launched. -/
def launched {R : Type} (spec : TileSpec) (w : Nat) (func : TileSpec → TileRef → R)
    (n : Nat) : LaunchState R :=
  ⟨(List.range n).map (fun k => tileAt spec (k % w) (k / w)),
   (List.range n).map (fun k => func spec ⟨k, tileAt spec (k % w) (k / w)⟩)⟩


/-! ## IEEE-754 binary32 (`float`) -/

/-- A binary32 value.  `fin n` is the finite number `n · 2^(-149)`: every
finite binary32 number is a whole multiple of the smallest subnormal
`2^(-149)`.  The sign of a zero and the payload of a NaN are not tracked. -/
inductive F32 where
  | fin (n : Int)
  | inf (neg : Bool)
  | nan
  deriving DecidableEq, Repr

namespace F32

/-- The number of units `2^(-149)` in `1.0f`. -/
def one : Nat := 2 ^ 149

/-- The least `k ≥ k₀` with `v < 2^(24 + k)`, searched for `fuel` steps: for
`v` in units of `2^(-149)`, `2^k` units is the spacing of binary32 numbers
around `v`. -/
def ulpExp (v : Nat) : Nat → Nat → Nat
  | 0, k => k
  | fuel + 1, k => if v < 2 ^ (24 + k) then k else ulpExp v fuel (k + 1)

/-- The integer nearest to `a / d`, ties going to the even one. -/
def roundHalfEven (a d : Nat) : Nat :=
  if 2 * (a % d) < d then a / d
  else if d < 2 * (a % d) then a / d + 1
  else if a / d % 2 = 0 then a / d else a / d + 1

/-- Round-to-nearest-even of the exact value `p / q` (in units of `2^(-149)`,
`q > 0`) to binary32; a result of magnitude `2^128` or more is an
infinity. -/
def round (p : Int) (q : Nat) : F32 :=
  let k := ulpExp (p.natAbs / q) 254 0
  let n := roundHalfEven p.natAbs (q * 2 ^ k) * 2 ^ k
  if 2 ^ 128 * one ≤ n then inf (decide (p < 0))
  else fin (if p < 0 then -(n : Int) else (n : Int))

/-- Conversion of an `unsigned` (or of an integer literal) to `float`. -/
def ofNat (m : Nat) : F32 := round ((m * one : Nat) : Int) 1

/-- Unary minus. -/
def neg : F32 → F32
  | fin a => fin (-a)
  | inf s => inf (!s)
  | nan => nan

/-- Single-precision addition. -/
def add : F32 → F32 → F32
  | fin a, fin b => round (a + b) 1
  | fin _, inf s => inf s
  | inf s, fin _ => inf s
  | inf s, inf t => if s = t then inf s else nan
  | _, _ => nan

/-- Single-precision subtraction. -/
def sub (x y : F32) : F32 := add x (neg y)

/-- Single-precision multiplication. -/
def mul : F32 → F32 → F32
  | fin a, fin b => round (a * b) one
  | fin a, inf s => if a = 0 then nan else inf (xor s (decide (a < 0)))
  | inf s, fin b => if b = 0 then nan else inf (xor s (decide (b < 0)))
  | inf s, inf t => inf (xor s t)
  | _, _ => nan

/-- Single-precision division.  A zero divisor is taken to be `+0`: the kernel
divides only by converted `unsigned` values, which are never `-0`. -/
def div : F32 → F32 → F32
  | fin a, fin b =>
    if b = 0 then (if a = 0 then nan else inf (decide (a < 0)))
    else round (if b < 0 then -(a * (one : Int)) else a * (one : Int)) b.natAbs
  | fin _, inf _ => fin 0
  | inf s, fin b => inf (xor s (decide (b < 0)))
  | _, _ => nan

/-- The function `fabsf`. -/
def abs : F32 → F32
  | fin a => fin (a.natAbs : Int)
  | inf _ => inf false
  | nan => nan

/-- The comparison `x >= y`; false when either side is a NaN. -/
def ge : F32 → F32 → Bool
  | fin a, fin b => decide (b ≤ a)
  | fin _, inf t => t
  | inf s, fin _ => !s
  | inf s, inf t => !s || t
  | _, _ => false

/-- The conversion `uint8_t(x)`: truncation toward zero.  C++ defines it for
values whose truncation is in `0..255` only; the kernel's grey value is in
that range. -/
def toUInt8 : F32 → Nat
  | fin n => n.toNat / one % 256
  | _ => 0

end F32

/-- The type `std::complex<float>`. -/
structure Complex32 where
  re : F32
  im : F32
  deriving DecidableEq, Repr

/-- The `operator*` of `std::complex<float>`: the products and their
difference and sum, each rounded.  (The library's recovery step, which applies when both
parts of the result are NaN, is left out: it yields a NaN part again, so the
kernel's divergence test stays false either way.) -/
def Complex32.mul (z w : Complex32) : Complex32 :=
  ⟨F32.sub (F32.mul z.re w.re) (F32.mul z.im w.im),
   F32.add (F32.mul z.re w.im) (F32.mul z.im w.re)⟩

/-- The `operator+` of `std::complex<float>`. -/
def Complex32.add (z w : Complex32) : Complex32 :=
  ⟨F32.add z.re w.re, F32.add z.im w.im⟩

/-! ## The Mandelbrot kernel (`fractals.h`) -/

/-- The kernel's divergence test `fabsf(z.real() * z.imag()) >= 4.0f`. -/
def diverged (z : Complex32) : Bool :=
  F32.ge (F32.abs (F32.mul z.re z.im)) (F32.ofNat 4)

/-- One pass of the iteration loop body's update `z = z * z + c`. -/
def mandelStep (c z : Complex32) : Complex32 :=
  Complex32.add (Complex32.mul z z) c

/-- The loop `for (; iter < maxIters; ++iter) { z = z * z + c; if (...) break; }`
with `fuel = maxIters - iter` passes left; the result is the final `iter`. -/
def escapeLoop (c : Complex32) : Nat → Nat → Complex32 → Nat
  | 0, iter, _ => iter
  | fuel + 1, iter, z =>
    if diverged (mandelStep c z) then iter
    else escapeLoop c fuel (iter + 1) (mandelStep c z)

/-- The value of `iter` after the iteration loop, started with `z = {0, 0}`
and `iter = 0`. -/
def escapeIter (c : Complex32) (maxIters : Nat) : Nat :=
  escapeLoop c maxIters 0 ⟨F32.ofNat 0, F32.ofNat 0⟩

/-- The grey value `uint8_t(255.0f / maxIters * (maxIters - iter))`.  The loop
leaves `iter ≤ maxIters`, so the `unsigned` subtraction does not wrap. -/
def greyOf (maxIters iter : Nat) : Nat :=
  F32.toUInt8 (F32.mul (F32.div (F32.ofNat 255) (F32.ofNat maxIters))
    (F32.ofNat (maxIters - iter)))

/-- The pixel the kernel emits for the complex coordinate `c`:
`{grey, grey, grey, 255}`. -/
def mandelbrotPixel (c : Complex32) (maxIters : Nat) : RGBA :=
  let grey := greyOf maxIters (escapeIter c maxIters)
  RGBA.ofUnsigned grey grey grey 255

/-- A store `*reinterpret_cast<RGBA*>(framebuffer + addr) = value`. -/
structure Store where
  addr : Nat
  value : RGBA
  deriving DecidableEq, Repr

/-- The values captured by the kernel lambda of `mandelbrotAsyncTiled`.
`transaction i n` is the value the kernel running on the tile at position `i`
of the tile vector obtains from its `n`-th read of the atomic `transaction`
(counted from 0). -/
structure KernelEnv where
  left : F32
  right : F32
  top : F32
  bottom : F32
  maxIters : Nat
  framebufferDims : Dims2U
  originalTransaction : Nat
  transaction : Nat → Nat → Nat

/-- The declaration
`const float j = top + (bottom - top) / framebufferDims.h * framebufferY`
with `framebufferY = framebufferPosition.y + y`. -/
def coordJ (env : KernelEnv) (spec : TileSpec) (tile : Tile2D) (y : Nat) : F32 :=
  let framebufferY := ((pixelPosition spec tile).y + y) % 4294967296
  F32.add env.top
    (F32.mul (F32.div (F32.sub env.bottom env.top) (F32.ofNat env.framebufferDims.h))
      (F32.ofNat framebufferY))

/-- The declaration
`const float i = left + (right - left) / framebufferDims.w * frameBufferX`
with `frameBufferX = framebufferPosition.x + x`. -/
def coordI (env : KernelEnv) (spec : TileSpec) (tile : Tile2D) (x : Nat) : F32 :=
  let frameBufferX := ((pixelPosition spec tile).x + x) % 4294967296
  F32.add env.left
    (F32.mul (F32.div (F32.sub env.right env.left) (F32.ofNat env.framebufferDims.w))
      (F32.ofNat frameBufferX))

/-- The body of the `x` loop: the store `pixelRow[x] = {grey, grey, grey, 255}`
for the pixel at tile-local column `x` of scanline `y`. -/
def pixelStore (env : KernelEnv) (spec : TileSpec) (tile : Tile2D) (y x : Nat) : Store :=
  ⟨addressRow spec tile y + x * sizeofRGBA,
   mandelbrotPixel ⟨coordI env spec tile x, coordJ env spec tile y⟩ env.maxIters⟩

/-- The stores of one scanline: the loop `for (x = 0; x < spec.w; ++x)`. -/
def rowStores (env : KernelEnv) (spec : TileSpec) (tile : Tile2D) (y : Nat) : List Store :=
  forLoop spec.w (fun x acc => acc ++ [pixelStore env spec tile y x]) []

/-- The scanline loop `for (y = 0; y < spec.h; ++y)` with `fuel = spec.h - y`
scanlines left: read the transaction, `break` when it differs from the
originating one, else emit the scanline. -/
def scanlineLoop (env : KernelEnv) (spec : TileSpec) (ref : TileRef) :
    Nat → Nat → List Store
  | 0, _ => []
  | fuel + 1, y =>
    if env.transaction ref.index y ≠ env.originalTransaction then []
    else rowStores env spec ref.tile y ++ scanlineLoop env spec ref fuel (y + 1)

/-- What a finished kernel task yields: the `Tile2D&` it returns and the stores
it made, in program order. -/
structure KernelResult where
  tile : TileRef
  stores : List Store

/-- The kernel lambda of `mandelbrotAsyncTiled`. -/
def mandelbrotKernel (env : KernelEnv) (spec : TileSpec) (ref : TileRef) : KernelResult :=
  ⟨ref, scanlineLoop env spec ref spec.h 0⟩

/-- The function `mandelbrotAsyncTiled(left, right, top, bottom, maxIters,
originalTransaction, transaction, tileGridDims, spec, tiles, framebuffer)`:
the tile vector it fills and the futures it returns. -/
def mandelbrotAsyncTiled (left right top bottom : F32) (maxIters : Nat)
    (originalTransaction : Nat) (transaction : Nat → Nat → Nat)
    (tileGridDims : Dims2U) (spec : TileSpec) (tiles : List Tile2D) :
    LaunchState KernelResult :=
  let framebufferDims := pixelDims spec tileGridDims
  LaunchTiles spec tileGridDims tiles
    (mandelbrotKernel ⟨left, right, top, bottom, maxIters, framebufferDims,
      originalTransaction, transaction⟩)

/-! ## Framebuffer memory -/

/-- The bytes of the framebuffer's address range, by byte offset. -/
abbrev Memory := Nat → Nat

/-- The effect of one store: the four component bytes `r, g, b, a` at
`addr .. addr + 3`. -/
def storeRGBA (mem : Memory) (s : Store) : Memory :=
  fun b =>
    if b = s.addr then s.value.r
    else if b = s.addr + 1 then s.value.g
    else if b = s.addr + 2 then s.value.b
    else if b = s.addr + 3 then s.value.a
    else mem b

/-- The effect of a sequence of stores, first to last. -/
def runStores (stores : List Store) (mem : Memory) : Memory :=
  stores.foldl storeRGBA mem

/-- Byte `b` is one of the four bytes a store writes. -/
def Store.covers (s : Store) (b : Nat) : Prop :=
  s.addr ≤ b ∧ b < s.addr + sizeofRGBA

instance (s : Store) (b : Nat) : Decidable (s.covers b) := by
  unfold Store.covers
  exact inferInstance

/-- All stores of a tiled Mandelbrot run, tile after tile in launch order. -/
def allStores (run : LaunchState KernelResult) : List Store :=
  run.tasks.flatMap (fun task => task.stores)

/-! ## Slot selection (`HelloWorldScene.cpp`) -/

/-- What the first statements of `onTouchEnded`, `menuZoomInCallback` and
`menuZoomOutCallback` determine: the new transaction and the indices into
`zoomLevels` of the new and of the previous generation. -/
structure SlotSelection where
  transaction : Nat
  zoomLevel : Nat
  lastZoomLevel : Nat
  deriving DecidableEq, Repr

/-- The increment `++zoomTransaction` on the `std::atomic<uint16_t>` counter: the new value. -/
def preIncrement (zoomTransaction : Nat) : Nat :=
  (zoomTransaction + 1) % 65536

/-- The statements
`unsigned transaction = ++zoomTransaction;`
`auto& zoomLevel = zoomLevels[transaction&1u];`
`auto& lastZoomLevel = zoomLevels[(transaction-1u)&1u];`
shared by `onTouchEnded`, `menuZoomInCallback` and `menuZoomOutCallback`; the
subtraction is `unsigned`. -/
def selectSlots (zoomTransaction : Nat) : SlotSelection :=
  let transaction := preIncrement zoomTransaction
  ⟨transaction, transaction &&& 1, ((transaction + 4294967296 - 1) % 4294967296) &&& 1⟩

/-- The first generation, launched by `HelloWorld::init`:
`zoomTransaction = 0` and
`generateTiles(zoomLevels[0], zoomLevels[1], 0, zoomTransaction, ...)`. -/
def initialSlots : SlotSelection := ⟨0, 0, 1⟩

/-- The slot the touch-move handler works on,
`zoomLevels[transaction&1u]` with `transaction = zoomTransaction`: the slot of
the generation whose transaction is `zoomTransaction`. -/
def currentSlot (zoomTransaction : Nat) : Nat :=
  zoomTransaction &&& 1

/-! ## Concrete inputs used in the examples -/

/-- Tiles of 2 × 2 pixels in a framebuffer whose rows are 32 bytes apart. -/
def smallSpec : TileSpec := ⟨2, 2, 32, by decide, by decide, by decide⟩

/-- A grid of 3 × 2 tiles. -/
def smallGrid : Dims2U := ⟨3, 2, by decide, by decide⟩

/-- Tiles of 1 × 1 pixel in a framebuffer whose rows are `2^31` bytes apart. -/
def farSpec : TileSpec := ⟨1, 1, 2147483648, by decide, by decide, by decide⟩

/-- A grid of 1 × 3 tiles. -/
def farGrid : Dims2U := ⟨1, 3, by decide, by decide⟩

/-- Tiles of 1 × 1 pixel in a framebuffer of 65537 pixels per row. -/
def wideSpec : TileSpec := ⟨1, 1, 262148, by decide, by decide, by decide⟩

/-- A grid of 65537 × 1 tiles. -/
def wideGrid : Dims2U := ⟨65537, 1, by decide, by decide⟩

/-- Tiles of 2 × 2 pixels whose rows are only one tile width (8 bytes) apart. -/
def tightSpec : TileSpec := ⟨2, 2, 8, by decide, by decide, by decide⟩

/-- A grid of 2 × 1 tiles. -/
def tightGrid : Dims2U := ⟨2, 1, by decide, by decide⟩

/-- A kernel without effects that returns its tile argument. -/
def idKernel (_spec : TileSpec) (ref : TileRef) : TileRef := ref

/-- The complex coordinate `2 + 2i`, which meets the divergence test after the
first iteration (`|2 · 2| ≥ 4`). -/
def escapingC : Complex32 := ⟨F32.ofNat 2, F32.ofNat 2⟩

/-- Tiles of 1 × 4 pixels in a framebuffer whose rows are `2^31` bytes apart. -/
def tallSpec : TileSpec := ⟨1, 4, 2147483648, by decide, by decide, by decide⟩

/-- A grid of a single tile. -/
def unitGrid : Dims2U := ⟨1, 1, by decide, by decide⟩

/-- A transaction atomic that every kernel reads as 0 for its first `k` reads
and as 1 from then on. -/
def supersededAfter (k : Nat) : Nat → Nat → Nat :=
  fun _ n => if n < k then 0 else 1

/-- A kernel environment with all bounds 0, one iteration, originating
transaction 0 and the transaction superseded after `k` reads. -/
def plainEnv (framebufferDims : Dims2U) (k : Nat) : KernelEnv :=
  ⟨F32.ofNat 0, F32.ofNat 0, F32.ofNat 0, F32.ofNat 0, 1, framebufferDims, 0,
    supersededAfter k⟩

/-- A framebuffer memory of zero bytes. -/
def zeroMemory : Memory := fun _ => 0

/-- Tiles of 7 × 1 pixels in a framebuffer of 14 pixels per row. -/
def sevenSpec : TileSpec := ⟨7, 1, 56, by decide, by decide, by decide⟩

/-- A grid of 2 × 1 tiles. -/
def pairGrid : Dims2U := ⟨2, 1, by decide, by decide⟩

/-- A transaction atomic that is never superseded: every read gives 0. -/
def neverSuperseded : Nat → Nat → Nat := fun _ _ => 0

/-- The value `-253.0f`. -/
def minus253 : F32 := F32.neg (F32.ofNat 253)

/-- The value `-1.0f`. -/
def minusOne : F32 := F32.neg (F32.ofNat 1)

/-- The tiled Mandelbrot run on a grid of 1 × 3 tiles of 1 × 1 pixel with
stride `2^31`, bounds `left = right = 2`, `top = 2`, `bottom = -1`, one
iteration, never superseded. -/
def farRun : LaunchState KernelResult :=
  mandelbrotAsyncTiled (F32.ofNat 2) (F32.ofNat 2) (F32.ofNat 2) minusOne 1 0
    neverSuperseded farGrid farSpec []

/-- The TileSpec of `main`: tiles of 32 × 32 pixels, stride `2048 * 4` bytes. -/
def mainSpec : TileSpec := ⟨32, 32, 8192, by decide, by decide, by decide⟩

/-- The tile grid of `main`: `2048 / 32` by `1536 / 32` tiles. -/
def mainGrid : Dims2U := ⟨64, 48, by decide, by decide⟩

/-! ## Auxiliary notions for the kernel properties -/

/-- The orbit `z(0) = 0`, `z(n + 1) = z(n)² + c` in single precision. -/
def orbit (c : Complex32) : Nat → Complex32
  | 0 => ⟨F32.ofNat 0, F32.ofNat 0⟩
  | n + 1 => mandelStep c (orbit c n)

/-- The pixel stored at byte address `a`. -/
def loadRGBA (mem : Memory) (a : Nat) : RGBA :=
  ⟨mem a, mem (a + 1), mem (a + 2), mem (a + 3)⟩

/-- The byte a store puts at address `b`, one of its four bytes. -/
def Store.byteAt (s : Store) (b : Nat) : Nat :=
  if b = s.addr then s.value.r
  else if b = s.addr + 1 then s.value.g
  else if b = s.addr + 2 then s.value.b
  else s.value.a

/-! ## Copying a tile out of the framebuffer (`async_tiled.h`) -/

/-- A contiguous buffer of pixels outside the framebuffer, by pixel index. -/
abbrev PixelBuffer := Nat → RGBA

/-- The state of a tile copy: the output buffer, the pointer `out` as a pixel
index into it, and the scanlines of the tile visited so far, in order. -/
structure CopyState where
  buffer : PixelBuffer
  out : Nat
  scanlines : List Nat

/-- The assignment `out[x] = row[x]`, where `row` is the byte address of a
scanline in the framebuffer. -/
def copyPixel (mem : Memory) (row out x : Nat) (buffer : PixelBuffer) : PixelBuffer :=
  fun i => if i = out + x then loadRGBA mem (row + x * sizeofRGBA) else buffer i

/-- The body of the scanline loop of `copyTile` and `copyTileFlipped` with its
increment `out += width`:
`row = addressRow<RGBA>(spec, tile, y); for (x = 0; x < width; ++x) out[x] = row[x];`. -/
def copyScanline (spec : TileSpec) (tile : Tile2D) (mem : Memory) (y : Nat)
    (st : CopyState) : CopyState :=
  ⟨forLoop spec.w (fun x buffer => copyPixel mem (addressRow spec tile y) st.out x buffer)
      st.buffer,
   st.out + spec.w, st.scanlines ++ [y]⟩

/-- The loop `for (unsigned y = height - 1; y < height; --y, out += width)` of
`copyTileFlipped`, from the current `y` on; `--y` is `unsigned`.  The result is
`none` when `fuel` passes do not reach the end of the loop. -/
def copyFlippedLoop (spec : TileSpec) (tile : Tile2D) (mem : Memory) :
    Nat → Nat → CopyState → Option CopyState
  | 0, _, _ => none
  | fuel + 1, y, st =>
    if y < spec.h then
      copyFlippedLoop spec tile mem fuel ((y + 4294967296 - 1) % 4294967296)
        (copyScanline spec tile mem y st)
    else some st

/-- The function `copyTileFlipped(spec, tile, buffer)` reading the framebuffer
`mem`: `y` starts at `height - 1` (`unsigned`), `out` at the start of the
buffer.  The buffer is an object of its own, outside the framebuffer. -/
def copyTileFlipped (spec : TileSpec) (tile : Tile2D) (mem : Memory)
    (buffer : PixelBuffer) (fuel : Nat) : Option CopyState :=
  copyFlippedLoop spec tile mem fuel ((spec.h + 4294967296 - 1) % 4294967296)
    ⟨buffer, 0, []⟩

/-- The scanlines `y, y - 1, ..., 0` copied one after the other. -/
def copyDown (spec : TileSpec) (tile : Tile2D) (mem : Memory) : Nat → CopyState → CopyState
  | 0, st => copyScanline spec tile mem 0 st
  | y + 1, st => copyDown spec tile mem y (copyScanline spec tile mem (y + 1) st)

/-- A framebuffer memory whose byte at offset `b` is `b mod 251`. -/
def rampMemory : Memory := fun b => b % 251

/-- A pixel buffer filled with the pixel `(1, 2, 3, 4)`. -/
def staleBuffer : PixelBuffer := fun _ => ⟨1, 2, 3, 4⟩

/-! ## The tiled clear (`main.cpp`) -/

/-- The template `ClearTile2D<PixelType>(spec, tile, color)` at `RGBA`: the
stores `pixelRow[x] = color` of its two loops, in program order. -/
def ClearTile2D (spec : TileSpec) (tile : Tile2D) (color : RGBA) : List Store :=
  forLoop spec.h (fun y acc =>
    forLoop spec.w (fun x acc => acc ++ [⟨addressRow spec tile y + x * sizeofRGBA, color⟩])
      acc) []

/-- The byte address of `tilecorner[index]` for an `RGBA*` at byte address
`tilecorner` and a 64-bit index. -/
def indexRGBA (tilecorner index : Nat) : Nat :=
  (tilecorner + index * sizeofRGBA) % 18446744073709551616

/-- The index expression `(spec.h - 1) * spec.stride / sizeof(RGBA)`: the
`int` `spec.h - 1` is converted to `unsigned` for the product, which is then
divided as a `size_t`. -/
def lastRowIndex (spec : TileSpec) : Nat :=
  (spec.h + 4294967296 - 1) % 4294967296 * spec.stride % 4294967296 / sizeofRGBA

/-- The four stores of the block "Decorate the tile corners as a diagnostic",
in program order; the `int` index `spec.w - 1` and the `size_t` index
`... + spec.w - 1` are taken as 64-bit offsets. -/
def cornerStores (spec : TileSpec) (tile : Tile2D) : List Store :=
  [⟨indexRGBA tile.pixels 0, RGBA.ofUnsigned 255 0 0 255⟩,
   ⟨indexRGBA tile.pixels ((spec.w + 18446744073709551616 - 1) % 18446744073709551616),
     RGBA.ofUnsigned 0 255 0 255⟩,
   ⟨indexRGBA tile.pixels (lastRowIndex spec), RGBA.ofUnsigned 0 0 255 255⟩,
   ⟨indexRGBA tile.pixels
      ((lastRowIndex spec + spec.w + 18446744073709551616 - 1) % 18446744073709551616),
     RGBA.ofUnsigned 255 0 255 255⟩]

/-- The kernel `ClearRGBA8888Tile2D(spec, tile, color)`: the fill, then the
corner decoration (its `if(1)` block); it returns the tile. -/
def ClearRGBA8888Tile2D (spec : TileSpec) (ref : TileRef) (color : RGBA) : KernelResult :=
  ⟨ref, ClearTile2D spec ref.tile color ++ cornerStores spec ref.tile⟩

/-- The function `clearAsyncTiled(clearColor, tileGridDims, spec, framebuffer)`:
`LaunchTiles` with the clear kernel from an empty tile vector; `waitAll`
then waits for every task. -/
def clearAsyncTiled (clearColor : RGBA) (tileGridDims : Dims2U) (spec : TileSpec) :
    LaunchState KernelResult :=
  LaunchTiles spec tileGridDims ([] : List Tile2D)
    (fun spec ref => ClearRGBA8888Tile2D spec ref clearColor)

/-- The clear colour of `main`. -/
def mainClearColor : RGBA := RGBA.ofUnsigned 192 224 255 255

/-- One tile of 32 × 32 pixels that is the whole of a 32 × 32 framebuffer. -/
def oneTileSpec : TileSpec := ⟨32, 32, 128, by decide, by decide, by decide⟩

/-- Pixel `(x, y)` of a tile is one of its four corner pixels. -/
def isCornerPixel (spec : TileSpec) (x y : Nat) : Prop :=
  (x = 0 ∨ x + 1 = spec.w) ∧ (y = 0 ∨ y + 1 = spec.h)

/-! ## IEEE-754 binary64 (`double`) -/

/-- A binary64 value.  `fin n` is the finite number `n · 2^(-1074)`: every
finite binary64 number is a whole multiple of the smallest subnormal
`2^(-1074)`.  The sign of a zero and the payload of a NaN are not tracked. -/
inductive F64 where
  | fin (n : Int)
  | inf (neg : Bool)
  | nan
  deriving DecidableEq, Repr

namespace F64

/-- The number of units `2^(-1074)` in `1.0`. -/
def one : Nat := 2 ^ 1074

/-- Bisection for the binary logarithm: with `2^lo ≤ v < 2^(lo + 2^steps)`
the result is the `e` with `2^e ≤ v < 2^(e + 1)`. -/
def log2Search (v : Nat) : Nat → Nat → Nat
  | 0, lo => lo
  | steps + 1, lo =>
    if v < 2 ^ (lo + 2 ^ steps) then log2Search v steps lo
    else log2Search v steps (lo + 2 ^ steps)

/-- The least `k` with `v < 2^(53 + k)` (for `v < 2^8192`): for `v` in units
of `2^(-1074)`, `2^k` units is the spacing of binary64 numbers around `v`. -/
def ulpExp (v : Nat) : Nat := log2Search v 13 0 + 1 - 53

/-- Round-to-nearest-even of the exact value `p / q` (in units of
`2^(-1074)`, `q > 0`) to binary64; a result of magnitude `2^1024` or more is
an infinity. -/
def round (p : Int) (q : Nat) : F64 :=
  let k := ulpExp (p.natAbs / q)
  let n := F32.roundHalfEven p.natAbs (q * 2 ^ k) * 2 ^ k
  if 2 ^ 1024 * one ≤ n then inf (decide (p < 0))
  else fin (if p < 0 then -(n : Int) else (n : Int))

/-- Conversion of an `unsigned` (or of an integer literal) to `double`. -/
def ofNat (m : Nat) : F64 := round ((m * one : Nat) : Int) 1

/-- The literal `0.5`. -/
def half : F64 := fin ((2 ^ 1073 : Nat) : Int)

/-- Unary minus. -/
def neg : F64 → F64
  | fin a => fin (-a)
  | inf s => inf (!s)
  | nan => nan

/-- Double-precision addition. -/
def add : F64 → F64 → F64
  | fin a, fin b => round (a + b) 1
  | fin _, inf s => inf s
  | inf s, fin _ => inf s
  | inf s, inf t => if s = t then inf s else nan
  | _, _ => nan

/-- Double-precision subtraction. -/
def sub (x y : F64) : F64 := add x (neg y)

/-- Double-precision multiplication. -/
def mul : F64 → F64 → F64
  | fin a, fin b => round (a * b) one
  | fin a, inf s => if a = 0 then nan else inf (xor s (decide (a < 0)))
  | inf s, fin b => if b = 0 then nan else inf (xor s (decide (b < 0)))
  | inf s, inf t => inf (xor s t)
  | _, _ => nan

/-- Double-precision division.  A zero divisor is taken to be `+0`: the
divisors of the program are converted sizes and counts, which are never
`-0`. -/
def div : F64 → F64 → F64
  | fin a, fin b =>
    if b = 0 then (if a = 0 then nan else inf (decide (a < 0)))
    else round (if b < 0 then -(a * (one : Int)) else a * (one : Int)) b.natAbs
  | fin _, inf _ => fin 0
  | inf s, fin b => inf (xor s (decide (b < 0)))
  | _, _ => nan

/-- The comparison `x < y`; false when either side is a NaN. -/
def lt : F64 → F64 → Bool
  | fin a, fin b => decide (a < b)
  | fin _, inf t => !t
  | inf s, fin _ => s
  | inf s, inf t => s && !t
  | _, _ => false

/-- The conversion of a `float` to `double`, which is exact. -/
def ofF32 : F32 → F64
  | F32.fin n => fin (n * ((2 ^ 925 : Nat) : Int))
  | F32.inf s => inf s
  | F32.nan => nan

/-- The conversion of a `double` to `float`: round-to-nearest-even. -/
def toF32 : F64 → F32
  | fin n => F32.round n (2 ^ 925)
  | inf s => F32.inf s
  | nan => F32.nan

end F64

namespace F32

/-- The comparison `x != 0.0f`; true for a NaN. -/
def nonzero : F32 → Bool
  | fin n => decide (n ≠ 0)
  | _ => true

/-- The function `ceilf`.  A binary32 number of magnitude `2^23` or more is a
whole number, so the result is a binary32 number. -/
def ceil : F32 → F32
  | fin n =>
    if 0 ≤ n then fin (((n.toNat + one - 1) / one * one : Nat) : Int)
    else fin (-((n.natAbs / one * one : Nat) : Int))
  | x => x

/-- The conversion `unsigned(x)`: truncation toward zero.  C++ defines it for
values whose truncation is in `0 .. 2^32 - 1` only; it is taken modulo `2^32`
here, and 0 for a NaN or an infinity. -/
def toUnsigned : F32 → Nat
  | fin n => n.toNat / one % 4294967296
  | _ => 0

end F32

/-! ## The zoom coordinator (`HelloWorldScene.h`, `HelloWorldScene.cpp`)

The scene toolkit is kept as far as the coordinator's state goes: a tile grid
node is its visibility, a tile sprite its visibility, texture, scale and
position.  The zoom camera and the z-order of the grids are left out; no
modelled statement reads them. -/

/-- The constant `TILE_DIMS`. -/
def TILE_DIMS : Nat := 32

/-- The struct `Region2D`. -/
structure Region2D where
  centreX : F64
  centreY : F64
  width : F64
  height : F64
  rotation : F64
  deriving DecidableEq

/-- The toolkit's `Size`: two `float`s. -/
structure Size where
  width : F32
  height : F32
  deriving DecidableEq

/-- The toolkit's `Vec2`: two `float`s. -/
structure Vec2 where
  x : F32
  y : F32
  deriving DecidableEq

/-- A tile sprite: its visibility, the pixels of its texture, its scale and
its position. -/
structure TileSprite where
  visible : Bool
  texture : List RGBA
  scaleX : F32
  scaleY : F32
  positionX : F32
  positionY : F32
  deriving DecidableEq

/-- The class `Array2D<Element>`: the flat vector `elements_` by index, and
the dimensions. -/
structure Array2D (α : Type) where
  elements : Nat → α
  width : Nat
  height : Nat

/-- The index into `elements_` of `array[j][i]`: `operator[]` asserts
`j < height_` and offsets by the `unsigned` product `j * width_`. -/
def Array2D.index {α : Type} (array : Array2D α) (j i : Nat) : Option Nat :=
  if j < array.height then some (j * array.width % 4294967296 + i) else none

/-- The assignment `array[j][i] = e` by index into `elements_`. -/
def Array2D.set {α : Type} (array : Array2D α) (k : Nat) (e : α) : Array2D α :=
  { array with elements := fun n => if n = k then e else array.elements n }

/-- The statement `elements[i] = std::move(elements[i-1])` of
`DestructionDelay::push`; the element moved from is left empty. -/
def DestructionDelay.moveElement {α : Type} (elements : Nat → Option α) (i : Nat) :
    Nat → Option α :=
  fun j => if j = i then elements (i - 1) else if j = i - 1 then none else elements j

/-- The loop `for (int i = depth-1; i > 0; --i)` of `DestructionDelay::push`,
from the current `i` on. -/
def DestructionDelay.shift {α : Type} : Nat → (Nat → Option α) → (Nat → Option α)
  | 0, elements => elements
  | i + 1, elements =>
    DestructionDelay.shift i (DestructionDelay.moveElement elements (i + 1))

/-- The method `DestructionDelay<Element, depth>::push(e)`. -/
def DestructionDelay.push {α : Type} (depth : Nat) (elements : Nat → Option α) (e : α) :
    Nat → Option α :=
  fun j => if j = 0 then some e else DestructionDelay.shift (depth - 1) elements j

/-- The class `ZoomLevel`.  A launcher-waiter handle in `launchStatuses` is
named by its transaction; `framebufferSize` is the length of the framebuffer
vector in pixels, `framebuffer` the bytes at its offsets; `tileGridVisible`
is the visibility of the node `tileGrid`. -/
structure ZoomLevel where
  launchStatuses : Nat → Option Nat
  zoomRegion : Region2D
  framebuffer : Memory
  framebufferSize : Nat
  tiles : List Tile2D
  tileCompletions : List KernelResult
  tileGridVisible : Bool
  tileSprites : Array2D TileSprite
  zoomTransaction : Nat
  tilesInFlight : Nat
  tilesUpdated : Nat

/-- The state of the scene `HelloWorld` that the coordinator works on, with the
content scale factor the toolkit's director reports. -/
structure HelloWorld where
  zoomLevels : Nat → ZoomLevel
  zoomTransaction : Nat
  visibleSize : Size
  contentScaleFactor : F32

/-- The scene with `zoomLevels[i]` replaced. -/
def HelloWorld.setZoomLevel (st : HelloWorld) (i : Nat) (zoomLevel : ZoomLevel) : HelloWorld :=
  { st with zoomLevels := fun j => if j = i then zoomLevel else st.zoomLevels j }

/-- The function `positionTileSprite`; its `double` parameters
`tileWidthLogical` and `gridX` are converted at the call, the arguments of
`setScale` and `setPosition` are narrowed to `float`. -/
def positionTileSprite (tileSprite : TileSprite) (tileWidthWorld tileWidthLogical
    tileHeightWorld tileHeightLogical gridOriginWorldX gridX gridOriginWorldY gridY : F64)
    (visible : Bool) : TileSprite :=
  { tileSprite with
    scaleX := F64.toF32 (F64.div tileWidthWorld tileWidthLogical)
    scaleY := F64.toF32 (F64.div tileHeightWorld tileHeightLogical)
    positionX := F64.toF32 (F64.add gridOriginWorldX (F64.mul gridX tileWidthWorld))
    positionY := F64.toF32 (F64.add gridOriginWorldY (F64.mul gridY tileHeightWorld))
    visible := visible }

/-- The locals of `fitTileGridToRegion` and `buildTileGrid` that fix the
geometry of a tile grid. -/
structure GridGeometry where
  tileWidthLogical : F32
  tileHeightLogical : F32
  tilesX : Nat
  tilesY : Nat
  tileWidthWorld : F64
  tileHeightWorld : F64
  gridOriginWorldX : F64
  gridOriginWorldY : F64

/-- The first statements of `fitTileGridToRegion` and of `buildTileGrid`. -/
def gridGeometry (visibleSize : Size) (pixelScale : F32) (tileDimsXY : Nat)
    (tiledRegion : Region2D) : GridGeometry :=
  let tileWidth := tileDimsXY >>> 16
  let tileHeight := tileDimsXY &&& 65535
  let tileWidthLogical := F32.div (F32.ofNat tileWidth) pixelScale
  let tileHeightLogical := F32.div (F32.ofNat tileHeight) pixelScale
  let tilesX := F32.toUnsigned (F32.ceil (F32.div visibleSize.width tileWidthLogical))
  let tilesY := F32.toUnsigned (F32.ceil (F32.div visibleSize.height tileHeightLogical))
  ⟨tileWidthLogical, tileHeightLogical, tilesX, tilesY,
   F64.div tiledRegion.width (F64.ofNat tilesX),
   F64.div tiledRegion.height (F64.ofNat tilesY),
   F64.sub tiledRegion.centreX (F64.mul tiledRegion.width F64.half),
   F64.sub tiledRegion.centreY (F64.mul tiledRegion.height F64.half)⟩

/-- The two loops of `fitTileGridToRegion`: every sprite of the grid is
positioned. -/
def positionSprites (g : GridGeometry) (visible : Bool) (tileSprites : Array2D TileSprite) :
    Array2D TileSprite :=
  forLoop g.tilesY (fun gridY sprites =>
    forLoop g.tilesX (fun gridX sprites =>
      let k := gridY * sprites.width % 4294967296 + gridX
      sprites.set k
        (positionTileSprite (sprites.elements k) g.tileWidthWorld
          (F64.ofF32 g.tileWidthLogical) g.tileHeightWorld (F64.ofF32 g.tileHeightLogical)
          g.gridOriginWorldX (F64.ofNat gridX) g.gridOriginWorldY (F64.ofNat gridY) visible))
      sprites) tileSprites

/-- The function `fitTileGridToRegion(visibleSize, pixelScale, tileSprites,
tileDimsXY, tiledRegion, visible)`; `none` when its assertion on the
dimensions of the sprite array fails. -/
def fitTileGridToRegion (visibleSize : Size) (pixelScale : F32)
    (tileSprites : Array2D TileSprite) (tileDimsXY : Nat) (tiledRegion : Region2D)
    (visible : Bool) : Option (Array2D TileSprite) :=
  let g := gridGeometry visibleSize pixelScale tileDimsXY tiledRegion
  if tileSprites.width = g.tilesX ∧ tileSprites.height = g.tilesY then
    some (positionSprites g visible tileSprites)
  else none

/-- The colour of the checkerboard `buildTileGrid` clears a sprite's first
texture to. -/
def checkerColour (gridX gridY : Nat) : RGBA :=
  if ((gridX &&& 1) &&& (gridY &&& 1)) ≠ 0 ∨ (gridX &&& 1 = 0 ∧ gridY &&& 1 = 0) then
    RGBA.ofUnsigned 255 0 0 255
  else RGBA.ofUnsigned 0 255 0 255

/-- The function `buildTileGrid`: the sprite array resized to the grid, every
sprite created with a checkerboard texture and positioned, not visible. -/
def buildTileGrid (visibleSize : Size) (pixelScale : F32) (tileDimsXY : Nat)
    (tiledRegion : Region2D) : Array2D TileSprite :=
  let g := gridGeometry visibleSize pixelScale tileDimsXY tiledRegion
  let tileWidth := tileDimsXY >>> 16
  let tileHeight := tileDimsXY &&& 65535
  forLoop g.tilesY (fun gridY sprites =>
    forLoop g.tilesX (fun gridX sprites =>
      let k := gridY * sprites.width % 4294967296 + gridX
      sprites.set k
        (positionTileSprite
          ⟨true, List.replicate (tileWidth * tileHeight) (checkerColour gridX gridY),
            F32.ofNat 1, F32.ofNat 1, F32.ofNat 0, F32.ofNat 0⟩
          g.tileWidthWorld (F64.ofF32 g.tileWidthLogical) g.tileHeightWorld
          (F64.ofF32 g.tileHeightLogical) g.gridOriginWorldX (F64.ofNat gridX)
          g.gridOriginWorldY (F64.ofNat gridY) false))
      sprites)
    ⟨fun _ => ⟨false, [], F32.ofNat 1, F32.ofNat 1, F32.ofNat 0, F32.ofNat 0⟩,
      g.tilesX, g.tilesY⟩

/-- The part of `generateTiles` that runs on the GUI thread: the slot takes
the transaction, its count of updated tiles is reset, and the handle of the
launcher-waiter started for the transaction is pushed onto `launchStatuses`. -/
def generateTiles (st : HelloWorld) (zoomLevel transaction : Nat) : HelloWorld :=
  let level := st.zoomLevels zoomLevel
  st.setZoomLevel zoomLevel
    { level with
      zoomTransaction := transaction
      tilesUpdated := 0
      launchStatuses := DestructionDelay.push 4 level.launchStatuses transaction }

/-- The local `trueSize` of `init` and `updateTilesForRegion`:
`visibleSize * pixelScaling` with the `unsigned` scaling converted to `float`. -/
def trueSizeOf (st : HelloWorld) : Size :=
  let pixelScaling := F32.ofNat (F32.toUnsigned st.contentScaleFactor)
  ⟨F32.mul st.visibleSize.width pixelScaling, F32.mul st.visibleSize.height pixelScaling⟩

/-- The local `spec` of the launcher-waiter:
`{RGBA8888, uint16_t(tileDims), uint16_t(tileDims), unsigned(trueSize.width * sizeof(RGBA))}`. -/
def launcherSpec (tileDims : Nat) (trueSize : Size) : TileSpec :=
  ⟨tileDims % 65536, tileDims % 65536,
   F32.toUnsigned (F32.mul trueSize.width (F32.ofNat sizeofRGBA)),
   Nat.mod_lt _ (by decide), Nat.mod_lt _ (by decide),
   by unfold F32.toUnsigned; split <;> omega⟩

/-- The tile grid the launcher-waiter launches:
`{unsigned(trueSize.width / tileDims), unsigned(trueSize.height / tileDims)}`. -/
def launcherGrid (tileDims : Nat) (trueSize : Size) : Dims2U :=
  ⟨F32.toUnsigned (F32.div trueSize.width (F32.ofNat tileDims)),
   F32.toUnsigned (F32.div trueSize.height (F32.ofNat tileDims)),
   by unfold F32.toUnsigned; split <;> omega,
   by unfold F32.toUnsigned; split <;> omega⟩

/-- The launcher-waiter of `generateTiles` from the end of its drain loop to
the assignment of `tilesInFlight`: the framebuffer is resized, the tiles are
launched with the bounds of the slot's region narrowed to `float` and 64
iterations, and `tilesInFlight` becomes the number of futures.  The reads of
`newestTransaction` by the kernels are given by `reads`; the stores of the
kernels are applied here, a tile's slice being read only after its future
is ready. -/
def launcherLaunch (st : HelloWorld) (zoomLevel transaction tileDims : Nat) (trueSize : Size)
    (reads : Nat → Nat → Nat) : HelloWorld :=
  let level := st.zoomLevels zoomLevel
  let framebufferWidth := level.tileSprites.width * tileDims % 4294967296
  let framebufferHeight := level.tileSprites.height * tileDims % 4294967296
  let spec := launcherSpec tileDims trueSize
  let region := level.zoomRegion
  let tileCompletions :=
    mandelbrotAsyncTiled
      (F64.toF32 (F64.sub region.centreX (F64.mul region.width F64.half)))
      (F64.toF32 (F64.add region.centreX (F64.mul region.width F64.half)))
      (F64.toF32 (F64.sub region.centreY (F64.mul region.height F64.half)))
      (F64.toF32 (F64.add region.centreY (F64.mul region.height F64.half)))
      64 transaction reads (launcherGrid tileDims trueSize) spec level.tiles
  st.setZoomLevel zoomLevel
    { level with
      framebufferSize := framebufferWidth * framebufferHeight % 4294967296
      framebuffer := runStores (allStores tileCompletions) level.framebuffer
      tiles := tileCompletions.outTiles
      tileCompletions := tileCompletions.tasks
      tilesInFlight := tileCompletions.tasks.length % 4294967296 }

/-- The lambda the launcher-waiter hands to the GUI thread for a tile, by its
captures. -/
structure TileClosure where
  spec : TileSpec
  tile : Tile2D
  zoomLevel : Nat
  lastZoomLevel : Nat
  transaction : Nat

/-- All children of a tile grid node set invisible. -/
def hideChildren (tileSprites : Array2D TileSprite) : Array2D TileSprite :=
  { tileSprites with elements := fun k => { tileSprites.elements k with visible := false } }

/-- The branch `newestTransaction == transaction` of the tile lambda: the
slot's grid is shown, the tile is copied flipped into a buffer of `w * h`
pixels and uploaded to the texture of the sprite `tileSprites[tile.y][tile.x]`,
the sprite is shown, `tilesUpdated` is incremented, and when it equals the
number of tiles the previous slot's grid and all its children are hidden.
The result is `none` when the assertion of `Array2D` fails. -/
def TileClosure.upload (c : TileClosure) (st : HelloWorld) : Option HelloWorld :=
  let level := st.zoomLevels c.zoomLevel
  match copyTileFlipped c.spec c.tile level.framebuffer (fun _ => ⟨0, 0, 0, 0⟩) 65536,
      level.tileSprites.index c.tile.y c.tile.x with
  | some copy, some k =>
    let tileBuffer := (List.range (c.spec.w * c.spec.h)).map copy.buffer
    let level1 : ZoomLevel :=
      { level with
        tileGridVisible := true
        tileSprites := level.tileSprites.set k
          { level.tileSprites.elements k with texture := tileBuffer, visible := true }
        tilesUpdated := (level.tilesUpdated + 1) % 4294967296 }
    let st1 := st.setZoomLevel c.zoomLevel level1
    if level1.tilesUpdated = level1.tiles.length then
      let last := st1.zoomLevels c.lastZoomLevel
      some (st1.setZoomLevel c.lastZoomLevel
        { last with tileGridVisible := false, tileSprites := hideChildren last.tileSprites })
    else some st1
  | _, _ => none

/-- The tile lambda run on the GUI thread: the upload when the transaction is
still the newest, then `assert(zoomLevel.tilesInFlight > 0)` and the
decrement, whose guard `if(zoomLevel.tilesInFlight > 0)` is true once the
assertion has passed.  The result is `none` when an assertion fails. -/
def TileClosure.run (c : TileClosure) (st : HelloWorld) : Option HelloWorld :=
  match (if st.zoomTransaction = c.transaction then c.upload st else some st) with
  | none => none
  | some st1 =>
    let level := st1.zoomLevels c.zoomLevel
    if 0 < level.tilesInFlight then
      some (st1.setZoomLevel c.zoomLevel
        { level with tilesInFlight := level.tilesInFlight - 1 })
    else none

/-- One pass of the launcher-waiter's loop over the futures, at future `i`:
when the transaction is no longer the newest the remaining futures are
awaited, `tilesInFlight` is reset to 0 and the loop is left (no closure);
otherwise the future yields its tile and the tile lambda is handed to the GUI
thread. -/
def launcherDispatch (st : HelloWorld) (zoomLevel lastZoomLevel transaction tileDims : Nat)
    (trueSize : Size) (i : Nat) : HelloWorld × Option TileClosure :=
  let level := st.zoomLevels zoomLevel
  if st.zoomTransaction ≠ transaction then
    (st.setZoomLevel zoomLevel { level with tilesInFlight := 0 }, none)
  else
    match level.tileCompletions[i]? with
    | some task =>
      (st, some ⟨launcherSpec tileDims trueSize, task.tile.tile, zoomLevel, lastZoomLevel,
        transaction⟩)
    | none => (st, none)

/-! ### The handlers -/

/-- The local `cameraDelta` of the touch handlers:
`Vec2(screenDelta.x * scaleX, screenDelta.y * scaleY)` with the `double`
scales `zoomRegion.width / visibleSize.width` and
`zoomRegion.height / visibleSize.height`, narrowed to `float` by `Vec2`. -/
def cameraDelta (zoomRegion : Region2D) (visibleSize : Size) (screenDelta : Vec2) : Vec2 :=
  let scaleX := F64.div zoomRegion.width (F64.ofF32 visibleSize.width)
  let scaleY := F64.div zoomRegion.height (F64.ofF32 visibleSize.height)
  ⟨F64.toF32 (F64.mul (F64.ofF32 screenDelta.x) scaleX),
   F64.toF32 (F64.mul (F64.ofF32 screenDelta.y) scaleY)⟩

/-- The statements `zoomRegion.centreX -= cameraDelta.x;` and
`zoomRegion.centreY -= cameraDelta.y;`. -/
def moveCentre (zoomRegion : Region2D) (delta : Vec2) : Region2D :=
  { zoomRegion with
    centreX := F64.sub zoomRegion.centreX (F64.ofF32 delta.x)
    centreY := F64.sub zoomRegion.centreY (F64.ofF32 delta.y) }

/-- The handler `onTouchMoved` for a touch with delta `screenDelta`. -/
def onTouchMoved (st : HelloWorld) (screenDelta : Vec2) : HelloWorld :=
  if F32.nonzero screenDelta.x && F32.nonzero screenDelta.y then
    let transaction := st.zoomTransaction
    let zoomLevel := st.zoomLevels (transaction &&& 1)
    let zoomRegion := zoomLevel.zoomRegion
    st.setZoomLevel (transaction &&& 1)
      { zoomLevel with
        zoomRegion := moveCentre zoomRegion (cameraDelta zoomRegion st.visibleSize screenDelta) }
  else st

/-- The function `updateTilesForRegion`: the slot's sprites are fitted to its
region, not visible, and `generateTiles` is called.  The result is `none`
when the assertion of `fitTileGridToRegion` fails. -/
def updateTilesForRegion (st : HelloWorld) (zoomLevel transaction : Nat) :
    Option HelloWorld :=
  let level := st.zoomLevels zoomLevel
  match fitTileGridToRegion st.visibleSize (F32.ofNat (F32.toUnsigned st.contentScaleFactor))
      level.tileSprites (TILE_DIMS <<< 16 ||| TILE_DIMS) level.zoomRegion false with
  | none => none
  | some sprites =>
    some (generateTiles (st.setZoomLevel zoomLevel { level with tileSprites := sprites })
      zoomLevel transaction)

/-- The first statements of `onTouchEnded` and of the zoom callbacks: the
transaction is incremented and the new slot's region becomes `zoomRegion`, made
from a copy of the previous slot's region. -/
def beginGeneration (st : HelloWorld) (change : Region2D → Region2D) : HelloWorld :=
  let slots := selectSlots st.zoomTransaction
  let zoomLevel := st.zoomLevels slots.zoomLevel
  let lastZoomLevel := st.zoomLevels slots.lastZoomLevel
  { st.setZoomLevel slots.zoomLevel
      { zoomLevel with zoomRegion := change lastZoomLevel.zoomRegion } with
    zoomTransaction := slots.transaction }

/-- The handler `onTouchEnded` for a touch with delta `screenDelta`. -/
def onTouchEnded (st : HelloWorld) (screenDelta : Vec2) : Option HelloWorld :=
  let slots := selectSlots st.zoomTransaction
  updateTilesForRegion
    (beginGeneration st
      (fun zoomRegion => moveCentre zoomRegion (cameraDelta zoomRegion st.visibleSize screenDelta)))
    slots.zoomLevel slots.transaction

/-- The callback `menuZoomInCallback`. -/
def menuZoomInCallback (st : HelloWorld) : Option HelloWorld :=
  let slots := selectSlots st.zoomTransaction
  updateTilesForRegion
    (beginGeneration st (fun zoomRegion =>
      { zoomRegion with
        width := F64.mul zoomRegion.width F64.half
        height := F64.mul zoomRegion.height F64.half }))
    slots.zoomLevel slots.transaction

/-- The callback `menuZoomOutCallback`. -/
def menuZoomOutCallback (st : HelloWorld) : Option HelloWorld :=
  let slots := selectSlots st.zoomTransaction
  updateTilesForRegion
    (beginGeneration st (fun zoomRegion =>
      { zoomRegion with
        width := F64.mul zoomRegion.width (F64.ofNat 2)
        height := F64.mul zoomRegion.height (F64.ofNat 2) }))
    slots.zoomLevel slots.transaction

/-- The region `init` gives `zoomLevels[0]`. -/
def initialRegion (visibleSize : Size) : Region2D :=
  let ratio := F64.div (F64.ofF32 visibleSize.width) (F64.ofF32 visibleSize.height)
  let height := F64.ofNat 3
  let width := F64.mul height ratio
  if F64.lt width (F64.ofNat 3) then
    ⟨F64.mul (F64.neg (F64.ofNat 1)) F64.half, F64.ofNat 0, F64.ofNat 3,
      F64.div (F64.ofNat 3) ratio, F64.ofNat 0⟩
  else
    ⟨F64.mul (F64.neg (F64.ofNat 1)) F64.half, F64.ofNat 0, width, height, F64.ofNat 0⟩

/-- A zoom level as `init` builds it: the sprite grid fitted to the region of
`zoomLevels[0]`, the grid node hidden, everything else empty or zero. -/
def builtZoomLevel (visibleSize : Size) (contentScaleFactor : F32) (zoomRegion : Region2D)
    (gridRegion : Region2D) : ZoomLevel :=
  { launchStatuses := fun _ => none
    zoomRegion := zoomRegion
    framebuffer := fun _ => 0
    framebufferSize := 0
    tiles := []
    tileCompletions := []
    tileGridVisible := false
    tileSprites := buildTileGrid visibleSize (F32.ofNat (F32.toUnsigned contentScaleFactor))
      ((TILE_DIMS <<< 16) + TILE_DIMS) gridRegion
    zoomTransaction := 0
    tilesInFlight := 0
    tilesUpdated := 0 }

/-- The function `HelloWorld::init` for the visible size and content scale
factor the director reports: `zoomLevels[0]` gets the initial region, both
sprite grids are built over that region and hidden, and `generateTiles` is
called for transaction 0 on `zoomLevels[0]`.  The members `init` does not
assign are zero. -/
def init (visibleSize : Size) (contentScaleFactor : F32) : HelloWorld :=
  let zoomRegion := initialRegion visibleSize
  let zero : Region2D := ⟨F64.fin 0, F64.fin 0, F64.fin 0, F64.fin 0, F64.fin 0⟩
  generateTiles
    { zoomLevels := fun i =>
        builtZoomLevel visibleSize contentScaleFactor (if i = 0 then zoomRegion else zero)
          zoomRegion
      zoomTransaction := 0
      visibleSize := visibleSize
      contentScaleFactor := contentScaleFactor }
    0 0

/-! ### Interleavings

The GUI thread runs the handlers and the tile lambdas one at a time; the
launcher-waiters run beside it.  An interleaving is a sequence of events, each
the whole effect on the scene of one handler, of one tile lambda, or of one
stretch of a launcher-waiter.  The order of the events of a sequence is free:
neither the program order of a launcher-waiter nor the order of the GUI
thread's queue is imposed, so what holds for every sequence holds for every
interleaving the program can produce. -/

/-- The slot a launcher-waiter for transaction `t` works on, and the previous
slot it captures: `generateTiles` is called with `zoomLevels[t & 1]` and
`zoomLevels[(t - 1) & 1]` (for `t = 0`, in `init`, with `zoomLevels[0]` and
`zoomLevels[1]`). -/
def slotOf (transaction : Nat) : Nat := transaction &&& 1

/-- The previous slot of the generation of transaction `t`. -/
def lastSlotOf (transaction : Nat) : Nat :=
  ((transaction + 4294967296 - 1) % 4294967296) &&& 1

/-- An event of the coordinator. -/
inductive Event where
  /-- The handler `onTouchMoved`. -/
  | touchMoved (screenDelta : Vec2)
  /-- The handler `onTouchEnded`. -/
  | touchEnded (screenDelta : Vec2)
  /-- The callback `menuZoomInCallback`. -/
  | zoomIn
  /-- The callback `menuZoomOutCallback`. -/
  | zoomOut
  /-- The GUI thread runs a tile lambda. -/
  | tile (c : TileClosure)
  /-- The launcher-waiter of a transaction leaves its drain loop and launches
  the tiles; `reads` are the values its kernels read from the atomic. -/
  | launch (transaction : Nat) (reads : Nat → Nat → Nat)
  /-- The launcher-waiter of a transaction makes pass `i` of its loop over the
  futures. -/
  | dispatch (transaction : Nat) (i : Nat)

/-- The effect of an event on the scene; `none` when an assertion fails. -/
def Event.apply : Event → HelloWorld → Option HelloWorld
  | touchMoved screenDelta, st => some (onTouchMoved st screenDelta)
  | touchEnded screenDelta, st => onTouchEnded st screenDelta
  | zoomIn, st => menuZoomInCallback st
  | zoomOut, st => menuZoomOutCallback st
  | tile c, st => c.run st
  | launch transaction reads, st =>
    some (launcherLaunch st (slotOf transaction) transaction TILE_DIMS (trueSizeOf st) reads)
  | dispatch transaction i, st =>
    some (launcherDispatch st (slotOf transaction) (lastSlotOf transaction) transaction
      TILE_DIMS (trueSizeOf st) i).1

/-- The effect of a sequence of events, first to last. -/
def runEvents : List Event → HelloWorld → Option HelloWorld
  | [], st => some st
  | e :: rest, st =>
    match e.apply st with
    | none => none
    | some st1 => runEvents rest st1

/-- The tile lambda pass `i` of the launcher-waiter of a transaction hands to
the GUI thread in a scene, if any. -/
def dispatchedClosure (st : HelloWorld) (transaction i : Nat) : Option TileClosure :=
  (launcherDispatch st (slotOf transaction) (lastSlotOf transaction) transaction
    TILE_DIMS (trueSizeOf st) i).2

/-- The number of tile lambdas of slot `s` among the events. -/
def closuresOf (s : Nat) : List Event → Nat
  | [] => 0
  | Event.tile c :: rest => (if c.zoomLevel = s then 1 else 0) + closuresOf s rest
  | _ :: rest => closuresOf s rest

/-- The event is a stretch of a launcher-waiter working on slot `s`. -/
def Event.launcherOn (s : Nat) : Event → Prop
  | Event.launch transaction _ => slotOf transaction = s
  | Event.dispatch transaction _ => slotOf transaction = s
  | _ => False

/-- Every tile lambda among the events belongs to one of the two slots and
captures a different slot as the previous one. -/
def Event.wellFormed : Event → Prop
  | Event.tile c => c.zoomLevel < 2 ∧ c.zoomLevel ≠ c.lastZoomLevel
  | _ => True

/-- A scene 64 × 32 pixels large at content scale 1: two tiles side by side. -/
def twoTileScene : HelloWorld := init ⟨F32.ofNat 64, F32.ofNat 32⟩ (F32.ofNat 1)

/-- The tile lambda the launcher-waiter of transaction `t` hands over for the
tile at grid position `(i, 0)` in the two-tile scene. -/
def twoTileClosure (transaction i : Nat) : TileClosure :=
  ⟨launcherSpec TILE_DIMS (trueSizeOf twoTileScene),
   tileAt (launcherSpec TILE_DIMS (trueSizeOf twoTileScene)) i 0,
   slotOf transaction, lastSlotOf transaction, transaction⟩

/-- What identifies a tile lambda: its slot, the previous slot, its
transaction, its tile and the dimensions and stride of its `spec`. -/
def TileClosure.captures (c : TileClosure) : List Nat :=
  [c.zoomLevel, c.lastZoomLevel, c.transaction, c.tile.pixels, c.tile.x, c.tile.y,
    c.spec.w, c.spec.h, c.spec.stride]

/-- At least one of the two tile grids is visible. -/
def someGridVisible (st : HelloWorld) : Prop :=
  (st.zoomLevels 0).tileGridVisible = true ∨ (st.zoomLevels 1).tileGridVisible = true

/-- The visibility of the two tile grids. -/
def gridsVisible (st : HelloWorld) : Bool × Bool :=
  ((st.zoomLevels 0).tileGridVisible, (st.zoomLevels 1).tileGridVisible)

/-- The two-tile scene after the launcher-waiter of transaction 0 has launched
its tiles and a zoom-in has bumped the transaction to 1. -/
def supersededScene : HelloWorld :=
  (runEvents [Event.launch 0 neverSuperseded, Event.zoomIn] twoTileScene).getD twoTileScene

/-- The two-tile scene after its first generation has completed: the tiles of
transaction 0 launched, dispatched and both uploaded. -/
def firstGenerationScene : HelloWorld :=
  (runEvents [Event.launch 0 neverSuperseded, Event.dispatch 0 0, Event.dispatch 0 1,
    Event.tile (twoTileClosure 0 0), Event.tile (twoTileClosure 0 1)] twoTileScene).getD
    twoTileScene

instance (st : HelloWorld) : Decidable (someGridVisible st) := by
  unfold someGridVisible
  exact inferInstance

/-! ### Literals and example scenes -/

/-- The `double` nearest to `p / q`: the value of a decimal literal such as
`4.5` (`p = 45`, `q = 10`). -/
def F64.ofRatio (p q : Nat) : F64 := F64.round ((p * F64.one : Nat) : Int) q

/-- The `float` nearest to `p / q`: the value of a decimal literal such as
`1.5001f` (`p = 15001`, `q = 10000`). -/
def F32.ofRatio (p q : Nat) : F32 := F32.round ((p * F32.one : Nat) : Int) q

/-- The comparison `x <= y`; false when either side is a NaN. -/
def F64.le : F64 → F64 → Bool
  | F64.fin a, F64.fin b => decide (a ≤ b)
  | F64.fin _, F64.inf t => !t
  | F64.inf s, F64.fin _ => s
  | F64.inf s, F64.inf t => s || !t
  | _, _ => false

/-- A visible size of 900 × 600. -/
def exampleSize : Size := ⟨F32.ofNat 900, F32.ofNat 600⟩

/-- The scene `init` builds for a visible size of 900 × 600 at content scale 1:
slot 0 has the region with centre `(-0.5, 0)`, width 4.5 and height 3.0. -/
def exampleScene : HelloWorld := init exampleSize (F32.ofNat 1)

/-- The tile geometry `fitTileGridToRegion` computes in the example scene for
a region. -/
def exampleGeometry (zoomRegion : Region2D) : GridGeometry :=
  gridGeometry exampleScene.visibleSize
    (F32.ofNat (F32.toUnsigned exampleScene.contentScaleFactor))
    (TILE_DIMS <<< 16 ||| TILE_DIMS) zoomRegion

/-- A visible size of 3729 × 2746. -/
def oddSize : Size := ⟨F32.ofNat 3729, F32.ofNat 2746⟩

/-- The exact quotient `x / y` of two finite `double`s is the fraction
`p / q`. -/
def F64.quotientIs (x y : F64) (p q : Nat) : Bool :=
  match x, y with
  | F64.fin w, F64.fin h => decide (w * (q : Int) = h * (p : Int))
  | _, _ => false

/-! ### The offline run of `main` -/

/-- The argument `-2` of `main` for `left`, converted to `float`. -/
def mainLeft : F32 := F32.neg (F32.ofNat 2)

/-- The argument `1` of `main` for `right`, converted to `float`. -/
def mainRight : F32 := F32.ofNat 1

/-- The literal `1.5001f`. -/
def mainTop : F32 := F32.ofRatio 15001 10000

/-- The expression `-1.4999f`. -/
def mainBottom : F32 := F32.neg (F32.ofRatio 14999 10000)

/-- The call `mandelbrotAsyncTiled(-2, 1, 1.5001f, -1.4999f, 32, 0, transaction,
tileGridDims, spec, tiles, framebuffer)` of `main`, whose atomic
`transaction` stays 0. -/
def mainRun : LaunchState KernelResult :=
  mandelbrotAsyncTiled mainLeft mainRight mainTop mainBottom 32 0 neverSuperseded mainGrid
    mainSpec []

/-- The values the kernels of `mainRun` capture. -/
def mainEnv : KernelEnv :=
  ⟨mainLeft, mainRight, mainTop, mainBottom, 32, pixelDims mainSpec mainGrid, 0,
    neverSuperseded⟩

/-- The number of pixels of the framebuffer of `main`. -/
def mainPixelCount : Nat := 2048 * 1536

/-- The pixel `(255, 255, 255, 255)`. -/
def white : RGBA := ⟨255, 255, 255, 255⟩

/-- The number of pixels equal to `(255, 255, 255, 255)` among the first `n`
pixels of a framebuffer. -/
def countWhite (mem : Memory) (n : Nat) : Nat :=
  (List.range n).countP (fun p => decide (loadRGBA mem (p * sizeofRGBA) = white))

/-- The coordinate `i` of the pixels of framebuffer column `px` in `mainRun`. -/
def mainI (px : Nat) : F32 :=
  F32.add mainLeft
    (F32.mul (F32.div (F32.sub mainRight mainLeft) (F32.ofNat 2048)) (F32.ofNat px))

/-- The coordinate `j` of the pixels of framebuffer row `py` in `mainRun`. -/
def mainJ (py : Nat) : F32 :=
  F32.add mainTop
    (F32.mul (F32.div (F32.sub mainBottom mainTop) (F32.ofNat 1536)) (F32.ofNat py))

/-- The scene `st'` has the visible size, the content scale factor and the
dimensions of every sprite array of the scene `st`. -/
def sameLayout (st st' : HelloWorld) : Prop :=
  st'.visibleSize = st.visibleSize ∧ st'.contentScaleFactor = st.contentScaleFactor ∧
  ∀ j, (st'.zoomLevels j).tileSprites.width = (st.zoomLevels j).tileSprites.width ∧
    (st'.zoomLevels j).tileSprites.height = (st.zoomLevels j).tileSprites.height

/-! ### Cache-line rounding (`async_tiled.h`) and the constants of `main` -/

/-- The function `RoundUpToCacheline(i, cachelineLength)`:
`(i / cachelineLength + (i % cachelineLength > 0)) * cachelineLength` in
`unsigned` arithmetic.  Division by zero has no defined result: `none`. -/
def RoundUpToCacheline (i cachelineLength : Nat) : Option Nat :=
  if cachelineLength = 0 then none
  else
    some ((i / cachelineLength + (if i % cachelineLength > 0 then 1 else 0)) % 4294967296
      * cachelineLength % 4294967296)

/-- The constant `widthInBytesRoundedToCachelines` of `main`:
`RoundUpToCacheline(width*sizeof(RGBA), cachelineLength)` with `width = 2048`
and `cachelineLength = 128u`. -/
def widthInBytesRoundedToCachelines : Option Nat :=
  RoundUpToCacheline (2048 * sizeofRGBA % 18446744073709551616 % 4294967296) 128

/-! ### `DestructionDelay` (`HelloWorldScene.h`) -/

/-- A `DestructionDelay` as it is constructed: every element is a
default-constructed, empty handle. -/
def DestructionDelay.empty {α : Type} : Nat → Option α := fun _ => none

/-- The handles destroyed by the loop of `DestructionDelay::push` from the
current `i` on: the move assignment `elements[i] = std::move(elements[i-1])`
destroys what `elements[i]` held, if it held a handle. -/
def DestructionDelay.shiftDropped {α : Type} : Nat → (Nat → Option α) → List α
  | 0, _ => []
  | i + 1, elements =>
    (elements (i + 1)).toList
      ++ DestructionDelay.shiftDropped i (DestructionDelay.moveElement elements (i + 1))

/-- The handles destroyed by `DestructionDelay<Element, depth>::push(e)`:
those destroyed by the loop, then what `elements[0]` holds when
`elements[0] = std::move(e)` is reached. -/
def DestructionDelay.pushDropped {α : Type} (depth : Nat) (elements : Nat → Option α) :
    List α :=
  DestructionDelay.shiftDropped (depth - 1) elements
    ++ (DestructionDelay.shift (depth - 1) elements 0).toList

/-- The `DestructionDelay<Element, 4>` after the handles of a list have been
pushed onto an empty one, first to last. -/
def DestructionDelay.pushed {α : Type} (handles : List α) : Nat → Option α :=
  handles.foldl (fun elements e => DestructionDelay.push 4 elements e) DestructionDelay.empty

/-! ### The drain loop of the launcher-waiter -/

/-- How the drain loop of the launcher-waiter ends: by `return false` in
iteration `iteration` (counted from 0), by `break` in iteration `iteration`,
or not within the iterations looked at. -/
inductive DrainResult where
  | abandoned (iteration : Nat)
  | drained (iteration : Nat)
  | spinning
  deriving DecidableEq, Repr

/-- The loop
`do { if(newestTransaction != transaction) return false;
      if(zoomLevel.tilesInFlight > 0) sleep; else break; } while(true);`
of the launcher-waiter from iteration `k` on, for `fuel` iterations.
`newest k` is the value of `newestTransaction` read in iteration `k` and
`inFlight k` the value of `tilesInFlight` read in iteration `k` after it. -/
def drainLoop (transaction : Nat) (newest inFlight : Nat → Nat) : Nat → Nat → DrainResult
  | 0, _ => DrainResult.spinning
  | fuel + 1, k =>
    if newest k ≠ transaction then DrainResult.abandoned k
    else if 0 < inFlight k then drainLoop transaction newest inFlight fuel (k + 1)
    else DrainResult.drained k

/-- What the launcher-waiter has done when it comes to its loop over the
futures. -/
inductive LauncherOutcome where
  /-- The lambda has returned `false` from its drain loop. -/
  | returnedFalse (st : HelloWorld)
  /-- The framebuffer has been resized and the tiles launched. -/
  | launchedTiles (st : HelloWorld)

/-- The launcher-waiter of `generateTiles` from its start to the assignment of
`tilesInFlight`: the drain loop, then (after `break`) the resize of the
framebuffer and the launch of the tiles on the scene `st`.  The result is
`none` when the drain loop has not ended within `fuel` iterations.  The lock
`launcherLock` held throughout is not modelled. -/
def launcherBegin (st : HelloWorld) (zoomLevel transaction tileDims : Nat) (trueSize : Size)
    (reads : Nat → Nat → Nat) (newest inFlight : Nat → Nat) (fuel : Nat) :
    Option LauncherOutcome :=
  match drainLoop transaction newest inFlight fuel 0 with
  | DrainResult.spinning => none
  | DrainResult.abandoned _ => some (LauncherOutcome.returnedFalse st)
  | DrainResult.drained _ =>
    some (LauncherOutcome.launchedTiles
      (launcherLaunch st zoomLevel transaction tileDims trueSize reads))

/-- Observed values of `newestTransaction`: `0` in the first two iterations of
the loop, `1` from then on. -/
def newestBumpedAtTwo : Nat → Nat := fun k => if k < 2 then 0 else 1

/-- Observed values of `tilesInFlight`: `2`, `1`, then `0`. -/
def inFlightCountdown : Nat → Nat := fun k => 2 - k

/-! ### Inputs for the corner decoration -/

/-- A tile of 2 × 2 pixels whose rows are one pixel apart: its rows overlap. -/
def overlapSpec : TileSpec := ⟨2, 2, 4, by decide, by decide, by decide⟩

/-- A tile of 2 × 3 pixels whose rows are `2^31` bytes apart: the offset of
its last row, `2 * 2^31`, wraps to 0 in `unsigned`. -/
def wrapSpec : TileSpec := ⟨2, 3, 2147483648, by decide, by decide, by decide⟩

/-- The four diagnostic colours of the corner decoration. -/
def cornerColours : List RGBA :=
  [⟨255, 0, 0, 255⟩, ⟨0, 255, 0, 255⟩, ⟨0, 0, 255, 255⟩, ⟨255, 0, 255, 255⟩]

/-- The positions of the four corner pixels of a tile. -/
def cornerPositions (spec : TileSpec) : List (Nat × Nat) :=
  [(0, 0), (spec.w - 1, 0), (0, spec.h - 1), (spec.w - 1, spec.h - 1)]

/-! ### `copyTile` and the contiguous buffer as a tile -/

/-- The function `copyTile(spec, tile, buffer)` reading the framebuffer `mem`:
the loop `for (unsigned y = 0; y < height; ++y, out += width)` over the
scanlines, `out` starting at the start of the buffer. -/
def copyTile (spec : TileSpec) (tile : Tile2D) (mem : Memory) (buffer : PixelBuffer) :
    CopyState :=
  forLoop spec.h (fun y st => copyScanline spec tile mem y st) ⟨buffer, 0, []⟩

/-- The bytes of a contiguous pixel buffer, by byte offset from its start. -/
def bufferMemory (buffer : PixelBuffer) : Memory :=
  fun b =>
    if b % 4 = 0 then (buffer (b / 4)).r
    else if b % 4 = 1 then (buffer (b / 4)).g
    else if b % 4 = 2 then (buffer (b / 4)).b
    else (buffer (b / 4)).a

/-- The spec under which a contiguous buffer of `w × h` pixels is a tile: the
same dimensions with the stride `w * sizeof(RGBA)`. -/
def contiguousSpec (spec : TileSpec) : TileSpec :=
  ⟨spec.w, spec.h, spec.w * sizeofRGBA, spec.w_lt, spec.h_lt,
    by have := spec.w_lt; simp only [sizeofRGBA]; omega⟩

/-- The tile whose pixels start at the start of the buffer. -/
def bufferTile : Tile2D := ⟨0, 0, 0⟩

/-- A tile of 32768 × 32769 pixels whose rows are one pixel longer than its
width: the offset of its last row, `32768 * 131076`, and that of the last row
of the contiguous copy, `32768 * 131072`, exceed 32 bits. -/
def hugeSpec : TileSpec := ⟨32768, 32769, 131076, by decide, by decide, by decide⟩

/-! ### Binary32 values and the scene of the framebuffer bounds -/

/-- The finite number `n · 2^(-149)` is a binary32 value: rounding to binary32
leaves it as it is. -/
def F32.isBinary32 (n : Nat) : Prop := F32.round (n : Int) 1 = F32.fin (n : Int)

instance (n : Nat) : Decidable (F32.isBinary32 n) := by
  unfold F32.isBinary32
  exact inferInstance

/-- A visible size of 65536 × 65536. -/
def wideSize : Size := ⟨F32.ofNat 65536, F32.ofNat 65536⟩

/-- The scene `init` builds for a visible size of 65536 × 65536 at content
scale 1. -/
def wideScene : HelloWorld := init wideSize (F32.ofNat 1)


/-! ### Kernel coordinates and sprite positions -/

/-- The values the kernels launched by the launcher-waiter capture: the bounds
`centreX - width * 0.5`, `centreX + width * 0.5`, `centreY - height * 0.5`,
`centreY + height * 0.5` of the slot's region, narrowed to `float` at the call
of `mandelbrotAsyncTiled`, 64 iterations, the pixel dimensions of the launch
grid, and the transaction. -/
def launcherEnv (st : HelloWorld) (zoomLevel transaction tileDims : Nat) (trueSize : Size)
    (reads : Nat → Nat → Nat) : KernelEnv :=
  let region := (st.zoomLevels zoomLevel).zoomRegion
  ⟨F64.toF32 (F64.sub region.centreX (F64.mul region.width F64.half)),
   F64.toF32 (F64.add region.centreX (F64.mul region.width F64.half)),
   F64.toF32 (F64.sub region.centreY (F64.mul region.height F64.half)),
   F64.toF32 (F64.add region.centreY (F64.mul region.height F64.half)),
   64, pixelDims (launcherSpec tileDims trueSize) (launcherGrid tileDims trueSize),
   transaction, reads⟩

/-- A visible size of 160 × 160: five tiles by five. -/
def fiveSize : Size := ⟨F32.ofNat 160, F32.ofNat 160⟩

/-- The scene `init` builds for a visible size of 160 × 160 at content scale 1:
slot 0 has the region with centre `(-0.5, 0)`, width 3 and height 3. -/
def fiveScene : HelloWorld := init fiveSize (F32.ofNat 1)

/-- The sprite `tileSprites[gridY][gridX]` of a slot after
`fitTileGridToRegion` has fitted the slot's sprites to the slot's region. -/
def fittedSprite (st : HelloWorld) (zoomLevel gridX gridY : Nat) : Option TileSprite :=
  let level := st.zoomLevels zoomLevel
  match fitTileGridToRegion st.visibleSize (F32.ofNat (F32.toUnsigned st.contentScaleFactor))
      level.tileSprites (TILE_DIMS <<< 16 ||| TILE_DIMS) level.zoomRegion false with
  | none => none
  | some sprites => (sprites.index gridY gridX).map sprites.elements

/-! ### The slice of a tile as stated -/

/-- Byte `b` lies in the slice of `tile` as the specification words it: in one
of the tile-local rows `0 .. h-1`, row `r` starting `r * stride` bytes from the
tile's origin and being `w` pixels long.  Unlike `inSlice`, the row offset is
the product itself, not the `unsigned` product of `addressRow`. -/
def inStatedSlice (spec : TileSpec) (tile : Tile2D) (b : Nat) : Prop :=
  ∃ r, r < spec.h ∧ tile.pixels + r * spec.stride ≤ b ∧
    b < tile.pixels + r * spec.stride + spec.w * sizeofRGBA

instance (spec : TileSpec) (tile : Tile2D) (b : Nat) :
    Decidable (inStatedSlice spec tile b) := by
  unfold inStatedSlice
  exact inferInstance

/-- A tile of 1 × 3 pixels with a stride of `3 · 2^30` bytes: the offset of
its third row, `2 · 3 · 2^30`, is `2^31` as an `unsigned` product. -/
def strideSpec : TileSpec := ⟨1, 3, 3221225472, by decide, by decide, by decide⟩

/-! # Properties

All definitions of the embedding are above this line; the rest of the file
states and proves properties of them. -/

/-! ## Basic facts about the loops -/

theorem forLoop_zero {σ : Type} (body : Nat → σ → σ) (s : σ) :
    forLoop 0 body s = s := by
  simp [forLoop]

theorem forLoop_succ {σ : Type} (n : Nat) (body : Nat → σ → σ) (s : σ) :
    forLoop (n + 1) body s = body n (forLoop n body s) := by
  simp [forLoop, List.range_succ, List.foldl_append]

theorem launchOne_launched {R : Type} (spec : TileSpec) (w : Nat)
    (func : TileSpec → TileRef → R) (y x : Nat) (hx : x < w) :
    launchOne spec func y x (launched spec w func (y * w + x))
      = launched spec w func (y * w + x + 1) := by
  have h1 : (y * w + x) % w = x := by
    rw [Nat.add_comm, Nat.add_mul_mod_self_right]; exact Nat.mod_eq_of_lt hx
  have h2 : (y * w + x) / w = y := by
    have hw : 0 < w := by omega
    rw [Nat.add_comm, Nat.add_mul_div_right _ _ hw, Nat.div_eq_of_lt hx]; simp
  simp [launchOne, launched, List.range_succ, h1, h2]

theorem inner_launched {R : Type} (spec : TileSpec) (w : Nat)
    (func : TileSpec → TileRef → R) (y : Nat) (m : Nat) (hm : m ≤ w) :
    forLoop m (fun x st => launchOne spec func y x st) (launched spec w func (y * w))
      = launched spec w func (y * w + m) := by
  induction m with
  | zero => simp [forLoop_zero]
  | succ m ih =>
    rw [forLoop_succ, ih (by omega)]
    exact launchOne_launched spec w func y m (by omega)

theorem outer_launched {R : Type} (spec : TileSpec) (w : Nat)
    (func : TileSpec → TileRef → R) (n : Nat) :
    forLoop n (fun y st => forLoop w (fun x st => launchOne spec func y x st) st)
        (launched spec w func 0)
      = launched spec w func (n * w) := by
  induction n with
  | zero => simp [forLoop_zero]
  | succ n ih =>
    rw [forLoop_succ, ih, inner_launched spec w func n w (le_refl _)]
    congr 1
    rw [Nat.succ_mul]

/-- Closed form of `LaunchTiles`: the tiles and tasks in launch order. -/
theorem LaunchTiles_eq {R : Type} (spec : TileSpec) (bufferTiles : Dims2U)
    (outTiles : List Tile2D) (func : TileSpec → TileRef → R) :
    LaunchTiles spec bufferTiles outTiles func
      = launched spec bufferTiles.w func (bufferTiles.h * bufferTiles.w) := by
  have h := outer_launched spec bufferTiles.w func bufferTiles.h
  simpa [LaunchTiles, launched, vectorClear] using h

theorem LaunchTiles_length {R : Type} (spec : TileSpec) (bufferTiles : Dims2U)
    (outTiles : List Tile2D) (func : TileSpec → TileRef → R) :
    (LaunchTiles spec bufferTiles outTiles func).outTiles.length
      = bufferTiles.h * bufferTiles.w := by
  simp [LaunchTiles_eq, launched]

theorem LaunchTiles_getElem? {R : Type} (spec : TileSpec) (bufferTiles : Dims2U)
    (outTiles : List Tile2D) (func : TileSpec → TileRef → R) (k : Nat)
    (hk : k < bufferTiles.h * bufferTiles.w) :
    (LaunchTiles spec bufferTiles outTiles func).outTiles[k]?
      = some (tileAt spec (k % bufferTiles.w) (k / bufferTiles.w)) := by
  simp [LaunchTiles_eq, launched, List.getElem?_map, List.getElem?_range hk]

theorem LaunchTiles_tasks_getElem? {R : Type} (spec : TileSpec) (bufferTiles : Dims2U)
    (outTiles : List Tile2D) (func : TileSpec → TileRef → R) (k : Nat)
    (hk : k < bufferTiles.h * bufferTiles.w) :
    (LaunchTiles spec bufferTiles outTiles func).tasks[k]?
      = some (func spec ⟨k, tileAt spec (k % bufferTiles.w) (k / bufferTiles.w)⟩) := by
  simp [LaunchTiles_eq, launched, List.getElem?_map, List.getElem?_range hk]

/-- Every tile of the output vector is the tile of one grid cell. -/
theorem LaunchTiles_mem {R : Type} (spec : TileSpec) (bufferTiles : Dims2U)
    (outTiles : List Tile2D) (func : TileSpec → TileRef → R) (t : Tile2D)
    (ht : t ∈ (LaunchTiles spec bufferTiles outTiles func).outTiles) :
    ∃ x y, x < bufferTiles.w ∧ y < bufferTiles.h ∧ t = tileAt spec x y := by
  simp only [LaunchTiles_eq, launched, List.mem_map, List.mem_range] at ht
  obtain ⟨k, hk, rfl⟩ := ht
  have hw : 0 < bufferTiles.w := by
    rcases Nat.eq_zero_or_pos bufferTiles.w with h0 | h0
    · rw [h0] at hk; simp at hk
    · exact h0
  refine ⟨k % bufferTiles.w, k / bufferTiles.w, Nat.mod_lt _ hw, ?_, rfl⟩
  exact Nat.div_lt_of_lt_mul (by rwa [Nat.mul_comm] at hk)

/-! ## Offsets without wrap-around -/

/-- When a grid row fits the stride and the byte extent of the grid fits 32
bits, the corner offset of cell `(x, y)` is the unreduced expression. -/
theorem tileCornerOffset_eq (spec : TileSpec) (dims : Dims2U) (x y : Nat)
    (hx : x < dims.w) (hy : y < dims.h)
    (hrow : dims.w * spec.w * sizeofRGBA ≤ spec.stride)
    (hext : dims.h * spec.h * spec.stride < 4294967296) :
    tileCornerOffset spec x y = y * spec.h * spec.stride + x * spec.w * sizeofRGBA := by
  have hs := spec.stride_lt
  have h1 : x * spec.w ≤ dims.w * spec.w := Nat.mul_le_mul_right _ (by omega)
  have h2 : y * spec.h ≤ dims.h * spec.h := Nat.mul_le_mul_right _ (by omega)
  have h3 : y * spec.h * spec.stride ≤ dims.h * spec.h * spec.stride :=
    Nat.mul_le_mul_right _ h2
  simp only [sizeofRGBA] at hrow ⊢
  unfold tileCornerOffset
  simp only [sizeofRGBA]
  have hxw : x * spec.w % 4294967296 = x * spec.w := Nat.mod_eq_of_lt (by omega)
  rw [hxw, Nat.mod_eq_of_lt (a := x * spec.w * 4) (by omega)]
  rcases Nat.eq_zero_or_pos spec.stride with h0 | h0
  · simp [h0]
  · have h4 : y * spec.h ≤ y * spec.h * spec.stride := Nat.le_mul_of_pos_right _ h0
    rw [Nat.mod_eq_of_lt (a := y * spec.h) (by omega), Nat.mod_eq_of_lt (by omega)]

/-- Under the same conditions row `r` of the tile of cell `(x, y)` starts at
framebuffer row `y * h + r`, column `x * w`. -/
theorem addressRow_tileAt (spec : TileSpec) (dims : Dims2U) (x y r : Nat)
    (hx : x < dims.w) (hy : y < dims.h) (hr : r < spec.h)
    (hrow : dims.w * spec.w * sizeofRGBA ≤ spec.stride)
    (hext : dims.h * spec.h * spec.stride < 4294967296) :
    addressRow spec (tileAt spec x y) r
      = (y * spec.h + r) * spec.stride + x * spec.w * sizeofRGBA := by
  have h0 : 1 * spec.h ≤ dims.h * spec.h := Nat.mul_le_mul_right _ (by omega)
  have h1 : spec.h * spec.stride ≤ dims.h * spec.h * spec.stride := by
    have := Nat.mul_le_mul_right spec.stride h0
    simpa using this
  have h2 : spec.stride * r ≤ spec.h * spec.stride := by
    rw [Nat.mul_comm]; exact Nat.mul_le_mul_right _ (by omega)
  unfold addressRow tileAt
  simp only
  rw [tileCornerOffset_eq spec dims x y hx hy hrow hext,
    Nat.mod_eq_of_lt (a := spec.stride * r) (by omega), Nat.add_mul, Nat.mul_comm spec.stride r]
  omega

/-! ## Geometry of the produced tiles -/

/-- Two grid cells whose tile slices share a byte are the same cell, when a
grid row fits the stride and the grid's byte extent fits 32 bits. -/
theorem cells_eq_of_common_byte (spec : TileSpec) (dims : Dims2U)
    (hrow : dims.w * spec.w * sizeofRGBA ≤ spec.stride)
    (hext : dims.h * spec.h * spec.stride < 4294967296)
    (x1 y1 x2 y2 : Nat) (hx1 : x1 < dims.w) (hy1 : y1 < dims.h)
    (hx2 : x2 < dims.w) (hy2 : y2 < dims.h) (b : Nat)
    (hb1 : inSlice spec (tileAt spec x1 y1) b)
    (hb2 : inSlice spec (tileAt spec x2 y2) b) : x1 = x2 ∧ y1 = y2 := by
  obtain ⟨r1, hr1, hlo1, hhi1⟩ := hb1
  obtain ⟨r2, hr2, hlo2, hhi2⟩ := hb2
  rw [addressRow_tileAt spec dims x1 y1 r1 hx1 hy1 hr1 hrow hext] at hlo1 hhi1
  rw [addressRow_tileAt spec dims x2 y2 r2 hx2 hy2 hr2 hrow hext] at hlo2 hhi2
  simp only [sizeofRGBA] at hrow hlo1 hhi1 hlo2 hhi2
  have hq1 : (x1 + 1) * spec.w ≤ dims.w * spec.w := Nat.mul_le_mul_right _ (by omega)
  have hq2 : (x2 + 1) * spec.w ≤ dims.w * spec.w := Nat.mul_le_mul_right _ (by omega)
  rw [Nat.add_mul, Nat.one_mul] at hq1 hq2
  -- the framebuffer rows coincide
  have hP : y1 * spec.h + r1 = y2 * spec.h + r2 := by
    rcases Nat.lt_trichotomy (y1 * spec.h + r1) (y2 * spec.h + r2) with hlt | heq | hgt
    · have := Nat.mul_le_mul_right spec.stride (Nat.succ_le_of_lt hlt)
      rw [Nat.succ_mul] at this
      omega
    · exact heq
    · have := Nat.mul_le_mul_right spec.stride (Nat.succ_le_of_lt hgt)
      rw [Nat.succ_mul] at this
      omega
  have hy : y1 = y2 := by
    rcases Nat.lt_trichotomy y1 y2 with hlt | heq | hgt
    · have := Nat.mul_le_mul_right spec.h (Nat.succ_le_of_lt hlt)
      rw [Nat.succ_mul] at this
      omega
    · exact heq
    · have := Nat.mul_le_mul_right spec.h (Nat.succ_le_of_lt hgt)
      rw [Nat.succ_mul] at this
      omega
  subst hy
  have hr : r1 = r2 := by omega
  subst hr
  refine ⟨?_, rfl⟩
  rcases Nat.lt_trichotomy x1 x2 with hlt | heq | hgt
  · have := Nat.mul_le_mul_right spec.w (Nat.succ_le_of_lt hlt)
    rw [Nat.succ_mul] at this
    omega
  · exact heq
  · have := Nat.mul_le_mul_right spec.w (Nat.succ_le_of_lt hgt)
    rw [Nat.succ_mul] at this
    omega

/-- The coordinates stored in the tile of a grid cell with 16-bit counters. -/
theorem tileAt_coords (spec : TileSpec) (x y : Nat) (hx : x < 65536) (hy : y < 65536) :
    (tileAt spec x y).x = x ∧ (tileAt spec x y).y = y := by
  simp [tileAt, Nat.mod_eq_of_lt hx, Nat.mod_eq_of_lt hy]

/-- C1 (as stated, refuted): with `stride ≥ w * pixelSize` and all tiles inside
the framebuffer, two tiles with different grid coordinates can still share
bytes.  For 1 × 1 tiles, a stride of `2^31` bytes and a grid of 1 × 3 tiles (a
framebuffer one pixel wide and three rows high, every grid row fitting the
stride and every slice byte lying below its `3 · 2^31` bytes) the corner of
tile `(0, 2)` wraps to offset 0, so tiles `(0, 0)` and `(0, 2)` both own
byte 0. -/
theorem LaunchTiles_overlap_at_wrap :
    0 < farSpec.w ∧ 0 < farSpec.h ∧ farSpec.w * sizeofRGBA ≤ farSpec.stride ∧
    farGrid.w * farSpec.w * sizeofRGBA ≤ farSpec.stride ∧
    (∀ t ∈ (LaunchTiles farSpec farGrid [] idKernel).outTiles, ∀ b,
      inSlice farSpec t b → b < farGrid.h * farSpec.h * farSpec.stride) ∧
    ∃ t1 ∈ (LaunchTiles farSpec farGrid [] idKernel).outTiles,
    ∃ t2 ∈ (LaunchTiles farSpec farGrid [] idKernel).outTiles,
      (t1.x ≠ t2.x ∨ t1.y ≠ t2.y) ∧ ∃ b, inSlice farSpec t1 b ∧ inSlice farSpec t2 b := by
  have hl : (LaunchTiles farSpec farGrid [] idKernel).outTiles
      = [⟨0, 0, 0⟩, ⟨2147483648, 0, 1⟩, ⟨0, 0, 2⟩] := by decide
  rw [hl]
  refine ⟨by decide, by decide, by decide, by decide, ?_, ?_⟩
  · intro t ht b hb
    obtain ⟨r, hr, _, hhi⟩ := hb
    have hr0 : r = 0 := by
      have : farSpec.h = 1 := rfl
      omega
    subst hr0
    simp only [List.mem_cons, List.mem_singleton, List.not_mem_nil, or_false] at ht
    rcases ht with rfl | rfl | rfl <;>
      simp [addressRow, farSpec, farGrid, sizeofRGBA] at hhi ⊢ <;> omega
  · refine ⟨⟨0, 0, 0⟩, by simp, ⟨0, 0, 2⟩, by simp, Or.inr (by decide), 0, ?_, ?_⟩ <;>
      exact ⟨0, by decide, by decide, by decide⟩

/-- C1 (amended): for every grid whose row fits the stride
(`tilesX * w * pixelSize ≤ stride`) and whose byte extent
`tilesY * h * stride` fits 32-bit arithmetic, two tiles of the produced vector
with different grid coordinates have no byte in common. -/
theorem LaunchTiles_slices_disjoint {R : Type} (spec : TileSpec) (bufferTiles : Dims2U)
    (outTiles : List Tile2D) (func : TileSpec → TileRef → R)
    (hrow : bufferTiles.w * spec.w * sizeofRGBA ≤ spec.stride)
    (hext : bufferTiles.h * spec.h * spec.stride < 4294967296)
    (t1 t2 : Tile2D)
    (h1 : t1 ∈ (LaunchTiles spec bufferTiles outTiles func).outTiles)
    (h2 : t2 ∈ (LaunchTiles spec bufferTiles outTiles func).outTiles)
    (hne : t1.x ≠ t2.x ∨ t1.y ≠ t2.y) (b : Nat) :
    ¬ (inSlice spec t1 b ∧ inSlice spec t2 b) := by
  rintro ⟨hb1, hb2⟩
  obtain ⟨x1, y1, hx1, hy1, rfl⟩ := LaunchTiles_mem spec bufferTiles outTiles func t1 h1
  obtain ⟨x2, y2, hx2, hy2, rfl⟩ := LaunchTiles_mem spec bufferTiles outTiles func t2 h2
  obtain ⟨hx, hy⟩ := cells_eq_of_common_byte spec bufferTiles hrow hext
    x1 y1 x2 y2 hx1 hy1 hx2 hy2 b hb1 hb2
  subst hx; subst hy
  rcases hne with h | h <;> exact h rfl

/-- Instance of the amended C1 on a 3 × 2 grid of 2 × 2 tiles: tiles `(1, 0)`
and `(0, 1)` do not share byte 40. -/
theorem LaunchTiles_slices_disjoint_witness :
    smallGrid.w * smallSpec.w * sizeofRGBA ≤ smallSpec.stride ∧
    smallGrid.h * smallSpec.h * smallSpec.stride < 4294967296 ∧
    ¬ (inSlice smallSpec ⟨8, 1, 0⟩ 40 ∧ inSlice smallSpec ⟨64, 0, 1⟩ 40) :=
  ⟨by decide, by decide,
    LaunchTiles_slices_disjoint smallSpec smallGrid [] idKernel (by decide) (by decide)
      ⟨8, 1, 0⟩ ⟨64, 0, 1⟩ (by decide) (by decide) (Or.inl (by decide)) 40⟩

/-- A stride of one tile width does not separate the tiles of a grid row: with
2 × 2 tiles, stride 8 and a grid of 2 × 1 tiles, byte 8 is in row 1 of tile
`(0, 0)` and in row 0 of tile `(1, 0)`, and all slice bytes are below the 32
bytes of a framebuffer of 8 pixels. -/
theorem LaunchTiles_overlap_tight_stride :
    tightSpec.w * sizeofRGBA ≤ tightSpec.stride ∧
    (LaunchTiles tightSpec tightGrid [] idKernel).outTiles = [⟨0, 0, 0⟩, ⟨8, 1, 0⟩] ∧
    inSlice tightSpec ⟨0, 0, 0⟩ 8 ∧ inSlice tightSpec ⟨8, 1, 0⟩ 8 :=
  ⟨by decide, by decide, ⟨1, by decide, by decide, by decide⟩,
    ⟨0, by decide, by decide, by decide⟩⟩

/-- The configuration of `main` meets the conditions under which the tiles
are disjoint and cover the framebuffer: a grid row fits the stride, the byte
extent fits 32 bits and the grid has at most 65536 tiles per side. -/
theorem main_configuration_fits :
    mainGrid.w * mainSpec.w * sizeofRGBA ≤ mainSpec.stride ∧
    mainGrid.h * mainSpec.h * mainSpec.stride < 4294967296 ∧
    mainGrid.w ≤ 65536 ∧ mainGrid.h ≤ 65536 := by
  decide

/-- The four bytes of framebuffer pixel `(px, py)` lie in the slice of the tile
of cell `(px / w, py / h)`, at tile-local row `py % h` and column `px % w`. -/
theorem pixel_in_cell (spec : TileSpec) (dims : Dims2U)
    (hrow : dims.w * spec.w * sizeofRGBA ≤ spec.stride)
    (hext : dims.h * spec.h * spec.stride < 4294967296)
    (px py : Nat) (hpx : px < dims.w * spec.w) (hpy : py < dims.h * spec.h) :
    px / spec.w < dims.w ∧ py / spec.h < dims.h ∧
    px % spec.w < spec.w ∧ py % spec.h < spec.h ∧
    addressRow spec (tileAt spec (px / spec.w) (py / spec.h)) (py % spec.h)
        + px % spec.w * sizeofRGBA
      = py * spec.stride + px * sizeofRGBA := by
  have hw : 0 < spec.w := by
    rcases Nat.eq_zero_or_pos spec.w with h0 | h0
    · rw [h0] at hpx; simp at hpx
    · exact h0
  have hh : 0 < spec.h := by
    rcases Nat.eq_zero_or_pos spec.h with h0 | h0
    · rw [h0] at hpy; simp at hpy
    · exact h0
  have hx : px / spec.w < dims.w := Nat.div_lt_of_lt_mul (by rwa [Nat.mul_comm] at hpx)
  have hy : py / spec.h < dims.h := Nat.div_lt_of_lt_mul (by rwa [Nat.mul_comm] at hpy)
  have hc : px % spec.w < spec.w := Nat.mod_lt _ hw
  have hr : py % spec.h < spec.h := Nat.mod_lt _ hh
  refine ⟨hx, hy, hc, hr, ?_⟩
  rw [addressRow_tileAt spec dims _ _ _ hx hy hr hrow hext]
  have e1 : py / spec.h * spec.h + py % spec.h = py := by
    rw [Nat.mul_comm]; exact Nat.div_add_mod py spec.h
  have e2 : px / spec.w * spec.w + px % spec.w = px := by
    rw [Nat.mul_comm]; exact Nat.div_add_mod px spec.w
  rw [e1, Nat.add_assoc, ← Nat.add_mul, e2]

/-- The position in the tile vector of the tile of cell `(x, y)`. -/
theorem cell_index (w x y : Nat) (hx : x < w) :
    (y * w + x) % w = x ∧ (y * w + x) / w = y := by
  constructor
  · rw [Nat.add_comm, Nat.add_mul_mod_self_right]; exact Nat.mod_eq_of_lt hx
  · have hw : 0 < w := by omega
    rw [Nat.add_comm, Nat.add_mul_div_right _ _ hw, Nat.div_eq_of_lt hx]; simp

theorem cell_index_lt (w h x y : Nat) (hx : x < w) (hy : y < h) : y * w + x < h * w := by
  have := Nat.mul_le_mul_right w (Nat.succ_le_of_lt hy)
  rw [Nat.succ_mul] at this
  omega

/-- C2 (as stated, refuted): for 1 × 1 tiles, stride `2^31 ≥ tilesX * w * 4`
and a grid of 1 × 3 tiles, pixel `(0, 2)` of the row-major framebuffer is at
byte `2 · 2^31`, but the tile with grid coordinates `(0, 2)` has its corner
wrapped to offset 0, and no produced tile has that byte in its slice. -/
theorem LaunchTiles_pixel_uncovered_at_wrap :
    farGrid.w * farSpec.w * sizeofRGBA ≤ farSpec.stride ∧
    0 < farGrid.w * farSpec.w ∧ 2 < farGrid.h * farSpec.h ∧
    (LaunchTiles farSpec farGrid [] idKernel).outTiles[2]? = some ⟨0, 0, 2⟩ ∧
    ∀ t ∈ (LaunchTiles farSpec farGrid [] idKernel).outTiles,
      ¬ inSlice farSpec t (2 * farSpec.stride + 0 * sizeofRGBA) := by
  have hl : (LaunchTiles farSpec farGrid [] idKernel).outTiles
      = [⟨0, 0, 0⟩, ⟨2147483648, 0, 1⟩, ⟨0, 0, 2⟩] := by decide
  rw [hl]
  refine ⟨by decide, by decide, by decide, by decide, ?_⟩
  intro t ht hb
  obtain ⟨r, hr, hlo, hhi⟩ := hb
  have hr0 : r = 0 := by
    have : farSpec.h = 1 := rfl
    omega
  subst hr0
  simp only [List.mem_cons, List.mem_singleton, List.not_mem_nil, or_false] at ht
  rcases ht with rfl | rfl | rfl <;>
    simp [addressRow, farSpec, sizeofRGBA] at hlo hhi

/-- C2 (amended): when moreover the byte extent `tilesY * h * stride` fits 32
bits, every pixel `(px, py)` of the tiled region of the row-major framebuffer
lies in the slice of the tile at position `(py / h) * tilesX + px / w` of the
vector, at tile-local row `py % h` and column `px % w`, and in the slice of
no tile at another position; the grid coordinates of that tile are
`(px / w, py / h)` when `tilesX, tilesY ≤ 65536`. -/
theorem LaunchTiles_coverage {R : Type} (spec : TileSpec) (bufferTiles : Dims2U)
    (outTiles : List Tile2D) (func : TileSpec → TileRef → R)
    (hrow : bufferTiles.w * spec.w * sizeofRGBA ≤ spec.stride)
    (hext : bufferTiles.h * spec.h * spec.stride < 4294967296)
    (px py : Nat) (hpx : px < bufferTiles.w * spec.w) (hpy : py < bufferTiles.h * spec.h) :
    ∃ t, (LaunchTiles spec bufferTiles outTiles func).outTiles[
            py / spec.h * bufferTiles.w + px / spec.w]? = some t ∧
      (bufferTiles.w ≤ 65536 → bufferTiles.h ≤ 65536 →
        t.x = px / spec.w ∧ t.y = py / spec.h) ∧
      py % spec.h < spec.h ∧ px % spec.w < spec.w ∧
      addressRow spec t (py % spec.h) + px % spec.w * sizeofRGBA
        = py * spec.stride + px * sizeofRGBA ∧
      (∀ j, j < sizeofRGBA → inSlice spec t (py * spec.stride + px * sizeofRGBA + j)) ∧
      ∀ k t', (LaunchTiles spec bufferTiles outTiles func).outTiles[k]? = some t' →
        (∃ j, j < sizeofRGBA ∧ inSlice spec t' (py * spec.stride + px * sizeofRGBA + j)) →
        k = py / spec.h * bufferTiles.w + px / spec.w := by
  obtain ⟨hx, hy, hc, hr, haddr⟩ := pixel_in_cell spec bufferTiles hrow hext px py hpx hpy
  have hidx := cell_index bufferTiles.w (px / spec.w) (py / spec.h) hx
  have hlt := cell_index_lt bufferTiles.w bufferTiles.h _ _ hx hy
  have hin : ∀ j, j < sizeofRGBA →
      inSlice spec (tileAt spec (px / spec.w) (py / spec.h))
        (py * spec.stride + px * sizeofRGBA + j) := by
    intro j hj
    refine ⟨py % spec.h, hr, ?_, ?_⟩
    · omega
    · simp only [sizeofRGBA] at haddr hj ⊢
      omega
  refine ⟨tileAt spec (px / spec.w) (py / spec.h), ?_, ?_, hr, hc, haddr, hin, ?_⟩
  · rw [LaunchTiles_getElem? spec bufferTiles outTiles func _ hlt, hidx.1, hidx.2]
  · intro hw16 hh16
    exact tileAt_coords spec (px / spec.w) (py / spec.h) (by omega) (by omega)
  · intro k t' hk ⟨j, hj, hb⟩
    have hklt : k < bufferTiles.h * bufferTiles.w := by
      have := List.getElem?_eq_some_iff.mp hk
      obtain ⟨hlen, _⟩ := this
      rwa [LaunchTiles_length] at hlen
    rw [LaunchTiles_getElem? spec bufferTiles outTiles func k hklt] at hk
    have ht' : t' = tileAt spec (k % bufferTiles.w) (k / bufferTiles.w) :=
      (Option.some.inj hk).symm
    subst ht'
    have hw : 0 < bufferTiles.w := by omega
    have hkx : k % bufferTiles.w < bufferTiles.w := Nat.mod_lt _ hw
    have hky : k / bufferTiles.w < bufferTiles.h :=
      Nat.div_lt_of_lt_mul (by rwa [Nat.mul_comm] at hklt)
    obtain ⟨ex, ey⟩ := cells_eq_of_common_byte spec bufferTiles hrow hext
      _ _ _ _ hkx hky hx hy _ hb (hin j hj)
    rw [← ex, ← ey, Nat.mul_comm]
    exact (Nat.div_add_mod k bufferTiles.w).symm

/-- Instance of the amended C2 on a 3 × 2 grid of 2 × 2 tiles: pixel `(3, 2)`
lies in tile `(1, 1)`, the tile at position 4. -/
theorem LaunchTiles_coverage_witness :
    smallGrid.w * smallSpec.w * sizeofRGBA ≤ smallSpec.stride ∧
    smallGrid.h * smallSpec.h * smallSpec.stride < 4294967296 ∧
    3 < smallGrid.w * smallSpec.w ∧ 2 < smallGrid.h * smallSpec.h ∧
    ∃ t, (LaunchTiles smallSpec smallGrid [] idKernel).outTiles[
            2 / smallSpec.h * smallGrid.w + 3 / smallSpec.w]? = some t ∧
      (smallGrid.w ≤ 65536 → smallGrid.h ≤ 65536 →
        t.x = 3 / smallSpec.w ∧ t.y = 2 / smallSpec.h) ∧
      2 % smallSpec.h < smallSpec.h ∧ 3 % smallSpec.w < smallSpec.w ∧
      addressRow smallSpec t (2 % smallSpec.h) + 3 % smallSpec.w * sizeofRGBA
        = 2 * smallSpec.stride + 3 * sizeofRGBA ∧
      (∀ j, j < sizeofRGBA → inSlice smallSpec t (2 * smallSpec.stride + 3 * sizeofRGBA + j)) ∧
      ∀ k t', (LaunchTiles smallSpec smallGrid [] idKernel).outTiles[k]? = some t' →
        (∃ j, j < sizeofRGBA ∧
          inSlice smallSpec t' (2 * smallSpec.stride + 3 * sizeofRGBA + j)) →
        k = 2 / smallSpec.h * smallGrid.w + 3 / smallSpec.w :=
  ⟨by decide, by decide, by decide, by decide,
    LaunchTiles_coverage smallSpec smallGrid [] idKernel (by decide) (by decide)
      3 2 (by decide) (by decide)⟩

/-- C3 (as stated, refuted): with 1 × 1 tiles, stride 262148 and a grid of
65537 × 1 tiles the byte extent `1 · 1 · 262148` fits 32 bits and the tile
created for cell `(65536, 0)` has its corner at
`0 · 1 · 262148 + 65536 · 1 · 4 = 262144`; its stored `x` is
`uint16_t(65536) = 0`, so `pixelPosition` is `(0, 0)` and
`pixelPosition.y * stride + pixelPosition.x * 4 = 0`. -/
theorem LaunchTiles_origin_differs_from_pixelPosition :
    wideGrid.h * wideSpec.h * wideSpec.stride < 4294967296 ∧
    65536 < wideGrid.w ∧ 0 < wideGrid.h ∧
    ∃ t, (LaunchTiles wideSpec wideGrid [] idKernel).outTiles[0 * wideGrid.w + 65536]?
        = some t ∧
      t.pixels = 0 * wideSpec.h * wideSpec.stride + 65536 * wideSpec.w * sizeofRGBA ∧
      t.pixels = 262144 ∧
      (pixelPosition wideSpec t).y * wideSpec.stride
        + (pixelPosition wideSpec t).x * sizeofRGBA = 0 := by
  refine ⟨by decide, by decide, by decide, tileAt wideSpec 65536 0, ?_, by decide, by decide,
    by decide⟩
  have h := LaunchTiles_getElem? wideSpec wideGrid [] idKernel 65536 (by decide)
  simpa [wideGrid] using h

/-- C3 (amended): when the byte extent `tilesY * h * stride` fits 32 bits and
`tilesX, tilesY ≤ 65536`, the tile created for grid cell `(tx, ty)` (the tile
at position `ty * tilesX + tx`) has its pixel pointer at byte offset
`ty * h * stride + tx * w * sizeof(RGBA)`, which equals
`pixelPosition(tile).y * stride + pixelPosition(tile).x * sizeof(RGBA)`. -/
theorem LaunchTiles_tile_origin {R : Type} (spec : TileSpec) (bufferTiles : Dims2U)
    (outTiles : List Tile2D) (func : TileSpec → TileRef → R)
    (hext : bufferTiles.h * spec.h * spec.stride < 4294967296)
    (hw16 : bufferTiles.w ≤ 65536) (hh16 : bufferTiles.h ≤ 65536)
    (tx ty : Nat) (htx : tx < bufferTiles.w) (hty : ty < bufferTiles.h) :
    ∃ t, (LaunchTiles spec bufferTiles outTiles func).outTiles[ty * bufferTiles.w + tx]?
        = some t ∧
      t.pixels = ty * spec.h * spec.stride + tx * spec.w * sizeofRGBA ∧
      t.pixels = (pixelPosition spec t).y * spec.stride
        + (pixelPosition spec t).x * sizeofRGBA := by
  have hidx := cell_index bufferTiles.w tx ty htx
  have hlt := cell_index_lt bufferTiles.w bufferTiles.h tx ty htx hty
  have hsw := spec.w_lt
  have hsh := spec.h_lt
  have hs := spec.stride_lt
  have hxw : tx * spec.w < 4294967296 := by
    have h1 : tx * spec.w ≤ 65535 * spec.w := Nat.mul_le_mul_right _ (by omega)
    omega
  have hyh : ty * spec.h < 4294967296 := by
    have h1 : ty * spec.h ≤ 65535 * spec.h := Nat.mul_le_mul_right _ (by omega)
    omega
  have h2 : ty * spec.h ≤ bufferTiles.h * spec.h := Nat.mul_le_mul_right _ (by omega)
  have h3 : ty * spec.h * spec.stride ≤ bufferTiles.h * spec.h * spec.stride :=
    Nat.mul_le_mul_right _ h2
  have hp : (tileAt spec tx ty).pixels
      = ty * spec.h * spec.stride + tx * spec.w * sizeofRGBA := by
    simp only [tileAt, tileCornerOffset, sizeofRGBA]
    rw [Nat.mod_eq_of_lt hxw, Nat.mod_eq_of_lt hyh,
      Nat.mod_eq_of_lt (a := ty * spec.h * spec.stride) (by omega),
      Nat.mod_eq_of_lt (a := tx * spec.w * 4) (by omega)]
  refine ⟨tileAt spec tx ty, ?_, hp, ?_⟩
  · rw [LaunchTiles_getElem? spec bufferTiles outTiles func _ hlt, hidx.1, hidx.2]
  · rw [hp]
    obtain ⟨hcx, hcy⟩ := tileAt_coords spec tx ty (by omega) (by omega)
    simp only [pixelPosition, hcx, hcy]
    rw [Nat.mul_comm spec.w tx, Nat.mul_comm spec.h ty, Nat.mod_eq_of_lt hxw,
      Nat.mod_eq_of_lt hyh]

/-- Instance of the amended C3 on a 3 × 2 grid of 2 × 2 tiles, cell `(2, 1)`. -/
theorem LaunchTiles_tile_origin_witness :
    smallGrid.h * smallSpec.h * smallSpec.stride < 4294967296 ∧
    smallGrid.w ≤ 65536 ∧ smallGrid.h ≤ 65536 ∧ 2 < smallGrid.w ∧ 1 < smallGrid.h ∧
    ∃ t, (LaunchTiles smallSpec smallGrid [] idKernel).outTiles[1 * smallGrid.w + 2]?
        = some t ∧
      t.pixels = 1 * smallSpec.h * smallSpec.stride + 2 * smallSpec.w * sizeofRGBA ∧
      t.pixels = (pixelPosition smallSpec t).y * smallSpec.stride
        + (pixelPosition smallSpec t).x * sizeofRGBA :=
  ⟨by decide, by decide, by decide, by decide, by decide,
    LaunchTiles_tile_origin smallSpec smallGrid [] idKernel (by decide) (by decide)
      (by decide) 2 1 (by decide) (by decide)⟩

/-- C4: whatever `outTiles` held before the call, afterwards it holds exactly
`tilesX * tilesY` tiles, and with `tilesX, tilesY ≤ 65536` the `k`-th tile has
grid coordinates `(k mod tilesX, k div tilesX)`. -/
theorem LaunchTiles_row_major {R : Type} (spec : TileSpec) (bufferTiles : Dims2U)
    (outTiles : List Tile2D) (func : TileSpec → TileRef → R) :
    (LaunchTiles spec bufferTiles outTiles func).outTiles.length
      = bufferTiles.w * bufferTiles.h ∧
    (bufferTiles.w ≤ 65536 → bufferTiles.h ≤ 65536 →
      ∀ k, k < bufferTiles.w * bufferTiles.h →
        ∃ t, (LaunchTiles spec bufferTiles outTiles func).outTiles[k]? = some t ∧
          t.x = k % bufferTiles.w ∧ t.y = k / bufferTiles.w) := by
  refine ⟨by rw [LaunchTiles_length, Nat.mul_comm], ?_⟩
  intro hw16 hh16 k hk
  rw [Nat.mul_comm] at hk
  have hw : 0 < bufferTiles.w := by
    rcases Nat.eq_zero_or_pos bufferTiles.w with h0 | h0
    · rw [h0] at hk; simp at hk
    · exact h0
  have hkx : k % bufferTiles.w < bufferTiles.w := Nat.mod_lt _ hw
  have hky : k / bufferTiles.w < bufferTiles.h :=
    Nat.div_lt_of_lt_mul (by rwa [Nat.mul_comm] at hk)
  obtain ⟨hcx, hcy⟩ := tileAt_coords spec (k % bufferTiles.w) (k / bufferTiles.w)
    (by omega) (by omega)
  exact ⟨_, LaunchTiles_getElem? spec bufferTiles outTiles func k hk, hcx, hcy⟩

/-- Instance of C4: a vector holding one stale tile is refilled with the six
tiles of a 3 × 2 grid, the tile at position 4 being `(1, 1)`. -/
theorem LaunchTiles_row_major_witness :
    smallGrid.w ≤ 65536 ∧ smallGrid.h ≤ 65536 ∧ 4 < smallGrid.w * smallGrid.h ∧
    ∃ t, (LaunchTiles smallSpec smallGrid [⟨99, 7, 7⟩] idKernel).outTiles[4]? = some t ∧
      t.x = 4 % smallGrid.w ∧ t.y = 4 / smallGrid.w :=
  ⟨by decide, by decide, by decide,
    (LaunchTiles_row_major smallSpec smallGrid [⟨99, 7, 7⟩] idKernel).2
      (by decide) (by decide) 4 (by decide)⟩

/-! ## Completion handles -/

/-- C5: for every grid and every kernel that returns its tile argument (`ret`
reads the returned `Tile2D&` off the value a future resolves to), the handle
sequence of `LaunchTiles` has exactly `tilesX * tilesY` entries and the `i`-th
handle resolves to the `i`-th element of the tile vector; the same holds for
the handles returned by `mandelbrotAsyncTiled`. -/
theorem LaunchTiles_handles_in_order {R : Type} (spec : TileSpec) (bufferTiles : Dims2U)
    (outTiles : List Tile2D) (func : TileSpec → TileRef → R) (ret : R → TileRef)
    (hret : ∀ s r, ret (func s r) = r)
    (left right top bottom : F32) (maxIters originalTransaction : Nat)
    (transaction : Nat → Nat → Nat) :
    ((LaunchTiles spec bufferTiles outTiles func).tasks.length
        = bufferTiles.w * bufferTiles.h ∧
      ∀ i, i < bufferTiles.w * bufferTiles.h →
        ∃ task t, (LaunchTiles spec bufferTiles outTiles func).tasks[i]? = some task ∧
          (LaunchTiles spec bufferTiles outTiles func).outTiles[i]? = some t ∧
          ret task = ⟨i, t⟩) ∧
    ((mandelbrotAsyncTiled left right top bottom maxIters originalTransaction transaction
          bufferTiles spec outTiles).tasks.length = bufferTiles.w * bufferTiles.h ∧
      ∀ i, i < bufferTiles.w * bufferTiles.h →
        ∃ task t,
          (mandelbrotAsyncTiled left right top bottom maxIters originalTransaction
            transaction bufferTiles spec outTiles).tasks[i]? = some task ∧
          (mandelbrotAsyncTiled left right top bottom maxIters originalTransaction
            transaction bufferTiles spec outTiles).outTiles[i]? = some t ∧
          task.tile = ⟨i, t⟩) := by
  refine ⟨⟨?_, ?_⟩, ⟨?_, ?_⟩⟩
  · simp [LaunchTiles_eq, launched, Nat.mul_comm]
  · intro i hi
    rw [Nat.mul_comm] at hi
    exact ⟨_, _, LaunchTiles_tasks_getElem? spec bufferTiles outTiles func i hi,
      LaunchTiles_getElem? spec bufferTiles outTiles func i hi, hret _ _⟩
  · simp [mandelbrotAsyncTiled, LaunchTiles_eq, launched, Nat.mul_comm]
  · intro i hi
    rw [Nat.mul_comm] at hi
    exact ⟨_, _, LaunchTiles_tasks_getElem? spec bufferTiles outTiles _ i hi,
      LaunchTiles_getElem? spec bufferTiles outTiles _ i hi, rfl⟩

/-- Instance of C5: the handle at position 4 of a 3 × 2 launch of the kernel
that returns its argument resolves to the tile at position 4. -/
theorem LaunchTiles_handles_in_order_witness :
    (∀ s r, id (idKernel s r) = r) ∧ 4 < smallGrid.w * smallGrid.h ∧
    ∃ task t, (LaunchTiles smallSpec smallGrid [] idKernel).tasks[4]? = some task ∧
      (LaunchTiles smallSpec smallGrid [] idKernel).outTiles[4]? = some t ∧
      id task = ⟨4, t⟩ :=
  ⟨fun _ _ => rfl, by decide,
    (LaunchTiles_handles_in_order smallSpec smallGrid [] idKernel id (fun _ _ => rfl)
      (F32.ofNat 0) (F32.ofNat 0) (F32.ofNat 0) (F32.ofNat 0) 1 0 (fun _ _ => 0)).1.2 4
      (by decide)⟩

/-! ## Slot selection -/

theorem and_one_eq_mod_two (n : Nat) : n &&& 1 = n % 2 := Nat.and_one_is_mod n

/-- C10: after a bump `t = ++zoomTransaction` the new generation uses slot
`t mod 2` and the previous generation's slot is `1 - t mod 2`, which is the
slot of the generation before the bump, also when the counter wraps from
65535 to 0; the first generation (`t = 0`) uses slot 0. -/
theorem selectSlots_alternate (zoomTransaction : Nat) :
    (selectSlots zoomTransaction).transaction = (zoomTransaction + 1) % 65536 ∧
    (selectSlots zoomTransaction).zoomLevel = (selectSlots zoomTransaction).transaction % 2 ∧
    (selectSlots zoomTransaction).lastZoomLevel
      = 1 - (selectSlots zoomTransaction).transaction % 2 ∧
    (selectSlots zoomTransaction).lastZoomLevel = currentSlot zoomTransaction ∧
    selectSlots 65535 = ⟨0, 0, 1⟩ ∧
    initialSlots.transaction = 0 ∧ initialSlots.zoomLevel = 0 ∧
    initialSlots.zoomLevel = currentSlot initialSlots.transaction := by
  refine ⟨rfl, ?_, ?_, ?_, by decide, rfl, rfl, by decide⟩
  · simp only [selectSlots, and_one_eq_mod_two]
  · simp only [selectSlots, and_one_eq_mod_two, preIncrement]
    omega
  · simp only [selectSlots, and_one_eq_mod_two, preIncrement, currentSlot]
    omega

/-! ## Single-precision rounding -/

namespace F32

theorem ulpExp_ge (v : Nat) : ∀ fuel k0, k0 ≤ ulpExp v fuel k0
  | 0, k0 => by simp [ulpExp]
  | fuel + 1, k0 => by
    unfold ulpExp
    split
    · exact le_refl _
    · exact Nat.le_trans (Nat.le_succ k0) (ulpExp_ge v fuel (k0 + 1))

/-- The exponent found is the start value, or the value is at least
`2^(23 + k)`. -/
theorem ulpExp_min (v : Nat) : ∀ fuel k0,
    ulpExp v fuel k0 = k0 ∨ 2 ^ (23 + ulpExp v fuel k0) ≤ v
  | 0, k0 => by simp [ulpExp]
  | fuel + 1, k0 => by
    unfold ulpExp
    split
    · exact Or.inl rfl
    · rename_i hlt
      right
      rcases ulpExp_min v fuel (k0 + 1) with h | h
      · rw [h]
        have : 23 + (k0 + 1) = 24 + k0 := by omega
        rw [this]
        omega
      · exact h

theorem div_le_roundHalfEven (a d : Nat) : a / d ≤ roundHalfEven a d := by
  unfold roundHalfEven
  split
  · exact le_refl _
  · split
    · omega
    · split <;> omega

theorem roundHalfEven_le (a d : Nat) : roundHalfEven a d ≤ a / d + 1 := by
  unfold roundHalfEven
  split
  · omega
  · split
    · omega
    · split <;> omega

/-- The magnitude of a rounded value, in units: between `v - 2^k` and
`v + 2^k` for the exponent `k` used, where `v = a / q`. -/
theorem round_units_bounds (a q k : Nat) :
    a / q < roundHalfEven a (q * 2 ^ k) * 2 ^ k + 2 ^ k ∧
    roundHalfEven a (q * 2 ^ k) * 2 ^ k ≤ a / q + 2 ^ k := by
  have hpos : 0 < 2 ^ k := Nat.two_pow_pos _
  have hdd : a / (q * 2 ^ k) = a / q / 2 ^ k := (Nat.div_div_eq_div_mul a q (2 ^ k)).symm
  have h1 := div_le_roundHalfEven a (q * 2 ^ k)
  have h2 := roundHalfEven_le a (q * 2 ^ k)
  rw [hdd] at h1 h2
  have h3 : a / q / 2 ^ k * 2 ^ k ≤ a / q := Nat.div_mul_le_self _ _
  have h4 : a / q < a / q / 2 ^ k * 2 ^ k + 2 ^ k := by
    have := Nat.div_add_mod (a / q) (2 ^ k)
    have hm := Nat.mod_lt (a / q) hpos
    rw [Nat.mul_comm] at this
    omega
  have h5 : a / q / 2 ^ k * 2 ^ k ≤ roundHalfEven a (q * 2 ^ k) * 2 ^ k :=
    Nat.mul_le_mul_right _ h1
  have h6 : roundHalfEven a (q * 2 ^ k) * 2 ^ k ≤ (a / q / 2 ^ k + 1) * 2 ^ k :=
    Nat.mul_le_mul_right _ h2
  rw [Nat.add_mul, Nat.one_mul] at h6
  omega

/-- Rounding a non-negative value below `2^200` units gives a finite number
that is at least half the value and at most twice the value plus one. -/
theorem round_nonneg (a q : Nat) (hv : a / q < 2 ^ 200) :
    ∃ n : Nat, round (a : Int) q = fin (n : Int) ∧ a / q ≤ 2 * n ∧ n ≤ 2 * (a / q) + 1 := by
  have hk := ulpExp_min (a / q) 254 0
  obtain ⟨hlo, hhi⟩ := round_units_bounds a q (ulpExp (a / q) 254 0)
  have hpos : 0 < 2 ^ (ulpExp (a / q) 254 0) := Nat.two_pow_pos _
  have hk2 : 2 ^ (ulpExp (a / q) 254 0) = 1 ∨
      2 ^ 23 * 2 ^ (ulpExp (a / q) 254 0) ≤ a / q := by
    rcases hk with h | h
    · left; rw [h]; rfl
    · right; rw [← Nat.pow_add]; exact h
  refine ⟨roundHalfEven a (q * 2 ^ (ulpExp (a / q) 254 0)) * 2 ^ (ulpExp (a / q) 254 0),
    ?_, ?_, ?_⟩
  · have hneg : ¬ ((a : Int) < 0) := by omega
    have hfin : ¬ (2 ^ 128 * one ≤
        roundHalfEven a (q * 2 ^ (ulpExp (a / q) 254 0)) * 2 ^ (ulpExp (a / q) 254 0)) := by
      have h200 : (2 : Nat) ^ 200 * 4 ≤ 2 ^ 128 * one := by decide
      rcases hk2 with h | h <;> omega
    simp only [round, Int.natAbs_ofNat, if_neg hfin, if_neg hneg]
  · rcases hk2 with h | h <;> omega
  · rcases hk2 with h | h <;> omega

/-- The conversion of a positive `unsigned` is a finite number of at least
`2^148` units (one half). -/
theorem ofNat_pos (m : Nat) (hm : 0 < m) (hm32 : m < 4294967296) :
    ∃ n : Nat, ofNat m = fin (n : Int) ∧ 2 ^ 148 ≤ n := by
  have hone : one = 2 ^ 149 := rfl
  have hv : m * one / 1 < 2 ^ 200 := by
    rw [Nat.div_one, hone]
    have : m * 2 ^ 149 < 4294967296 * 2 ^ 149 := Nat.mul_lt_mul_of_pos_right hm32 (by decide)
    have h2 : (4294967296 : Nat) * 2 ^ 149 < 2 ^ 200 := by decide
    omega
  obtain ⟨n, hn, hlo, _⟩ := round_nonneg (m * one) 1 hv
  refine ⟨n, hn, ?_⟩
  rw [Nat.div_one, hone] at hlo
  have h1 : 1 * 2 ^ 149 ≤ m * 2 ^ 149 := Nat.mul_le_mul_right _ hm
  have h3 : (2 : Nat) ^ 149 = 2 * 2 ^ 148 := by decide
  omega

theorem ofNat_255 : ofNat 255 = fin ((255 * one : Nat) : Int) := by decide

theorem ofNat_zero : ofNat 0 = fin 0 := by decide

/-- The quotient `255.0f / maxIters` is finite for every positive `unsigned` value. -/
theorem div_255_fin (m : Nat) (hm : 0 < m) (hm32 : m < 4294967296) :
    ∃ x : Nat, div (ofNat 255) (ofNat m) = fin (x : Int) := by
  obtain ⟨n, hn, hlo⟩ := ofNat_pos m hm hm32
  rw [hn, ofNat_255]
  have hn0 : ¬ ((n : Int) = 0) := by
    have : 0 < 2 ^ 148 := by decide
    omega
  have hnneg : ¬ ((n : Int) < 0) := by omega
  have hv : 255 * one * one / n < 2 ^ 200 := by
    have h1 : 255 * one * one / n ≤ 255 * one * one / 2 ^ 148 :=
      Nat.div_le_div_left hlo (by decide)
    have h2 : 255 * one * one / 2 ^ 148 < 2 ^ 200 := by decide
    omega
  obtain ⟨x, hx, _, _⟩ := round_nonneg (255 * one * one) n hv
  refine ⟨x, ?_⟩
  simp only [div, hn0, hnneg, if_false, Int.natAbs_ofNat]
  rw [← hx]
  congr 1

theorem mul_fin_zero (x : Int) : mul (fin x) (fin 0) = fin 0 := by
  simp only [mul, Int.mul_zero]
  decide

end F32

/-! ## The per-pixel computation -/

/-- What the iteration loop returns from `iter` on, when `z` is the orbit
point `z(iter)`: the least `n ≥ iter` with `z(n + 1)` meeting the divergence
test, or `iter + fuel` when there is none below it. -/
theorem escapeLoop_spec (c : Complex32) : ∀ fuel iter,
    iter ≤ escapeLoop c fuel iter (orbit c iter) ∧
    escapeLoop c fuel iter (orbit c iter) ≤ iter + fuel ∧
    (∀ n, iter ≤ n → n < escapeLoop c fuel iter (orbit c iter) →
      diverged (orbit c (n + 1)) = false) ∧
    (escapeLoop c fuel iter (orbit c iter) < iter + fuel →
      diverged (orbit c (escapeLoop c fuel iter (orbit c iter) + 1)) = true)
  | 0, iter => by
    simp only [escapeLoop]
    exact ⟨le_refl _, le_refl _, fun n h1 h2 => absurd h2 (by omega), fun h => absurd h (by omega)⟩
  | fuel + 1, iter => by
    have hstep : mandelStep c (orbit c iter) = orbit c (iter + 1) := rfl
    unfold escapeLoop
    rw [hstep]
    by_cases hd : diverged (orbit c (iter + 1)) = true
    · rw [if_pos hd]
      exact ⟨le_refl _, by omega, fun n h1 h2 => absurd h2 (by omega), fun _ => hd⟩
    · rw [if_neg hd]
      obtain ⟨h1, h2, h3, h4⟩ := escapeLoop_spec c fuel (iter + 1)
      refine ⟨by omega, by omega, ?_, ?_⟩
      · intro n hn1 hn2
        rcases Nat.eq_or_lt_of_le hn1 with heq | hlt
        · subst heq
          simpa using hd
        · exact h3 n hlt hn2
      · intro hlt
        exact h4 (by omega)

/-- C8 (as stated, refuted): for `c = 2 + 2i` and `maxIters = 7` the pixel
escapes on the first iteration (`iter = 0`) and `255 · (7 - 0) / 7 = 255`, but
the kernel's single-precision `255.0f / 7 * 7` is just below 255 and the
emitted pixel is `(254, 254, 254, 255)`. -/
theorem mandelbrotPixel_first_escape_not_white :
    0 < 7 ∧ diverged (orbit escapingC 1) = true ∧ escapeIter escapingC 7 = 0 ∧
    255 * (7 - escapeIter escapingC 7) / 7 = 255 ∧
    mandelbrotPixel escapingC 7 = ⟨254, 254, 254, 255⟩ := by
  decide

theorem greyOf_lt (maxIters iter : Nat) : greyOf maxIters iter < 256 := by
  unfold greyOf F32.toUInt8
  split
  · exact Nat.mod_lt _ (by decide)
  · decide

theorem greyOf_pow_two : ∀ k, k < 32 → greyOf (2 ^ k) 0 = 255 := by
  decide

/-- C8 (amended): for every `c` and `0 < maxIters < 2^32`, `iter` is the least
`n < maxIters` such that `z(n + 1)` meets the divergence test, or `maxIters`
if there is none; the emitted pixel is `(grey, grey, grey, 255)` where `grey`
is the byte truncation of the single-precision value
`(255.0f / maxIters) * (maxIters - iter)`, the division being done first; a
pixel that never escapes has the product exactly zero and is
`(0, 0, 0, 255)`, and a pixel that escapes on the first iteration is
`(255, 255, 255, 255)` when `maxIters` is a power of two. -/
theorem mandelbrotPixel_spec (c : Complex32) (maxIters : Nat)
    (hpos : 0 < maxIters) (h32 : maxIters < 4294967296) :
    escapeIter c maxIters ≤ maxIters ∧
    (∀ n, n < escapeIter c maxIters → diverged (orbit c (n + 1)) = false) ∧
    (escapeIter c maxIters < maxIters →
      diverged (orbit c (escapeIter c maxIters + 1)) = true) ∧
    mandelbrotPixel c maxIters
      = ⟨greyOf maxIters (escapeIter c maxIters), greyOf maxIters (escapeIter c maxIters),
          greyOf maxIters (escapeIter c maxIters), 255⟩ ∧
    greyOf maxIters (escapeIter c maxIters)
      = F32.toUInt8 (F32.mul (F32.div (F32.ofNat 255) (F32.ofNat maxIters))
          (F32.ofNat (maxIters - escapeIter c maxIters))) ∧
    (escapeIter c maxIters = maxIters →
      F32.mul (F32.div (F32.ofNat 255) (F32.ofNat maxIters))
          (F32.ofNat (maxIters - escapeIter c maxIters)) = F32.fin 0 ∧
      mandelbrotPixel c maxIters = ⟨0, 0, 0, 255⟩) ∧
    (escapeIter c maxIters = 0 → (∃ k, maxIters = 2 ^ k) →
      mandelbrotPixel c maxIters = ⟨255, 255, 255, 255⟩) := by
  obtain ⟨_, h2, h3, h4⟩ := escapeLoop_spec c maxIters 0
  have hpix : ∀ g, g < 256 → RGBA.ofUnsigned g g g 255 = ⟨g, g, g, 255⟩ := by
    intro g hg
    simp [RGBA.ofUnsigned, Nat.mod_eq_of_lt hg]
  have horb : orbit c 0 = ⟨F32.ofNat 0, F32.ofNat 0⟩ := rfl
  refine ⟨?_, ?_, ?_, ?_, rfl, ?_, ?_⟩
  · simpa [escapeIter, horb] using h2
  · intro n hn
    exact h3 n (Nat.zero_le _) (by simpa [escapeIter, horb] using hn)
  · intro hlt
    have := h4 (by simpa [escapeIter, horb] using hlt)
    simpa [escapeIter, horb] using this
  · exact hpix _ (greyOf_lt _ _)
  · intro heq
    obtain ⟨x, hx⟩ := F32.div_255_fin maxIters hpos h32
    have hprod : F32.mul (F32.div (F32.ofNat 255) (F32.ofNat maxIters))
        (F32.ofNat (maxIters - escapeIter c maxIters)) = F32.fin 0 := by
      rw [heq, Nat.sub_self, hx, F32.ofNat_zero, F32.mul_fin_zero]
    refine ⟨hprod, ?_⟩
    have hg : greyOf maxIters (escapeIter c maxIters) = 0 := by
      unfold greyOf
      rw [hprod]
      decide
    simp only [mandelbrotPixel, hg]
    decide
  · rintro heq ⟨k, rfl⟩
    have hk : k < 32 := by
      by_contra hge
      have : (2 : Nat) ^ 32 ≤ 2 ^ k := Nat.pow_le_pow_right (by decide) (by omega)
      have h232 : (2 : Nat) ^ 32 = 4294967296 := by decide
      omega
    have hg := greyOf_pow_two k hk
    simp only [mandelbrotPixel, heq, hg]
    decide

/-- Instance of the amended C8 for `c = 2 + 2i` and the GUI's
`maxIters = 64`. -/
theorem mandelbrotPixel_spec_witness :
    0 < 64 ∧ 64 < 4294967296 ∧
    escapeIter escapingC 64 ≤ 64 ∧
    (∀ n, n < escapeIter escapingC 64 → diverged (orbit escapingC (n + 1)) = false) ∧
    (escapeIter escapingC 64 < 64 →
      diverged (orbit escapingC (escapeIter escapingC 64 + 1)) = true) ∧
    mandelbrotPixel escapingC 64
      = ⟨greyOf 64 (escapeIter escapingC 64), greyOf 64 (escapeIter escapingC 64),
          greyOf 64 (escapeIter escapingC 64), 255⟩ ∧
    greyOf 64 (escapeIter escapingC 64)
      = F32.toUInt8 (F32.mul (F32.div (F32.ofNat 255) (F32.ofNat 64))
          (F32.ofNat (64 - escapeIter escapingC 64))) ∧
    (escapeIter escapingC 64 = 64 →
      F32.mul (F32.div (F32.ofNat 255) (F32.ofNat 64))
          (F32.ofNat (64 - escapeIter escapingC 64)) = F32.fin 0 ∧
      mandelbrotPixel escapingC 64 = ⟨0, 0, 0, 255⟩) ∧
    (escapeIter escapingC 64 = 0 → (∃ k, 64 = 2 ^ k) →
      mandelbrotPixel escapingC 64 = ⟨255, 255, 255, 255⟩) :=
  ⟨by decide, by decide, mandelbrotPixel_spec escapingC 64 (by decide) (by decide)⟩

/-! ## The stores of a kernel -/

theorem forLoop_collect {α : Type} (f : Nat → α) (n : Nat) :
    forLoop n (fun x acc => acc ++ [f x]) [] = (List.range n).map f := by
  induction n with
  | zero => simp [forLoop_zero]
  | succ n ih => rw [forLoop_succ, ih, List.range_succ, List.map_append]; rfl

theorem rowStores_eq (env : KernelEnv) (spec : TileSpec) (tile : Tile2D) (y : Nat) :
    rowStores env spec tile y = (List.range spec.w).map (pixelStore env spec tile y) :=
  forLoop_collect _ _

/-- The scanline loop emits the scanlines before the first read that differs
from the originating transaction, or all of them when there is none. -/
theorem scanlineLoop_prefix (env : KernelEnv) (spec : TileSpec) (ref : TileRef) :
    ∀ fuel y0 k, k ≤ fuel →
      (∀ j, j < k → env.transaction ref.index (y0 + j) = env.originalTransaction) →
      (k = fuel ∨ env.transaction ref.index (y0 + k) ≠ env.originalTransaction) →
      scanlineLoop env spec ref fuel y0
        = (List.range k).flatMap (fun j => rowStores env spec ref.tile (y0 + j))
  | 0, y0, k, hk, _, _ => by
    have : k = 0 := by omega
    subst this
    simp [scanlineLoop]
  | fuel + 1, y0, 0, _, _, hstop => by
    have h : env.transaction ref.index y0 ≠ env.originalTransaction := by
      rcases hstop with h | h
      · omega
      · simpa using h
    simp [scanlineLoop, h]
  | fuel + 1, y0, k + 1, hk, hpre, hstop => by
    have h0 : env.transaction ref.index y0 = env.originalTransaction := by
      simpa using hpre 0 (by omega)
    have ih := scanlineLoop_prefix env spec ref fuel (y0 + 1) k (by omega)
      (fun j hj => by
        have := hpre (j + 1) (by omega)
        rwa [show y0 + (j + 1) = y0 + 1 + j by omega] at this)
      (by
        rcases hstop with h | h
        · left; omega
        · right; rwa [show y0 + (k + 1) = y0 + 1 + k by omega] at h)
    unfold scanlineLoop
    rw [if_neg (by simpa using h0), ih, List.range_succ_eq_map, List.flatMap_cons,
      List.flatMap_map]
    congr 1
    apply List.flatMap_congr
    intro j _
    simp only [Function.comp, Nat.succ_eq_add_one]
    congr 1
    omega

/-- The stores of a kernel that reads a superseding transaction first before
scanline `k`, or never (`k = spec.h`): the pixels of scanlines `0 .. k - 1`. -/
theorem mem_kernel_stores (env : KernelEnv) (spec : TileSpec) (ref : TileRef) (k : Nat)
    (hk : k ≤ spec.h)
    (hpre : ∀ j, j < k → env.transaction ref.index j = env.originalTransaction)
    (hstop : k = spec.h ∨ env.transaction ref.index k ≠ env.originalTransaction)
    (s : Store) :
    s ∈ (mandelbrotKernel env spec ref).stores ↔
      ∃ y x, y < k ∧ x < spec.w ∧ s = pixelStore env spec ref.tile y x := by
  have h := scanlineLoop_prefix env spec ref spec.h 0 k hk
    (fun j hj => by simpa using hpre j hj) (by simpa using hstop)
  simp only [mandelbrotKernel, h, List.mem_flatMap, List.mem_range, rowStores_eq,
    List.mem_map, Nat.zero_add]
  constructor
  · rintro ⟨y, hy, x, hx, rfl⟩
    exact ⟨y, x, hy, hx, rfl⟩
  · rintro ⟨y, x, hy, hx, rfl⟩
    exact ⟨y, hy, x, hx, rfl⟩

/-! ## The effect of stores on memory -/

theorem storeRGBA_apply (mem : Memory) (s : Store) (b : Nat) :
    storeRGBA mem s b = if s.addr ≤ b ∧ b < s.addr + 4 then s.byteAt b else mem b := by
  unfold storeRGBA Store.byteAt
  by_cases h0 : b = s.addr
  · simp [h0]
  by_cases h1 : b = s.addr + 1
  · simp [h1]
  by_cases h2 : b = s.addr + 2
  · simp [h2]
  by_cases h3 : b = s.addr + 3
  · simp [h3]
  have hn : ¬ (s.addr ≤ b ∧ b < s.addr + 4) := by omega
  simp [h0, h1, h2, h3, hn]

theorem covers_iff (s : Store) (b : Nat) : s.covers b ↔ s.addr ≤ b ∧ b < s.addr + 4 :=
  Iff.rfl

/-- A byte no store covers is unchanged. -/
theorem runStores_of_not_covered (b : Nat) : ∀ (stores : List Store) (mem : Memory),
    (∀ s ∈ stores, ¬ s.covers b) → runStores stores mem b = mem b
  | [], mem, _ => rfl
  | s :: rest, mem, h => by
    have hs : ¬ s.covers b := h s (List.mem_cons_self _ _)
    have ih := runStores_of_not_covered b rest (storeRGBA mem s)
      (fun t ht => h t (List.mem_cons_of_mem _ ht))
    simp only [runStores, List.foldl_cons] at ih ⊢
    rw [ih, storeRGBA_apply, if_neg ((covers_iff s b).not.mp hs)]

/-- A byte on which all the stores covering it agree ends with that value,
whatever the order of the stores. -/
theorem runStores_of_agree (b v : Nat) : ∀ (stores : List Store) (mem : Memory),
    (∀ s ∈ stores, s.covers b → s.byteAt b = v) →
    (mem b = v ∨ ∃ s ∈ stores, s.covers b) → runStores stores mem b = v
  | [], mem, _, h => by
    rcases h with h | ⟨s, hs, _⟩
    · exact h
    · simp at hs
  | s :: rest, mem, hall, h => by
    simp only [runStores, List.foldl_cons]
    apply runStores_of_agree b v rest (storeRGBA mem s)
      (fun t ht => hall t (List.mem_cons_of_mem _ ht))
    rw [storeRGBA_apply]
    by_cases hc : s.addr ≤ b ∧ b < s.addr + 4
    · left
      rw [if_pos hc]
      exact hall s (List.mem_cons_self _ _) hc
    · rw [if_neg hc]
      rcases h with h | ⟨t, ht, htc⟩
      · exact Or.inl h
      · right
        rcases List.mem_cons.mp ht with rfl | ht'
        · exact absurd htc hc
        · exact ⟨t, ht', htc⟩

theorem loadRGBA_of_bytes (mem : Memory) (s : Store)
    (h : ∀ j, j < 4 → mem (s.addr + j) = s.byteAt (s.addr + j)) :
    loadRGBA mem s.addr = s.value := by
  have h0 := h 0 (by decide)
  have h1 := h 1 (by decide)
  have h2 := h 2 (by decide)
  have h3 := h 3 (by decide)
  simp only [Store.byteAt, Nat.add_zero, if_true] at h0
  have e1 : ¬ (s.addr + 1 = s.addr) := by omega
  have e2 : ¬ (s.addr + 2 = s.addr) := by omega
  have e21 : ¬ (s.addr + 2 = s.addr + 1) := by omega
  have e3 : ¬ (s.addr + 3 = s.addr) := by omega
  have e31 : ¬ (s.addr + 3 = s.addr + 1) := by omega
  have e32 : ¬ (s.addr + 3 = s.addr + 2) := by omega
  simp only [Store.byteAt, e1, e2, e21, e3, e31, e32, if_false, if_true] at h1 h2 h3
  simp only [loadRGBA, h0, h1, h2, h3]

/-! ## Cancellation -/

/-- Without wrap-around in `spec.stride * y`, scanline `y` of a tile starts
`y` strides after the tile's first pixel. -/
theorem addressRow_eq (spec : TileSpec) (tile : Tile2D) (y : Nat) (hy : y < spec.h)
    (hext : spec.h * spec.stride < 4294967296) :
    addressRow spec tile y = tile.pixels + spec.stride * y := by
  have h1 : spec.stride * y ≤ spec.stride * spec.h := Nat.mul_le_mul_left _ (by omega)
  rw [Nat.mul_comm spec.stride spec.h] at h1
  unfold addressRow
  rw [Nat.mod_eq_of_lt (by omega)]

/-- Scanlines of one tile do not share bytes when a scanline fits the stride
and `spec.stride * y` does not wrap. -/
theorem row_unique (spec : TileSpec) (tile : Tile2D)
    (hrow : spec.w * sizeofRGBA ≤ spec.stride)
    (hext : spec.h * spec.stride < 4294967296)
    (y1 y2 : Nat) (hy1 : y1 < spec.h) (hy2 : y2 < spec.h) (b : Nat)
    (h1 : addressRow spec tile y1 ≤ b ∧ b < addressRow spec tile y1 + spec.w * sizeofRGBA)
    (h2 : addressRow spec tile y2 ≤ b ∧ b < addressRow spec tile y2 + spec.w * sizeofRGBA) :
    y1 = y2 := by
  rw [addressRow_eq spec tile y1 hy1 hext] at h1
  rw [addressRow_eq spec tile y2 hy2 hext] at h2
  rcases Nat.lt_trichotomy y1 y2 with hlt | heq | hgt
  · have := Nat.mul_le_mul_left spec.stride (Nat.succ_le_of_lt hlt)
    rw [Nat.mul_succ] at this
    omega
  · exact heq
  · have := Nat.mul_le_mul_left spec.stride (Nat.succ_le_of_lt hgt)
    rw [Nat.mul_succ] at this
    omega

theorem pixelStore_covers_row (env : KernelEnv) (spec : TileSpec) (tile : Tile2D)
    (y x : Nat) (hx : x < spec.w) (b : Nat)
    (hb : (pixelStore env spec tile y x).covers b) :
    addressRow spec tile y ≤ b ∧ b < addressRow spec tile y + spec.w * sizeofRGBA := by
  simp only [Store.covers, pixelStore, sizeofRGBA] at hb ⊢
  omega

/-- Two pixel stores of one tile that cover a common byte are the store of
the same pixel. -/
theorem pixelStore_unique (env : KernelEnv) (spec : TileSpec) (tile : Tile2D)
    (hrow : spec.w * sizeofRGBA ≤ spec.stride)
    (hext : spec.h * spec.stride < 4294967296)
    (y1 x1 y2 x2 : Nat) (hy1 : y1 < spec.h) (hx1 : x1 < spec.w)
    (hy2 : y2 < spec.h) (hx2 : x2 < spec.w) (b : Nat)
    (h1 : (pixelStore env spec tile y1 x1).covers b)
    (h2 : (pixelStore env spec tile y2 x2).covers b) : y1 = y2 ∧ x1 = x2 := by
  have hy := row_unique spec tile hrow hext y1 y2 hy1 hy2 b
    (pixelStore_covers_row env spec tile y1 x1 hx1 b h1)
    (pixelStore_covers_row env spec tile y2 x2 hx2 b h2)
  subst hy
  refine ⟨rfl, ?_⟩
  simp only [Store.covers, pixelStore, sizeofRGBA] at h1 h2
  omega

/-- C6 (as stated, refuted): a tile of 1 × 4 pixels with stride `2^31`
(`stride ≥ w * pixelSize`) whose kernel first reads a superseding transaction
before scanline `k = 3`.  The product `stride * y` wraps, so the kernel
addresses scanline 2 at the bytes of scanline 0 and scanline 3 at the bytes
of scanline 1.  Afterwards byte `2^31 + 3`, which `addressRow` gives to
scanline 3, holds the alpha 255 written for scanline 1 instead of its prior
0, and byte `2 · 2^31 + 3`, the alpha of scanline 2 at `origin + 2 * stride`,
still holds its prior 0 although `2 < k`. -/
theorem mandelbrotKernel_cancel_aliased_row :
    0 < tallSpec.w ∧ 0 < tallSpec.h ∧ tallSpec.w * sizeofRGBA ≤ tallSpec.stride ∧
    3 < tallSpec.h ∧
    (∀ j, j < 3 → (plainEnv unitGrid 3).transaction 0 j
      = (plainEnv unitGrid 3).originalTransaction) ∧
    (plainEnv unitGrid 3).transaction 0 3 ≠ (plainEnv unitGrid 3).originalTransaction ∧
    addressRow tallSpec ⟨0, 0, 0⟩ 3 ≤ 2147483648 + 3 ∧
    2147483648 + 3 < addressRow tallSpec ⟨0, 0, 0⟩ 3 + tallSpec.w * sizeofRGBA ∧
    zeroMemory (2147483648 + 3) = 0 ∧
    runStores (mandelbrotKernel (plainEnv unitGrid 3) tallSpec ⟨0, ⟨0, 0, 0⟩⟩).stores
      zeroMemory (2147483648 + 3) = 255 ∧
    (mandelbrotPixel
      ⟨coordI (plainEnv unitGrid 3) tallSpec ⟨0, 0, 0⟩ 0,
       coordJ (plainEnv unitGrid 3) tallSpec ⟨0, 0, 0⟩ 2⟩ 1).a = 255 ∧
    runStores (mandelbrotKernel (plainEnv unitGrid 3) tallSpec ⟨0, ⟨0, 0, 0⟩⟩).stores
      zeroMemory (0 + 2 * tallSpec.stride + 3) = 0 := by
  decide

/-- C6 (amended): if `k < h` is the first scanline index before which the
kernel reads a transaction different from its originating one, the kernel
returns its tile; when `k = 0` it makes no store at all; and for a tile whose
scanlines do not alias (`w * pixelSize ≤ stride` and `h * stride` fits 32
bits) every pixel of scanlines `0 .. k - 1` holds the value computed for it
and every byte of scanlines `k .. h - 1` keeps its prior content. -/
theorem mandelbrotKernel_cancel (env : KernelEnv) (spec : TileSpec) (ref : TileRef)
    (k : Nat) (mem : Memory) (hk : k < spec.h)
    (hpre : ∀ j, j < k → env.transaction ref.index j = env.originalTransaction)
    (hstop : env.transaction ref.index k ≠ env.originalTransaction) :
    (mandelbrotKernel env spec ref).tile = ref ∧
    (k = 0 → (mandelbrotKernel env spec ref).stores = []) ∧
    (spec.w * sizeofRGBA ≤ spec.stride → spec.h * spec.stride < 4294967296 →
      (∀ y x, y < k → x < spec.w →
        loadRGBA (runStores (mandelbrotKernel env spec ref).stores mem)
            (addressRow spec ref.tile y + x * sizeofRGBA)
          = mandelbrotPixel ⟨coordI env spec ref.tile x, coordJ env spec ref.tile y⟩
              env.maxIters) ∧
      (∀ y b, k ≤ y → y < spec.h → addressRow spec ref.tile y ≤ b →
        b < addressRow spec ref.tile y + spec.w * sizeofRGBA →
        runStores (mandelbrotKernel env spec ref).stores mem b = mem b)) := by
  have hmem := mem_kernel_stores env spec ref k (by omega) hpre (Or.inr hstop)
  refine ⟨rfl, ?_, ?_⟩
  · intro h0
    subst h0
    apply List.eq_nil_iff_forall_not_mem.mpr
    intro s hs
    obtain ⟨y, _, hy, _⟩ := (hmem s).mp hs
    omega
  · intro hrow hext
    constructor
    · intro y x hy hx
      have hsmem : pixelStore env spec ref.tile y x ∈ (mandelbrotKernel env spec ref).stores :=
        (hmem _).mpr ⟨y, x, hy, hx, rfl⟩
      have := loadRGBA_of_bytes (runStores (mandelbrotKernel env spec ref).stores mem)
        (pixelStore env spec ref.tile y x) (by
          intro j hj
          apply runStores_of_agree
          · intro s hs hc
            obtain ⟨y', x', hy', hx', rfl⟩ := (hmem s).mp hs
            have hself : (pixelStore env spec ref.tile y x).covers
                ((pixelStore env spec ref.tile y x).addr + j) := by
              simp only [Store.covers, sizeofRGBA]; omega
            obtain ⟨e1, e2⟩ := pixelStore_unique env spec ref.tile hrow hext y' x' y x
              (by omega) hx' (by omega) hx _ hc hself
            rw [e1, e2]
          · right
            refine ⟨_, hsmem, ?_⟩
            simp only [Store.covers, sizeofRGBA]; omega)
      exact this
    · intro y b hky hy hlo hhi
      apply runStores_of_not_covered
      intro s hs hc
      obtain ⟨y', x', hy', hx', rfl⟩ := (hmem s).mp hs
      have := row_unique spec ref.tile hrow hext y' y (by omega) hy b
        (pixelStore_covers_row env spec ref.tile y' x' hx' b hc) ⟨hlo, hhi⟩
      omega

/-- Instance of the amended C6: tile `(0, 0)` of 2 × 2 pixels, superseded before
scanline 1. -/
theorem mandelbrotKernel_cancel_witness :
    1 < smallSpec.h ∧
    (∀ j, j < 1 → (plainEnv smallGrid 1).transaction 0 j
      = (plainEnv smallGrid 1).originalTransaction) ∧
    (plainEnv smallGrid 1).transaction 0 1 ≠ (plainEnv smallGrid 1).originalTransaction ∧
    (mandelbrotKernel (plainEnv smallGrid 1) smallSpec ⟨0, ⟨0, 0, 0⟩⟩).tile
      = ⟨0, ⟨0, 0, 0⟩⟩ ∧
    (1 = 0 → (mandelbrotKernel (plainEnv smallGrid 1) smallSpec ⟨0, ⟨0, 0, 0⟩⟩).stores = []) ∧
    (smallSpec.w * sizeofRGBA ≤ smallSpec.stride →
      smallSpec.h * smallSpec.stride < 4294967296 →
      (∀ y x, y < 1 → x < smallSpec.w →
        loadRGBA (runStores
              (mandelbrotKernel (plainEnv smallGrid 1) smallSpec ⟨0, ⟨0, 0, 0⟩⟩).stores
              zeroMemory)
            (addressRow smallSpec (⟨0, ⟨0, 0, 0⟩⟩ : TileRef).tile y + x * sizeofRGBA)
          = mandelbrotPixel
              ⟨coordI (plainEnv smallGrid 1) smallSpec (⟨0, ⟨0, 0, 0⟩⟩ : TileRef).tile x,
               coordJ (plainEnv smallGrid 1) smallSpec (⟨0, ⟨0, 0, 0⟩⟩ : TileRef).tile y⟩
              (plainEnv smallGrid 1).maxIters) ∧
      (∀ y b, 1 ≤ y → y < smallSpec.h →
        addressRow smallSpec (⟨0, ⟨0, 0, 0⟩⟩ : TileRef).tile y ≤ b →
        b < addressRow smallSpec (⟨0, ⟨0, 0, 0⟩⟩ : TileRef).tile y
            + smallSpec.w * sizeofRGBA →
        runStores (mandelbrotKernel (plainEnv smallGrid 1) smallSpec ⟨0, ⟨0, 0, 0⟩⟩).stores
          zeroMemory b = zeroMemory b)) :=
  ⟨by decide, by decide, by decide,
    mandelbrotKernel_cancel (plainEnv smallGrid 1) smallSpec ⟨0, ⟨0, 0, 0⟩⟩ 1 zeroMemory
      (by decide) (by decide) (by decide)⟩

/-! ## Coordinate mapping -/

/-- While the reads give the originating transaction, the scanline loop emits
whole scanlines and goes on. -/
theorem scanlineLoop_split (env : KernelEnv) (spec : TileSpec) (ref : TileRef) :
    ∀ fuel y0 n, n ≤ fuel →
      (∀ j, j < n → env.transaction ref.index (y0 + j) = env.originalTransaction) →
      scanlineLoop env spec ref fuel y0
        = (List.range n).flatMap (fun j => rowStores env spec ref.tile (y0 + j))
          ++ scanlineLoop env spec ref (fuel - n) (y0 + n)
  | fuel, y0, 0, _, _ => by simp
  | 0, y0, n + 1, hn, _ => by omega
  | fuel + 1, y0, n + 1, hn, hpre => by
    have h0 : env.transaction ref.index y0 = env.originalTransaction := by
      simpa using hpre 0 (by omega)
    have ih := scanlineLoop_split env spec ref fuel (y0 + 1) n (by omega)
      (fun j hj => by
        have := hpre (j + 1) (by omega)
        rwa [show y0 + (j + 1) = y0 + 1 + j by omega] at this)
    have e1 : fuel + 1 - (n + 1) = fuel - n := by omega
    have e2 : y0 + (n + 1) = y0 + 1 + n := by omega
    rw [e1, e2]
    conv => lhs; unfold scanlineLoop
    rw [if_neg (by simpa using h0), ih, List.range_succ_eq_map, List.flatMap_cons,
      List.flatMap_map, List.append_assoc]
    congr 2
    apply List.flatMap_congr
    intro j _
    simp only [Function.comp, Nat.succ_eq_add_one]
    congr 1
    omega

/-- Element `y * w + x` of `n` concatenated rows of `w` elements each. -/
theorem getElem?_rows {α : Type} (f : Nat → Nat → α) (w : Nat) :
    ∀ n y x, y < n → x < w →
      ((List.range n).flatMap (fun j => (List.range w).map (f j)))[y * w + x]?
        = some (f y x)
  | 0, y, x, hy, _ => by omega
  | n + 1, y, x, hy, hx => by
    have hlen : ∀ m, ((List.range m).flatMap (fun j => (List.range w).map (f j))).length
        = m * w := by
      intro m
      induction m with
      | zero => simp
      | succ m ih => rw [List.range_succ, List.flatMap_append, List.length_append, ih]; simp [Nat.succ_mul]
    rw [List.range_succ, List.flatMap_append]
    rcases Nat.eq_or_lt_of_le (Nat.le_of_lt_succ hy) with heq | hlt
    · subst heq
      rw [List.getElem?_append_right (by rw [hlen]; omega), hlen]
      simp [List.getElem?_range hx]
    · have hidx : y * w + x < n * w := cell_index_lt w n x y hx hlt
      rw [List.getElem?_append_left (by rw [hlen]; exact hidx)]
      exact getElem?_rows f w n y x hlt hx

/-- The store a kernel makes for tile-local pixel `(x, y)`, when its reads up
to scanline `y` give the originating transaction, is store number
`y * w + x`. -/
theorem kernel_store_at (env : KernelEnv) (spec : TileSpec) (ref : TileRef)
    (x y : Nat) (hx : x < spec.w) (hy : y < spec.h)
    (hreads : ∀ j, j ≤ y → env.transaction ref.index j = env.originalTransaction) :
    (mandelbrotKernel env spec ref).stores[y * spec.w + x]?
      = some (pixelStore env spec ref.tile y x) := by
  have h := scanlineLoop_split env spec ref spec.h 0 (y + 1) (by omega)
    (fun j hj => by simpa using hreads j (by omega))
  simp only [Nat.zero_add, rowStores_eq] at h
  have hrows := getElem?_rows (fun j => pixelStore env spec ref.tile j) spec.w (y + 1) y x
    (by omega) hx
  have hlt : y * spec.w + x
      < ((List.range (y + 1)).flatMap
          (fun j => (List.range spec.w).map (pixelStore env spec ref.tile j))).length := by
    have := List.getElem?_eq_some_iff.mp hrows
    exact this.1
  simp only [mandelbrotKernel, h]
  rw [List.getElem?_append_left hlt]
  exact hrows

/-- The absolute framebuffer coordinate `pixelPosition + offset` of a tile
with 16-bit grid coordinates does not wrap. -/
theorem framebuffer_coord (a t o : Nat) (ha : a < 65536) (ht : t < 65536) (ho : o < a) :
    (a * t % 4294967296 + o) % 4294967296 = t * a + o := by
  have h1 : a * t ≤ 65535 * 65535 := Nat.mul_le_mul (by omega) (by omega)
  rw [Nat.mod_eq_of_lt (a := a * t) (by omega), Nat.mod_eq_of_lt (by omega), Nat.mul_comm]

/-- C9 (as stated, refuted): with `left = -253`, `right = 257`,
`top = bottom = 2`, one iteration, 7 × 1 tiles and a grid of 2 × 1 tiles
(`fbW = 14`), pixel `(0, 0)` of tile `(1, 0)` has `px = 7`, so the stated
coordinate is `(-253 + 510 · 7 / 14, 2) = (2, 2)`, whose pixel is white; the
kernel computes `-253 + (510 / 14) · 7`, which in single precision is just
below 2, does not meet the divergence test, and stores a black pixel. -/
theorem mandelbrotKernel_coordinate_order :
    1 < pairGrid.w * pairGrid.h ∧ 0 < sevenSpec.w ∧ 0 < sevenSpec.h ∧
    (mandelbrotAsyncTiled minus253 (F32.ofNat 257) (F32.ofNat 2) (F32.ofNat 2) 1 0
        neverSuperseded pairGrid sevenSpec []).outTiles[1]? = some ⟨28, 1, 0⟩ ∧
    (pixelDims sevenSpec pairGrid).w = 14 ∧ (pixelDims sevenSpec pairGrid).h = 1 ∧
    F32.add minus253
        (F32.div (F32.mul (F32.sub (F32.ofNat 257) minus253) (F32.ofNat (1 * 7 + 0)))
          (F32.ofNat 14)) = F32.ofNat 2 ∧
    F32.add (F32.ofNat 2)
        (F32.div (F32.mul (F32.sub (F32.ofNat 2) (F32.ofNat 2)) (F32.ofNat (0 * 1 + 0)))
          (F32.ofNat 1)) = F32.ofNat 2 ∧
    mandelbrotPixel ⟨F32.ofNat 2, F32.ofNat 2⟩ 1 = ⟨255, 255, 255, 255⟩ ∧
    F32.add minus253
        (F32.mul (F32.div (F32.sub (F32.ofNat 257) minus253) (F32.ofNat 14))
          (F32.ofNat (1 * 7 + 0))) ≠ F32.ofNat 2 ∧
    ((mandelbrotAsyncTiled minus253 (F32.ofNat 257) (F32.ofNat 2) (F32.ofNat 2) 1 0
        neverSuperseded pairGrid sevenSpec []).tasks.map (fun task => task.stores[0]?))[1]?
      = some (some ⟨28, ⟨0, 0, 0, 255⟩⟩) := by
  decide

/-- C9 (amended): for the tile at position `k` of the vector, with stored grid
coordinates `(tx, ty)`, and every tile-local pixel `(x, y)` with `x < w`,
`y < h` that the kernel reaches, the pixel stored at
`addressRow(y) + x * sizeof(RGBA)` is the one computed for
`c = (left + ((right - left) / fbW) * px, top + ((bottom - top) / fbH) * py)`,
each operation rounded to single precision in this order, where
`px = tx * w + x`, `py = ty * h + y` and `(fbW, fbH)` is what `pixelDims`
returns, which is `(w * tilesX, h * tilesY)` when these fit 32 bits. -/
theorem mandelbrotKernel_pixel_coordinate (left right top bottom : F32)
    (maxIters originalTransaction : Nat) (transaction : Nat → Nat → Nat)
    (tileGridDims : Dims2U) (spec : TileSpec) (tiles : List Tile2D)
    (k x y : Nat) (hk : k < tileGridDims.w * tileGridDims.h)
    (hx : x < spec.w) (hy : y < spec.h)
    (hreads : ∀ j, j ≤ y → transaction k j = originalTransaction) :
    ∃ task t,
      (mandelbrotAsyncTiled left right top bottom maxIters originalTransaction transaction
        tileGridDims spec tiles).tasks[k]? = some task ∧
      (mandelbrotAsyncTiled left right top bottom maxIters originalTransaction transaction
        tileGridDims spec tiles).outTiles[k]? = some t ∧
      task.stores[y * spec.w + x]?
        = some ⟨addressRow spec t y + x * sizeofRGBA,
            mandelbrotPixel
              ⟨F32.add left
                (F32.mul (F32.div (F32.sub right left)
                    (F32.ofNat (pixelDims spec tileGridDims).w))
                  (F32.ofNat (t.x * spec.w + x))),
               F32.add top
                (F32.mul (F32.div (F32.sub bottom top)
                    (F32.ofNat (pixelDims spec tileGridDims).h))
                  (F32.ofNat (t.y * spec.h + y)))⟩
              maxIters⟩ ∧
      (spec.w * tileGridDims.w < 4294967296 →
        (pixelDims spec tileGridDims).w = spec.w * tileGridDims.w) ∧
      (spec.h * tileGridDims.h < 4294967296 →
        (pixelDims spec tileGridDims).h = spec.h * tileGridDims.h) := by
  rw [Nat.mul_comm] at hk
  refine ⟨_, _, LaunchTiles_tasks_getElem? spec tileGridDims tiles _ k hk,
    LaunchTiles_getElem? spec tileGridDims tiles _ k hk, ?_,
    fun h => Nat.mod_eq_of_lt h, fun h => Nat.mod_eq_of_lt h⟩
  rw [kernel_store_at _ spec ⟨k, _⟩ x y hx hy hreads]
  have hw := spec.w_lt
  have hh := spec.h_lt
  have htx : (tileAt spec (k % tileGridDims.w) (k / tileGridDims.w)).x < 65536 :=
    Nat.mod_lt _ (by decide)
  have hty : (tileAt spec (k % tileGridDims.w) (k / tileGridDims.w)).y < 65536 :=
    Nat.mod_lt _ (by decide)
  simp only [pixelStore, coordI, coordJ, pixelPosition,
    framebuffer_coord spec.w _ x hw htx hx, framebuffer_coord spec.h _ y hh hty hy]

/-- Instance of the amended C9: pixel `(1, 1)` of the tile at position 4 of a
3 × 2 grid of 2 × 2 tiles. -/
theorem mandelbrotKernel_pixel_coordinate_witness :
    4 < smallGrid.w * smallGrid.h ∧ 1 < smallSpec.w ∧ 1 < smallSpec.h ∧
    (∀ j, j ≤ 1 → neverSuperseded 4 j = 0) ∧
    ∃ task t,
      (mandelbrotAsyncTiled minus253 (F32.ofNat 257) (F32.ofNat 2) (F32.ofNat 2) 1 0
        neverSuperseded smallGrid smallSpec []).tasks[4]? = some task ∧
      (mandelbrotAsyncTiled minus253 (F32.ofNat 257) (F32.ofNat 2) (F32.ofNat 2) 1 0
        neverSuperseded smallGrid smallSpec []).outTiles[4]? = some t ∧
      task.stores[1 * smallSpec.w + 1]?
        = some ⟨addressRow smallSpec t 1 + 1 * sizeofRGBA,
            mandelbrotPixel
              ⟨F32.add minus253
                (F32.mul (F32.div (F32.sub (F32.ofNat 257) minus253)
                    (F32.ofNat (pixelDims smallSpec smallGrid).w))
                  (F32.ofNat (t.x * smallSpec.w + 1))),
               F32.add (F32.ofNat 2)
                (F32.mul (F32.div (F32.sub (F32.ofNat 2) (F32.ofNat 2))
                    (F32.ofNat (pixelDims smallSpec smallGrid).h))
                  (F32.ofNat (t.y * smallSpec.h + 1)))⟩
              1⟩ ∧
      (smallSpec.w * smallGrid.w < 4294967296 →
        (pixelDims smallSpec smallGrid).w = smallSpec.w * smallGrid.w) ∧
      (smallSpec.h * smallGrid.h < 4294967296 →
        (pixelDims smallSpec smallGrid).h = smallSpec.h * smallGrid.h) :=
  ⟨by decide, by decide, by decide, fun _ _ => rfl,
    mandelbrotKernel_pixel_coordinate minus253 (F32.ofNat 257) (F32.ofNat 2) (F32.ofNat 2) 1 0
      neverSuperseded smallGrid smallSpec [] 4 1 1 (by decide) (by decide) (by decide)
      (fun _ _ => rfl)⟩

/-! ## Determinism -/

/-- The stores of a tiled Mandelbrot run that is never superseded: one per
pixel of every tile. -/
theorem mem_allStores (left right top bottom : F32) (maxIters originalTransaction : Nat)
    (transaction : Nat → Nat → Nat) (tileGridDims : Dims2U) (spec : TileSpec)
    (tiles : List Tile2D) (hnever : ∀ i n, transaction i n = originalTransaction)
    (s : Store) :
    s ∈ allStores (mandelbrotAsyncTiled left right top bottom maxIters originalTransaction
        transaction tileGridDims spec tiles) ↔
      ∃ X Y y x, X < tileGridDims.w ∧ Y < tileGridDims.h ∧ y < spec.h ∧ x < spec.w ∧
        s = pixelStore ⟨left, right, top, bottom, maxIters, pixelDims spec tileGridDims,
              originalTransaction, transaction⟩ spec (tileAt spec X Y) y x := by
  simp only [allStores, mandelbrotAsyncTiled, LaunchTiles_eq, launched, List.mem_flatMap,
    List.mem_map, List.mem_range]
  constructor
  · rintro ⟨task, ⟨k, hk, rfl⟩, hs⟩
    have hw : 0 < tileGridDims.w := by
      rcases Nat.eq_zero_or_pos tileGridDims.w with h0 | h0
      · rw [h0] at hk; simp at hk
      · exact h0
    obtain ⟨y, x, hy, hx, rfl⟩ := (mem_kernel_stores _ spec ⟨k, _⟩ spec.h (le_refl _)
      (fun j _ => hnever k j) (Or.inl rfl) s).mp hs
    exact ⟨k % tileGridDims.w, k / tileGridDims.w, y, x, Nat.mod_lt _ hw,
      Nat.div_lt_of_lt_mul (by rwa [Nat.mul_comm] at hk), hy, hx, rfl⟩
  · rintro ⟨X, Y, y, x, hX, hY, hy, hx, rfl⟩
    have hidx := cell_index tileGridDims.w X Y hX
    refine ⟨_, ⟨Y * tileGridDims.w + X, cell_index_lt _ _ X Y hX hY, rfl⟩, ?_⟩
    apply (mem_kernel_stores _ spec ⟨_, _⟩ spec.h (le_refl _)
      (fun j _ => hnever _ j) (Or.inl rfl) _).mpr
    refine ⟨y, x, hy, hx, ?_⟩
    simp only [hidx.1, hidx.2]

/-- Running the kernels of a run one after the other in any order executes a
rearrangement of the stores of the run. -/
theorem kernel_order_rearranges (run : LaunchState KernelResult)
    (order : List KernelResult) (h : order.Perm run.tasks) :
    (order.flatMap (fun task => task.stores)).Perm (allStores run) :=
  List.Perm.flatMap_right _ h

/-- C7 (as stated, refuted): on a grid of 1 × 3 tiles of 1 × 1 pixel with
stride `2^31 ≥ tilesX * w * pixelSize`, never superseded, the kernels of tiles
`(0, 0)` and `(0, 2)` both store at offset 0 (the corner of tile `(0, 2)`
wraps), the first a white and the second a black pixel.  Running the kernels
in launch order leaves byte 0 at 0, running them in the opposite order leaves
it at 255. -/
theorem mandelbrot_order_dependent_at_wrap :
    farGrid.w * farSpec.w * sizeofRGBA ≤ farSpec.stride ∧
    (∀ i n, neverSuperseded i n = 0) ∧
    farRun.tasks.map (fun task => task.stores)
      = [[⟨0, ⟨255, 255, 255, 255⟩⟩], [⟨2147483648, ⟨0, 0, 0, 255⟩⟩],
          [⟨0, ⟨0, 0, 0, 255⟩⟩]] ∧
    (allStores farRun).reverse.Perm (allStores farRun) ∧
    runStores (allStores farRun) zeroMemory 0 = 0 ∧
    runStores (allStores farRun).reverse zeroMemory 0 = 255 :=
  ⟨by decide, fun _ _ => rfl, by decide, List.reverse_perm _, by decide, by decide⟩

/-- C7 (amended): for fixed bounds, grid, TileSpec and `maxIters`, with the
transaction never superseded, `tilesX * w * pixelSize ≤ stride` and the byte
extent `tilesY * h * stride` fitting 32 bits, the framebuffer after all
kernels have completed is the same for every order in which the stores of the
kernels are executed (every rearrangement of their stores, in particular
every interleaving of the kernels) and for every prior content of the bytes
inside the tiles' slices. -/
theorem mandelbrot_deterministic (left right top bottom : F32)
    (maxIters originalTransaction : Nat) (transaction : Nat → Nat → Nat)
    (tileGridDims : Dims2U) (spec : TileSpec) (tiles : List Tile2D)
    (run : LaunchState KernelResult)
    (hrun : run = mandelbrotAsyncTiled left right top bottom maxIters originalTransaction
      transaction tileGridDims spec tiles)
    (hnever : ∀ i n, transaction i n = originalTransaction)
    (hrow : tileGridDims.w * spec.w * sizeofRGBA ≤ spec.stride)
    (hext : tileGridDims.h * spec.h * spec.stride < 4294967296)
    (sched1 sched2 : List Store)
    (h1 : sched1.Perm (allStores run)) (h2 : sched2.Perm (allStores run))
    (mem1 mem2 : Memory)
    (hout : ∀ b, (∀ t ∈ run.outTiles, ¬ inSlice spec t b) → mem1 b = mem2 b) :
    runStores sched1 mem1 = runStores sched2 mem2 := by
  subst hrun
  have hmem := mem_allStores left right top bottom maxIters originalTransaction transaction
    tileGridDims spec tiles hnever
  -- two stores of the run covering a common byte are the same store
  have huniq : ∀ b s t,
      s ∈ allStores (mandelbrotAsyncTiled left right top bottom maxIters originalTransaction
        transaction tileGridDims spec tiles) →
      t ∈ allStores (mandelbrotAsyncTiled left right top bottom maxIters originalTransaction
        transaction tileGridDims spec tiles) →
      s.covers b → t.covers b → s = t := by
    intro b s t hs ht hsc htc
    obtain ⟨X1, Y1, y1, x1, hX1, hY1, hy1, hx1, rfl⟩ := (hmem s).mp hs
    obtain ⟨X2, Y2, y2, x2, hX2, hY2, hy2, hx2, rfl⟩ := (hmem t).mp ht
    have hs1 : inSlice spec (tileAt spec X1 Y1) b :=
      ⟨y1, hy1, pixelStore_covers_row _ spec _ y1 x1 hx1 b hsc⟩
    have hs2 : inSlice spec (tileAt spec X2 Y2) b :=
      ⟨y2, hy2, pixelStore_covers_row _ spec _ y2 x2 hx2 b htc⟩
    obtain ⟨eX, eY⟩ := cells_eq_of_common_byte spec tileGridDims hrow hext
      X1 Y1 X2 Y2 hX1 hY1 hX2 hY2 b hs1 hs2
    subst eX; subst eY
    have hrow1 : spec.w * sizeofRGBA ≤ spec.stride := by
      have : 1 * spec.w ≤ tileGridDims.w * spec.w := Nat.mul_le_mul_right _ (by omega)
      have := Nat.mul_le_mul_right sizeofRGBA this
      simp only [Nat.one_mul] at this
      omega
    have hext1 : spec.h * spec.stride < 4294967296 := by
      have : 1 * spec.h ≤ tileGridDims.h * spec.h := Nat.mul_le_mul_right _ (by omega)
      have := Nat.mul_le_mul_right spec.stride this
      simp only [Nat.one_mul] at this
      omega
    obtain ⟨ey, ex⟩ := pixelStore_unique _ spec (tileAt spec X1 Y1) hrow1 hext1
      y1 x1 y2 x2 hy1 hx1 hy2 hx2 b hsc htc
    rw [ey, ex]
  funext b
  by_cases hcov : ∃ s ∈ allStores (mandelbrotAsyncTiled left right top bottom maxIters
      originalTransaction transaction tileGridDims spec tiles), s.covers b
  · obtain ⟨s, hs, hsc⟩ := hcov
    have e1 : runStores sched1 mem1 b = s.byteAt b :=
      runStores_of_agree b _ sched1 mem1
        (fun t ht htc => by rw [huniq b t s (h1.mem_iff.mp ht) hs htc hsc])
        (Or.inr ⟨s, h1.mem_iff.mpr hs, hsc⟩)
    have e2 : runStores sched2 mem2 b = s.byteAt b :=
      runStores_of_agree b _ sched2 mem2
        (fun t ht htc => by rw [huniq b t s (h2.mem_iff.mp ht) hs htc hsc])
        (Or.inr ⟨s, h2.mem_iff.mpr hs, hsc⟩)
    rw [e1, e2]
  · have hno : ∀ s, s ∈ allStores (mandelbrotAsyncTiled left right top bottom maxIters
        originalTransaction transaction tileGridDims spec tiles) → ¬ s.covers b :=
      fun s hs hsc => hcov ⟨s, hs, hsc⟩
    rw [runStores_of_not_covered b sched1 mem1 (fun s hs => hno s (h1.mem_iff.mp hs)),
      runStores_of_not_covered b sched2 mem2 (fun s hs => hno s (h2.mem_iff.mp hs))]
    apply hout
    intro t ht hin
    obtain ⟨X, Y, hX, hY, rfl⟩ := LaunchTiles_mem spec tileGridDims tiles _ t ht
    obtain ⟨r, hr, hlo, hhi⟩ := hin
    have hx : (b - addressRow spec (tileAt spec X Y) r) / 4 < spec.w := by
      simp only [sizeofRGBA] at hhi
      omega
    refine hno _ ((hmem _).mpr ⟨X, Y, r, _, hX, hY, hr, hx, rfl⟩) ?_
    simp only [Store.covers, pixelStore, sizeofRGBA]
    omega

/-- Instance of the amended C7: a 3 × 2 grid of 2 × 2 tiles, the stores run in
launch order from a zero framebuffer and in reverse order from a framebuffer
that differs inside tile `(0, 0)`. -/
theorem mandelbrot_deterministic_witness :
    (∀ i n, neverSuperseded i n = 0) ∧
    smallGrid.w * smallSpec.w * sizeofRGBA ≤ smallSpec.stride ∧
    smallGrid.h * smallSpec.h * smallSpec.stride < 4294967296 ∧
    runStores
        (allStores (mandelbrotAsyncTiled minus253 (F32.ofNat 257) (F32.ofNat 2) (F32.ofNat 2)
          1 0 neverSuperseded smallGrid smallSpec []))
        zeroMemory
      = runStores
        (allStores (mandelbrotAsyncTiled minus253 (F32.ofNat 257) (F32.ofNat 2) (F32.ofNat 2)
          1 0 neverSuperseded smallGrid smallSpec [])).reverse
        (fun b => if b = 0 then 77 else 0) :=
  ⟨fun _ _ => rfl, by decide, by decide,
    mandelbrot_deterministic minus253 (F32.ofNat 257) (F32.ofNat 2) (F32.ofNat 2) 1 0
      neverSuperseded smallGrid smallSpec [] _ rfl (fun _ _ => rfl) (by decide) (by decide)
      _ _ (List.Perm.refl _) (List.reverse_perm _) zeroMemory (fun b => if b = 0 then 77 else 0)
      (by
        intro b hb
        by_cases h0 : b = 0
        · subst h0
          exfalso
          refine hb ⟨0, 0, 0⟩ (by decide) ⟨0, by decide, by decide, by decide⟩
        · simp [zeroMemory, h0])⟩

/-! ## `copyTileFlipped` -/

theorem copyRow_apply (mem : Memory) (row out : Nat) (buffer : PixelBuffer) :
    ∀ n i, forLoop n (fun x b => copyPixel mem row out x b) buffer i
      = if out ≤ i ∧ i < out + n then loadRGBA mem (row + (i - out) * sizeofRGBA)
        else buffer i
  | 0, i => by
    rw [forLoop_zero, if_neg (by omega)]
  | n + 1, i => by
    rw [forLoop_succ]
    simp only [copyPixel]
    by_cases h : i = out + n
    · subst h
      rw [if_pos rfl, if_pos (by omega), Nat.add_sub_cancel_left]
    · rw [if_neg h, copyRow_apply mem row out buffer n i]
      by_cases h2 : out ≤ i ∧ i < out + n
      · rw [if_pos h2, if_pos (by omega)]
      · rw [if_neg h2, if_neg (by omega)]

theorem copyScanline_buffer (spec : TileSpec) (tile : Tile2D) (mem : Memory) (y : Nat)
    (st : CopyState) (i : Nat) :
    (copyScanline spec tile mem y st).buffer i
      = if st.out ≤ i ∧ i < st.out + spec.w then
          loadRGBA mem (addressRow spec tile y + (i - st.out) * sizeofRGBA)
        else st.buffer i :=
  copyRow_apply mem _ st.out st.buffer spec.w i

/-- The flipped loop started at a scanline `y < height` copies the scanlines
`y, y - 1, ..., 0` and stops. -/
theorem copyFlippedLoop_eq (spec : TileSpec) (tile : Tile2D) (mem : Memory) :
    ∀ y fuel st, y < spec.h → y + 1 < fuel →
      copyFlippedLoop spec tile mem fuel y st = some (copyDown spec tile mem y st)
  | 0, fuel, st, hy, hf => by
    have hh := spec.h_lt
    obtain ⟨f, rfl⟩ : ∃ f, fuel = f + 2 := ⟨fuel - 2, by omega⟩
    simp only [copyFlippedLoop, if_pos hy, copyDown]
    have : ¬ ((0 + 4294967296 - 1) % 4294967296 < spec.h) := by omega
    rw [if_neg this]
  | y + 1, fuel, st, hy, hf => by
    have hh := spec.h_lt
    obtain ⟨f, rfl⟩ : ∃ f, fuel = f + 1 := ⟨fuel - 1, by omega⟩
    simp only [copyFlippedLoop, if_pos hy, copyDown]
    have e : (y + 1 + 4294967296 - 1) % 4294967296 = y := by omega
    rw [e]
    exact copyFlippedLoop_eq spec tile mem y f _ (by omega) (by omega)

/-- The state after the scanlines `y, ..., 0` have been copied to consecutive
rows of the buffer. -/
theorem copyDown_spec (spec : TileSpec) (tile : Tile2D) (mem : Memory) :
    ∀ y st,
      (copyDown spec tile mem y st).out = st.out + (y + 1) * spec.w ∧
      (copyDown spec tile mem y st).scanlines
        = st.scanlines ++ (List.range (y + 1)).map (fun r => y - r) ∧
      (∀ r x, r ≤ y → x < spec.w →
        (copyDown spec tile mem y st).buffer (st.out + r * spec.w + x)
          = loadRGBA mem (addressRow spec tile (y - r) + x * sizeofRGBA)) ∧
      (∀ i, i < st.out ∨ st.out + (y + 1) * spec.w ≤ i →
        (copyDown spec tile mem y st).buffer i = st.buffer i)
  | 0, st => by
    refine ⟨by simp [copyDown, copyScanline], by simp [copyDown, copyScanline], ?_, ?_⟩
    · intro r x hr hx
      have hr0 : r = 0 := by omega
      subst hr0
      simp only [copyDown, copyScanline_buffer, Nat.zero_mul, Nat.add_zero, Nat.sub_zero]
      rw [if_pos (by omega), Nat.add_sub_cancel_left]
    · intro i hi
      simp only [copyDown, copyScanline_buffer]
      rw [if_neg (by omega)]
  | y + 1, st => by
    obtain ⟨ho, hs, hb, hf⟩ := copyDown_spec spec tile mem y
      (copyScanline spec tile mem (y + 1) st)
    have hout : (copyScanline spec tile mem (y + 1) st).out = st.out + spec.w := rfl
    have hmul : (y + 1 + 1) * spec.w = spec.w + (y + 1) * spec.w := by
      rw [Nat.add_mul (y + 1) 1, Nat.one_mul, Nat.add_comm]
    refine ⟨?_, ?_, ?_, ?_⟩
    · simp only [copyDown, ho, hout]
      omega
    · show (copyDown spec tile mem y (copyScanline spec tile mem (y + 1) st)).scanlines = _
      rw [hs]
      show (st.scanlines ++ [y + 1]) ++ _ = _
      rw [List.append_assoc, List.range_succ_eq_map (y + 1), List.map_cons, List.map_map]
      congr 1
      simp only [Nat.sub_zero, List.singleton_append, List.cons.injEq, true_and]
      apply List.map_congr_left
      intro r _
      simp only [Function.comp, Nat.succ_eq_add_one]
      omega
    · intro r x hr hx
      simp only [copyDown]
      rcases Nat.eq_zero_or_pos r with h0 | hpos
      · subst h0
        rw [hf _ (Or.inl (by rw [hout]; omega)), copyScanline_buffer,
          if_pos (by omega)]
        simp only [Nat.zero_mul, Nat.add_zero, Nat.sub_zero, Nat.add_sub_cancel_left]
      · obtain ⟨r', rfl⟩ : ∃ r', r = r' + 1 := ⟨r - 1, by omega⟩
        have := hb r' x (by omega) hx
        rw [hout] at this
        have e1 : st.out + (r' + 1) * spec.w + x = st.out + spec.w + r' * spec.w + x := by
          rw [Nat.add_mul r' 1, Nat.one_mul]
          omega
        have e2 : y + 1 - (r' + 1) = y - r' := by omega
        rw [e1, e2]
        exact this
    · intro i hi
      simp only [copyDown]
      rw [hf i (by rw [hout]; omega), copyScanline_buffer, if_neg (by omega)]

/-- C18: for every TileSpec (including `h = 0`), tile, framebuffer and output
buffer, `copyTileFlipped` terminates (any fuel above `h` suffices) after
visiting exactly the `h` scanlines `h - 1, ..., 0`; it leaves `out` at
`h * w`, writes the `w * h` pixels with index below `w * h` and no other, and
`out[r * w + x]` is the pixel at column `x` of tile row `h - 1 - r`. -/
theorem copyTileFlipped_spec (spec : TileSpec) (tile : Tile2D) (mem : Memory)
    (buffer : PixelBuffer) (fuel : Nat) (hfuel : spec.h < fuel) :
    ∃ st, copyTileFlipped spec tile mem buffer fuel = some st ∧
      st.scanlines = (List.range spec.h).map (fun r => spec.h - 1 - r) ∧
      st.scanlines.length = spec.h ∧
      st.out = spec.h * spec.w ∧
      (∀ r x, r < spec.h → x < spec.w →
        st.buffer (r * spec.w + x)
          = loadRGBA mem (addressRow spec tile (spec.h - 1 - r) + x * sizeofRGBA)) ∧
      (∀ i, spec.w * spec.h ≤ i → st.buffer i = buffer i) := by
  have hh := spec.h_lt
  rcases Nat.eq_zero_or_pos spec.h with h0 | hpos
  · obtain ⟨f, rfl⟩ : ∃ f, fuel = f + 1 := ⟨fuel - 1, by omega⟩
    refine ⟨⟨buffer, 0, []⟩, ?_, ?_, ?_, ?_, ?_, ?_⟩
    · simp only [copyTileFlipped, copyFlippedLoop]
      rw [if_neg (by omega)]
    · simp [h0]
    · simp [h0]
    · simp [h0]
    · intro r x hr; omega
    · intro i _; rfl
  · have e : (spec.h + 4294967296 - 1) % 4294967296 = spec.h - 1 := by omega
    obtain ⟨ho, hs, hb, hf⟩ := copyDown_spec spec tile mem (spec.h - 1) ⟨buffer, 0, []⟩
    have e1 : spec.h - 1 + 1 = spec.h := by omega
    rw [e1] at ho hs hf
    refine ⟨copyDown spec tile mem (spec.h - 1) ⟨buffer, 0, []⟩, ?_, ?_, ?_, ?_, ?_, ?_⟩
    · simp only [copyTileFlipped, e]
      exact copyFlippedLoop_eq spec tile mem (spec.h - 1) fuel _ (by omega) (by omega)
    · simpa using hs
    · rw [hs]; simp
    · simpa using ho
    · intro r x hr hx
      have := hb r x (by omega) hx
      simpa using this
    · intro i hi
      exact hf i (Or.inr (by simp only [Nat.zero_add]; rw [Nat.mul_comm]; exact hi))

/-- Instance of C18: a 2 × 2 tile at offset 8 of a framebuffer with stride 32,
copied with fuel 3. -/
theorem copyTileFlipped_spec_witness :
    smallSpec.h < 3 ∧
    ∃ st, copyTileFlipped smallSpec ⟨8, 1, 0⟩ rampMemory staleBuffer 3 = some st ∧
      st.scanlines = (List.range smallSpec.h).map (fun r => smallSpec.h - 1 - r) ∧
      st.scanlines.length = smallSpec.h ∧
      st.out = smallSpec.h * smallSpec.w ∧
      (∀ r x, r < smallSpec.h → x < smallSpec.w →
        st.buffer (r * smallSpec.w + x)
          = loadRGBA rampMemory
              (addressRow smallSpec ⟨8, 1, 0⟩ (smallSpec.h - 1 - r) + x * sizeofRGBA)) ∧
      (∀ i, smallSpec.w * smallSpec.h ≤ i → st.buffer i = staleBuffer i) :=
  ⟨by decide, copyTileFlipped_spec smallSpec ⟨8, 1, 0⟩ rampMemory staleBuffer 3 (by decide)⟩

/-! ## The tiled clear -/

theorem forLoop_collect_from {α : Type} (f : Nat → α) (acc : List α) (n : Nat) :
    forLoop n (fun x acc => acc ++ [f x]) acc = acc ++ (List.range n).map f := by
  induction n with
  | zero => simp [forLoop_zero]
  | succ n ih => rw [forLoop_succ, ih, List.range_succ, List.map_append]; simp

theorem ClearTile2D_eq (spec : TileSpec) (tile : Tile2D) (color : RGBA) :
    ClearTile2D spec tile color
      = (List.range spec.h).flatMap (fun y =>
          (List.range spec.w).map
            (fun x => (⟨addressRow spec tile y + x * sizeofRGBA, color⟩ : Store))) := by
  unfold ClearTile2D
  generalize spec.h = n
  induction n with
  | zero => simp [forLoop_zero]
  | succ n ih =>
    rw [forLoop_succ, ih, forLoop_collect_from, List.range_succ, List.flatMap_append]
    simp

theorem mem_ClearTile2D (spec : TileSpec) (tile : Tile2D) (color : RGBA) (s : Store) :
    s ∈ ClearTile2D spec tile color ↔
      ∃ y x, y < spec.h ∧ x < spec.w ∧
        s = ⟨addressRow spec tile y + x * sizeofRGBA, color⟩ := by
  simp only [ClearTile2D_eq, List.mem_flatMap, List.mem_map, List.mem_range]
  constructor
  · rintro ⟨y, hy, x, hx, rfl⟩
    exact ⟨y, x, hy, hx, rfl⟩
  · rintro ⟨y, x, hy, hx, rfl⟩
    exact ⟨y, hy, x, hx, rfl⟩

/-- When the tile has a pixel, the stride is a whole number of pixels and
nothing wraps, every store of the corner decoration goes to the address of a
corner pixel of the tile. -/
theorem cornerStores_at_corner (spec : TileSpec) (tile : Tile2D)
    (hw : 0 < spec.w) (hh : 0 < spec.h) (hdvd : sizeofRGBA ∣ spec.stride)
    (hext : spec.h * spec.stride < 4294967296) (hp : tile.pixels < 8589934592)
    (s : Store) (hs : s ∈ cornerStores spec tile) :
    ∃ y x, y < spec.h ∧ x < spec.w ∧ isCornerPixel spec x y ∧
      s.addr = addressRow spec tile y + x * sizeofRGBA := by
  have hwlt := spec.w_lt
  have hhlt := spec.h_lt
  have e1 : (spec.w + 18446744073709551616 - 1) % 18446744073709551616 = spec.w - 1 := by
    omega
  have e2 : (spec.h + 4294967296 - 1) % 4294967296 = spec.h - 1 := by omega
  have hP : (spec.h - 1) * spec.stride ≤ spec.h * spec.stride :=
    Nat.mul_le_mul_right _ (by omega)
  have hdiv : (spec.h - 1) * spec.stride / sizeofRGBA * sizeofRGBA
      = (spec.h - 1) * spec.stride :=
    Nat.div_mul_cancel (Dvd.dvd.mul_left hdvd _)
  have hlast : lastRowIndex spec = (spec.h - 1) * spec.stride / sizeofRGBA := by
    unfold lastRowIndex
    rw [e2, Nat.mod_eq_of_lt (by omega)]
  have hr0 : addressRow spec tile 0 = tile.pixels := by
    rw [addressRow_eq spec tile 0 hh hext]; simp
  have hr1 : addressRow spec tile (spec.h - 1) = tile.pixels + (spec.h - 1) * spec.stride := by
    rw [addressRow_eq spec tile (spec.h - 1) (by omega) hext, Nat.mul_comm]
  simp only [cornerStores, List.mem_cons, List.mem_singleton, List.not_mem_nil, or_false] at hs
  simp only [sizeofRGBA] at hdiv hlast ⊢
  rcases hs with rfl | rfl | rfl | rfl
  · refine ⟨0, 0, hh, hw, ⟨Or.inl rfl, Or.inl rfl⟩, ?_⟩
    simp only [indexRGBA, sizeofRGBA, hr0]
    omega
  · refine ⟨0, spec.w - 1, hh, by omega, ⟨Or.inr (by omega), Or.inl rfl⟩, ?_⟩
    simp only [indexRGBA, sizeofRGBA, hr0, e1]
    omega
  · refine ⟨spec.h - 1, 0, by omega, hw, ⟨Or.inl rfl, Or.inr (by omega)⟩, ?_⟩
    simp only [indexRGBA, sizeofRGBA, hr1, hlast]
    omega
  · refine ⟨spec.h - 1, spec.w - 1, by omega, by omega,
      ⟨Or.inr (by omega), Or.inr (by omega)⟩, ?_⟩
    have e3 : ((spec.h - 1) * spec.stride / 4 + spec.w + 18446744073709551616 - 1)
        % 18446744073709551616 = (spec.h - 1) * spec.stride / 4 + spec.w - 1 := by
      omega
    simp only [indexRGBA, sizeofRGBA, hr1, hlast, e3]
    omega

/-- The stores of a tiled clear: for every grid cell the fill of its tile and
its corner decoration. -/
theorem mem_allStores_clear (clearColor : RGBA) (tileGridDims : Dims2U) (spec : TileSpec)
    (s : Store) :
    s ∈ allStores (clearAsyncTiled clearColor tileGridDims spec) ↔
      ∃ X Y, X < tileGridDims.w ∧ Y < tileGridDims.h ∧
        (s ∈ ClearTile2D spec (tileAt spec X Y) clearColor ∨
          s ∈ cornerStores spec (tileAt spec X Y)) := by
  simp only [allStores, clearAsyncTiled, LaunchTiles_eq, launched, List.mem_flatMap,
    List.mem_map, List.mem_range, ClearRGBA8888Tile2D]
  constructor
  · rintro ⟨task, ⟨k, hk, rfl⟩, hs⟩
    have hw : 0 < tileGridDims.w := by
      rcases Nat.eq_zero_or_pos tileGridDims.w with h0 | h0
      · rw [h0] at hk; simp at hk
      · exact h0
    exact ⟨k % tileGridDims.w, k / tileGridDims.w, Nat.mod_lt _ hw,
      Nat.div_lt_of_lt_mul (by rwa [Nat.mul_comm] at hk), List.mem_append.mp hs⟩
  · rintro ⟨X, Y, hX, hY, hs⟩
    have hidx := cell_index tileGridDims.w X Y hX
    refine ⟨_, ⟨Y * tileGridDims.w + X, cell_index_lt _ _ X Y hX hY, rfl⟩, ?_⟩
    simp only [hidx.1, hidx.2]
    exact List.mem_append.mpr hs

/-- Two pixels of the tiles of a grid whose four bytes share a byte are the
same pixel of the same tile. -/
theorem pixel_unique (spec : TileSpec) (dims : Dims2U)
    (hrow : dims.w * spec.w * sizeofRGBA ≤ spec.stride)
    (hext : dims.h * spec.h * spec.stride < 4294967296)
    (X1 Y1 x1 y1 X2 Y2 x2 y2 : Nat) (hX1 : X1 < dims.w) (hY1 : Y1 < dims.h)
    (hx1 : x1 < spec.w) (hy1 : y1 < spec.h) (hX2 : X2 < dims.w) (hY2 : Y2 < dims.h)
    (hx2 : x2 < spec.w) (hy2 : y2 < spec.h) (b : Nat)
    (h1 : addressRow spec (tileAt spec X1 Y1) y1 + x1 * sizeofRGBA ≤ b ∧
      b < addressRow spec (tileAt spec X1 Y1) y1 + x1 * sizeofRGBA + sizeofRGBA)
    (h2 : addressRow spec (tileAt spec X2 Y2) y2 + x2 * sizeofRGBA ≤ b ∧
      b < addressRow spec (tileAt spec X2 Y2) y2 + x2 * sizeofRGBA + sizeofRGBA) :
    X1 = X2 ∧ Y1 = Y2 ∧ x1 = x2 ∧ y1 = y2 := by
  simp only [sizeofRGBA] at h1 h2
  have hs1 : inSlice spec (tileAt spec X1 Y1) b :=
    ⟨y1, hy1, by simp only [sizeofRGBA]; omega⟩
  have hs2 : inSlice spec (tileAt spec X2 Y2) b :=
    ⟨y2, hy2, by simp only [sizeofRGBA]; omega⟩
  obtain ⟨eX, eY⟩ := cells_eq_of_common_byte spec dims hrow hext
    X1 Y1 X2 Y2 hX1 hY1 hX2 hY2 b hs1 hs2
  subst eX; subst eY
  have hrow1 : spec.w * sizeofRGBA ≤ spec.stride := by
    have : 1 * spec.w ≤ dims.w * spec.w := Nat.mul_le_mul_right _ (by omega)
    have := Nat.mul_le_mul_right sizeofRGBA this
    simp only [Nat.one_mul] at this
    omega
  have hext1 : spec.h * spec.stride < 4294967296 := by
    have : 1 * spec.h ≤ dims.h * spec.h := Nat.mul_le_mul_right _ (by omega)
    have := Nat.mul_le_mul_right spec.stride this
    simp only [Nat.one_mul] at this
    omega
  have hy := row_unique spec (tileAt spec X1 Y1) hrow1 hext1 y1 y2 hy1 hy2 b
    (by simp only [sizeofRGBA]; omega) (by simp only [sizeofRGBA]; omega)
  subst hy
  refine ⟨rfl, rfl, ?_, rfl⟩
  omega

/-- After the stores of a tiled clear have run in any order, a pixel that is
not a corner pixel of its tile holds the clear colour. -/
theorem clear_final_pixel (clearColor : RGBA) (tileGridDims : Dims2U) (spec : TileSpec)
    (hrow : tileGridDims.w * spec.w * sizeofRGBA ≤ spec.stride)
    (hext : tileGridDims.h * spec.h * spec.stride < 4294967296)
    (hdvd : sizeofRGBA ∣ spec.stride)
    (sched : List Store)
    (hperm : sched.Perm (allStores (clearAsyncTiled clearColor tileGridDims spec)))
    (mem : Memory) (X Y x y : Nat) (hX : X < tileGridDims.w) (hY : Y < tileGridDims.h)
    (hx : x < spec.w) (hy : y < spec.h) (hnc : ¬ isCornerPixel spec x y) :
    loadRGBA (runStores sched mem) (addressRow spec (tileAt spec X Y) y + x * sizeofRGBA)
      = clearColor := by
  have hext1 : spec.h * spec.stride < 4294967296 := by
    have : 1 * spec.h ≤ tileGridDims.h * spec.h := Nat.mul_le_mul_right _ (by omega)
    have := Nat.mul_le_mul_right spec.stride this
    simp only [Nat.one_mul] at this
    omega
  have hpix : ∀ X' Y', X' < tileGridDims.w → Y' < tileGridDims.h →
      (tileAt spec X' Y').pixels < 8589934592 := by
    intro X' Y' hX' hY'
    have h1 : X' * spec.w ≤ tileGridDims.w * spec.w := Nat.mul_le_mul_right _ (by omega)
    have h2 : Y' * spec.h ≤ tileGridDims.h * spec.h := Nat.mul_le_mul_right _ (by omega)
    have h3 : Y' * spec.h * spec.stride ≤ tileGridDims.h * spec.h * spec.stride :=
      Nat.mul_le_mul_right _ h2
    have hs := spec.stride_lt
    show tileCornerOffset spec X' Y' < 8589934592
    rw [tileCornerOffset_eq spec tileGridDims X' Y' hX' hY' hrow hext]
    simp only [sizeofRGBA] at hrow ⊢
    omega
  have hmem := mem_allStores_clear clearColor tileGridDims spec
  apply loadRGBA_of_bytes (runStores sched mem)
    ⟨addressRow spec (tileAt spec X Y) y + x * sizeofRGBA, clearColor⟩
  intro j hj
  apply runStores_of_agree
  · intro s hs hcov
    obtain ⟨X', Y', hX', hY', hfill | hcorner⟩ := (hmem s).mp (hperm.mem_iff.mp hs)
    · obtain ⟨y', x', hy', hx', rfl⟩ := (mem_ClearTile2D spec _ clearColor s).mp hfill
      simp only [Store.covers, sizeofRGBA] at hcov
      obtain ⟨rfl, rfl, rfl, rfl⟩ := pixel_unique spec tileGridDims hrow hext
        X' Y' x' y' X Y x y hX' hY' hx' hy' hX hY hx hy _
        (by simp only [sizeofRGBA]; exact hcov) (by simp only [sizeofRGBA]; omega)
      rfl
    · exfalso
      obtain ⟨yc, xc, hyc, hxc, hcp, haddr⟩ := cornerStores_at_corner spec (tileAt spec X' Y')
        (by omega) (by omega) hdvd hext1 (hpix X' Y' hX' hY') s hcorner
      simp only [Store.covers, sizeofRGBA] at hcov haddr
      rw [haddr] at hcov
      obtain ⟨_, _, rfl, rfl⟩ := pixel_unique spec tileGridDims hrow hext
        X' Y' xc yc X Y x y hX' hY' hxc hyc hX hY hx hy _
        (by simp only [sizeofRGBA]; exact hcov) (by simp only [sizeofRGBA]; omega)
      exact hnc hcp
  · right
    refine ⟨⟨addressRow spec (tileAt spec X Y) y + x * sizeofRGBA, clearColor⟩,
      hperm.mem_iff.mpr ((hmem _).mpr ⟨X, Y, hX, hY,
        Or.inl ((mem_ClearTile2D spec _ clearColor _).mpr ⟨y, x, hy, hx, rfl⟩)⟩), ?_⟩
    simp only [Store.covers, sizeofRGBA]
    omega

/-- The four stores of the corner decoration of the single 32 × 32 tile. -/
theorem oneTile_cornerStores :
    cornerStores oneTileSpec ⟨0, 0, 0⟩
      = [⟨0, ⟨255, 0, 0, 255⟩⟩, ⟨124, ⟨0, 255, 0, 255⟩⟩, ⟨3968, ⟨0, 0, 255, 255⟩⟩,
          ⟨4092, ⟨255, 0, 255, 255⟩⟩] := by
  decide

/-- The stores of the tiled clear of the single 32 × 32 tile: the fill, then
the corner decoration. -/
theorem oneTile_stores (color : RGBA) :
    allStores (clearAsyncTiled color unitGrid oneTileSpec)
      = ClearTile2D oneTileSpec ⟨0, 0, 0⟩ color ++ cornerStores oneTileSpec ⟨0, 0, 0⟩ := by
  have e : (List.range (unitGrid.h * unitGrid.w)) = [0] := by decide
  simp only [allStores, clearAsyncTiled, LaunchTiles_eq, launched, ClearRGBA8888Tile2D, e,
    List.map_cons, List.map_nil, List.flatMap_cons, List.flatMap_nil, List.append_nil]
  rfl

/-- C19 (as stated, refuted): for a 32 × 32 framebuffer with one 32 × 32 tile
and the colour RGBA(192, 224, 255, 255), after the tiled clear with the
program's clear kernel the pixel at the tile's corner `(0, 0)` holds the
diagnostic colour (255, 0, 0, 255) that the kernel stores after the fill, not
the clear colour. -/
theorem clearAsyncTiled_corner_not_cleared :
    (clearAsyncTiled mainClearColor unitGrid oneTileSpec).outTiles = [⟨0, 0, 0⟩] ∧
    mainClearColor = ⟨192, 224, 255, 255⟩ ∧
    loadRGBA
        (runStores (allStores (clearAsyncTiled mainClearColor unitGrid oneTileSpec))
          zeroMemory)
        (addressRow oneTileSpec ⟨0, 0, 0⟩ 0 + 0 * sizeofRGBA)
      = ⟨255, 0, 0, 255⟩ ∧
    (⟨255, 0, 0, 255⟩ : RGBA) ≠ mainClearColor := by
  refine ⟨by decide, by decide, ?_, by decide⟩
  rw [oneTile_stores, runStores, List.foldl_append, oneTile_cornerStores]
  have e : addressRow oneTileSpec ⟨0, 0, 0⟩ 0 + 0 * sizeofRGBA = 0 := by decide
  rw [e]
  simp [loadRGBA, storeRGBA]

/-- C19 (amended): when the stride is a whole number of pixels, a grid row
fits the stride and the byte extent of the grid fits 32 bits, after all the
stores of the tiled clear have been made (in any order that rearranges them,
from any prior framebuffer) every pixel of every tile other than the four
corner pixels of the tile equals the clear colour. -/
theorem clearAsyncTiled_clears_interior (clearColor : RGBA) (tileGridDims : Dims2U)
    (spec : TileSpec)
    (hrow : tileGridDims.w * spec.w * sizeofRGBA ≤ spec.stride)
    (hext : tileGridDims.h * spec.h * spec.stride < 4294967296)
    (hdvd : sizeofRGBA ∣ spec.stride)
    (sched : List Store)
    (hperm : sched.Perm (allStores (clearAsyncTiled clearColor tileGridDims spec)))
    (mem : Memory) :
    ∀ X Y x y, X < tileGridDims.w → Y < tileGridDims.h → x < spec.w → y < spec.h →
      ¬ isCornerPixel spec x y →
      loadRGBA (runStores sched mem) (addressRow spec (tileAt spec X Y) y + x * sizeofRGBA)
        = clearColor :=
  fun X Y x y hX hY hx hy hnc =>
    clear_final_pixel clearColor tileGridDims spec hrow hext hdvd sched hperm mem
      X Y x y hX hY hx hy hnc

/-- Instance of the amended C19: the 32 × 32 framebuffer with one 32 × 32 tile
and the colour RGBA(192, 224, 255, 255); the 1020 pixels other than the
corners hold the clear colour. -/
theorem clearAsyncTiled_clears_interior_witness :
    unitGrid.w * oneTileSpec.w * sizeofRGBA ≤ oneTileSpec.stride ∧
    unitGrid.h * oneTileSpec.h * oneTileSpec.stride < 4294967296 ∧
    sizeofRGBA ∣ oneTileSpec.stride ∧
    ∀ X Y x y, X < unitGrid.w → Y < unitGrid.h → x < oneTileSpec.w → y < oneTileSpec.h →
      ¬ isCornerPixel oneTileSpec x y →
      loadRGBA
          (runStores (allStores (clearAsyncTiled mainClearColor unitGrid oneTileSpec))
            zeroMemory)
          (addressRow oneTileSpec (tileAt oneTileSpec X Y) y + x * sizeofRGBA)
        = mainClearColor :=
  ⟨by decide, by decide, by decide,
    clearAsyncTiled_clears_interior mainClearColor unitGrid oneTileSpec (by decide)
      (by decide) (by decide) _ (List.Perm.refl _) zeroMemory⟩

/-! ## The zoom coordinator -/

theorem setZoomLevel_same (st : HelloWorld) (i : Nat) (level : ZoomLevel) :
    (st.setZoomLevel i level).zoomLevels i = level := by
  simp [HelloWorld.setZoomLevel]

theorem setZoomLevel_other (st : HelloWorld) (i j : Nat) (level : ZoomLevel) (h : j ≠ i) :
    (st.setZoomLevel i level).zoomLevels j = st.zoomLevels j := by
  simp [HelloWorld.setZoomLevel, h]

/-- A replaced zoom level that keeps `tilesInFlight` keeps it at every slot. -/
theorem setZoomLevel_tilesInFlight (st : HelloWorld) (i : Nat) (level : ZoomLevel)
    (h : level.tilesInFlight = (st.zoomLevels i).tilesInFlight) (j : Nat) :
    ((st.setZoomLevel i level).zoomLevels j).tilesInFlight = (st.zoomLevels j).tilesInFlight := by
  by_cases hj : j = i
  · subst hj; rw [setZoomLevel_same, h]
  · rw [setZoomLevel_other st i j level hj]

/-- A replaced zoom level that keeps the visibility of its grid keeps it at
every slot. -/
theorem setZoomLevel_tileGridVisible (st : HelloWorld) (i : Nat) (level : ZoomLevel)
    (h : level.tileGridVisible = (st.zoomLevels i).tileGridVisible) (j : Nat) :
    ((st.setZoomLevel i level).zoomLevels j).tileGridVisible
      = (st.zoomLevels j).tileGridVisible := by
  by_cases hj : j = i
  · subst hj; rw [setZoomLevel_same, h]
  · rw [setZoomLevel_other st i j level hj]

/-- What `updateTilesForRegion` keeps of every zoom level. -/
theorem updateTilesForRegion_keeps (st st' : HelloWorld) (zoomLevel transaction : Nat)
    (h : updateTilesForRegion st zoomLevel transaction = some st') (j : Nat) :
    (st'.zoomLevels j).tilesInFlight = (st.zoomLevels j).tilesInFlight ∧
    (st'.zoomLevels j).tileGridVisible = (st.zoomLevels j).tileGridVisible ∧
    (st'.zoomLevels j).zoomRegion = (st.zoomLevels j).zoomRegion ∧
    st'.zoomTransaction = st.zoomTransaction := by
  unfold updateTilesForRegion at h
  simp only at h
  split at h
  · exact absurd h (by simp)
  · injection h with h
    subst h
    refine ⟨?_, ?_, ?_, rfl⟩
    · unfold generateTiles
      simp only
      refine Eq.trans (setZoomLevel_tilesInFlight _ _ _ ?_ j)
        (setZoomLevel_tilesInFlight _ _ _ ?_ j) <;> rfl
    · unfold generateTiles
      simp only
      refine Eq.trans (setZoomLevel_tileGridVisible _ _ _ ?_ j)
        (setZoomLevel_tileGridVisible _ _ _ ?_ j) <;> rfl
    · unfold generateTiles
      simp only
      by_cases hj : j = zoomLevel
      · subst hj; rw [setZoomLevel_same]; simp only [setZoomLevel_same]
      · rw [setZoomLevel_other _ _ _ _ hj, setZoomLevel_other _ _ _ _ hj]

/-- What the first statements of a generation keep of every zoom level. -/
theorem beginGeneration_keeps (st : HelloWorld) (change : Region2D → Region2D) (j : Nat) :
    ((beginGeneration st change).zoomLevels j).tilesInFlight = (st.zoomLevels j).tilesInFlight ∧
    ((beginGeneration st change).zoomLevels j).tileGridVisible
      = (st.zoomLevels j).tileGridVisible := by
  unfold beginGeneration
  simp only
  refine ⟨setZoomLevel_tilesInFlight _ _ _ ?_ j, setZoomLevel_tileGridVisible _ _ _ ?_ j⟩ <;> rfl

/-- What `onTouchMoved` keeps of every zoom level. -/
theorem onTouchMoved_keeps (st : HelloWorld) (screenDelta : Vec2) (j : Nat) :
    ((onTouchMoved st screenDelta).zoomLevels j).tilesInFlight
      = (st.zoomLevels j).tilesInFlight ∧
    ((onTouchMoved st screenDelta).zoomLevels j).tileGridVisible
      = (st.zoomLevels j).tileGridVisible := by
  unfold onTouchMoved
  split
  · simp only
    refine ⟨setZoomLevel_tilesInFlight _ _ _ ?_ j, setZoomLevel_tileGridVisible _ _ _ ?_ j⟩ <;> rfl
  · exact ⟨rfl, rfl⟩

/-- The upload branch of a tile lambda keeps every `tilesInFlight`. -/
theorem upload_tilesInFlight (c : TileClosure) (st st' : HelloWorld)
    (h : c.upload st = some st') (j : Nat) :
    (st'.zoomLevels j).tilesInFlight = (st.zoomLevels j).tilesInFlight := by
  unfold TileClosure.upload at h
  simp only at h
  split at h
  · split at h
    · injection h with h
      subst h
      refine Eq.trans (setZoomLevel_tilesInFlight _ _ _ ?_ j)
        (setZoomLevel_tilesInFlight _ _ _ ?_ j) <;> rfl
    · injection h with h
      subst h
      refine setZoomLevel_tilesInFlight _ _ _ ?_ j
      rfl
  · exact absurd h (by simp)

/-- The upload branch of a tile lambda leaves the grid of its slot visible
when it captures a different slot as the previous one. -/
theorem upload_gridVisible (c : TileClosure) (st st' : HelloWorld)
    (hne : c.zoomLevel ≠ c.lastZoomLevel) (h : c.upload st = some st') :
    (st'.zoomLevels c.zoomLevel).tileGridVisible = true := by
  unfold TileClosure.upload at h
  simp only at h
  split at h
  · split at h
    · injection h with h
      subst h
      rw [setZoomLevel_other _ _ _ _ hne, setZoomLevel_same]
    · injection h with h
      subst h
      rw [setZoomLevel_same]
  · exact absurd h (by simp)

/-- A tile lambda that runs to its end found `tilesInFlight` of its slot
positive and decremented it by one; it changes no other `tilesInFlight`. -/
theorem run_tilesInFlight (c : TileClosure) (st st' : HelloWorld) (h : c.run st = some st') :
    0 < (st.zoomLevels c.zoomLevel).tilesInFlight ∧
    (st'.zoomLevels c.zoomLevel).tilesInFlight + 1 = (st.zoomLevels c.zoomLevel).tilesInFlight ∧
    ∀ j, j ≠ c.zoomLevel →
      (st'.zoomLevels j).tilesInFlight = (st.zoomLevels j).tilesInFlight := by
  unfold TileClosure.run at h
  have key : ∀ st1 : HelloWorld,
      (∀ j, (st1.zoomLevels j).tilesInFlight = (st.zoomLevels j).tilesInFlight) →
      (if 0 < (st1.zoomLevels c.zoomLevel).tilesInFlight then
          some (st1.setZoomLevel c.zoomLevel
            { st1.zoomLevels c.zoomLevel with
              tilesInFlight := (st1.zoomLevels c.zoomLevel).tilesInFlight - 1 })
        else none) = some st' →
      0 < (st.zoomLevels c.zoomLevel).tilesInFlight ∧
      (st'.zoomLevels c.zoomLevel).tilesInFlight + 1
        = (st.zoomLevels c.zoomLevel).tilesInFlight ∧
      ∀ j, j ≠ c.zoomLevel →
        (st'.zoomLevels j).tilesInFlight = (st.zoomLevels j).tilesInFlight := by
    intro st1 hsame h1
    split at h1
    · rename_i hpos
      injection h1 with h1
      subst h1
      rw [hsame] at hpos
      refine ⟨hpos, ?_, ?_⟩
      · rw [setZoomLevel_same]
        simp only
        rw [hsame]
        omega
      · intro j hj
        rw [setZoomLevel_other _ _ _ _ hj, hsame]
    · exact absurd h1 (by simp)
  by_cases hnew : st.zoomTransaction = c.transaction
  · rw [if_pos hnew] at h
    cases hup : c.upload st with
    | none => rw [hup] at h; exact absurd h (by simp)
    | some st1 =>
      rw [hup] at h
      exact key st1 (fun j => upload_tilesInFlight c st st1 hup j) h
  · rw [if_neg hnew] at h
    exact key st (fun _ => rfl) h

/-- An event that is not a stretch of a launcher-waiter on slot `s` changes
`tilesInFlight` of slot `s` only when it is a tile lambda of the slot, which
decrements it by one. -/
theorem apply_tilesInFlight (e : Event) (st st' : HelloWorld) (s : Nat)
    (hno : ¬ e.launcherOn s) (h : e.apply st = some st') :
    (st'.zoomLevels s).tilesInFlight + closuresOf s [e] = (st.zoomLevels s).tilesInFlight := by
  cases e with
  | touchMoved screenDelta =>
    simp only [Event.apply, Option.some.injEq] at h
    subst h
    simp only [closuresOf, Nat.add_zero]
    exact (onTouchMoved_keeps st screenDelta s).1
  | touchEnded screenDelta =>
    simp only [Event.apply, onTouchEnded] at h
    simp only [closuresOf, Nat.add_zero]
    rw [(updateTilesForRegion_keeps _ _ _ _ h s).1, (beginGeneration_keeps st _ s).1]
  | zoomIn =>
    simp only [Event.apply, menuZoomInCallback] at h
    simp only [closuresOf, Nat.add_zero]
    rw [(updateTilesForRegion_keeps _ _ _ _ h s).1, (beginGeneration_keeps st _ s).1]
  | zoomOut =>
    simp only [Event.apply, menuZoomOutCallback] at h
    simp only [closuresOf, Nat.add_zero]
    rw [(updateTilesForRegion_keeps _ _ _ _ h s).1, (beginGeneration_keeps st _ s).1]
  | tile c =>
    simp only [Event.apply] at h
    obtain ⟨_, hdec, hother⟩ := run_tilesInFlight c st st' h
    simp only [closuresOf, Nat.add_zero]
    by_cases hc : c.zoomLevel = s
    · subst hc
      rw [if_pos rfl]
      exact hdec
    · rw [if_neg hc, hother s (fun hs => hc hs.symm), Nat.add_zero]
  | launch transaction reads =>
    simp only [Event.apply, Option.some.injEq] at h
    subst h
    simp only [Event.launcherOn] at hno
    simp only [closuresOf, Nat.add_zero, launcherLaunch]
    rw [setZoomLevel_other _ _ _ _ (fun hs => hno hs.symm)]
  | dispatch transaction i =>
    simp only [Event.apply, Option.some.injEq] at h
    subst h
    simp only [Event.launcherOn] at hno
    simp only [closuresOf, Nat.add_zero, launcherDispatch]
    split
    · rw [setZoomLevel_other _ _ _ _ (fun hs => hno hs.symm)]
    · split <;> rfl

/-- The count of tile lambdas of a slot is additive over a first event. -/
theorem closuresOf_cons (s : Nat) (e : Event) (rest : List Event) :
    closuresOf s (e :: rest) = closuresOf s [e] + closuresOf s rest := by
  cases e <;> simp [closuresOf]

/-- Along events none of which is a stretch of a launcher-waiter on slot `s`,
`tilesInFlight` of the slot falls by the number of the slot's tile lambdas. -/
theorem runEvents_tilesInFlight (s : Nat) : ∀ (events : List Event) (st st' : HelloWorld),
    (∀ e ∈ events, ¬ Event.launcherOn s e) → runEvents events st = some st' →
    (st'.zoomLevels s).tilesInFlight + closuresOf s events = (st.zoomLevels s).tilesInFlight
  | [], st, st', _, h => by
    simp only [runEvents, Option.some.injEq] at h
    subst h
    rfl
  | e :: rest, st, st', hno, h => by
    simp only [runEvents] at h
    cases he : e.apply st with
    | none => rw [he] at h; exact absurd h (by simp)
    | some st1 =>
      rw [he] at h
      have h1 := apply_tilesInFlight e st st1 s (hno e (List.mem_cons_self _ _)) he
      have h2 := runEvents_tilesInFlight s rest st1 st'
        (fun e' he' => hno e' (List.mem_cons_of_mem _ he')) h
      rw [closuresOf_cons]
      omega

set_option maxRecDepth 100000 in
/-- C11 (the code at the failing input): in the two-tile scene the launcher-waiter of
transaction 0 launches 2 tiles and sets `tilesInFlight` to 2; its first pass
hands the lambda of tile 0 to the GUI thread; a zoom-in then bumps the
transaction to 1; the second pass finds the generation superseded, hands over
no lambda for tile 1 and resets `tilesInFlight` to 0.  When the GUI thread
then runs the pending lambda of tile 0, its assertion `tilesInFlight > 0`
fails and nothing is decremented: the generation had 2 tiles and no
decrement. -/
theorem tilesInFlight_superseded_generation :
    (runEvents [Event.launch 0 neverSuperseded] twoTileScene).map
        (fun st => ((st.zoomLevels 0).tiles.length, (st.zoomLevels 0).tilesInFlight))
      = some (2, 2) ∧
    (runEvents [Event.launch 0 neverSuperseded] twoTileScene).bind
        (fun st => (dispatchedClosure st 0 0).map TileClosure.captures)
      = some (twoTileClosure 0 0).captures ∧
    (runEvents [Event.launch 0 neverSuperseded, Event.dispatch 0 0, Event.zoomIn]
        twoTileScene).map
        (fun st => (st.zoomTransaction, (st.zoomLevels 0).tilesInFlight,
          (dispatchedClosure st 0 1).isNone))
      = some (1, 2, true) ∧
    (runEvents [Event.launch 0 neverSuperseded, Event.dispatch 0 0, Event.zoomIn,
        Event.dispatch 0 1] twoTileScene).map
        (fun st => ((st.zoomLevels 0).tiles.length, (st.zoomLevels 0).tilesInFlight))
      = some (2, 0) ∧
    (runEvents [Event.launch 0 neverSuperseded, Event.dispatch 0 0, Event.zoomIn,
        Event.dispatch 0 1, Event.tile (twoTileClosure 0 0)] twoTileScene).isNone = true := by
  refine ⟨by decide, by decide, by decide, by decide, by decide⟩

/-- The in-flight counter of a generation that no launcher-waiter step
interferes with: the launcher-waiter's launch sets `tilesInFlight` of its
slot to the number of tiles launched (fewer than `2^32`); from then on, along
every sequence of events that reaches a state without a failed assertion and
holds no stretch of a launcher-waiter on the slot (handlers, tile lambdas of
either slot, launcher-waiters of the other slot, in any order),
`tilesInFlight` has fallen by exactly one per tile lambda of the slot that has
run, the assertion of the slot's next lambda holds as long as fewer lambdas
than tiles have run, and `tilesInFlight` is zero once as many lambdas as tiles
have run.  (A generation superseded during dispatch is not covered: its
launcher-waiter hands over no lambda for the remaining tiles and resets
`tilesInFlight` to 0.) -/
theorem tilesInFlight_accounting (st0 : HelloWorld) (zoomLevel transaction tileDims : Nat)
    (trueSize : Size) (reads : Nat → Nat → Nat) (events : List Event) (st' : HelloWorld)
    (hfit : ((launcherLaunch st0 zoomLevel transaction tileDims trueSize reads).zoomLevels
      zoomLevel).tiles.length < 4294967296)
    (hno : ∀ e ∈ events, ¬ Event.launcherOn zoomLevel e)
    (hrun : runEvents events
      (launcherLaunch st0 zoomLevel transaction tileDims trueSize reads) = some st') :
    ((launcherLaunch st0 zoomLevel transaction tileDims trueSize reads).zoomLevels
        zoomLevel).tilesInFlight
      = ((launcherLaunch st0 zoomLevel transaction tileDims trueSize reads).zoomLevels
        zoomLevel).tiles.length ∧
    (st'.zoomLevels zoomLevel).tilesInFlight + closuresOf zoomLevel events
      = ((launcherLaunch st0 zoomLevel transaction tileDims trueSize reads).zoomLevels
        zoomLevel).tiles.length ∧
    (closuresOf zoomLevel events
        < ((launcherLaunch st0 zoomLevel transaction tileDims trueSize reads).zoomLevels
          zoomLevel).tiles.length → 0 < (st'.zoomLevels zoomLevel).tilesInFlight) ∧
    (closuresOf zoomLevel events
        = ((launcherLaunch st0 zoomLevel transaction tileDims trueSize reads).zoomLevels
          zoomLevel).tiles.length → (st'.zoomLevels zoomLevel).tilesInFlight = 0) := by
  have hlaunch : ((launcherLaunch st0 zoomLevel transaction tileDims trueSize reads).zoomLevels
        zoomLevel).tilesInFlight
      = ((launcherLaunch st0 zoomLevel transaction tileDims trueSize reads).zoomLevels
        zoomLevel).tiles.length := by
    unfold launcherLaunch at hfit ⊢
    simp only [setZoomLevel_same] at hfit ⊢
    have hlen : ∀ (l r t b : F32) (m o : Nat) (tr : Nat → Nat → Nat) (d : Dims2U)
        (sp : TileSpec) (ts : List Tile2D),
        (mandelbrotAsyncTiled l r t b m o tr d sp ts).tasks.length
          = (mandelbrotAsyncTiled l r t b m o tr d sp ts).outTiles.length := by
      intro l r t b m o tr d sp ts
      simp [mandelbrotAsyncTiled, LaunchTiles_eq, launched]
    rw [hlen]
    exact Nat.mod_eq_of_lt hfit
  have hacc := runEvents_tilesInFlight zoomLevel events _ st' hno hrun
  rw [hlaunch] at hacc
  refine ⟨hlaunch, hacc, ?_, ?_⟩
  · intro h; omega
  · intro h; omega

set_option maxRecDepth 100000 in
/-- Instance of the accounting of the in-flight counter: in the two-tile scene the launcher-waiter of
transaction 0 launches 2 tiles; the GUI thread then runs the lambda of tile 0,
a pan, a zoom-in and the lambda of tile 1, after which `tilesInFlight` of slot
0 is zero. -/
theorem tilesInFlight_accounting_witness :
    ((launcherLaunch twoTileScene 0 0 TILE_DIMS (trueSizeOf twoTileScene)
      neverSuperseded).zoomLevels 0).tiles.length < 4294967296 ∧
    (∀ e ∈ [Event.tile (twoTileClosure 0 0), Event.touchMoved ⟨F32.ofNat 3, F32.ofNat 4⟩,
        Event.zoomIn, Event.tile (twoTileClosure 0 1)], ¬ Event.launcherOn 0 e) ∧
    ∃ st', runEvents [Event.tile (twoTileClosure 0 0),
          Event.touchMoved ⟨F32.ofNat 3, F32.ofNat 4⟩, Event.zoomIn,
          Event.tile (twoTileClosure 0 1)]
        (launcherLaunch twoTileScene 0 0 TILE_DIMS (trueSizeOf twoTileScene) neverSuperseded)
        = some st' ∧
      (st'.zoomLevels 0).tilesInFlight = 0 := by
  have hfit : ((launcherLaunch twoTileScene 0 0 TILE_DIMS (trueSizeOf twoTileScene)
      neverSuperseded).zoomLevels 0).tiles.length < 4294967296 := by decide
  have hno : ∀ e ∈ [Event.tile (twoTileClosure 0 0),
      Event.touchMoved ⟨F32.ofNat 3, F32.ofNat 4⟩, Event.zoomIn,
      Event.tile (twoTileClosure 0 1)], ¬ Event.launcherOn 0 e := by
    intro e he
    simp only [List.mem_cons, List.mem_singleton, List.not_mem_nil, or_false] at he
    rcases he with rfl | rfl | rfl | rfl <;> exact fun h => h
  have hsome : (runEvents [Event.tile (twoTileClosure 0 0),
      Event.touchMoved ⟨F32.ofNat 3, F32.ofNat 4⟩, Event.zoomIn,
      Event.tile (twoTileClosure 0 1)]
      (launcherLaunch twoTileScene 0 0 TILE_DIMS (trueSizeOf twoTileScene)
        neverSuperseded)).isSome = true := by decide
  obtain ⟨st', hst'⟩ := Option.isSome_iff_exists.mp hsome
  refine ⟨hfit, hno, st', hst', ?_⟩
  exact (tilesInFlight_accounting twoTileScene 0 0 TILE_DIMS (trueSizeOf twoTileScene)
    neverSuperseded _ st' hfit hno hst').2.2.2 (by decide)

/-- C12: a tile lambda run when `newestTransaction` differs from its
transaction changes nothing but `tilesInFlight` of its slot, which it
decrements by one: the scene after it is the scene before it with that one
field decremented, so the transaction, every `tilesUpdated`, every sprite
(texture and visibility) and the visibility of both grids are as before.
(When `tilesInFlight` is already 0 the lambda's assertion fails and there is
no state after it.) -/
theorem TileClosure_run_stale (c : TileClosure) (st : HelloWorld)
    (hstale : st.zoomTransaction ≠ c.transaction) :
    (0 < (st.zoomLevels c.zoomLevel).tilesInFlight →
      c.run st = some (st.setZoomLevel c.zoomLevel
        { st.zoomLevels c.zoomLevel with
          tilesInFlight := (st.zoomLevels c.zoomLevel).tilesInFlight - 1 })) ∧
    ((st.zoomLevels c.zoomLevel).tilesInFlight = 0 → c.run st = none) ∧
    ∀ st', c.run st = some st' →
      st'.zoomTransaction = st.zoomTransaction ∧
      (st'.zoomLevels c.zoomLevel).tilesInFlight + 1
        = (st.zoomLevels c.zoomLevel).tilesInFlight ∧
      ∀ j, (st'.zoomLevels j).tilesUpdated = (st.zoomLevels j).tilesUpdated ∧
        (st'.zoomLevels j).tileSprites = (st.zoomLevels j).tileSprites ∧
        (st'.zoomLevels j).tileGridVisible = (st.zoomLevels j).tileGridVisible ∧
        (st'.zoomLevels j).zoomRegion = (st.zoomLevels j).zoomRegion ∧
        (j ≠ c.zoomLevel → st'.zoomLevels j = st.zoomLevels j) := by
  have hrun : c.run st
      = if 0 < (st.zoomLevels c.zoomLevel).tilesInFlight then
          some (st.setZoomLevel c.zoomLevel
            { st.zoomLevels c.zoomLevel with
              tilesInFlight := (st.zoomLevels c.zoomLevel).tilesInFlight - 1 })
        else none := by
    unfold TileClosure.run
    rw [if_neg hstale]
  refine ⟨fun hpos => by rw [hrun, if_pos hpos], fun hzero => by rw [hrun, if_neg (by omega)],
    ?_⟩
  intro st' hst'
  rw [hrun] at hst'
  split at hst'
  · rename_i hpos
    injection hst' with hst'
    subst hst'
    refine ⟨rfl, ?_, ?_⟩
    · rw [setZoomLevel_same]
      simp only
      omega
    · intro j
      by_cases hj : j = c.zoomLevel
      · subst hj
        rw [setZoomLevel_same]
        exact ⟨rfl, rfl, rfl, rfl, fun h => absurd rfl h⟩
      · rw [setZoomLevel_other _ _ _ _ hj]
        exact ⟨rfl, rfl, rfl, rfl, fun _ => rfl⟩
  · exact absurd hst' (by simp)

set_option maxRecDepth 100000 in
/-- Instance of C12: in the two-tile scene, after the launch of transaction 0
and a zoom-in, the lambda of tile 0 of transaction 0 is stale and
`tilesInFlight` of slot 0 is 2; the lambda leaves it at 1. -/
theorem TileClosure_run_stale_witness :
    supersededScene.zoomTransaction ≠ (twoTileClosure 0 0).transaction ∧
    0 < (supersededScene.zoomLevels (twoTileClosure 0 0).zoomLevel).tilesInFlight ∧
    (twoTileClosure 0 0).run supersededScene
      = some (supersededScene.setZoomLevel (twoTileClosure 0 0).zoomLevel
        { supersededScene.zoomLevels (twoTileClosure 0 0).zoomLevel with
          tilesInFlight :=
            (supersededScene.zoomLevels (twoTileClosure 0 0).zoomLevel).tilesInFlight - 1 }) :=
  ⟨by decide, by decide,
    (TileClosure_run_stale (twoTileClosure 0 0) supersededScene (by decide)).1 (by decide)⟩

/-- The upload branch of the lambda of the last tile of a generation leaves
the grid of its slot visible and the grid of the previous slot hidden. -/
theorem upload_last (c : TileClosure) (st st1 : HelloWorld)
    (hne : c.zoomLevel ≠ c.lastZoomLevel)
    (hlast : ((st.zoomLevels c.zoomLevel).tilesUpdated + 1) % 4294967296
      = (st.zoomLevels c.zoomLevel).tiles.length)
    (h : c.upload st = some st1) :
    (st1.zoomLevels c.zoomLevel).tileGridVisible = true ∧
    (st1.zoomLevels c.lastZoomLevel).tileGridVisible = false := by
  unfold TileClosure.upload at h
  simp only at h
  split at h
  · split at h
    · injection h with h
      subst h
      refine ⟨?_, ?_⟩
      · rw [setZoomLevel_other _ _ _ _ hne, setZoomLevel_same]
      · rw [setZoomLevel_same]
    · rename_i hcond
      exact absurd hlast hcond
  · exact absurd h (by simp)

/-- A tile lambda that runs to its end keeps the visibility of the grids as
its upload branch, if taken, left it. -/
theorem run_gridVisible (c : TileClosure) (st st' : HelloWorld) (h : c.run st = some st') :
    (st.zoomTransaction ≠ c.transaction ∧
      ∀ j, (st'.zoomLevels j).tileGridVisible = (st.zoomLevels j).tileGridVisible) ∨
    (st.zoomTransaction = c.transaction ∧ ∃ st1, c.upload st = some st1 ∧
      ∀ j, (st'.zoomLevels j).tileGridVisible = (st1.zoomLevels j).tileGridVisible) := by
  unfold TileClosure.run at h
  by_cases hnew : st.zoomTransaction = c.transaction
  · right
    rw [if_pos hnew] at h
    cases hup : c.upload st with
    | none => rw [hup] at h; exact absurd h (by simp)
    | some st1 =>
      rw [hup] at h
      simp only at h
      split at h
      · injection h with h
        subst h
        refine ⟨hnew, st1, rfl, fun j => ?_⟩
        refine setZoomLevel_tileGridVisible _ _ _ ?_ j
        rfl
      · exact absurd h (by simp)
  · left
    rw [if_neg hnew] at h
    simp only at h
    split at h
    · injection h with h
      subst h
      refine ⟨hnew, fun j => ?_⟩
      refine setZoomLevel_tileGridVisible _ _ _ ?_ j
      rfl
    · exact absurd h (by simp)

/-- A well-formed event keeps at least one grid visible. -/
theorem apply_gridVisible (e : Event) (st st' : HelloWorld) (hwf : e.wellFormed)
    (h : e.apply st = some st') (hvis : someGridVisible st) : someGridVisible st' := by
  have keep : (∀ j, (st'.zoomLevels j).tileGridVisible = (st.zoomLevels j).tileGridVisible) →
      someGridVisible st' := by
    intro hk
    unfold someGridVisible at hvis ⊢
    rw [hk 0, hk 1]
    exact hvis
  cases e with
  | touchMoved screenDelta =>
    simp only [Event.apply, Option.some.injEq] at h
    subst h
    exact keep (fun j => (onTouchMoved_keeps st screenDelta j).2)
  | touchEnded screenDelta =>
    simp only [Event.apply, onTouchEnded] at h
    exact keep (fun j => by
      rw [(updateTilesForRegion_keeps _ _ _ _ h j).2.1, (beginGeneration_keeps st _ j).2])
  | zoomIn =>
    simp only [Event.apply, menuZoomInCallback] at h
    exact keep (fun j => by
      rw [(updateTilesForRegion_keeps _ _ _ _ h j).2.1, (beginGeneration_keeps st _ j).2])
  | zoomOut =>
    simp only [Event.apply, menuZoomOutCallback] at h
    exact keep (fun j => by
      rw [(updateTilesForRegion_keeps _ _ _ _ h j).2.1, (beginGeneration_keeps st _ j).2])
  | tile c =>
    simp only [Event.apply] at h
    simp only [Event.wellFormed] at hwf
    rcases run_gridVisible c st st' h with ⟨_, hk⟩ | ⟨_, st1, hup, hk⟩
    · exact keep hk
    · have hv := upload_gridVisible c st st1 hwf.2 hup
      unfold someGridVisible
      have hlt := hwf.1
      rcases Nat.lt_or_ge c.zoomLevel 1 with h0 | h1
      · left
        have e0 : c.zoomLevel = 0 := by omega
        rw [hk 0, ← e0]
        exact hv
      · right
        have e1 : c.zoomLevel = 1 := by omega
        rw [hk 1, ← e1]
        exact hv
  | launch transaction reads =>
    simp only [Event.apply, Option.some.injEq] at h
    subst h
    exact keep (fun j => by
      unfold launcherLaunch
      simp only
      refine setZoomLevel_tileGridVisible _ _ _ ?_ j
      rfl)
  | dispatch transaction i =>
    simp only [Event.apply, Option.some.injEq] at h
    subst h
    exact keep (fun j => by
      unfold launcherDispatch
      simp only
      split
      · refine setZoomLevel_tileGridVisible _ _ _ ?_ j
        rfl
      · split <;> rfl)

/-- Well-formed events keep at least one grid visible. -/
theorem runEvents_gridVisible : ∀ (events : List Event) (st st' : HelloWorld),
    (∀ e ∈ events, Event.wellFormed e) → runEvents events st = some st' →
    someGridVisible st → someGridVisible st'
  | [], st, st', _, h, hvis => by
    simp only [runEvents, Option.some.injEq] at h
    subst h
    exact hvis
  | e :: rest, st, st', hwf, h, hvis => by
    simp only [runEvents] at h
    cases he : e.apply st with
    | none => rw [he] at h; exact absurd h (by simp)
    | some st1 =>
      rw [he] at h
      exact runEvents_gridVisible rest st1 st'
        (fun e' he' => hwf e' (List.mem_cons_of_mem _ he')) h
        (apply_gridVisible e st st1 (hwf e (List.mem_cons_self _ _)) he hvis)

set_option maxRecDepth 100000 in
/-- C13 (as stated, refuted): in the two-tile scene the first generation
(transaction 0) completes, both its tiles uploaded, with the grid of slot 0
visible and the grid of slot 1 hidden.  After a zoom-in, the launch of
transaction 1 and the upload of the first of its two tiles, the grid of slot 1
is visible too, while the grid of slot 0 stays visible until the second tile
is uploaded: both grids are visible. -/
theorem tileGrids_both_visible :
    (runEvents [Event.launch 0 neverSuperseded, Event.dispatch 0 0, Event.dispatch 0 1,
        Event.tile (twoTileClosure 0 0), Event.tile (twoTileClosure 0 1)] twoTileScene).map
      (fun st => (gridsVisible st, (st.zoomLevels 0).tilesUpdated,
        (st.zoomLevels 0).tiles.length))
      = some ((true, false), 2, 2) ∧
    (runEvents [Event.launch 0 neverSuperseded, Event.dispatch 0 0, Event.dispatch 0 1,
        Event.tile (twoTileClosure 0 0), Event.tile (twoTileClosure 0 1), Event.zoomIn,
        Event.launch 1 neverSuperseded] twoTileScene).bind
      (fun st => (dispatchedClosure st 1 0).map TileClosure.captures)
      = some (twoTileClosure 1 0).captures ∧
    (runEvents [Event.launch 0 neverSuperseded, Event.dispatch 0 0, Event.dispatch 0 1,
        Event.tile (twoTileClosure 0 0), Event.tile (twoTileClosure 0 1), Event.zoomIn,
        Event.launch 1 neverSuperseded, Event.dispatch 1 0,
        Event.tile (twoTileClosure 1 0)] twoTileScene).map
      (fun st => (gridsVisible st, (st.zoomLevels 1).tilesUpdated,
        (st.zoomLevels 1).tiles.length))
      = some ((true, true), 1, 2) := by
  refine ⟨by decide, by decide, by decide⟩

/-- C13 (amended): from a state in which a grid is visible (as after the
first generation has completed), every state reached by events whose tile
lambdas belong to one of the two slots and capture the other slot as the
previous one has at least one of the two grids visible; and the lambda that
uploads the last tile of the newest generation leaves the grid of its slot
visible and the grid of the previous slot hidden, exactly one of the two. -/
theorem tileGrids_some_visible (st : HelloWorld) (events : List Event) (st' : HelloWorld)
    (hwf : ∀ e ∈ events, Event.wellFormed e)
    (hvis : someGridVisible st)
    (hrun : runEvents events st = some st') :
    someGridVisible st' ∧
    ∀ (c : TileClosure) (st'' : HelloWorld), c.zoomLevel ≠ c.lastZoomLevel →
      st'.zoomTransaction = c.transaction →
      ((st'.zoomLevels c.zoomLevel).tilesUpdated + 1) % 4294967296
        = (st'.zoomLevels c.zoomLevel).tiles.length →
      c.run st' = some st'' →
      (st''.zoomLevels c.zoomLevel).tileGridVisible = true ∧
      (st''.zoomLevels c.lastZoomLevel).tileGridVisible = false := by
  refine ⟨runEvents_gridVisible events st st' hwf hrun hvis, ?_⟩
  intro c st'' hne hnew hlast hrun'
  rcases run_gridVisible c st' st'' hrun' with ⟨hstale, _⟩ | ⟨_, st1, hup, hk⟩
  · exact absurd hnew hstale
  · rw [hk, hk]
    exact upload_last c st' st1 hne hlast hup

set_option maxRecDepth 100000 in
/-- Instance of the amended C13: from the two-tile scene with its first
generation completed, a zoom-in, the launch of transaction 1 and the upload of
its first tile. -/
theorem tileGrids_some_visible_witness :
    (∀ e ∈ [Event.zoomIn, Event.launch 1 neverSuperseded, Event.dispatch 1 0,
        Event.tile (twoTileClosure 1 0)], Event.wellFormed e) ∧
    someGridVisible firstGenerationScene ∧
    ∃ st', runEvents [Event.zoomIn, Event.launch 1 neverSuperseded, Event.dispatch 1 0,
        Event.tile (twoTileClosure 1 0)] firstGenerationScene = some st' ∧
      someGridVisible st' := by
  have hwf : ∀ e ∈ [Event.zoomIn, Event.launch 1 neverSuperseded, Event.dispatch 1 0,
      Event.tile (twoTileClosure 1 0)], Event.wellFormed e := by
    intro e he
    simp only [List.mem_cons, List.mem_singleton, List.not_mem_nil, or_false] at he
    rcases he with rfl | rfl | rfl | rfl
    · trivial
    · trivial
    · trivial
    · exact ⟨by decide, by decide⟩
  have hvis : someGridVisible firstGenerationScene := by decide
  have hsome : (runEvents [Event.zoomIn, Event.launch 1 neverSuperseded, Event.dispatch 1 0,
      Event.tile (twoTileClosure 1 0)] firstGenerationScene).isSome = true := by decide
  obtain ⟨st', hst'⟩ := Option.isSome_iff_exists.mp hsome
  exact ⟨hwf, hvis, st', hst',
    (tileGrids_some_visible firstGenerationScene _ st' hwf hvis hst').1⟩

/-! ## Pan and zoom -/

/-- The new slot of a bump differs from the previous slot, which is the slot
that was current before the bump. -/
theorem selectSlots_slots (zoomTransaction : Nat) :
    (selectSlots zoomTransaction).zoomLevel ≠ (selectSlots zoomTransaction).lastZoomLevel ∧
    (selectSlots zoomTransaction).lastZoomLevel = zoomTransaction &&& 1 ∧
    (selectSlots zoomTransaction).transaction = preIncrement zoomTransaction := by
  refine ⟨?_, ?_, rfl⟩
  · simp only [selectSlots, and_one_eq_mod_two, preIncrement]
    omega
  · simp only [selectSlots, and_one_eq_mod_two, preIncrement]
    omega

/-- The function `updateTilesForRegion` returns when the sprite array of the
slot has the dimensions of the grid. -/
theorem updateTilesForRegion_some (st : HelloWorld) (zoomLevel transaction : Nat)
    (region : Region2D)
    (hfit : (st.zoomLevels zoomLevel).tileSprites.width
        = (gridGeometry st.visibleSize (F32.ofNat (F32.toUnsigned st.contentScaleFactor))
            (TILE_DIMS <<< 16 ||| TILE_DIMS) region).tilesX ∧
      (st.zoomLevels zoomLevel).tileSprites.height
        = (gridGeometry st.visibleSize (F32.ofNat (F32.toUnsigned st.contentScaleFactor))
            (TILE_DIMS <<< 16 ||| TILE_DIMS) region).tilesY) :
    ∃ st', updateTilesForRegion st zoomLevel transaction = some st' := by
  have hfit' : (st.zoomLevels zoomLevel).tileSprites.width
        = (gridGeometry st.visibleSize (F32.ofNat (F32.toUnsigned st.contentScaleFactor))
            (TILE_DIMS <<< 16 ||| TILE_DIMS) (st.zoomLevels zoomLevel).zoomRegion).tilesX ∧
      (st.zoomLevels zoomLevel).tileSprites.height
        = (gridGeometry st.visibleSize (F32.ofNat (F32.toUnsigned st.contentScaleFactor))
            (TILE_DIMS <<< 16 ||| TILE_DIMS) (st.zoomLevels zoomLevel).zoomRegion).tilesY :=
    hfit
  unfold updateTilesForRegion fitTileGridToRegion
  simp only
  rw [if_pos hfit']
  exact ⟨_, rfl⟩

/-- What a handler that starts a generation does to the regions and the
transaction, when the sprite array of the new slot has the dimensions of the
grid. -/
theorem generation_spec (st : HelloWorld) (change : Region2D → Region2D) (region : Region2D)
    (hfit : (st.zoomLevels (selectSlots st.zoomTransaction).zoomLevel).tileSprites.width
        = (gridGeometry st.visibleSize (F32.ofNat (F32.toUnsigned st.contentScaleFactor))
            (TILE_DIMS <<< 16 ||| TILE_DIMS) region).tilesX ∧
      (st.zoomLevels (selectSlots st.zoomTransaction).zoomLevel).tileSprites.height
        = (gridGeometry st.visibleSize (F32.ofNat (F32.toUnsigned st.contentScaleFactor))
            (TILE_DIMS <<< 16 ||| TILE_DIMS) region).tilesY) :
    ∃ st', updateTilesForRegion (beginGeneration st change)
        (selectSlots st.zoomTransaction).zoomLevel (selectSlots st.zoomTransaction).transaction
        = some st' ∧
      st'.zoomTransaction = preIncrement st.zoomTransaction ∧
      (st'.zoomLevels (selectSlots st.zoomTransaction).zoomLevel).zoomRegion
        = change (st.zoomLevels (st.zoomTransaction &&& 1)).zoomRegion ∧
      (st'.zoomLevels (st.zoomTransaction &&& 1)).zoomRegion
        = (st.zoomLevels (st.zoomTransaction &&& 1)).zoomRegion := by
  obtain ⟨hne, hlast, htr⟩ := selectSlots_slots st.zoomTransaction
  have hsprites : ((beginGeneration st change).zoomLevels
      (selectSlots st.zoomTransaction).zoomLevel).tileSprites
      = (st.zoomLevels (selectSlots st.zoomTransaction).zoomLevel).tileSprites := by
    unfold beginGeneration
    simp only [setZoomLevel_same]
  obtain ⟨st', hst'⟩ := updateTilesForRegion_some (beginGeneration st change)
    (selectSlots st.zoomTransaction).zoomLevel (selectSlots st.zoomTransaction).transaction
    region (by rw [hsprites]; exact hfit)
  refine ⟨st', hst', ?_, ?_, ?_⟩
  · rw [(updateTilesForRegion_keeps _ _ _ _ hst' 0).2.2.2, ← htr]
    rfl
  · rw [(updateTilesForRegion_keeps _ _ _ _ hst' _).2.2.1]
    unfold beginGeneration
    simp only [setZoomLevel_same, hlast]
  · rw [(updateTilesForRegion_keeps _ _ _ _ hst' _).2.2.1]
    unfold beginGeneration
    simp only
    rw [setZoomLevel_other _ _ _ _ (by rw [← hlast]; exact fun h => hne h.symm)]

set_option exponentiation.threshold 10000 in
set_option maxRecDepth 100000 in
/-- C14 (the code at the failing input), the guard of `onTouchMoved` at a
delta along an axis: in the example scene
(transaction 0, slot 0 with centre `(-0.5, 0)`, width 4.5, height 3.0, visible
size 900 × 600) `onTouchMoved` with the screen delta `(10, 0)` leaves the
scene as it is, and so does the delta `(0, 5)`: the guard
`screenDelta.x != 0.0f && screenDelta.y != 0.0f` skips every delta with a zero
component, where `onTouchEnded` applies its delta without a guard.  The centre
`centreX - dx * width / visibleWidth` for `(10, 0)` is not the old centre.  A
delta with both components non-zero, `(10, 5)`, does move the centre. -/
theorem onTouchMoved_axis_delta :
    exampleScene.zoomTransaction = 0 ∧
    (exampleScene.zoomLevels 0).zoomRegion
      = ⟨F64.neg F64.half, F64.fin 0, F64.ofRatio 45 10, F64.ofNat 3, F64.fin 0⟩ ∧
    onTouchMoved exampleScene ⟨F32.ofNat 10, F32.ofNat 0⟩ = exampleScene ∧
    onTouchMoved exampleScene ⟨F32.ofNat 0, F32.ofNat 5⟩ = exampleScene ∧
    F64.sub (F64.neg F64.half)
        (F64.div (F64.mul (F64.ofNat 10) (F64.ofRatio 45 10)) (F64.ofNat 900))
      ≠ F64.neg F64.half ∧
    ((onTouchMoved exampleScene ⟨F32.ofNat 10, F32.ofNat 5⟩).zoomLevels 0).zoomRegion
      = ⟨F64.sub (F64.neg F64.half) (F64.ofF32 (F32.ofRatio 5 100)),
          F64.neg (F64.ofF32 (F32.ofRatio 25 1000)), F64.ofRatio 45 10, F64.ofNat 3,
          F64.fin 0⟩ := by
  refine ⟨by decide, by decide, ?_, ?_, by decide, by decide⟩
  · unfold onTouchMoved
    rw [if_neg (by decide)]
  · unfold onTouchMoved
    rw [if_neg (by decide)]

set_option exponentiation.threshold 10000 in
set_option maxRecDepth 100000 in
/-- The narrowing of the pan displacement: in the example scene (transaction 0, slot 0 with
centre `(-0.5, 0)`, width 4.5, height 3.0, visible size 900 × 600)
`onTouchMoved` with the screen delta `(10, 5)` passes the guard and moves the
centre to `(-0.5 - 0.05f, 0 - 0.025f)`: each displacement is narrowed to
`float` by `Vec2` before it is subtracted.  That centre is not
`(centreX - dx * width / visibleWidth, centreY - dy * height / visibleHeight)`,
neither with the products and quotients taken in `double` in the stated order
nor in the order of the code, `dx * (width / visibleWidth)`. -/
theorem onTouchMoved_delta_narrowed :
    exampleScene.zoomTransaction = 0 ∧
    (exampleScene.zoomLevels 0).zoomRegion
      = ⟨F64.neg F64.half, F64.fin 0, F64.ofRatio 45 10, F64.ofNat 3, F64.fin 0⟩ ∧
    exampleScene.visibleSize = ⟨F32.ofNat 900, F32.ofNat 600⟩ ∧
    ((onTouchMoved exampleScene ⟨F32.ofNat 10, F32.ofNat 5⟩).zoomLevels 0).zoomRegion
      = ⟨F64.sub (F64.neg F64.half) (F64.ofF32 (F32.ofRatio 5 100)),
          F64.sub (F64.fin 0) (F64.ofF32 (F32.ofRatio 25 1000)), F64.ofRatio 45 10,
          F64.ofNat 3, F64.fin 0⟩ ∧
    ((onTouchMoved exampleScene ⟨F32.ofNat 10, F32.ofNat 5⟩).zoomLevels 0).zoomRegion.centreX
      ≠ F64.sub (F64.neg F64.half)
          (F64.div (F64.mul (F64.ofNat 10) (F64.ofRatio 45 10)) (F64.ofNat 900)) ∧
    ((onTouchMoved exampleScene ⟨F32.ofNat 10, F32.ofNat 5⟩).zoomLevels 0).zoomRegion.centreX
      ≠ F64.sub (F64.neg F64.half)
          (F64.mul (F64.ofNat 10) (F64.div (F64.ofRatio 45 10) (F64.ofNat 900))) ∧
    ((onTouchMoved exampleScene ⟨F32.ofNat 10, F32.ofNat 5⟩).zoomLevels 0).zoomRegion.centreY
      ≠ F64.sub (F64.fin 0)
          (F64.div (F64.mul (F64.ofNat 5) (F64.ofNat 3)) (F64.ofNat 600)) ∧
    ((onTouchMoved exampleScene ⟨F32.ofNat 10, F32.ofNat 5⟩).zoomLevels 0).zoomRegion.centreY
      ≠ F64.sub (F64.fin 0)
          (F64.mul (F64.ofNat 5) (F64.div (F64.ofNat 3) (F64.ofNat 600))) := by
  refine ⟨by decide, by decide, by decide, by decide, by decide, by decide, by decide,
    by decide⟩

/-- The pan where the guard of `onTouchMoved` passes: for every screen delta
with both components different from
zero, `onTouchMoved` leaves the transaction as it is and gives the current
slot (slot `newestTransaction mod 2`) the region with the same width, height
and rotation and with the centre
`(centreX - float(dx * (width / visibleWidth)),
  centreY - float(dy * (height / visibleHeight)))`: quotient and product are
taken in `double`, the product is narrowed to `float`, and the subtraction is
taken in `double`.  Every other slot is unchanged. -/
theorem onTouchMoved_spec (st : HelloWorld) (screenDelta : Vec2)
    (hx : F32.nonzero screenDelta.x = true) (hy : F32.nonzero screenDelta.y = true) :
    (onTouchMoved st screenDelta).zoomTransaction = st.zoomTransaction ∧
    ((onTouchMoved st screenDelta).zoomLevels (st.zoomTransaction % 2)).zoomRegion
      = { (st.zoomLevels (st.zoomTransaction % 2)).zoomRegion with
          centreX := F64.sub (st.zoomLevels (st.zoomTransaction % 2)).zoomRegion.centreX
            (F64.ofF32 (F64.toF32 (F64.mul (F64.ofF32 screenDelta.x)
              (F64.div (st.zoomLevels (st.zoomTransaction % 2)).zoomRegion.width
                (F64.ofF32 st.visibleSize.width)))))
          centreY := F64.sub (st.zoomLevels (st.zoomTransaction % 2)).zoomRegion.centreY
            (F64.ofF32 (F64.toF32 (F64.mul (F64.ofF32 screenDelta.y)
              (F64.div (st.zoomLevels (st.zoomTransaction % 2)).zoomRegion.height
                (F64.ofF32 st.visibleSize.height))))) } ∧
    ∀ j, j ≠ st.zoomTransaction % 2 →
      (onTouchMoved st screenDelta).zoomLevels j = st.zoomLevels j := by
  have e : st.zoomTransaction &&& 1 = st.zoomTransaction % 2 := Nat.and_one_is_mod _
  unfold onTouchMoved
  rw [if_pos (by rw [hx, hy]; rfl)]
  simp only [e]
  refine ⟨rfl, ?_, ?_⟩
  · rw [setZoomLevel_same]
    rfl
  · intro j hj
    exact setZoomLevel_other _ _ _ _ hj

set_option exponentiation.threshold 10000 in
set_option maxRecDepth 100000 in
/-- The pan of the example scene with the screen delta `(10, 5)`. -/
theorem onTouchMoved_spec_witness :
    F32.nonzero (F32.ofNat 10) = true ∧ F32.nonzero (F32.ofNat 5) = true ∧
    (onTouchMoved exampleScene ⟨F32.ofNat 10, F32.ofNat 5⟩).zoomTransaction
      = exampleScene.zoomTransaction :=
  ⟨by decide, by decide,
    (onTouchMoved_spec exampleScene ⟨F32.ofNat 10, F32.ofNat 5⟩ (by decide) (by decide)).1⟩

set_option exponentiation.threshold 10000 in
set_option maxRecDepth 100000 in
/-- C15 (the code at the failing input): from the example scene (centre
`(-0.5, 0)`, size `(4.5, 3.0)`, visible size 900 × 600) the pans `(10, 0)`,
`(10, 0)` and the pan end `(0, 5)` bump the transaction once, to 1, and give
slot 1 the region with the initial width and height and the centre
`(-0.5, -0.025f)`: the two pans are skipped by the guard of `onTouchMoved`, so
the centre's first coordinate is the initial `-0.5`, not the stated `-0.6`. -/
theorem pan_accumulation_example :
    (runEvents [Event.touchMoved ⟨F32.ofNat 10, F32.ofNat 0⟩,
        Event.touchMoved ⟨F32.ofNat 10, F32.ofNat 0⟩,
        Event.touchEnded ⟨F32.ofNat 0, F32.ofNat 5⟩] exampleScene).map
      (fun st => (st.zoomTransaction, (st.zoomLevels 1).zoomRegion))
      = some (1, ⟨F64.neg F64.half, F64.neg (F64.ofF32 (F32.ofRatio 25 1000)),
          F64.ofRatio 45 10, F64.ofNat 3, F64.fin 0⟩) ∧
    F64.neg (F64.ofRatio 6 10) ≠ F64.neg F64.half := by
  refine ⟨by decide, by decide⟩

/-! ## Bounds on rounded values -/

namespace F32

/-- A value of at most `m · 2^j` rounds, at a spacing `2^k` that divides the
bound, to at most the bound. -/
theorem roundHalfEven_bound (a q k m j : Nat) (hq : 0 < q) (hk : k ≤ j)
    (hB : a ≤ m * 2 ^ j * q) : roundHalfEven a (q * 2 ^ k) * 2 ^ k ≤ m * 2 ^ j := by
  have hpow : (2 : Nat) ^ j = 2 ^ (j - k) * 2 ^ k := by
    rw [← Nat.pow_add]; congr 1; omega
  have hd : 0 < q * 2 ^ k := Nat.mul_pos hq (Nat.two_pow_pos _)
  have hB' : a ≤ m * 2 ^ (j - k) * (q * 2 ^ k) := by
    have e : m * 2 ^ j * q = m * 2 ^ (j - k) * (q * 2 ^ k) := by
      rw [hpow]; ring
    omega
  have hdm := Nat.div_add_mod a (q * 2 ^ k)
  have hr := Nat.mod_lt a hd
  have hx : a / (q * 2 ^ k) ≤ m * 2 ^ (j - k) := by
    apply Nat.le_of_mul_le_mul_left _ hd
    rw [Nat.mul_comm (q * 2 ^ k) (m * 2 ^ (j - k))]
    omega
  have hx' : 0 < a % (q * 2 ^ k) → a / (q * 2 ^ k) < m * 2 ^ (j - k) := by
    intro hpos
    apply Nat.lt_of_mul_lt_mul_left (a := q * 2 ^ k)
    rw [Nat.mul_comm (q * 2 ^ k) (m * 2 ^ (j - k))]
    omega
  have hrhe : roundHalfEven a (q * 2 ^ k) ≤ m * 2 ^ (j - k) := by
    unfold roundHalfEven
    split
    · exact hx
    · have := hx' (by omega)
      split
      · omega
      · split <;> omega
  calc roundHalfEven a (q * 2 ^ k) * 2 ^ k
      ≤ m * 2 ^ (j - k) * 2 ^ k := Nat.mul_le_mul_right _ hrhe
    _ = m * 2 ^ j := by rw [hpow]; ring

/-- A value of at least `m · 2^j` rounds, at a spacing `2^k` that divides the
bound, to at least the bound. -/
theorem roundHalfEven_ge (a q k m j : Nat) (hq : 0 < q) (hk : k ≤ j)
    (hB : m * 2 ^ j * q ≤ a) : m * 2 ^ j ≤ roundHalfEven a (q * 2 ^ k) * 2 ^ k := by
  have hpow : (2 : Nat) ^ j = 2 ^ (j - k) * 2 ^ k := by
    rw [← Nat.pow_add]; congr 1; omega
  have hd : 0 < q * 2 ^ k := Nat.mul_pos hq (Nat.two_pow_pos _)
  have hB' : m * 2 ^ (j - k) * (q * 2 ^ k) ≤ a := by
    have e : m * 2 ^ j * q = m * 2 ^ (j - k) * (q * 2 ^ k) := by
      rw [hpow]; ring
    omega
  have hx : m * 2 ^ (j - k) ≤ a / (q * 2 ^ k) := (Nat.le_div_iff_mul_le hd).mpr hB'
  have hrhe := div_le_roundHalfEven a (q * 2 ^ k)
  calc m * 2 ^ j = m * 2 ^ (j - k) * 2 ^ k := by rw [hpow]; ring
    _ ≤ roundHalfEven a (q * 2 ^ k) * 2 ^ k := Nat.mul_le_mul_right _ (by omega)

/-- Rounding does not cross a binary32 number: a value of magnitude at most
`m · 2^j` units with `m < 2^24` rounds to a finite number of magnitude at most
`m · 2^j`, of the same sign. -/
theorem round_bound (p : Int) (q m j : Nat) (hq : 0 < q) (hm : m < 2 ^ 24)
    (hB : p.natAbs ≤ m * 2 ^ j * q) (hfin : m * 2 ^ j < 2 ^ 128 * one) :
    ∃ n : Int, round p q = fin n ∧ n.natAbs ≤ m * 2 ^ j ∧ (0 ≤ p → 0 ≤ n) ∧
      (p ≤ 0 → n ≤ 0) := by
  have hv : p.natAbs / q ≤ m * 2 ^ j := Nat.div_le_of_le_mul (by rw [Nat.mul_comm]; exact hB)
  have hkj : ulpExp (p.natAbs / q) 254 0 ≤ j := by
    by_contra hlt
    rcases ulpExp_min (p.natAbs / q) 254 0 with h0 | hmin
    · omega
    · have h1 : (2 : Nat) ^ (24 + j) ≤ 2 ^ (23 + ulpExp (p.natAbs / q) 254 0) :=
        Nat.pow_le_pow_right (by decide) (by omega)
      have h2 : m * 2 ^ j < 2 ^ 24 * 2 ^ j :=
        Nat.mul_lt_mul_of_pos_right hm (Nat.two_pow_pos _)
      rw [← Nat.pow_add] at h2
      omega
  have hN := roundHalfEven_bound p.natAbs q (ulpExp (p.natAbs / q) 254 0) m j hq hkj hB
  have hnot : ¬ (2 ^ 128 * one ≤
      roundHalfEven p.natAbs (q * 2 ^ ulpExp (p.natAbs / q) 254 0)
        * 2 ^ ulpExp (p.natAbs / q) 254 0) := by omega
  have hround : round p q
      = fin (if p < 0 then
          -((roundHalfEven p.natAbs (q * 2 ^ ulpExp (p.natAbs / q) 254 0)
            * 2 ^ ulpExp (p.natAbs / q) 254 0 : Nat) : Int)
        else ((roundHalfEven p.natAbs (q * 2 ^ ulpExp (p.natAbs / q) 254 0)
            * 2 ^ ulpExp (p.natAbs / q) 254 0 : Nat) : Int)) := by
    simp only [round, if_neg hnot]
  have hzero : p = 0 →
      roundHalfEven p.natAbs (q * 2 ^ ulpExp (p.natAbs / q) 254 0)
        * 2 ^ ulpExp (p.natAbs / q) 254 0 = 0 := by
    intro hp0
    subst hp0
    simp [roundHalfEven]
  generalize roundHalfEven p.natAbs (q * 2 ^ ulpExp (p.natAbs / q) 254 0)
    * 2 ^ ulpExp (p.natAbs / q) 254 0 = N at hN hround hzero
  rw [hround]
  by_cases hneg : p < 0
  · refine ⟨-(N : Int), by rw [if_pos hneg], ?_, ?_, ?_⟩
    · rw [Int.natAbs_neg, Int.natAbs_ofNat]; exact hN
    · intro h; omega
    · intro _; omega
  · refine ⟨(N : Int), by rw [if_neg hneg], ?_, ?_, ?_⟩
    · rw [Int.natAbs_ofNat]; exact hN
    · intro _; omega
    · intro h
      have := hzero (by omega)
      omega

end F32

/-! ## The offline run of `main` -/

theorem ofNat_bound (m b j : Nat) (hb : b < 2 ^ 24) (hm : m * F32.one ≤ b * 2 ^ j)
    (hfin : b * 2 ^ j < 2 ^ 128 * F32.one) :
    ∃ n : Int, F32.ofNat m = F32.fin n ∧ n.natAbs ≤ b * 2 ^ j ∧ 0 ≤ n := by
  obtain ⟨n, h1, h2, h3, _⟩ := F32.round_bound ((m * F32.one : Nat) : Int) 1 b j (by decide) hb
    (by rw [Int.natAbs_ofNat, Nat.mul_one]; exact hm) hfin
  exact ⟨n, h1, h2, h3 (Int.ofNat_nonneg _)⟩

/-- The coordinate `i` of every framebuffer column of `mainRun` is finite, of
magnitude at most 2. -/
theorem mainI_bound (px : Nat) (hpx : px ≤ 2048) :
    ∃ n : Int, mainI px = F32.fin n ∧ n.natAbs ≤ 2 ^ 150 := by
  have hd : F32.div (F32.sub mainRight mainLeft) (F32.ofNat 2048)
      = F32.fin ((3 * 2 ^ 138 : Nat) : Int) := by decide
  have hl : mainLeft = F32.fin (-((2 ^ 150 : Nat) : Int)) := by decide
  have hone : F32.one = 2 ^ 149 := rfl
  obtain ⟨n1, h1, b1, p1⟩ := ofNat_bound px 1 160 (by decide)
    (by rw [hone]
        have := Nat.mul_le_mul_right (2 ^ 149) hpx
        have e : 2048 * 2 ^ 149 = 1 * 2 ^ 160 := by decide
        omega) (by decide)
  obtain ⟨n2, h2, b2, p2, _⟩ := F32.round_bound (((3 * 2 ^ 138 : Nat) : Int) * n1) F32.one
    3 149 (by decide) (by decide)
    (by rw [Int.natAbs_mul, Int.natAbs_ofNat, hone]
        have := Nat.mul_le_mul_left (3 * 2 ^ 138) b1
        have e : 3 * 2 ^ 138 * (1 * 2 ^ 160) = 3 * 2 ^ 149 * 2 ^ 149 := by decide
        omega) (by decide)
  have p2' : 0 ≤ n2 := p2 (Int.mul_nonneg (Int.ofNat_nonneg _) p1)
  obtain ⟨n3, h3, b3, _, _⟩ := F32.round_bound (-((2 ^ 150 : Nat) : Int) + n2) 1 1 150
    (by decide) (by decide)
    (by have e : (2 : Nat) ^ 150 = 2 * 2 ^ 149 := by decide
        omega) (by decide)
  refine ⟨n3, ?_, by omega⟩
  unfold mainI
  rw [hd, h1, hl]
  simp only [F32.mul, F32.add]
  rw [h2]
  simp only [F32.add]
  exact h3

/-- The coordinate `j` of every framebuffer row of `mainRun` is finite, of
magnitude at most 1.75. -/
theorem mainJ_bound (py : Nat) (hpy : py ≤ 1536) :
    ∃ n : Int, mainJ py = F32.fin n ∧ n.natAbs ≤ 7 * 2 ^ 147 := by
  have hd : F32.div (F32.sub mainBottom mainTop) (F32.ofNat 1536)
      = F32.fin (-((2 ^ 140 : Nat) : Int)) := by decide
  have ht : mainTop = F32.fin ((12583751 * 2 ^ 126 : Nat) : Int) := by decide
  have hone : F32.one = 2 ^ 149 := rfl
  obtain ⟨n1, h1, b1, p1⟩ := ofNat_bound py 3 158 (by decide)
    (by rw [hone]
        have := Nat.mul_le_mul_right (2 ^ 149) hpy
        have e : 1536 * 2 ^ 149 = 3 * 2 ^ 158 := by decide
        omega) (by decide)
  obtain ⟨n2, h2, b2, _, q2⟩ := F32.round_bound ((-((2 ^ 140 : Nat) : Int)) * n1) F32.one
    3 149 (by decide) (by decide)
    (by rw [Int.natAbs_mul, Int.natAbs_neg, Int.natAbs_ofNat, hone]
        have := Nat.mul_le_mul_left (2 ^ 140) b1
        have e : 2 ^ 140 * (3 * 2 ^ 158) = 3 * 2 ^ 149 * 2 ^ 149 := by decide
        omega) (by decide)
  have q2' : n2 ≤ 0 := q2 (by
    have : (0 : Int) ≤ ((2 ^ 140 : Nat) : Int) * n1 := Int.mul_nonneg (Int.ofNat_nonneg _) p1
    rw [Int.neg_mul]
    omega)
  obtain ⟨n3, h3, b3, _, _⟩ := F32.round_bound (((12583751 * 2 ^ 126 : Nat) : Int) + n2) 1
    7 147 (by decide) (by decide)
    (by have e1 : (12583751 * 2 ^ 126 : Nat) ≤ 7 * 2 ^ 147 := by decide
        have e2 : 3 * 2 ^ 149 ≤ 7 * 2 ^ 147 + 12583751 * 2 ^ 126 := by decide
        omega) (by decide)
  refine ⟨n3, ?_, by omega⟩
  unfold mainJ
  rw [hd, h1, ht]
  simp only [F32.mul, F32.add]
  rw [h2]
  simp only [F32.add]
  exact h3

/-- A point with real part of magnitude at most 2 and imaginary part of
magnitude at most 1.75 does not meet the divergence test at the first
iteration. -/
theorem not_diverged_first (a b : Int) (ha : a.natAbs ≤ 2 ^ 150) (hb : b.natAbs ≤ 7 * 2 ^ 147) :
    diverged (orbit ⟨F32.fin a, F32.fin b⟩ 1) = false := by
  have hz : Complex32.mul ⟨F32.ofNat 0, F32.ofNat 0⟩ ⟨F32.ofNat 0, F32.ofNat 0⟩
      = ⟨F32.fin 0, F32.fin 0⟩ := by decide
  have h4 : F32.ofNat 4 = F32.fin ((2 ^ 151 : Nat) : Int) := by decide
  have hone : F32.one = 2 ^ 149 := rfl
  obtain ⟨a1, ha1, hab, _, _⟩ := F32.round_bound (0 + a) 1 1 150 (by decide) (by decide)
    (by rw [Int.zero_add]; omega) (by decide)
  obtain ⟨b1, hb1, hbb, _, _⟩ := F32.round_bound (0 + b) 1 7 147 (by decide) (by decide)
    (by rw [Int.zero_add]; omega) (by decide)
  obtain ⟨n, hn, hnb, _, _⟩ := F32.round_bound (a1 * b1) F32.one 7 148 (by decide) (by decide)
    (by rw [Int.natAbs_mul, hone]
        have := Nat.mul_le_mul hab hbb
        have e : 1 * 2 ^ 150 * (7 * 2 ^ 147) = 7 * 2 ^ 148 * 2 ^ 149 := by decide
        omega) (by decide)
  have horbit : orbit ⟨F32.fin a, F32.fin b⟩ 1 = ⟨F32.fin a1, F32.fin b1⟩ := by
    show Complex32.add (Complex32.mul ⟨F32.ofNat 0, F32.ofNat 0⟩ ⟨F32.ofNat 0, F32.ofNat 0⟩)
      ⟨F32.fin a, F32.fin b⟩ = _
    rw [hz]
    simp only [Complex32.add, F32.add]
    rw [ha1, hb1]
  rw [horbit]
  simp only [diverged, F32.mul]
  rw [hn, h4]
  simp only [F32.abs, F32.ge]
  have e : (7 : Nat) * 2 ^ 148 < 2 ^ 151 := by decide
  simp only [decide_eq_false_iff_not, not_le]
  omega

/-- A point that does not meet the divergence test at the first iteration has
`iter` between 1 and `maxIters`. -/
theorem escapeIter_pos (c : Complex32) (maxIters : Nat) (hm : 0 < maxIters)
    (hd : diverged (orbit c 1) = false) :
    1 ≤ escapeIter c maxIters ∧ escapeIter c maxIters ≤ maxIters := by
  obtain ⟨_, h2, _, h4⟩ := escapeLoop_spec c maxIters 0
  have horbit : orbit c 0 = ⟨F32.ofNat 0, F32.ofNat 0⟩ := rfl
  rw [horbit] at h2 h4
  unfold escapeIter
  refine ⟨?_, by omega⟩
  by_contra hlt
  have h0 : escapeLoop c maxIters 0 ⟨F32.ofNat 0, F32.ofNat 0⟩ = 0 := by omega
  have := h4 (by omega)
  rw [h0] at this
  rw [hd] at this
  exact absurd this (by decide)

/-- With 32 iterations only `iter = 0` gives the grey value 255. -/
theorem greyOf_32_not_white : ∀ iter, iter < 33 → 1 ≤ iter → greyOf 32 iter ≠ 255 := by
  decide

/-- The pixel of a point that does not meet the divergence test at the first
iteration, with 32 iterations, is not white. -/
theorem mandelbrotPixel_not_white (c : Complex32) (hd : diverged (orbit c 1) = false) :
    mandelbrotPixel c 32 ≠ white := by
  obtain ⟨h1, h2⟩ := escapeIter_pos c 32 (by decide) hd
  have hg := greyOf_32_not_white (escapeIter c 32) (by omega) h1
  have hlt := greyOf_lt 32 (escapeIter c 32)
  intro h
  have hr := congrArg RGBA.r h
  simp only [mandelbrotPixel, RGBA.ofUnsigned, white] at hr
  rw [Nat.mod_eq_of_lt hlt] at hr
  exact hg hr

/-- After the stores of a tiled Mandelbrot run that is never superseded have
been made in any order, every pixel of every tile holds the value its kernel
stored. -/
theorem mandelbrot_final_pixel (left right top bottom : F32)
    (maxIters originalTransaction : Nat) (transaction : Nat → Nat → Nat)
    (tileGridDims : Dims2U) (spec : TileSpec) (tiles : List Tile2D)
    (hnever : ∀ i n, transaction i n = originalTransaction)
    (hrow : tileGridDims.w * spec.w * sizeofRGBA ≤ spec.stride)
    (hext : tileGridDims.h * spec.h * spec.stride < 4294967296)
    (sched : List Store)
    (hperm : sched.Perm (allStores (mandelbrotAsyncTiled left right top bottom maxIters
      originalTransaction transaction tileGridDims spec tiles)))
    (mem : Memory) (X Y x y : Nat) (hX : X < tileGridDims.w) (hY : Y < tileGridDims.h)
    (hx : x < spec.w) (hy : y < spec.h) :
    loadRGBA (runStores sched mem) (addressRow spec (tileAt spec X Y) y + x * sizeofRGBA)
      = (pixelStore ⟨left, right, top, bottom, maxIters, pixelDims spec tileGridDims,
          originalTransaction, transaction⟩ spec (tileAt spec X Y) y x).value := by
  have hmem := mem_allStores left right top bottom maxIters originalTransaction transaction
    tileGridDims spec tiles hnever
  apply loadRGBA_of_bytes (runStores sched mem)
    (pixelStore ⟨left, right, top, bottom, maxIters, pixelDims spec tileGridDims,
      originalTransaction, transaction⟩ spec (tileAt spec X Y) y x)
  intro j hj
  apply runStores_of_agree
  · intro s hs hcov
    obtain ⟨X', Y', y', x', hX', hY', hy', hx', rfl⟩ := (hmem s).mp (hperm.mem_iff.mp hs)
    simp only [Store.covers, pixelStore, sizeofRGBA] at hcov
    obtain ⟨rfl, rfl, rfl, rfl⟩ := pixel_unique spec tileGridDims hrow hext
      X' Y' x' y' X Y x y hX' hY' hx' hy' hX hY hx hy _
      (by simp only [sizeofRGBA]; exact hcov)
      (by simp only [sizeofRGBA, pixelStore]; omega)
    rfl
  · right
    refine ⟨_, hperm.mem_iff.mpr ((hmem _).mpr ⟨X, Y, y, x, hX, hY, hy, hx, rfl⟩), ?_⟩
    simp only [Store.covers, pixelStore, sizeofRGBA]
    omega

/-- The coordinates the kernels of `mainRun` give the pixel at tile-local
`(x, y)` of the tile of cell `(X, Y)` are those of framebuffer column
`X * 32 + x` and row `Y * 32 + y`. -/
theorem main_coords (X Y x y : Nat) (hX : X < 64) (hY : Y < 48) (hx : x < 32) (hy : y < 32) :
    coordI mainEnv mainSpec (tileAt mainSpec X Y) x = mainI (X * 32 + x) ∧
    coordJ mainEnv mainSpec (tileAt mainSpec X Y) y = mainJ (Y * 32 + y) := by
  obtain ⟨hcx, hcy⟩ := tileAt_coords mainSpec X Y (by omega) (by omega)
  have hw : (pixelDims mainSpec mainGrid).w = 2048 := by decide
  have hh : (pixelDims mainSpec mainGrid).h = 1536 := by decide
  have ex := framebuffer_coord 32 X x (by decide) (by omega) hx
  have ey := framebuffer_coord 32 Y y (by decide) (by omega) hy
  constructor
  · simp only [coordI, pixelPosition, hcx, mainEnv, hw, mainI]
    rw [show mainSpec.w = 32 from rfl, ex]
  · simp only [coordJ, pixelPosition, hcy, mainEnv, hh, mainJ]
    rw [show mainSpec.h = 32 from rfl, ey]

/-- After the stores of `mainRun` have been made in any order, no pixel of the
framebuffer is white. -/
theorem main_no_white (sched : List Store) (hperm : sched.Perm (allStores mainRun))
    (mem : Memory) (p : Nat) (hp : p < mainPixelCount) :
    loadRGBA (runStores sched mem) (p * sizeofRGBA) ≠ white := by
  obtain ⟨hrow, hext, _, _⟩ := main_configuration_fits
  have hpx : p % 2048 < mainGrid.w * mainSpec.w := by
    have : mainGrid.w * mainSpec.w = 2048 := by decide
    omega
  have hpy : p / 2048 < mainGrid.h * mainSpec.h := by
    have : mainGrid.h * mainSpec.h = 1536 := by decide
    have : mainPixelCount = 2048 * 1536 := rfl
    omega
  obtain ⟨hX, hY, hx, hy, haddr⟩ := pixel_in_cell mainSpec mainGrid hrow hext
    (p % 2048) (p / 2048) hpx hpy
  have hw : mainSpec.w = 32 := rfl
  have hh : mainSpec.h = 32 := rfl
  have hgw : mainGrid.w = 64 := rfl
  have hgh : mainGrid.h = 48 := rfl
  have hst : mainSpec.stride = 8192 := rfl
  rw [hw, hgw] at hX
  rw [hh, hgh] at hY
  rw [hw] at hx
  rw [hh] at hy
  have hp4 : p * sizeofRGBA = p / 2048 * mainSpec.stride + p % 2048 * sizeofRGBA := by
    simp only [sizeofRGBA, hst]
    omega
  rw [hp4, ← haddr]
  have hfinal := mandelbrot_final_pixel mainLeft mainRight mainTop mainBottom 32 0
    neverSuperseded mainGrid mainSpec [] (fun _ _ => rfl) hrow hext sched hperm mem
    (p % 2048 / mainSpec.w) (p / 2048 / mainSpec.h) (p % 2048 % mainSpec.w)
    (p / 2048 % mainSpec.h) (by rw [hw, hgw]; exact hX) (by rw [hh, hgh]; exact hY)
    (by rw [hw]; exact hx) (by rw [hh]; exact hy)
  rw [hfinal]
  obtain ⟨ci, cj⟩ := main_coords (p % 2048 / 32) (p / 2048 / 32) (p % 2048 % 32)
    (p / 2048 % 32) hX hY hx hy
  have ei : p % 2048 / 32 * 32 + p % 2048 % 32 = p % 2048 := by omega
  have ej : p / 2048 / 32 * 32 + p / 2048 % 32 = p / 2048 := by omega
  rw [ei] at ci
  rw [ej] at cj
  obtain ⟨a, ha, hab⟩ := mainI_bound (p % 2048) (by omega)
  obtain ⟨b, hb, hbb⟩ := mainJ_bound (p / 2048) (by
    have : mainPixelCount = 2048 * 1536 := rfl
    omega)
  show mandelbrotPixel ⟨coordI mainEnv mainSpec (tileAt mainSpec (p % 2048 / mainSpec.w)
      (p / 2048 / mainSpec.h)) (p % 2048 % mainSpec.w),
    coordJ mainEnv mainSpec (tileAt mainSpec (p % 2048 / mainSpec.w) (p / 2048 / mainSpec.h))
      (p / 2048 % mainSpec.h)⟩ 32 ≠ white
  rw [hw, hh, ci, cj, ha, hb]
  exact mandelbrotPixel_not_white _ (not_diverged_first a b hab hbb)

/-- The count of white pixels is zero when no pixel is white. -/
theorem countWhite_eq_zero (mem : Memory) (n : Nat)
    (h : ∀ p, p < n → loadRGBA mem (p * sizeofRGBA) ≠ white) : countWhite mem n = 0 := by
  unfold countWhite
  rw [List.countP_eq_zero]
  intro p hp
  simpa using h p (List.mem_range.mp hp)

/-- C20 (as stated, refuted): after the offline run of `main` (2048 × 1536
pixels, 32 × 32 tiles, 32 iterations, bounds `-2`, `1`, `1.5001f`,
`-1.4999f`, never superseded), with the stores made in launch order from a
zeroed framebuffer, the number of pixels equal to (255, 255, 255, 255) is 0,
not greater than 0: no pixel of the region meets the divergence test
`|re · im| ≥ 4` at the first iteration, since `|re| ≤ 2` and `|im| < 1.75`. -/
theorem mainRun_no_white_pixel :
    countWhite (runStores (allStores mainRun) zeroMemory) mainPixelCount = 0 ∧
    ¬ (0 < countWhite (runStores (allStores mainRun) zeroMemory) mainPixelCount ∧
      countWhite (runStores (allStores mainRun) zeroMemory) mainPixelCount < mainPixelCount) := by
  have h0 := countWhite_eq_zero (runStores (allStores mainRun) zeroMemory) mainPixelCount
    (fun p hp => main_no_white _ (List.Perm.refl _) zeroMemory p hp)
  refine ⟨h0, ?_⟩
  rw [h0]
  exact fun h => absurd h.1 (by decide)

/-- C20 (amended): after the offline run of `main`, in whatever order the
stores of its kernels are made and whatever the framebuffer held before, the
number of framebuffer pixels equal to (255, 255, 255, 255) is 0, and so less
than the total pixel count 2048 · 1536: every pixel takes at least one
iteration, so its grey value is not 255. -/
theorem mainRun_white_count (sched : List Store) (hperm : sched.Perm (allStores mainRun))
    (mem : Memory) :
    countWhite (runStores sched mem) mainPixelCount = 0 ∧
    countWhite (runStores sched mem) mainPixelCount < mainPixelCount ∧
    ∀ p, p < mainPixelCount → loadRGBA (runStores sched mem) (p * sizeofRGBA) ≠ white := by
  have h0 := countWhite_eq_zero (runStores sched mem) mainPixelCount
    (fun p hp => main_no_white sched hperm mem p hp)
  refine ⟨h0, ?_, fun p hp => main_no_white sched hperm mem p hp⟩
  rw [h0]
  decide

/-- Instance of the amended C20: the stores made in the reverse of launch
order, from a framebuffer of white pixels. -/
theorem mainRun_white_count_witness :
    (allStores mainRun).reverse.Perm (allStores mainRun) ∧
    countWhite (runStores (allStores mainRun).reverse (fun _ => 255)) mainPixelCount = 0 ∧
    countWhite (runStores (allStores mainRun).reverse (fun _ => 255)) mainPixelCount
      < mainPixelCount :=
  ⟨List.reverse_perm _,
    (mainRun_white_count _ (List.reverse_perm _) (fun _ => 255)).1,
    (mainRun_white_count _ (List.reverse_perm _) (fun _ => 255)).2.1⟩

/-! ## Bounds on rounded `double` values -/

namespace F64

/-- The bisection never passes a power of two above the value. -/
theorem log2Search_le (v : Nat) : ∀ steps lo, (lo = 0 ∨ 2 ^ lo ≤ v) →
    log2Search v steps lo = 0 ∨ 2 ^ log2Search v steps lo ≤ v
  | 0, lo, h => h
  | steps + 1, lo, h => by
    unfold log2Search
    split
    · exact log2Search_le v steps lo h
    · exact log2Search_le v steps (lo + 2 ^ steps) (Or.inr (by omega))

/-- The exponent found is 0, or the value is at least `2^(52 + k)`. -/
theorem ulpExp_min64 (v : Nat) : ulpExp v = 0 ∨ 2 ^ (52 + ulpExp v) ≤ v := by
  unfold ulpExp
  rcases log2Search_le v 13 0 (Or.inl rfl) with h | h
  · left; rw [h]
  · by_cases hk : log2Search v 13 0 + 1 - 53 = 0
    · left; exact hk
    · right
      have e : 52 + (log2Search v 13 0 + 1 - 53) = log2Search v 13 0 := by omega
      rw [e]
      exact h

set_option exponentiation.threshold 10000 in
/-- Rounding a non-negative value below `2^2090` units gives a finite number
that is at least half the value and at most twice the value plus one. -/
theorem round_nonneg64 (a q : Nat) (hv : a / q < 2 ^ 2090) :
    ∃ n : Nat, round (a : Int) q = fin (n : Int) ∧ a / q ≤ 2 * n ∧ n ≤ 2 * (a / q) + 1 ∧
      n = F32.roundHalfEven a (q * 2 ^ ulpExp (a / q)) * 2 ^ ulpExp (a / q) := by
  have hk := ulpExp_min64 (a / q)
  obtain ⟨hlo, hhi⟩ := F32.round_units_bounds a q (ulpExp (a / q))
  have hpos : 0 < 2 ^ (ulpExp (a / q)) := Nat.two_pow_pos _
  have hk2 : 2 ^ (ulpExp (a / q)) = 1 ∨ 2 ^ 52 * 2 ^ (ulpExp (a / q)) ≤ a / q := by
    rcases hk with h | h
    · left; rw [h]; rfl
    · right; rw [← Nat.pow_add]; exact h
  refine ⟨F32.roundHalfEven a (q * 2 ^ (ulpExp (a / q))) * 2 ^ (ulpExp (a / q)),
    ?_, ?_, ?_, rfl⟩
  · have hneg : ¬ ((a : Int) < 0) := by omega
    have hfin : ¬ (2 ^ 1024 * one ≤
        F32.roundHalfEven a (q * 2 ^ (ulpExp (a / q))) * 2 ^ (ulpExp (a / q))) := by
      have hbig : (2 : Nat) ^ 2090 * 4 ≤ 2 ^ 1024 * one := by
        have e4 : (4 : Nat) = 2 ^ 2 := rfl
        rw [e4, one, ← Nat.pow_add, ← Nat.pow_add]
        exact Nat.pow_le_pow_right (by decide) (by decide)
      rcases hk2 with h | h <;> omega
    simp only [round, Int.natAbs_ofNat, if_neg hfin, if_neg hneg]
  · rcases hk2 with h | h <;> omega
  · rcases hk2 with h | h <;> omega

/-- Rounding does not cross a binary64 number from above: a value of at least
`m · 2^j` units with `m < 2^53` rounds to at least `m · 2^j`. -/
theorem round_ge (a q m j : Nat) (hq : 0 < q) (hm : m < 2 ^ 53) (hB : m * 2 ^ j * q ≤ a)
    (hv : a / q < 2 ^ 2090) :
    ∃ n : Nat, round (a : Int) q = fin (n : Int) ∧ m * 2 ^ j ≤ n := by
  obtain ⟨n, hn, _, _, hdef⟩ := round_nonneg64 a q hv
  refine ⟨n, hn, ?_⟩
  rw [hdef]
  by_cases hkj : ulpExp (a / q) ≤ j
  · exact F32.roundHalfEven_ge a q (ulpExp (a / q)) m j hq hkj hB
  · rcases ulpExp_min64 (a / q) with h0 | hmin
    · omega
    · have hpos : 0 < 2 ^ (ulpExp (a / q)) := Nat.two_pow_pos _
      have hdd : a / (q * 2 ^ ulpExp (a / q)) = a / q / 2 ^ ulpExp (a / q) :=
        (Nat.div_div_eq_div_mul a q _).symm
      have h1 := F32.div_le_roundHalfEven a (q * 2 ^ ulpExp (a / q))
      rw [hdd] at h1
      have h2 : 2 ^ 52 ≤ a / q / 2 ^ ulpExp (a / q) := by
        rw [Nat.le_div_iff_mul_le hpos, ← Nat.pow_add]
        exact hmin
      have h3 : 2 ^ 52 * 2 ^ ulpExp (a / q)
          ≤ F32.roundHalfEven a (q * 2 ^ ulpExp (a / q)) * 2 ^ ulpExp (a / q) :=
        Nat.mul_le_mul_right _ (Nat.le_trans h2 h1)
      have h4 : m * 2 ^ j < 2 ^ 53 * 2 ^ j := Nat.mul_lt_mul_of_pos_right hm (Nat.two_pow_pos _)
      have h5 : (2 : Nat) ^ 53 * 2 ^ j ≤ 2 ^ 52 * 2 ^ ulpExp (a / q) := by
        rw [← Nat.pow_add, ← Nat.pow_add]
        exact Nat.pow_le_pow_right (by decide) (by omega)
      omega

/-- Division of non-negative finite numbers with a positive divisor. -/
theorem div_nat (x y : Nat) (hy : 0 < y) :
    div (fin (x : Int)) (fin (y : Int)) = round ((x * one : Nat) : Int) y := by
  have h0 : ¬ ((y : Int) = 0) := by omega
  have h1 : ¬ ((y : Int) < 0) := by omega
  simp only [div, if_neg h0, if_neg h1, Int.natAbs_ofNat]
  norm_cast

/-- Multiplication of non-negative finite numbers. -/
theorem mul_nat (x y : Nat) :
    mul (fin (x : Int)) (fin (y : Int)) = round ((x * y : Nat) : Int) one := by
  simp only [mul]
  norm_cast

/-- The conversion of a non-negative finite `float`. -/
theorem ofF32_nat (a : Nat) : ofF32 (F32.fin (a : Int)) = fin ((a * 2 ^ 925 : Nat) : Int) := by
  simp only [ofF32]
  norm_cast

set_option exponentiation.threshold 10000 in
set_option maxRecDepth 100000 in
theorem ofNat_three : ofNat 3 = fin ((3 * 2 ^ 1074 : Nat) : Int) := by decide

set_option exponentiation.threshold 10000 in
/-- The quotient of two positive finite `float`s, taken in `double`, is a
positive finite number between `2^(-278)` and `2^279`. -/
theorem ratio_fin (a b : Nat) (ha : 0 < a) (ha' : a < 2 ^ 277) (hb : 0 < b)
    (hb' : b < 2 ^ 277) :
    ∃ r : Nat, div (ofF32 (F32.fin (a : Int))) (ofF32 (F32.fin (b : Int))) = fin (r : Int) ∧
      2 ^ 796 ≤ r ∧ r < 2 ^ 1353 := by
  rw [ofF32_nat, ofF32_nat, div_nat _ _ (Nat.mul_pos hb (Nat.two_pow_pos _))]
  have hv : a * 2 ^ 925 * one / (b * 2 ^ 925) = a * one / b := by
    rw [Nat.mul_right_comm a (2 ^ 925) one]
    exact Nat.mul_div_mul_right _ _ (Nat.two_pow_pos _)
  have hone : one = 2 ^ 1074 := rfl
  have hup : a * one / b < 2 ^ 1351 := by
    apply Nat.lt_of_le_of_lt (Nat.div_le_self _ _)
    rw [hone]
    have := Nat.mul_lt_mul_of_pos_right ha' (Nat.two_pow_pos 1074)
    rw [← Nat.pow_add] at this
    exact this
  have hlow : 2 ^ 797 ≤ a * one / b := by
    rw [Nat.le_div_iff_mul_le hb, hone]
    have h1 : 2 ^ 797 * b ≤ 2 ^ 797 * 2 ^ 277 := Nat.mul_le_mul_left _ (Nat.le_of_lt hb')
    rw [← Nat.pow_add] at h1
    have h2 : 1 * 2 ^ 1074 ≤ a * 2 ^ 1074 := Nat.mul_le_mul_right _ ha
    omega
  obtain ⟨r, hr, hlo, hhi, _⟩ := round_nonneg64 (a * 2 ^ 925 * one) (b * 2 ^ 925)
    (by rw [hv]
        exact Nat.lt_trans hup (Nat.pow_lt_pow_right (by decide) (by decide)))
  rw [hv] at hlo hhi
  refine ⟨r, hr, ?_, ?_⟩
  · have e : (2 : Nat) ^ 797 = 2 * 2 ^ 796 := by rw [← Nat.pow_succ']
    omega
  · have e : (2 : Nat) ^ 1353 = 2 * (2 * 2 ^ 1351) := by
      rw [← Nat.pow_succ', ← Nat.pow_succ']
    omega

end F64

/-! ## The initial region -/

set_option exponentiation.threshold 10000 in
set_option maxRecDepth 100000 in
/-- C17 (as stated, refuted): for the visible size 3729 × 2746 `init` chooses
height 3.0 and width the `double` nearest to `3.0 · aspect`; the quotient
width / height, taken exactly, is not 3729 / 2746, and taken in `double` it is
not the `double` aspect `double(3729) / 2746` either (it is one unit in the
last place above it). -/
theorem initialRegion_aspect_rounded :
    (initialRegion oddSize).height = F64.ofNat 3 ∧
    (initialRegion oddSize).width
      = F64.mul (F64.ofNat 3) (F64.div (F64.ofF32 oddSize.width) (F64.ofF32 oddSize.height)) ∧
    F64.quotientIs (initialRegion oddSize).width (initialRegion oddSize).height 3729 2746
      = false ∧
    F64.div (initialRegion oddSize).width (initialRegion oddSize).height
      ≠ F64.div (F64.ofF32 oddSize.width) (F64.ofF32 oddSize.height) := by
  refine ⟨by decide, by decide, by decide, by decide⟩

set_option exponentiation.threshold 10000 in
set_option maxRecDepth 100000 in
/-- The constants of the initial region. -/
theorem initialRegion_constants :
    F64.mul (F64.neg (F64.ofNat 1)) F64.half = F64.neg F64.half ∧
    F64.ofNat 0 = F64.fin 0 ∧
    F64.le (F64.ofNat 3) (F64.ofNat 3) = true := by
  refine ⟨by decide, by decide, by decide⟩

set_option exponentiation.threshold 10000 in
/-- C17 (amended): for every visible size with positive finite width and
height, with `aspect` the `double` quotient of the two, `init` chooses a
region centred at `(-0.5, 0)` with width ≥ 3.0 and height ≥ 3.0, one of the
two exactly 3.0 and the other rounded: height 3.0 and width the `double`
nearest to `3.0 · aspect`, or (when that is below 3.0) width 3.0 and height the
`double` nearest to `3.0 / aspect`. -/
theorem initialRegion_spec (visibleSize : Size) (a b : Nat)
    (hw : visibleSize.width = F32.fin (a : Int)) (hh : visibleSize.height = F32.fin (b : Int))
    (ha : 0 < a) (ha' : a < 2 ^ 277) (hb : 0 < b) (hb' : b < 2 ^ 277) :
    (initialRegion visibleSize).centreX = F64.neg F64.half ∧
    (initialRegion visibleSize).centreY = F64.fin 0 ∧
    F64.le (F64.ofNat 3) (initialRegion visibleSize).width = true ∧
    F64.le (F64.ofNat 3) (initialRegion visibleSize).height = true ∧
    (((initialRegion visibleSize).height = F64.ofNat 3 ∧
        (initialRegion visibleSize).width
          = F64.mul (F64.ofNat 3)
              (F64.div (F64.ofF32 visibleSize.width) (F64.ofF32 visibleSize.height))) ∨
      ((initialRegion visibleSize).width = F64.ofNat 3 ∧
        (initialRegion visibleSize).height
          = F64.div (F64.ofNat 3)
              (F64.div (F64.ofF32 visibleSize.width) (F64.ofF32 visibleSize.height)))) := by
  obtain ⟨r, hr, hrlo, hrhi⟩ := F64.ratio_fin a b ha ha' hb hb'
  obtain ⟨hcx, hcy, h33⟩ := initialRegion_constants
  have hrpos : 0 < r := Nat.lt_of_lt_of_le (Nat.two_pow_pos 796) hrlo
  obtain ⟨T, hT⟩ : ∃ T : Nat, T = 3 * 2 ^ 1074 := ⟨_, rfl⟩
  have h3 : F64.ofNat 3 = F64.fin (T : Int) := by rw [hT]; exact F64.ofNat_three
  have hTone : T = 3 * F64.one := by rw [hT]; unfold F64.one; rfl
  -- the width before the test
  have hv0 : T * r / F64.one < 2 ^ 2090 := by
    have hopos : 0 < F64.one := Nat.two_pow_pos 1074
    rw [hTone, Nat.mul_comm 3 F64.one, Nat.mul_assoc, Nat.mul_div_cancel_left _ hopos]
    have h1 : 3 * r < 3 * 2 ^ 1353 := Nat.mul_lt_mul_of_pos_left hrhi (by decide)
    have h2 : 3 * 2 ^ 1353 ≤ 2 ^ 2 * 2 ^ 1353 := Nat.mul_le_mul_right _ (by decide)
    have h4 : (2 : Nat) ^ 2 * 2 ^ 1353 ≤ 2 ^ 2090 := by
      rw [← Nat.pow_add]
      exact Nat.pow_le_pow_right (by decide) (by decide)
    exact Nat.lt_of_lt_of_le h1 (Nat.le_trans h2 h4)
  obtain ⟨n0, hn0, _, _, _⟩ := F64.round_nonneg64 (T * r) F64.one hv0
  have hwidth0 : F64.mul (F64.ofNat 3) (F64.fin (r : Int)) = F64.fin (n0 : Int) := by
    rw [h3, F64.mul_nat]
    exact hn0
  unfold initialRegion
  simp only [hw, hh, hr, hwidth0]
  by_cases hlt : n0 < T
  · have hltb : F64.lt (F64.fin (n0 : Int)) (F64.ofNat 3) = true := by
      rw [h3]
      simp only [F64.lt, decide_eq_true_eq]
      exact_mod_cast hlt
    rw [if_pos hltb]
    have hrle : r ≤ F64.one := by
      by_contra hgt
      obtain ⟨n, hn, hge⟩ := F64.round_ge (T * r) F64.one 3 1074 (Nat.two_pow_pos _)
        (by decide) (by rw [← hT]; exact Nat.mul_le_mul_left _ (Nat.le_of_lt (Nat.lt_of_not_le hgt)))
        hv0
      rw [hn0] at hn
      have hnn : n0 = n := by
        have := F64.fin.inj hn
        omega
      rw [← hT, ← hnn] at hge
      exact absurd hlt (Nat.not_lt.mpr hge)
    have hv1 : T * F64.one / r < 2 ^ 2090 := by
      rw [Nat.div_lt_iff_lt_mul hrpos]
      have h1 : 2 ^ 2090 * 2 ^ 796 ≤ 2 ^ 2090 * r := Nat.mul_le_mul_left _ hrlo
      have h2 : T * F64.one < 2 ^ 2090 * 2 ^ 796 := by
        rw [hTone, Nat.mul_assoc]
        have hoo : F64.one * F64.one = 2 ^ 2148 := by
          unfold F64.one
          rw [← Nat.pow_add]
        rw [hoo]
        have h5 : (3 : Nat) * 2 ^ 2148 < 2 ^ 2 * 2 ^ 2148 :=
          Nat.mul_lt_mul_of_pos_right (by decide) (Nat.two_pow_pos _)
        rw [← Nat.pow_add] at h5
        rw [← Nat.pow_add]
        exact Nat.lt_of_lt_of_le h5 (Nat.pow_le_pow_right (by decide) (by decide))
      exact Nat.lt_of_lt_of_le h2 h1
    obtain ⟨h, hh', hge⟩ := F64.round_ge (T * F64.one) r 3 1074 hrpos (by decide)
      (by rw [← hT]; exact Nat.mul_le_mul_left _ hrle) hv1
    rw [← hT] at hge
    have hheight : F64.div (F64.ofNat 3) (F64.fin (r : Int)) = F64.fin (h : Int) := by
      rw [h3, F64.div_nat _ _ hrpos]
      exact hh'
    refine ⟨hcx, hcy, h33, ?_, Or.inr ⟨rfl, rfl⟩⟩
    simp only [hheight]
    rw [h3]
    simp only [F64.le, decide_eq_true_eq]
    exact_mod_cast hge
  · have hltb : ¬ (F64.lt (F64.fin (n0 : Int)) (F64.ofNat 3) = true) := by
      rw [h3]
      simp only [F64.lt, decide_eq_true_eq]
      intro h
      exact hlt (by exact_mod_cast h)
    rw [if_neg hltb]
    refine ⟨hcx, hcy, ?_, h33, Or.inl ⟨rfl, rfl⟩⟩
    simp only
    rw [h3]
    simp only [F64.le, decide_eq_true_eq]
    exact_mod_cast Nat.le_of_not_lt hlt

set_option exponentiation.threshold 10000 in
set_option maxRecDepth 100000 in
/-- Instance of the amended C17: the visible size 900 × 600. -/
theorem initialRegion_spec_witness :
    exampleSize.width = F32.fin ((900 * 2 ^ 149 : Nat) : Int) ∧
    exampleSize.height = F32.fin ((600 * 2 ^ 149 : Nat) : Int) ∧
    0 < 900 * 2 ^ 149 ∧ 900 * 2 ^ 149 < 2 ^ 277 ∧ 0 < 600 * 2 ^ 149 ∧ 600 * 2 ^ 149 < 2 ^ 277 ∧
    (initialRegion exampleSize).centreX = F64.neg F64.half ∧
    (initialRegion exampleSize).centreY = F64.fin 0 ∧
    F64.le (F64.ofNat 3) (initialRegion exampleSize).width = true ∧
    F64.le (F64.ofNat 3) (initialRegion exampleSize).height = true :=
  ⟨by decide, by decide, by decide, by decide, by decide, by decide,
    (initialRegion_spec exampleSize (900 * 2 ^ 149) (600 * 2 ^ 149) (by decide) (by decide)
      (by decide) (by decide) (by decide) (by decide)).1,
    (initialRegion_spec exampleSize (900 * 2 ^ 149) (600 * 2 ^ 149) (by decide) (by decide)
      (by decide) (by decide) (by decide) (by decide)).2.1,
    (initialRegion_spec exampleSize (900 * 2 ^ 149) (600 * 2 ^ 149) (by decide) (by decide)
      (by decide) (by decide) (by decide) (by decide)).2.2.1,
    (initialRegion_spec exampleSize (900 * 2 ^ 149) (600 * 2 ^ 149) (by decide) (by decide)
      (by decide) (by decide) (by decide) (by decide)).2.2.2.1⟩

/-! ### The dimensions of the sprite arrays -/

/-- A counted loop keeps what every pass of its body keeps. -/
theorem forLoop_invariant {σ : Type} (P : σ → Prop) (n : Nat) (body : Nat → σ → σ) (s : σ)
    (hs : P s) (hbody : ∀ i t, P t → P (body i t)) : P (forLoop n body s) := by
  induction n with
  | zero => rw [forLoop_zero]; exact hs
  | succ n ih => rw [forLoop_succ]; exact hbody n _ ih

theorem sameLayout_refl (st : HelloWorld) : sameLayout st st :=
  ⟨rfl, rfl, fun _ => ⟨rfl, rfl⟩⟩

theorem sameLayout_trans (a b c : HelloWorld) (hab : sameLayout a b) (hbc : sameLayout b c) :
    sameLayout a c :=
  ⟨hbc.1.trans hab.1, hbc.2.1.trans hab.2.1,
    fun j => ⟨(hbc.2.2 j).1.trans (hab.2.2 j).1, (hbc.2.2 j).2.trans (hab.2.2 j).2⟩⟩

/-- A replaced zoom level whose sprite array keeps its dimensions. -/
theorem setZoomLevel_sameLayout (st : HelloWorld) (i : Nat) (level : ZoomLevel)
    (hw : level.tileSprites.width = (st.zoomLevels i).tileSprites.width)
    (hh : level.tileSprites.height = (st.zoomLevels i).tileSprites.height) :
    sameLayout st (st.setZoomLevel i level) := by
  refine ⟨rfl, rfl, fun j => ?_⟩
  by_cases hj : j = i
  · subst hj; rw [setZoomLevel_same]; exact ⟨hw, hh⟩
  · rw [setZoomLevel_other st i j level hj]; exact ⟨rfl, rfl⟩

/-- The loops of `fitTileGridToRegion` keep the dimensions of the sprite
array. -/
theorem positionSprites_dims (g : GridGeometry) (visible : Bool)
    (tileSprites : Array2D TileSprite) :
    (positionSprites g visible tileSprites).width = tileSprites.width ∧
    (positionSprites g visible tileSprites).height = tileSprites.height := by
  unfold positionSprites
  refine forLoop_invariant
    (fun (t : Array2D TileSprite) => t.width = tileSprites.width ∧ t.height = tileSprites.height) _ _ _ ⟨rfl, rfl⟩ ?_
  intro gridY t ht
  refine forLoop_invariant
    (fun (t : Array2D TileSprite) => t.width = tileSprites.width ∧ t.height = tileSprites.height) _ _ _ ht ?_
  intro gridX u hu
  exact hu

/-- The sprite array `buildTileGrid` builds has the dimensions of the grid. -/
theorem buildTileGrid_dims (visibleSize : Size) (pixelScale : F32) (tileDimsXY : Nat)
    (tiledRegion : Region2D) :
    (buildTileGrid visibleSize pixelScale tileDimsXY tiledRegion).width
      = (gridGeometry visibleSize pixelScale tileDimsXY tiledRegion).tilesX ∧
    (buildTileGrid visibleSize pixelScale tileDimsXY tiledRegion).height
      = (gridGeometry visibleSize pixelScale tileDimsXY tiledRegion).tilesY := by
  unfold buildTileGrid
  refine forLoop_invariant
    (fun (t : Array2D TileSprite) => t.width = (gridGeometry visibleSize pixelScale tileDimsXY tiledRegion).tilesX ∧
      t.height = (gridGeometry visibleSize pixelScale tileDimsXY tiledRegion).tilesY)
    _ _ _ ⟨rfl, rfl⟩ ?_
  intro gridY t ht
  refine forLoop_invariant
    (fun (t : Array2D TileSprite) => t.width = (gridGeometry visibleSize pixelScale tileDimsXY tiledRegion).tilesX ∧
      t.height = (gridGeometry visibleSize pixelScale tileDimsXY tiledRegion).tilesY)
    _ _ _ ht ?_
  intro gridX u hu
  exact hu

/-- The number of tiles of the grid does not depend on the region. -/
theorem gridGeometry_tiles (visibleSize : Size) (pixelScale : F32) (tileDimsXY : Nat)
    (r r' : Region2D) :
    (gridGeometry visibleSize pixelScale tileDimsXY r).tilesX
      = (gridGeometry visibleSize pixelScale tileDimsXY r').tilesX ∧
    (gridGeometry visibleSize pixelScale tileDimsXY r).tilesY
      = (gridGeometry visibleSize pixelScale tileDimsXY r').tilesY :=
  ⟨rfl, rfl⟩

theorem generateTiles_sameLayout (st : HelloWorld) (zoomLevel transaction : Nat) :
    sameLayout st (generateTiles st zoomLevel transaction) := by
  unfold generateTiles
  exact setZoomLevel_sameLayout _ _ _ rfl rfl

theorem onTouchMoved_sameLayout (st : HelloWorld) (screenDelta : Vec2) :
    sameLayout st (onTouchMoved st screenDelta) := by
  unfold onTouchMoved
  split
  · exact setZoomLevel_sameLayout _ _ _ rfl rfl
  · exact sameLayout_refl st

theorem beginGeneration_sameLayout (st : HelloWorld) (change : Region2D → Region2D) :
    sameLayout st (beginGeneration st change) := by
  unfold beginGeneration
  have h := setZoomLevel_sameLayout st (selectSlots st.zoomTransaction).zoomLevel
    { st.zoomLevels (selectSlots st.zoomTransaction).zoomLevel with
      zoomRegion := change (st.zoomLevels (selectSlots st.zoomTransaction).lastZoomLevel).zoomRegion }
    rfl rfl
  exact ⟨rfl, rfl, h.2.2⟩

theorem updateTilesForRegion_sameLayout (st st' : HelloWorld) (zoomLevel transaction : Nat)
    (h : updateTilesForRegion st zoomLevel transaction = some st') : sameLayout st st' := by
  unfold updateTilesForRegion at h
  simp only at h
  split at h
  · exact absurd h (by simp)
  · rename_i sprites hfit
    injection h with h
    subst h
    unfold fitTileGridToRegion at hfit
    simp only at hfit
    split at hfit
    · injection hfit with hfit
      subst hfit
      refine sameLayout_trans _ _ _ ?_ (generateTiles_sameLayout _ _ _)
      exact setZoomLevel_sameLayout _ _ _ (positionSprites_dims _ _ _).1
        (positionSprites_dims _ _ _).2
    · exact absurd hfit (by simp)

theorem upload_sameLayout (c : TileClosure) (st st' : HelloWorld)
    (h : c.upload st = some st') : sameLayout st st' := by
  unfold TileClosure.upload at h
  simp only at h
  split at h
  · split at h
    · injection h with h
      subst h
      refine sameLayout_trans _ _ _ (setZoomLevel_sameLayout _ _ _ ?_ ?_)
        (setZoomLevel_sameLayout _ _ _ ?_ ?_) <;> rfl
    · injection h with h
      subst h
      refine setZoomLevel_sameLayout _ _ _ ?_ ?_ <;> rfl
  · exact absurd h (by simp)

theorem run_sameLayout (c : TileClosure) (st st' : HelloWorld) (h : c.run st = some st') :
    sameLayout st st' := by
  unfold TileClosure.run at h
  have key : ∀ st1 : HelloWorld, sameLayout st st1 →
      (if 0 < (st1.zoomLevels c.zoomLevel).tilesInFlight then
          some (st1.setZoomLevel c.zoomLevel
            { st1.zoomLevels c.zoomLevel with
              tilesInFlight := (st1.zoomLevels c.zoomLevel).tilesInFlight - 1 })
        else none) = some st' → sameLayout st st' := by
    intro st1 hsame h1
    split at h1
    · injection h1 with h1
      subst h1
      exact sameLayout_trans _ _ _ hsame (setZoomLevel_sameLayout _ _ _ rfl rfl)
    · exact absurd h1 (by simp)
  by_cases hnew : st.zoomTransaction = c.transaction
  · rw [if_pos hnew] at h
    cases hup : c.upload st with
    | none => rw [hup] at h; exact absurd h (by simp)
    | some st1 =>
      rw [hup] at h
      exact key st1 (upload_sameLayout c st st1 hup) h
  · rw [if_neg hnew] at h
    exact key st (sameLayout_refl st) h

theorem launcherLaunch_sameLayout (st : HelloWorld) (zoomLevel transaction tileDims : Nat)
    (trueSize : Size) (reads : Nat → Nat → Nat) :
    sameLayout st (launcherLaunch st zoomLevel transaction tileDims trueSize reads) := by
  unfold launcherLaunch
  exact setZoomLevel_sameLayout _ _ _ rfl rfl

theorem launcherDispatch_sameLayout (st : HelloWorld)
    (zoomLevel lastZoomLevel transaction tileDims : Nat) (trueSize : Size) (i : Nat) :
    sameLayout st
      (launcherDispatch st zoomLevel lastZoomLevel transaction tileDims trueSize i).1 := by
  unfold launcherDispatch
  simp only
  split
  · exact setZoomLevel_sameLayout _ _ _ rfl rfl
  · split
    · exact sameLayout_refl st
    · exact sameLayout_refl st

/-- No event changes the visible size, the content scale factor or the
dimensions of a sprite array. -/
theorem apply_sameLayout (e : Event) (st st' : HelloWorld) (h : e.apply st = some st') :
    sameLayout st st' := by
  cases e with
  | touchMoved screenDelta =>
    simp only [Event.apply, Option.some.injEq] at h
    subst h
    exact onTouchMoved_sameLayout st screenDelta
  | touchEnded screenDelta =>
    simp only [Event.apply, onTouchEnded] at h
    exact sameLayout_trans _ _ _ (beginGeneration_sameLayout st _)
      (updateTilesForRegion_sameLayout _ _ _ _ h)
  | zoomIn =>
    simp only [Event.apply, menuZoomInCallback] at h
    exact sameLayout_trans _ _ _ (beginGeneration_sameLayout st _)
      (updateTilesForRegion_sameLayout _ _ _ _ h)
  | zoomOut =>
    simp only [Event.apply, menuZoomOutCallback] at h
    exact sameLayout_trans _ _ _ (beginGeneration_sameLayout st _)
      (updateTilesForRegion_sameLayout _ _ _ _ h)
  | tile c =>
    simp only [Event.apply] at h
    exact run_sameLayout c st st' h
  | launch transaction reads =>
    simp only [Event.apply, Option.some.injEq] at h
    subst h
    exact launcherLaunch_sameLayout _ _ _ _ _ _
  | dispatch transaction i =>
    simp only [Event.apply, Option.some.injEq] at h
    subst h
    exact launcherDispatch_sameLayout _ _ _ _ _ _ _

theorem runEvents_sameLayout (events : List Event) (st st' : HelloWorld)
    (h : runEvents events st = some st') : sameLayout st st' := by
  induction events generalizing st with
  | nil =>
    simp only [runEvents, Option.some.injEq] at h
    subst h
    exact sameLayout_refl st
  | cons e rest ih =>
    simp only [runEvents] at h
    cases he : e.apply st with
    | none => rw [he] at h; exact absurd h (by simp)
    | some st1 =>
      rw [he] at h
      exact sameLayout_trans _ _ _ (apply_sameLayout e st st1 he) (ih st1 h)

/-- In the scene `init` builds, and in every scene reached from it by events,
the sprite array of every slot has the dimensions of the tile grid that
`fitTileGridToRegion` computes, whatever the region: the assertion of
`fitTileGridToRegion` holds in every reachable scene. -/
theorem reachable_sprites_fit (visibleSize : Size) (contentScaleFactor : F32)
    (events : List Event) (st : HelloWorld)
    (h : runEvents events (init visibleSize contentScaleFactor) = some st) (j : Nat)
    (region : Region2D) :
    (st.zoomLevels j).tileSprites.width
      = (gridGeometry st.visibleSize (F32.ofNat (F32.toUnsigned st.contentScaleFactor))
          (TILE_DIMS <<< 16 ||| TILE_DIMS) region).tilesX ∧
    (st.zoomLevels j).tileSprites.height
      = (gridGeometry st.visibleSize (F32.ofNat (F32.toUnsigned st.contentScaleFactor))
          (TILE_DIMS <<< 16 ||| TILE_DIMS) region).tilesY := by
  have hrun := runEvents_sameLayout events _ st h
  have hinit : sameLayout
      { zoomLevels := fun i =>
          builtZoomLevel visibleSize contentScaleFactor
            (if i = 0 then initialRegion visibleSize
              else ⟨F64.fin 0, F64.fin 0, F64.fin 0, F64.fin 0, F64.fin 0⟩)
            (initialRegion visibleSize)
        zoomTransaction := 0
        visibleSize := visibleSize
        contentScaleFactor := contentScaleFactor }
      (init visibleSize contentScaleFactor) := by
    unfold init
    exact generateTiles_sameLayout _ _ _
  have hall := sameLayout_trans _ _ _ hinit hrun
  obtain ⟨hv, hc, hd⟩ := hall
  have hv' : st.visibleSize = visibleSize := hv
  have hc' : st.contentScaleFactor = contentScaleFactor := hc
  have hw : (st.zoomLevels j).tileSprites.width
      = (buildTileGrid visibleSize (F32.ofNat (F32.toUnsigned contentScaleFactor))
          ((TILE_DIMS <<< 16) + TILE_DIMS) (initialRegion visibleSize)).width := (hd j).1
  have hh : (st.zoomLevels j).tileSprites.height
      = (buildTileGrid visibleSize (F32.ofNat (F32.toUnsigned contentScaleFactor))
          ((TILE_DIMS <<< 16) + TILE_DIMS) (initialRegion visibleSize)).height := (hd j).2
  have e : (TILE_DIMS <<< 16) + TILE_DIMS = TILE_DIMS <<< 16 ||| TILE_DIMS := by decide
  have hb := buildTileGrid_dims visibleSize (F32.ofNat (F32.toUnsigned contentScaleFactor))
    ((TILE_DIMS <<< 16) + TILE_DIMS) (initialRegion visibleSize)
  rw [hw, hh, hv', hc', hb.1, hb.2, e]
  exact gridGeometry_tiles _ _ _ _ _


/-! ### The centre pixel of the offline run -/

set_option maxRecDepth 100000 in
/-- The coordinates of framebuffer column 1024 and row 768 in `mainRun`, and
the iteration at them. -/
theorem main_centre_evaluation :
    mainI 1024 = F32.neg (F32.ofRatio 1 2) ∧
    mainJ 768 = F32.fin (839 * 2 ^ 126) ∧
    mainJ 768 = F32.sub mainTop (F32.ofRatio 3 2) ∧
    (∀ n, n < 33 → 1 ≤ n → diverged (orbit ⟨mainI 1024, mainJ 768⟩ n) = false) ∧
    escapeIter ⟨mainI 1024, mainJ 768⟩ 32 = 32 ∧
    greyOf 32 32 = 0 ∧
    mandelbrotPixel ⟨mainI 1024, mainJ 768⟩ 32 = ⟨0, 0, 0, 255⟩ := by
  refine ⟨by decide, by decide, by decide, by decide, by decide, by decide, by decide⟩

/-- C21: in the offline run of `main` (2048 × 1536 pixels, 32 × 32 tiles, 32
iterations, bounds `-2`, `1`, `1.5001f`, `-1.4999f`, never superseded) the
pixel at framebuffer coordinates (1024, 768) is the first pixel of the tile of
cell (32, 24); the kernel gives it the complex coordinate `(-0.5, j)` with
`j = 1.5001f - 1.5 = 839 · 2^(-23)`, which is 0.0001 to within `2 · 10^(-8)`;
none of the 32 iterations meets the divergence test, the loop ends with
`iter = 32`, the grey value is 0, and after the stores of the run have been
made in any order the pixel holds (0, 0, 0, 255). -/
theorem mainRun_centre_pixel (sched : List Store) (hperm : sched.Perm (allStores mainRun))
    (mem : Memory) :
    addressRow mainSpec (tileAt mainSpec 32 24) 0 + 0 * sizeofRGBA
      = (768 * 2048 + 1024) * sizeofRGBA ∧
    coordI mainEnv mainSpec (tileAt mainSpec 32 24) 0 = F32.neg (F32.ofRatio 1 2) ∧
    coordJ mainEnv mainSpec (tileAt mainSpec 32 24) 0 = F32.fin (839 * 2 ^ 126) ∧
    coordJ mainEnv mainSpec (tileAt mainSpec 32 24) 0 = F32.sub mainTop (F32.ofRatio 3 2) ∧
    (F32.one ≤ 10000 * (839 * 2 ^ 126) ∧ 100000000 * (839 * 2 ^ 126) < 10002 * F32.one) ∧
    (∀ n, 1 ≤ n → n ≤ 32 →
      diverged (orbit ⟨coordI mainEnv mainSpec (tileAt mainSpec 32 24) 0,
        coordJ mainEnv mainSpec (tileAt mainSpec 32 24) 0⟩ n) = false) ∧
    escapeIter ⟨coordI mainEnv mainSpec (tileAt mainSpec 32 24) 0,
      coordJ mainEnv mainSpec (tileAt mainSpec 32 24) 0⟩ 32 = 32 ∧
    greyOf 32 32 = 0 ∧
    loadRGBA (runStores sched mem) ((768 * 2048 + 1024) * sizeofRGBA) = ⟨0, 0, 0, 255⟩ := by
  obtain ⟨hrow, hext, _, _⟩ := main_configuration_fits
  obtain ⟨hi, hj⟩ := main_coords 32 24 0 0 (by decide) (by decide) (by decide) (by decide)
  obtain ⟨ei, ej, ej', hnd, hiter, hgrey, hpix⟩ := main_centre_evaluation
  have haddr : addressRow mainSpec (tileAt mainSpec 32 24) 0 + 0 * sizeofRGBA
      = (768 * 2048 + 1024) * sizeofRGBA := by decide
  rw [hi, hj]
  refine ⟨haddr, ei, ej, ej', by decide, fun n h1 h2 => hnd n (by omega) h1, hiter, hgrey, ?_⟩
  have h := mandelbrot_final_pixel mainLeft mainRight mainTop mainBottom 32 0 neverSuperseded
    mainGrid mainSpec [] (fun _ _ => rfl) hrow hext sched hperm mem 32 24 0 0
    (by decide) (by decide) (by decide) (by decide)
  rw [haddr] at h
  rw [h]
  show mandelbrotPixel ⟨coordI mainEnv mainSpec (tileAt mainSpec 32 24) 0,
    coordJ mainEnv mainSpec (tileAt mainSpec 32 24) 0⟩ 32 = _
  rw [hi, hj]
  exact hpix

/-- Instance of C21: the stores made in the reverse of launch order, from a
framebuffer of white pixels. -/
theorem mainRun_centre_pixel_witness :
    (allStores mainRun).reverse.Perm (allStores mainRun) ∧
    loadRGBA (runStores (allStores mainRun).reverse (fun _ => 255))
      ((768 * 2048 + 1024) * sizeofRGBA) = ⟨0, 0, 0, 255⟩ :=
  ⟨List.reverse_perm _,
    (mainRun_centre_pixel (allStores mainRun).reverse (List.reverse_perm _)
      (fun _ => 255)).2.2.2.2.2.2.2.2⟩

/-! ### `DestructionDelay` -/

/-- One `push` on a `DestructionDelay<Element, 4>`: the new handle is at index
0, the handles of indices 0, 1, 2 are at indices 1, 2, 3, and the indices from
4 on are as they were. -/
theorem push_four {α : Type} (elements : Nat → Option α) (e : α) (j : Nat) :
    DestructionDelay.push 4 elements e j
      = if j = 0 then some e else if j < 4 then elements (j - 1) else elements j := by
  unfold DestructionDelay.push
  by_cases h0 : j = 0
  · rw [if_pos h0, if_pos h0]
  · rw [if_neg h0, if_neg h0]
    simp only [DestructionDelay.shift, DestructionDelay.moveElement]
    by_cases h1 : j = 1
    · subst h1; simp
    · by_cases h2 : j = 2
      · subst h2; simp
      · by_cases h3 : j = 3
        · subst h3; simp
        · have h4 : ¬ j < 4 := by omega
          simp [h0, h1, h2, h3, h4]

/-- One `push` on a `DestructionDelay<Element, 4>` destroys the handle of
index 3, if there is one there, and no other. -/
theorem pushDropped_four {α : Type} (elements : Nat → Option α) :
    DestructionDelay.pushDropped 4 elements = (elements 3).toList := by
  simp [DestructionDelay.pushDropped, DestructionDelay.shiftDropped, DestructionDelay.shift,
    DestructionDelay.moveElement]

/-- The contents of a `DestructionDelay<Element, 4>` after the pushes of a
list of handles. -/
theorem pushed_eq {α : Type} (handles : List α) (j : Nat) :
    DestructionDelay.pushed handles j = if j < 4 then handles.reverse[j]? else none := by
  induction handles using List.reverseRecOn generalizing j with
  | nil => simp [DestructionDelay.pushed, DestructionDelay.empty]
  | append_singleton l e ih =>
    have hstep : DestructionDelay.pushed (l ++ [e])
        = DestructionDelay.push 4 (DestructionDelay.pushed l) e := by
      simp [DestructionDelay.pushed, List.foldl_append]
    rw [hstep, push_four, List.reverse_append, List.reverse_singleton, List.singleton_append]
    by_cases h0 : j = 0
    · subst h0; simp
    · obtain ⟨i, rfl⟩ : ∃ i, j = i + 1 := ⟨j - 1, by omega⟩
      rw [if_neg h0, List.getElem?_cons_succ, ih, ih]
      by_cases h4 : i + 1 < 4
      · rw [if_pos h4, if_pos h4, Nat.add_sub_cancel, if_pos (by omega)]
      · rw [if_neg h4, if_neg h4, if_neg h4]

/-- C22: after the pushes of any list of `n` handles onto an empty
`DestructionDelay<Element, 4>`, index `j` holds the handle pushed `j` pushes
before the last one (the `(j+1)`-th most recent) for every `j < min(n, 4)` and
every other index is empty, so the ring holds exactly the `min(n, 4)` most
recently pushed handles.  A handle followed by fewer than four pushes is still
held, at the index that is the number of pushes after its own; the push that
is the fourth after its own destroys it and no other handle; an earlier push
leaves it in the ring. -/
theorem DestructionDelay_spec {α : Type} (handles : List α) (e : α) :
    (∀ j, j < min handles.length 4 →
      DestructionDelay.pushed handles j = handles.reverse[j]? ∧
      (DestructionDelay.pushed handles j).isSome = true) ∧
    (∀ j, min handles.length 4 ≤ j → DestructionDelay.pushed handles j = none) ∧
    (∀ j, j < 4 →
      DestructionDelay.pushed (handles ++ [e]) j = (e :: handles.reverse)[j]?) ∧
    DestructionDelay.pushDropped 4 (DestructionDelay.pushed handles)
      = handles.reverse[3]?.toList ∧
    (∀ before h after, handles = before ++ h :: after →
      (after.length < 4 → DestructionDelay.pushed handles after.length = some h) ∧
      (after.length < 3 →
        DestructionDelay.pushed (handles ++ [e]) (after.length + 1) = some h) ∧
      (after.length = 3 → DestructionDelay.pushDropped 4 (DestructionDelay.pushed handles)
        = [h])) := by
  refine ⟨?_, ?_, ?_, ?_, ?_⟩
  · intro j hj
    have h4 : j < 4 := by omega
    have hl : j < handles.reverse.length := by rw [List.length_reverse]; omega
    rw [pushed_eq, if_pos h4]
    refine ⟨rfl, ?_⟩
    rw [List.getElem?_eq_getElem hl]
    rfl
  · intro j hj
    rw [pushed_eq]
    by_cases h4 : j < 4
    · rw [if_pos h4]
      apply List.getElem?_eq_none
      rw [List.length_reverse]
      omega
    · rw [if_neg h4]
  · intro j hj
    rw [pushed_eq, if_pos hj, List.reverse_append, List.reverse_singleton,
      List.singleton_append]
  · rw [pushDropped_four, pushed_eq, if_pos (by decide)]
  · intro before h after hsplit
    have hrev : handles.reverse = after.reverse ++ h :: before.reverse := by
      rw [hsplit, List.reverse_append, List.reverse_cons, List.append_assoc,
        List.singleton_append]
    have hat : (after.reverse ++ h :: before.reverse)[after.length]? = some h := by
      rw [List.getElem?_append_right (by rw [List.length_reverse]), List.length_reverse,
        Nat.sub_self, List.getElem?_cons_zero]
    refine ⟨?_, ?_, ?_⟩
    · intro h4
      rw [pushed_eq, if_pos h4, hrev, hat]
    · intro h3
      rw [pushed_eq, if_pos (by omega), List.reverse_append, List.reverse_singleton,
        List.singleton_append, List.getElem?_cons_succ, hrev, hat]
    · intro h3
      rw [pushDropped_four, pushed_eq, if_pos (by decide), hrev, ← h3, hat]
      rfl

/-- Instance of C22: five handles pushed; the ring holds the last four, the
most recent first, and the next push destroys the second of the five. -/
theorem DestructionDelay_spec_witness :
    0 < min [10, 20, 30, 40, 50].length 4 ∧
    [10, 20, 30, 40, 50] = [10] ++ 20 :: [30, 40, 50] ∧ [30, 40, 50].length = 3 ∧
    DestructionDelay.pushed [10, 20, 30, 40, 50] 0 = [10, 20, 30, 40, 50].reverse[0]? ∧
    DestructionDelay.pushDropped 4 (DestructionDelay.pushed [10, 20, 30, 40, 50]) = [20] :=
  ⟨by decide, rfl, rfl,
    ((DestructionDelay_spec [10, 20, 30, 40, 50] 60).1 0 (by decide)).1,
    ((DestructionDelay_spec [10, 20, 30, 40, 50] 60).2.2.2.2 [10] 20 [30, 40, 50] rfl).2.2 rfl⟩

/-! ### `RoundUpToCacheline` -/

/-- C23: for every `unsigned` `i` and every `cachelineLength > 0` for which a
multiple of `cachelineLength` that is at least `i` fits in 32 bits,
`RoundUpToCacheline` returns the least multiple of `cachelineLength` that is
at least `i`: the result is a multiple, it is at least `i`, no smaller
multiple is at least `i`, it exceeds `i` by less than `cachelineLength`, and
it equals `i` exactly when `i` is a multiple already.
`RoundUpToCacheline(2048*4, 128)` is 8192, the value `main` computes. -/
theorem RoundUpToCacheline_spec (i cachelineLength : Nat)
    (hc : 0 < cachelineLength)
    (hfit : ∃ m, cachelineLength ∣ m ∧ i ≤ m ∧ m < 4294967296) :
    (∃ r, RoundUpToCacheline i cachelineLength = some r ∧
      cachelineLength ∣ r ∧ i ≤ r ∧
      (∀ m, cachelineLength ∣ m → i ≤ m → r ≤ m) ∧
      r - i < cachelineLength ∧
      (r = i ↔ cachelineLength ∣ i)) ∧
    RoundUpToCacheline (2048 * 4) 128 = some 8192 ∧
    widthInBytesRoundedToCachelines = some 8192 := by
  refine ⟨?_, by decide, by decide⟩
  obtain ⟨m, ⟨q, rfl⟩, him, hm⟩ := hfit
  have hdm := Nat.div_add_mod i cachelineLength
  have hmod := Nat.mod_lt i hc
  set d := i / cachelineLength with hd
  set e := i % cachelineLength with he
  -- the quotient of the least multiple
  have hq : d + (if e > 0 then 1 else 0) ≤ q := by
    by_cases h0 : e > 0
    · rw [if_pos h0]
      by_contra hlt
      have hqd : q ≤ d := by omega
      have : cachelineLength * q ≤ cachelineLength * d := Nat.mul_le_mul_left _ hqd
      omega
    · rw [if_neg h0]
      by_contra hlt
      have hqd : q + 1 ≤ d := by omega
      have : cachelineLength * (q + 1) ≤ cachelineLength * d := Nat.mul_le_mul_left _ hqd
      rw [Nat.mul_add, Nat.mul_one] at this
      omega
  have hprod : (d + (if e > 0 then 1 else 0)) * cachelineLength ≤ cachelineLength * q := by
    rw [Nat.mul_comm cachelineLength q]
    exact Nat.mul_le_mul_right _ hq
  have hsmall : d + (if e > 0 then 1 else 0) < 4294967296 := by
    have : d + (if e > 0 then 1 else 0) ≤ (d + (if e > 0 then 1 else 0)) * cachelineLength :=
      Nat.le_mul_of_pos_right _ hc
    omega
  refine ⟨(d + (if e > 0 then 1 else 0)) * cachelineLength, ?_, ?_, ?_, ?_, ?_, ?_⟩
  · unfold RoundUpToCacheline
    rw [if_neg (by omega), Nat.mod_eq_of_lt hsmall, Nat.mod_eq_of_lt (by omega)]
  · exact Dvd.intro_left _ rfl
  · by_cases h0 : e > 0
    · rw [if_pos h0, Nat.add_mul, Nat.one_mul, Nat.mul_comm d]; omega
    · rw [if_neg h0, Nat.add_zero, Nat.mul_comm d]; omega
  · rintro m' ⟨q', rfl⟩ hle
    rw [Nat.mul_comm cachelineLength q']
    apply Nat.mul_le_mul_right
    by_cases h0 : e > 0
    · rw [if_pos h0]
      by_contra hlt
      have hqd : q' ≤ d := by omega
      have : cachelineLength * q' ≤ cachelineLength * d := Nat.mul_le_mul_left _ hqd
      omega
    · rw [if_neg h0]
      by_contra hlt
      have hqd : q' + 1 ≤ d := by omega
      have : cachelineLength * (q' + 1) ≤ cachelineLength * d := Nat.mul_le_mul_left _ hqd
      rw [Nat.mul_add, Nat.mul_one] at this
      omega
  · by_cases h0 : e > 0
    · rw [if_pos h0, Nat.add_mul, Nat.one_mul, Nat.mul_comm d]; omega
    · rw [if_neg h0, Nat.add_zero, Nat.mul_comm d]; omega
  · have hdvd : cachelineLength ∣ i ↔ e = 0 := by
      rw [he]; exact Nat.dvd_iff_mod_eq_zero
    rw [hdvd]
    by_cases h0 : e > 0
    · rw [if_pos h0, Nat.add_mul, Nat.one_mul, Nat.mul_comm d]; omega
    · rw [if_neg h0, Nat.add_zero, Nat.mul_comm d]; omega

/-- Instance of C23: `i = 100`, `cachelineLength = 64`, rounded up to 128. -/
theorem RoundUpToCacheline_spec_witness :
    (∃ m, 64 ∣ m ∧ 100 ≤ m ∧ m < 4294967296) ∧
    ∃ r, RoundUpToCacheline 100 64 = some r ∧ 64 ∣ r ∧ 100 ≤ r ∧
      (∀ m, 64 ∣ m → 100 ≤ m → r ≤ m) ∧ r - 100 < 64 ∧ (r = 100 ↔ 64 ∣ 100) :=
  ⟨⟨128, by decide, by decide, by decide⟩,
    (RoundUpToCacheline_spec 100 64 (by decide)
      ⟨128, by decide, by decide, by decide⟩).1⟩

/-! ### The drain loop -/

/-- The drain loop started at iteration `k` with the iterations `k, ...,
k + n - 1` all observing the transaction unchanged and tiles in flight goes on
at iteration `k + n`. -/
theorem drainLoop_skip (transaction : Nat) (newest inFlight : Nat → Nat) (n fuel k : Nat)
    (hspin : ∀ i, k ≤ i → i < k + n → newest i = transaction ∧ 0 < inFlight i) :
    drainLoop transaction newest inFlight (n + fuel) k
      = drainLoop transaction newest inFlight fuel (k + n) := by
  induction n generalizing k with
  | zero => simp
  | succ n ih =>
    have h0 := hspin k (Nat.le_refl k) (by omega)
    rw [show n + 1 + fuel = (n + fuel) + 1 by omega, drainLoop, if_neg (by simp [h0.1]),
      if_pos h0.2, ih (k + 1) (fun i hi hlt => hspin i (by omega) (by omega))]
    congr 1
    omega

/-- What the result of the drain loop says about the values observed. -/
theorem drainLoop_result (transaction : Nat) (newest inFlight : Nat → Nat) (fuel k : Nat) :
    (∀ m, drainLoop transaction newest inFlight fuel k = DrainResult.drained m →
      k ≤ m ∧ m < k + fuel ∧ newest m = transaction ∧ inFlight m = 0 ∧
      ∀ i, k ≤ i → i < m → newest i = transaction ∧ 0 < inFlight i) ∧
    (∀ m, drainLoop transaction newest inFlight fuel k = DrainResult.abandoned m →
      k ≤ m ∧ m < k + fuel ∧ newest m ≠ transaction ∧
      ∀ i, k ≤ i → i < m → newest i = transaction ∧ 0 < inFlight i) ∧
    (drainLoop transaction newest inFlight fuel k = DrainResult.spinning →
      ∀ i, k ≤ i → i < k + fuel → newest i = transaction ∧ 0 < inFlight i) := by
  induction fuel generalizing k with
  | zero =>
    refine ⟨?_, ?_, ?_⟩
    · intro m h; simp [drainLoop] at h
    · intro m h; simp [drainLoop] at h
    · intro _ i h1 h2; omega
  | succ fuel ih =>
    obtain ⟨ihd, iha, ihs⟩ := ih (k + 1)
    by_cases hn : newest k ≠ transaction
    · have e : drainLoop transaction newest inFlight (fuel + 1) k = DrainResult.abandoned k := by
        rw [drainLoop, if_pos hn]
      rw [e]
      refine ⟨?_, ?_, ?_⟩
      · intro m h; exact absurd h (by simp)
      · intro m h
        injection h with h
        subst h
        exact ⟨Nat.le_refl _, by omega, hn, fun i h1 h2 => by omega⟩
      · intro h; exact absurd h (by simp)
    · have hn' : newest k = transaction := by
        by_contra h; exact hn h
      by_cases hf : 0 < inFlight k
      · have e : drainLoop transaction newest inFlight (fuel + 1) k
            = drainLoop transaction newest inFlight fuel (k + 1) := by
          rw [drainLoop, if_neg hn, if_pos hf]
        rw [e]
        have hbelow : ∀ m, k + 1 ≤ m →
            (∀ i, k + 1 ≤ i → i < m → newest i = transaction ∧ 0 < inFlight i) →
            ∀ i, k ≤ i → i < m → newest i = transaction ∧ 0 < inFlight i := by
          intro m _ hall i h1 h2
          by_cases hik : i = k
          · subst hik; exact ⟨hn', hf⟩
          · exact hall i (by omega) h2
        refine ⟨?_, ?_, ?_⟩
        · intro m h
          obtain ⟨h1, h2, h3, h4, h5⟩ := ihd m h
          exact ⟨by omega, by omega, h3, h4, hbelow m h1 h5⟩
        · intro m h
          obtain ⟨h1, h2, h3, h5⟩ := iha m h
          exact ⟨by omega, by omega, h3, hbelow m h1 h5⟩
        · intro h
          exact hbelow (k + (fuel + 1)) (by omega)
            (fun i h1 h2 => ihs h i h1 (by omega))
      · have e : drainLoop transaction newest inFlight (fuel + 1) k = DrainResult.drained k := by
          rw [drainLoop, if_neg hn, if_neg hf]
        rw [e]
        refine ⟨?_, ?_, ?_⟩
        · intro m h
          injection h with h
          subst h
          exact ⟨Nat.le_refl _, by omega, hn', by omega, fun i h1 h2 => by omega⟩
        · intro m h; exact absurd h (by simp)
        · intro h; exact absurd h (by simp)

/-- C25: for every sequence of values observed by the drain loop of the
launcher-waiter of transaction `t`, (1) when the waiter has resized the
framebuffer and launched the tiles, there is an iteration `m` of the loop in
which it observed `newestTransaction == t` and then `tilesInFlight == 0`, and
in every earlier iteration it observed `newestTransaction == t` and
`tilesInFlight > 0`; (2) when in some iteration `m` it observes
`newestTransaction != t`, having observed `newestTransaction == t` and
`tilesInFlight > 0` in every earlier one, it returns `false` (any number of
iterations above `m` suffices) and the scene is as it was: no resize, no
launch, `tilesInFlight` unchanged; (3) when in some iteration `m` it observes
`newestTransaction == t` and `tilesInFlight == 0` after such earlier
iterations, it goes on to the resize and the launch. -/
theorem launcherBegin_spec (st : HelloWorld) (zoomLevel transaction tileDims : Nat)
    (trueSize : Size) (reads : Nat → Nat → Nat) (newest inFlight : Nat → Nat) (fuel : Nat) :
    (∀ st', launcherBegin st zoomLevel transaction tileDims trueSize reads newest inFlight fuel
        = some (LauncherOutcome.launchedTiles st') →
      ∃ m, m < fuel ∧ newest m = transaction ∧ inFlight m = 0 ∧
        (∀ i, i < m → newest i = transaction ∧ 0 < inFlight i) ∧
        st' = launcherLaunch st zoomLevel transaction tileDims trueSize reads) ∧
    (∀ m, m < fuel → newest m ≠ transaction →
      (∀ i, i < m → newest i = transaction ∧ 0 < inFlight i) →
      launcherBegin st zoomLevel transaction tileDims trueSize reads newest inFlight fuel
        = some (LauncherOutcome.returnedFalse st)) ∧
    (∀ m, m < fuel → newest m = transaction → inFlight m = 0 →
      (∀ i, i < m → newest i = transaction ∧ 0 < inFlight i) →
      launcherBegin st zoomLevel transaction tileDims trueSize reads newest inFlight fuel
        = some (LauncherOutcome.launchedTiles
          (launcherLaunch st zoomLevel transaction tileDims trueSize reads))) ∧
    (∀ st', launcherBegin st zoomLevel transaction tileDims trueSize reads newest inFlight fuel
        = some (LauncherOutcome.returnedFalse st') →
      st' = st ∧
      ∃ m, m < fuel ∧ newest m ≠ transaction ∧
        ∀ i, i < m → newest i = transaction ∧ 0 < inFlight i) := by
  obtain ⟨hd, ha, _⟩ := drainLoop_result transaction newest inFlight fuel 0
  refine ⟨?_, ?_, ?_, ?_⟩
  · intro st' h
    unfold launcherBegin at h
    cases hr : drainLoop transaction newest inFlight fuel 0 with
    | spinning => rw [hr] at h; exact absurd h (by simp)
    | abandoned m => rw [hr] at h; simp at h
    | drained m =>
      rw [hr] at h
      simp only [Option.some.injEq, LauncherOutcome.launchedTiles.injEq] at h
      obtain ⟨_, h2, h3, h4, h5⟩ := hd m hr
      exact ⟨m, by omega, h3, h4, fun i hi => h5 i (Nat.zero_le i) hi, h.symm⟩
  · intro m hm hne hbefore
    obtain ⟨f, rfl⟩ : ∃ f, fuel = m + (f + 1) := ⟨fuel - m - 1, by omega⟩
    unfold launcherBegin
    rw [drainLoop_skip transaction newest inFlight m (f + 1) 0
      (fun i _ hi => hbefore i (by omega)), Nat.zero_add, drainLoop, if_pos hne]
  · intro m hm heq h0 hbefore
    obtain ⟨f, rfl⟩ : ∃ f, fuel = m + (f + 1) := ⟨fuel - m - 1, by omega⟩
    unfold launcherBegin
    rw [drainLoop_skip transaction newest inFlight m (f + 1) 0
      (fun i _ hi => hbefore i (by omega)), Nat.zero_add, drainLoop,
      if_neg (by simp [heq]), if_neg (by omega)]
  · intro st' h
    unfold launcherBegin at h
    cases hr : drainLoop transaction newest inFlight fuel 0 with
    | spinning => rw [hr] at h; exact absurd h (by simp)
    | drained m => rw [hr] at h; simp at h
    | abandoned m =>
      rw [hr] at h
      simp only [Option.some.injEq, LauncherOutcome.returnedFalse.injEq] at h
      obtain ⟨_, h2, h3, h5⟩ := ha m hr
      exact ⟨h.symm, m, by omega, h3, fun i hi => h5 i (Nat.zero_le i) hi⟩

/-- Instance of C25: the transaction is bumped before the tiles in flight have
drained; the waiter of transaction 0 returns `false` in its third iteration
and the two-tile scene is as it was. -/
theorem launcherBegin_spec_witness :
    2 < 10 ∧ newestBumpedAtTwo 2 ≠ 0 ∧
    (∀ i, i < 2 → newestBumpedAtTwo i = 0 ∧ 0 < inFlightCountdown i) ∧
    launcherBegin twoTileScene 0 0 TILE_DIMS (trueSizeOf twoTileScene) neverSuperseded
        newestBumpedAtTwo inFlightCountdown 10
      = some (LauncherOutcome.returnedFalse twoTileScene) :=
  ⟨by decide, by decide, by decide,
    (launcherBegin_spec twoTileScene 0 0 TILE_DIMS (trueSizeOf twoTileScene) neverSuperseded
      newestBumpedAtTwo inFlightCountdown 10).2.1 2 (by decide) (by decide) (by decide)⟩

/-! ### The frame of the Mandelbrot kernel -/

/-- Every store of the scanline loop is the store of a pixel of one of the
scanlines the loop may visit. -/
theorem scanlineLoop_stores (env : KernelEnv) (spec : TileSpec) (ref : TileRef) :
    ∀ fuel y0 s, s ∈ scanlineLoop env spec ref fuel y0 →
      ∃ y x, y0 ≤ y ∧ y < y0 + fuel ∧ x < spec.w ∧ s = pixelStore env spec ref.tile y x
  | 0, y0, s, hs => by simp [scanlineLoop] at hs
  | fuel + 1, y0, s, hs => by
    unfold scanlineLoop at hs
    split at hs
    · simp at hs
    · rw [List.mem_append] at hs
      rcases hs with hs | hs
      · rw [rowStores_eq, List.mem_map] at hs
        obtain ⟨x, hx, rfl⟩ := hs
        exact ⟨y0, x, Nat.le_refl _, by omega, List.mem_range.mp hx, rfl⟩
      · obtain ⟨y, x, h1, h2, h3, h4⟩ := scanlineLoop_stores env spec ref fuel (y0 + 1) s hs
        exact ⟨y, x, by omega, by omega, h3, h4⟩

/-- The frame of the kernel in terms of the rows the code addresses: for every
TileSpec, tile, framebuffer content and values read from the atomic
transaction, every store of the kernel run on one tile is to a pixel of the
tile, at `addressRow(spec, tile, y) + x` with `y < h` and `x < w`; every byte
of the framebuffer outside the rows `addressRow(spec, tile, r)`, `r < h`, each
`w` pixels long, is unchanged, and so is every pixel none of whose bytes lies
in them.  When the row offsets do not wrap, `(h - 1) * stride < 2^32`, these
rows are the bytes `pixels + r * stride + x * sizeof(RGBA) + [0, 4)` with
`r < h`, `x < w`. -/
theorem kernel_frame_addressRow (env : KernelEnv) (spec : TileSpec) (ref : TileRef)
    (mem : Memory) :
    (∀ s ∈ (mandelbrotKernel env spec ref).stores, ∃ y x, y < spec.h ∧ x < spec.w ∧
      s.addr = addressRow spec ref.tile y + x * sizeofRGBA) ∧
    (∀ b, ¬ inSlice spec ref.tile b →
      runStores (mandelbrotKernel env spec ref).stores mem b = mem b) ∧
    (∀ a, (∀ j, j < sizeofRGBA → ¬ inSlice spec ref.tile (a + j)) →
      loadRGBA (runStores (mandelbrotKernel env spec ref).stores mem) a = loadRGBA mem a) ∧
    ((spec.h - 1) * spec.stride < 4294967296 →
      ∀ b, inSlice spec ref.tile b ↔
        ∃ r x, r < spec.h ∧ x < spec.w ∧
          ref.tile.pixels + r * spec.stride + x * sizeofRGBA ≤ b ∧
          b < ref.tile.pixels + r * spec.stride + x * sizeofRGBA + sizeofRGBA) := by
  have hstores : ∀ s ∈ (mandelbrotKernel env spec ref).stores, ∃ y x, y < spec.h ∧ x < spec.w ∧
      s.addr = addressRow spec ref.tile y + x * sizeofRGBA := by
    intro s hs
    obtain ⟨y, x, _, hy, hx, rfl⟩ := scanlineLoop_stores env spec ref spec.h 0 s hs
    exact ⟨y, x, by omega, hx, rfl⟩
  have hbyte : ∀ b, ¬ inSlice spec ref.tile b →
      runStores (mandelbrotKernel env spec ref).stores mem b = mem b := by
    intro b hb
    apply runStores_of_not_covered
    intro s hs hcov
    obtain ⟨y, x, hy, hx, haddr⟩ := hstores s hs
    apply hb
    rw [covers_iff, haddr] at hcov
    refine ⟨y, hy, by omega, ?_⟩
    have : x * sizeofRGBA + 4 ≤ spec.w * sizeofRGBA := by
      have := Nat.mul_le_mul_right sizeofRGBA (Nat.succ_le_of_lt hx)
      simp only [sizeofRGBA, Nat.succ_mul] at this ⊢
      omega
    omega
  refine ⟨hstores, hbyte, ?_, ?_⟩
  · intro a ha
    have h0 := hbyte a (by simpa using ha 0 (by decide))
    have h1 := hbyte (a + 1) (ha 1 (by decide))
    have h2 := hbyte (a + 2) (ha 2 (by decide))
    have h3 := hbyte (a + 3) (ha 3 (by decide))
    simp only [loadRGBA, h0, h1, h2, h3]
  · intro hext b
    have hrow : ∀ r, r < spec.h →
        addressRow spec ref.tile r = ref.tile.pixels + r * spec.stride := by
      intro r hr
      unfold addressRow
      have : spec.stride * r ≤ (spec.h - 1) * spec.stride := by
        rw [Nat.mul_comm]
        exact Nat.mul_le_mul_right _ (by omega)
      rw [Nat.mod_eq_of_lt (by omega), Nat.mul_comm]
    constructor
    · rintro ⟨r, hr, h1, h2⟩
      rw [hrow r hr] at h1 h2
      simp only [sizeofRGBA] at h2 ⊢
      refine ⟨r, (b - (ref.tile.pixels + r * spec.stride)) / 4, hr, ?_, ?_, ?_⟩
      · rw [Nat.div_lt_iff_lt_mul (by decide)]
        omega
      · have := Nat.div_mul_le_self (b - (ref.tile.pixels + r * spec.stride)) 4
        omega
      · have := Nat.lt_div_mul_add (a := b - (ref.tile.pixels + r * spec.stride)) (b := 4)
          (by decide)
        omega
    · rintro ⟨r, x, hr, hx, h1, h2⟩
      refine ⟨r, hr, ?_, ?_⟩
      · rw [hrow r hr]; omega
      · rw [hrow r hr]
        have := Nat.mul_le_mul_right sizeofRGBA (Nat.succ_le_of_lt hx)
        simp only [sizeofRGBA, Nat.succ_mul] at this h2 ⊢
        omega


/-- When the row offsets do not wrap, `(h - 1) * stride < 2^32`, the rows
addressed by `addressRow` are the rows of the stated slice. -/
theorem inSlice_iff_stated (spec : TileSpec) (tile : Tile2D)
    (hext : (spec.h - 1) * spec.stride < 4294967296) (b : Nat) :
    inSlice spec tile b ↔ inStatedSlice spec tile b := by
  have hrow : ∀ r, r < spec.h → addressRow spec tile r = tile.pixels + r * spec.stride := by
    intro r hr
    unfold addressRow
    have : spec.stride * r ≤ (spec.h - 1) * spec.stride := by
      rw [Nat.mul_comm]
      exact Nat.mul_le_mul_right _ (by omega)
    rw [Nat.mod_eq_of_lt (by omega), Nat.mul_comm]
  constructor
  · rintro ⟨r, hr, h1, h2⟩
    rw [hrow r hr] at h1 h2
    exact ⟨r, hr, h1, h2⟩
  · rintro ⟨r, hr, h1, h2⟩
    refine ⟨r, hr, ?_, ?_⟩
    · rw [hrow r hr]; exact h1
    · rw [hrow r hr]; exact h2

set_option maxRecDepth 100000 in
/-- C24 (as stated, refuted): for a tile of 1 × 3 pixels at offset 0 with the
stride `3 · 2^30`, the slice as stated is the bytes `[0, 4)`, `[3 · 2^30,
3 · 2^30 + 4)` and `[6 · 2^30, 6 · 2^30 + 4)`; the pixel at byte `2^31` has no
byte in it.  The kernel addresses the third row by the `unsigned` product
`stride * 2 = 2^31` and stores that row's pixel at byte `2^31`: in a
framebuffer of zero bytes the byte `2^31 + 3` becomes 255 and the pixel at
`2^31` changes. -/
theorem mandelbrotKernel_writes_outside_slice :
    (∀ j, j < sizeofRGBA → ¬ inStatedSlice strideSpec ⟨0, 0, 0⟩ (2147483648 + j)) ∧
    addressRow strideSpec ⟨0, 0, 0⟩ 2 = 2147483648 ∧
    pixelStore (plainEnv unitGrid 5) strideSpec ⟨0, 0, 0⟩ 2 0
      ∈ (mandelbrotKernel (plainEnv unitGrid 5) strideSpec ⟨0, ⟨0, 0, 0⟩⟩).stores ∧
    (pixelStore (plainEnv unitGrid 5) strideSpec ⟨0, 0, 0⟩ 2 0).addr = 2147483648 ∧
    zeroMemory (2147483648 + 3) = 0 ∧
    runStores (mandelbrotKernel (plainEnv unitGrid 5) strideSpec ⟨0, ⟨0, 0, 0⟩⟩).stores
      zeroMemory (2147483648 + 3) = 255 ∧
    loadRGBA
        (runStores (mandelbrotKernel (plainEnv unitGrid 5) strideSpec ⟨0, ⟨0, 0, 0⟩⟩).stores
          zeroMemory) 2147483648
      ≠ loadRGBA zeroMemory 2147483648 := by
  refine ⟨by decide, by decide, by decide, by decide, by decide, by decide, by decide⟩

/-- C24 (amended): for every TileSpec whose row offsets do not wrap,
`(h - 1) * stride < 2^32`, every tile, framebuffer content and values read
from the atomic transaction, every store of the kernel run on one tile is to a
pixel of the tile's slice, at `pixels + y * stride + x * sizeof(RGBA)` with
`y < h` and `x < w`; every byte of the framebuffer outside the slice (tile-local
rows `0 .. h-1` and columns `0 .. w-1` from the tile's origin, addressed with
the spec's stride) is unchanged, and so is every pixel none of whose bytes
lies in the slice. -/
theorem mandelbrotKernel_frame (env : KernelEnv) (spec : TileSpec) (ref : TileRef)
    (mem : Memory) (hext : (spec.h - 1) * spec.stride < 4294967296) :
    (∀ s ∈ (mandelbrotKernel env spec ref).stores, ∃ y x, y < spec.h ∧ x < spec.w ∧
      s.addr = ref.tile.pixels + y * spec.stride + x * sizeofRGBA ∧
      ∀ j, j < sizeofRGBA → inStatedSlice spec ref.tile (s.addr + j)) ∧
    (∀ b, ¬ inStatedSlice spec ref.tile b →
      runStores (mandelbrotKernel env spec ref).stores mem b = mem b) ∧
    (∀ a, (∀ j, j < sizeofRGBA → ¬ inStatedSlice spec ref.tile (a + j)) →
      loadRGBA (runStores (mandelbrotKernel env spec ref).stores mem) a = loadRGBA mem a) := by
  obtain ⟨hstores, hbyte, hpixel, _⟩ := kernel_frame_addressRow env spec ref mem
  have hrow : ∀ r, r < spec.h →
      addressRow spec ref.tile r = ref.tile.pixels + r * spec.stride := by
    intro r hr
    unfold addressRow
    have : spec.stride * r ≤ (spec.h - 1) * spec.stride := by
      rw [Nat.mul_comm]
      exact Nat.mul_le_mul_right _ (by omega)
    rw [Nat.mod_eq_of_lt (by omega), Nat.mul_comm]
  refine ⟨?_, ?_, ?_⟩
  · intro s hs
    obtain ⟨y, x, hy, hx, haddr⟩ := hstores s hs
    rw [hrow y hy] at haddr
    refine ⟨y, x, hy, hx, haddr, ?_⟩
    intro j hj
    have hxw := Nat.mul_le_mul_right sizeofRGBA (Nat.succ_le_of_lt hx)
    rw [haddr]
    refine ⟨y, hy, by omega, ?_⟩
    simp only [sizeofRGBA, Nat.succ_mul] at hxw hj ⊢
    omega
  · intro b hb
    exact hbyte b (fun h => hb ((inSlice_iff_stated spec ref.tile hext b).mp h))
  · intro a ha
    exact hpixel a (fun j hj h => ha j hj ((inSlice_iff_stated spec ref.tile hext (a + j)).mp h))

/-- Instance of the amended C24: the kernel run on the tile at offset 0 of a
2 × 2 tile spec with stride 32 leaves byte 100, which is outside the tile's
slice, as it was. -/
theorem mandelbrotKernel_frame_witness :
    (smallSpec.h - 1) * smallSpec.stride < 4294967296 ∧
    ¬ inStatedSlice smallSpec ⟨0, 0, 0⟩ 100 ∧
    runStores (mandelbrotKernel (plainEnv smallGrid 5) smallSpec ⟨0, ⟨0, 0, 0⟩⟩).stores
      rampMemory 100 = rampMemory 100 :=
  ⟨by decide, by decide,
    (mandelbrotKernel_frame (plainEnv smallGrid 5) smallSpec ⟨0, ⟨0, 0, 0⟩⟩ rampMemory
      (by decide)).2.1 100 (by decide)⟩

/-! ### The clear kernel on one tile -/

/-- Stores that do not cover a byte can be dropped from the end of a sequence
of stores. -/
theorem runStores_append_of_not_covered (pre post : List Store) (mem : Memory) (b : Nat)
    (h : ∀ s ∈ post, ¬ s.covers b) :
    runStores (pre ++ post) mem b = runStores pre mem b := by
  unfold runStores
  rw [List.foldl_append]
  exact runStores_of_not_covered b post _ h

/-- The last store of a sequence decides the bytes it covers. -/
theorem runStores_snoc_covered (pre : List Store) (s : Store) (mem : Memory) (b : Nat)
    (h : s.covers b) : runStores (pre ++ [s]) mem b = s.byteAt b := by
  unfold runStores
  rw [List.foldl_append]
  simp only [List.foldl_cons, List.foldl_nil]
  rw [storeRGBA_apply, if_pos ((covers_iff s b).mp h)]

/-- Under the conditions that keep the rows of a tile apart (a row fits the
stride, the row offsets do not wrap), the pixel cells of a tile do not
overlap: two cells with a common byte are the same cell. -/
theorem tile_pixel_unique (spec : TileSpec) (tile : Tile2D)
    (hrow : spec.w * sizeofRGBA ≤ spec.stride)
    (hext : (spec.h - 1) * spec.stride < 4294967296)
    (x1 y1 x2 y2 : Nat) (hx1 : x1 < spec.w) (hy1 : y1 < spec.h) (hx2 : x2 < spec.w)
    (hy2 : y2 < spec.h) (b : Nat)
    (h1 : addressRow spec tile y1 + x1 * sizeofRGBA ≤ b ∧
      b < addressRow spec tile y1 + x1 * sizeofRGBA + sizeofRGBA)
    (h2 : addressRow spec tile y2 + x2 * sizeofRGBA ≤ b ∧
      b < addressRow spec tile y2 + x2 * sizeofRGBA + sizeofRGBA) :
    x1 = x2 ∧ y1 = y2 := by
  have hr : ∀ r, r < spec.h → addressRow spec tile r = tile.pixels + spec.stride * r := by
    intro r hr
    unfold addressRow
    have : spec.stride * r ≤ (spec.h - 1) * spec.stride := by
      rw [Nat.mul_comm]
      exact Nat.mul_le_mul_right _ (by omega)
    rw [Nat.mod_eq_of_lt (by omega)]
  rw [hr y1 hy1] at h1
  rw [hr y2 hy2] at h2
  simp only [sizeofRGBA] at h1 h2 hrow
  rcases Nat.lt_trichotomy y1 y2 with hlt | heq | hgt
  · have : spec.stride * (y1 + 1) ≤ spec.stride * y2 := Nat.mul_le_mul_left _ hlt
    rw [Nat.mul_add, Nat.mul_one] at this
    omega
  · subst heq
    exact ⟨by omega, rfl⟩
  · have : spec.stride * (y2 + 1) ≤ spec.stride * y1 := Nat.mul_le_mul_left _ hgt
    rw [Nat.mul_add, Nat.mul_one] at this
    omega

/-- The addresses of the four stores of the corner decoration. -/
theorem cornerStores_eq (spec : TileSpec) (tile : Tile2D)
    (hw : 0 < spec.w) (hh : 0 < spec.h) (hdvd : sizeofRGBA ∣ spec.stride)
    (hext : (spec.h - 1) * spec.stride < 4294967296)
    (hp : tile.pixels + (spec.h - 1) * spec.stride + spec.w * sizeofRGBA
      ≤ 18446744073709551616) :
    cornerStores spec tile
      = [⟨addressRow spec tile 0 + 0 * sizeofRGBA, ⟨255, 0, 0, 255⟩⟩,
         ⟨addressRow spec tile 0 + (spec.w - 1) * sizeofRGBA, ⟨0, 255, 0, 255⟩⟩,
         ⟨addressRow spec tile (spec.h - 1) + 0 * sizeofRGBA, ⟨0, 0, 255, 255⟩⟩,
         ⟨addressRow spec tile (spec.h - 1) + (spec.w - 1) * sizeofRGBA,
           ⟨255, 0, 255, 255⟩⟩] := by
  have hwlt := spec.w_lt
  have hhlt := spec.h_lt
  have e1 : (spec.w + 18446744073709551616 - 1) % 18446744073709551616 = spec.w - 1 := by
    omega
  have e2 : (spec.h + 4294967296 - 1) % 4294967296 = spec.h - 1 := by omega
  have hdiv : (spec.h - 1) * spec.stride / sizeofRGBA * sizeofRGBA
      = (spec.h - 1) * spec.stride :=
    Nat.div_mul_cancel (Dvd.dvd.mul_left hdvd _)
  have hlast : lastRowIndex spec = (spec.h - 1) * spec.stride / sizeofRGBA := by
    unfold lastRowIndex
    rw [e2, Nat.mod_eq_of_lt hext]
  have hr0 : addressRow spec tile 0 = tile.pixels := by
    unfold addressRow; simp
  have hr1 : addressRow spec tile (spec.h - 1) = tile.pixels + (spec.h - 1) * spec.stride := by
    unfold addressRow
    rw [Nat.mul_comm, Nat.mod_eq_of_lt hext]
  have e3 : ((spec.h - 1) * spec.stride / 4 + spec.w + 18446744073709551616 - 1)
      % 18446744073709551616 = (spec.h - 1) * spec.stride / 4 + spec.w - 1 := by
    simp only [sizeofRGBA] at hdiv hp
    omega
  have c0 : (⟨255, 0, 0, 255⟩ : RGBA) = RGBA.ofUnsigned 255 0 0 255 := by decide
  have c1 : (⟨0, 255, 0, 255⟩ : RGBA) = RGBA.ofUnsigned 0 255 0 255 := by decide
  have c2 : (⟨0, 0, 255, 255⟩ : RGBA) = RGBA.ofUnsigned 0 0 255 255 := by decide
  have c3 : (⟨255, 0, 255, 255⟩ : RGBA) = RGBA.ofUnsigned 255 0 255 255 := by decide
  simp only [sizeofRGBA] at hdiv hlast hp
  have a0 : indexRGBA tile.pixels 0 = addressRow spec tile 0 + 0 * sizeofRGBA := by
    simp only [indexRGBA, sizeofRGBA, hr0]; omega
  have a1 : indexRGBA tile.pixels
      ((spec.w + 18446744073709551616 - 1) % 18446744073709551616)
      = addressRow spec tile 0 + (spec.w - 1) * sizeofRGBA := by
    simp only [indexRGBA, sizeofRGBA, hr0, e1]; omega
  have a2 : indexRGBA tile.pixels (lastRowIndex spec)
      = addressRow spec tile (spec.h - 1) + 0 * sizeofRGBA := by
    simp only [indexRGBA, sizeofRGBA, hr1, hlast]; omega
  have a3 : indexRGBA tile.pixels
      ((lastRowIndex spec + spec.w + 18446744073709551616 - 1) % 18446744073709551616)
      = addressRow spec tile (spec.h - 1) + (spec.w - 1) * sizeofRGBA := by
    simp only [indexRGBA, sizeofRGBA, hr1, hlast, e3]; omega
  unfold cornerStores
  rw [a0, a1, a2, a3, c0, c1, c2, c3]

/-- The last store of a sequence that covers a byte decides it. -/
theorem runStores_mid (pre : List Store) (s : Store) (post : List Store) (mem : Memory)
    (b : Nat) (hs : s.covers b) (hpost : ∀ t ∈ post, ¬ t.covers b) :
    runStores (pre ++ s :: post) mem b = s.byteAt b := by
  have e : pre ++ s :: post = (pre ++ [s]) ++ post := by simp
  rw [e, runStores_append_of_not_covered _ _ _ _ hpost, runStores_snoc_covered _ _ _ _ hs]

/-- After the fill of `ClearTile2D` every pixel of the tile holds the colour,
when the pixel cells of the tile do not overlap. -/
theorem ClearTile2D_pixel (spec : TileSpec) (tile : Tile2D) (color : RGBA) (mem : Memory)
    (hrow : spec.w * sizeofRGBA ≤ spec.stride)
    (hext : (spec.h - 1) * spec.stride < 4294967296)
    (x y : Nat) (hx : x < spec.w) (hy : y < spec.h) (j : Nat) (hj : j < 4) :
    runStores (ClearTile2D spec tile color) mem (addressRow spec tile y + x * sizeofRGBA + j)
      = Store.byteAt ⟨addressRow spec tile y + x * sizeofRGBA, color⟩
          (addressRow spec tile y + x * sizeofRGBA + j) := by
  apply runStores_of_agree
  · intro s hs hcov
    obtain ⟨y', x', hy', hx', rfl⟩ := (mem_ClearTile2D spec tile color s).mp hs
    rw [covers_iff] at hcov
    obtain ⟨rfl, rfl⟩ := tile_pixel_unique spec tile hrow hext x' y' x y hx' hy' hx hy
      (addressRow spec tile y + x * sizeofRGBA + j)
      (by simp only [sizeofRGBA] at hcov ⊢; omega) (by simp only [sizeofRGBA]; omega)
    rfl
  · right
    refine ⟨_, (mem_ClearTile2D spec tile color _).mpr ⟨y, x, hy, hx, rfl⟩, ?_⟩
    rw [covers_iff]
    simp only
    omega

/-- C29 (amended): for every tile with `w ≥ 2`, `h ≥ 2`, a stride that is a
multiple of `sizeof(RGBA)` and at least `w * sizeof(RGBA)`, and row offsets
that do not wrap, `(h - 1) * stride < 2^32`, after `ClearRGBA8888Tile2D` the
four corner pixels of the tile hold the diagnostic colours (top-left
(255,0,0,255), top-right (0,255,0,255), bottom-left (0,0,255,255),
bottom-right (255,0,255,255)) and every other pixel of the tile equals the
given colour; the four corner positions are distinct, so when the colour is
none of the four diagnostic colours the pixels of the tile that differ from it
are exactly those four. -/
theorem ClearRGBA8888Tile2D_spec (spec : TileSpec) (ref : TileRef) (color : RGBA)
    (mem : Memory) (hw : 2 ≤ spec.w) (hh : 2 ≤ spec.h) (hdvd : sizeofRGBA ∣ spec.stride)
    (hrow : spec.w * sizeofRGBA ≤ spec.stride)
    (hext : (spec.h - 1) * spec.stride < 4294967296)
    (hp : ref.tile.pixels + (spec.h - 1) * spec.stride + spec.w * sizeofRGBA
      ≤ 18446744073709551616) :
    loadRGBA (runStores (ClearRGBA8888Tile2D spec ref color).stores mem)
        (addressRow spec ref.tile 0 + 0 * sizeofRGBA) = ⟨255, 0, 0, 255⟩ ∧
    loadRGBA (runStores (ClearRGBA8888Tile2D spec ref color).stores mem)
        (addressRow spec ref.tile 0 + (spec.w - 1) * sizeofRGBA) = ⟨0, 255, 0, 255⟩ ∧
    loadRGBA (runStores (ClearRGBA8888Tile2D spec ref color).stores mem)
        (addressRow spec ref.tile (spec.h - 1) + 0 * sizeofRGBA) = ⟨0, 0, 255, 255⟩ ∧
    loadRGBA (runStores (ClearRGBA8888Tile2D spec ref color).stores mem)
        (addressRow spec ref.tile (spec.h - 1) + (spec.w - 1) * sizeofRGBA)
      = ⟨255, 0, 255, 255⟩ ∧
    (∀ x y, x < spec.w → y < spec.h → ¬ isCornerPixel spec x y →
      loadRGBA (runStores (ClearRGBA8888Tile2D spec ref color).stores mem)
        (addressRow spec ref.tile y + x * sizeofRGBA) = color) ∧
    (cornerPositions spec).Nodup ∧ (cornerPositions spec).length = 4 ∧
    (∀ x y, x < spec.w → y < spec.h →
      (isCornerPixel spec x y ↔ (x, y) ∈ cornerPositions spec)) ∧
    (color ∉ cornerColours → ∀ x y, x < spec.w → y < spec.h →
      (loadRGBA (runStores (ClearRGBA8888Tile2D spec ref color).stores mem)
          (addressRow spec ref.tile y + x * sizeofRGBA) ≠ color
        ↔ (x, y) ∈ cornerPositions spec)) := by
  have hcs := cornerStores_eq spec ref.tile (by omega) (by omega) hdvd hext hp
  have hst : (ClearRGBA8888Tile2D spec ref color).stores
      = ClearTile2D spec ref.tile color ++ cornerStores spec ref.tile := rfl
  rw [hst, hcs]
  -- a corner store covers a byte of a pixel of the tile only when the pixel is that corner
  have hcov : ∀ (cx cy : Nat) (v : RGBA) (x y j : Nat), cx < spec.w → cy < spec.h →
      x < spec.w → y < spec.h → j < 4 →
      Store.covers ⟨addressRow spec ref.tile cy + cx * sizeofRGBA, v⟩
        (addressRow spec ref.tile y + x * sizeofRGBA + j) → cx = x ∧ cy = y := by
    intro cx cy v x y j hcx hcy hx hy hj hc
    rw [covers_iff] at hc
    exact tile_pixel_unique spec ref.tile hrow hext cx cy x y hcx hcy hx hy
      (addressRow spec ref.tile y + x * sizeofRGBA + j)
      (by simp only [sizeofRGBA] at hc ⊢; omega) (by simp only [sizeofRGBA]; omega)
  have hself : ∀ (a : Nat) (v : RGBA) (j : Nat), j < 4 → Store.covers ⟨a, v⟩ (a + j) := by
    intro a v j hj
    rw [covers_iff]
    simp only
    omega
  have hw1 : spec.w - 1 < spec.w := by omega
  have hh1 : spec.h - 1 < spec.h := by omega
  have hw0 : 0 < spec.w := by omega
  have hh0 : 0 < spec.h := by omega
  have hpos : ∀ x y, x < spec.w → y < spec.h →
      (isCornerPixel spec x y ↔ (x, y) ∈ cornerPositions spec) := by
    intro x y hx hy
    simp only [isCornerPixel, cornerPositions, List.mem_cons, List.mem_singleton,
      List.not_mem_nil, or_false, Prod.mk.injEq]
    omega
  have hc0 : loadRGBA (runStores (ClearTile2D spec ref.tile color ++
        [⟨addressRow spec ref.tile 0 + 0 * sizeofRGBA, ⟨255, 0, 0, 255⟩⟩,
         ⟨addressRow spec ref.tile 0 + (spec.w - 1) * sizeofRGBA, ⟨0, 255, 0, 255⟩⟩,
         ⟨addressRow spec ref.tile (spec.h - 1) + 0 * sizeofRGBA, ⟨0, 0, 255, 255⟩⟩,
         ⟨addressRow spec ref.tile (spec.h - 1) + (spec.w - 1) * sizeofRGBA,
           ⟨255, 0, 255, 255⟩⟩]) mem)
      (addressRow spec ref.tile 0 + 0 * sizeofRGBA) = ⟨255, 0, 0, 255⟩ := by
    apply loadRGBA_of_bytes _ ⟨addressRow spec ref.tile 0 + 0 * sizeofRGBA, ⟨255, 0, 0, 255⟩⟩
    intro j hj
    apply runStores_mid _ _ _ _ _ (hself _ _ j hj)
    intro t ht hc
    simp only [List.mem_cons, List.mem_singleton, List.not_mem_nil, or_false] at ht
    rcases ht with rfl | rfl | rfl
    · have := hcov _ _ _ 0 0 j hw1 hh0 hw0 hh0 hj hc; omega
    · have := hcov _ _ _ 0 0 j hw0 hh1 hw0 hh0 hj hc; omega
    · have := hcov _ _ _ 0 0 j hw1 hh1 hw0 hh0 hj hc; omega
  have hc1 : loadRGBA (runStores (ClearTile2D spec ref.tile color ++
        [⟨addressRow spec ref.tile 0 + 0 * sizeofRGBA, ⟨255, 0, 0, 255⟩⟩,
         ⟨addressRow spec ref.tile 0 + (spec.w - 1) * sizeofRGBA, ⟨0, 255, 0, 255⟩⟩,
         ⟨addressRow spec ref.tile (spec.h - 1) + 0 * sizeofRGBA, ⟨0, 0, 255, 255⟩⟩,
         ⟨addressRow spec ref.tile (spec.h - 1) + (spec.w - 1) * sizeofRGBA,
           ⟨255, 0, 255, 255⟩⟩]) mem)
      (addressRow spec ref.tile 0 + (spec.w - 1) * sizeofRGBA) = ⟨0, 255, 0, 255⟩ := by
    apply loadRGBA_of_bytes _
      ⟨addressRow spec ref.tile 0 + (spec.w - 1) * sizeofRGBA, ⟨0, 255, 0, 255⟩⟩
    intro j hj
    have e : ClearTile2D spec ref.tile color ++
        [⟨addressRow spec ref.tile 0 + 0 * sizeofRGBA, ⟨255, 0, 0, 255⟩⟩,
         ⟨addressRow spec ref.tile 0 + (spec.w - 1) * sizeofRGBA, ⟨0, 255, 0, 255⟩⟩,
         ⟨addressRow spec ref.tile (spec.h - 1) + 0 * sizeofRGBA, ⟨0, 0, 255, 255⟩⟩,
         ⟨addressRow spec ref.tile (spec.h - 1) + (spec.w - 1) * sizeofRGBA,
           ⟨255, 0, 255, 255⟩⟩]
        = (ClearTile2D spec ref.tile color ++
            [⟨addressRow spec ref.tile 0 + 0 * sizeofRGBA, ⟨255, 0, 0, 255⟩⟩]) ++
          (⟨addressRow spec ref.tile 0 + (spec.w - 1) * sizeofRGBA, ⟨0, 255, 0, 255⟩⟩ ::
            [⟨addressRow spec ref.tile (spec.h - 1) + 0 * sizeofRGBA, ⟨0, 0, 255, 255⟩⟩,
             ⟨addressRow spec ref.tile (spec.h - 1) + (spec.w - 1) * sizeofRGBA,
               ⟨255, 0, 255, 255⟩⟩]) := by simp
    rw [e]
    apply runStores_mid _ _ _ _ _ (hself _ _ j hj)
    intro t ht hc
    simp only [List.mem_cons, List.mem_singleton, List.not_mem_nil, or_false] at ht
    rcases ht with rfl | rfl
    · have := hcov _ _ _ (spec.w - 1) 0 j hw0 hh1 hw1 hh0 hj hc; omega
    · have := hcov _ _ _ (spec.w - 1) 0 j hw1 hh1 hw1 hh0 hj hc; omega
  have hc2 : loadRGBA (runStores (ClearTile2D spec ref.tile color ++
        [⟨addressRow spec ref.tile 0 + 0 * sizeofRGBA, ⟨255, 0, 0, 255⟩⟩,
         ⟨addressRow spec ref.tile 0 + (spec.w - 1) * sizeofRGBA, ⟨0, 255, 0, 255⟩⟩,
         ⟨addressRow spec ref.tile (spec.h - 1) + 0 * sizeofRGBA, ⟨0, 0, 255, 255⟩⟩,
         ⟨addressRow spec ref.tile (spec.h - 1) + (spec.w - 1) * sizeofRGBA,
           ⟨255, 0, 255, 255⟩⟩]) mem)
      (addressRow spec ref.tile (spec.h - 1) + 0 * sizeofRGBA) = ⟨0, 0, 255, 255⟩ := by
    apply loadRGBA_of_bytes _
      ⟨addressRow spec ref.tile (spec.h - 1) + 0 * sizeofRGBA, ⟨0, 0, 255, 255⟩⟩
    intro j hj
    have e : ClearTile2D spec ref.tile color ++
        [⟨addressRow spec ref.tile 0 + 0 * sizeofRGBA, ⟨255, 0, 0, 255⟩⟩,
         ⟨addressRow spec ref.tile 0 + (spec.w - 1) * sizeofRGBA, ⟨0, 255, 0, 255⟩⟩,
         ⟨addressRow spec ref.tile (spec.h - 1) + 0 * sizeofRGBA, ⟨0, 0, 255, 255⟩⟩,
         ⟨addressRow spec ref.tile (spec.h - 1) + (spec.w - 1) * sizeofRGBA,
           ⟨255, 0, 255, 255⟩⟩]
        = (ClearTile2D spec ref.tile color ++
            [⟨addressRow spec ref.tile 0 + 0 * sizeofRGBA, ⟨255, 0, 0, 255⟩⟩,
             ⟨addressRow spec ref.tile 0 + (spec.w - 1) * sizeofRGBA, ⟨0, 255, 0, 255⟩⟩]) ++
          (⟨addressRow spec ref.tile (spec.h - 1) + 0 * sizeofRGBA, ⟨0, 0, 255, 255⟩⟩ ::
            [⟨addressRow spec ref.tile (spec.h - 1) + (spec.w - 1) * sizeofRGBA,
               ⟨255, 0, 255, 255⟩⟩]) := by simp
    rw [e]
    apply runStores_mid _ _ _ _ _ (hself _ _ j hj)
    intro t ht hc
    simp only [List.mem_cons, List.mem_singleton, List.not_mem_nil, or_false] at ht
    subst ht
    have := hcov _ _ _ 0 (spec.h - 1) j hw1 hh1 hw0 hh1 hj hc; omega
  have hc3 : loadRGBA (runStores (ClearTile2D spec ref.tile color ++
        [⟨addressRow spec ref.tile 0 + 0 * sizeofRGBA, ⟨255, 0, 0, 255⟩⟩,
         ⟨addressRow spec ref.tile 0 + (spec.w - 1) * sizeofRGBA, ⟨0, 255, 0, 255⟩⟩,
         ⟨addressRow spec ref.tile (spec.h - 1) + 0 * sizeofRGBA, ⟨0, 0, 255, 255⟩⟩,
         ⟨addressRow spec ref.tile (spec.h - 1) + (spec.w - 1) * sizeofRGBA,
           ⟨255, 0, 255, 255⟩⟩]) mem)
      (addressRow spec ref.tile (spec.h - 1) + (spec.w - 1) * sizeofRGBA)
      = ⟨255, 0, 255, 255⟩ := by
    apply loadRGBA_of_bytes _
      ⟨addressRow spec ref.tile (spec.h - 1) + (spec.w - 1) * sizeofRGBA, ⟨255, 0, 255, 255⟩⟩
    intro j hj
    have e : ClearTile2D spec ref.tile color ++
        [⟨addressRow spec ref.tile 0 + 0 * sizeofRGBA, ⟨255, 0, 0, 255⟩⟩,
         ⟨addressRow spec ref.tile 0 + (spec.w - 1) * sizeofRGBA, ⟨0, 255, 0, 255⟩⟩,
         ⟨addressRow spec ref.tile (spec.h - 1) + 0 * sizeofRGBA, ⟨0, 0, 255, 255⟩⟩,
         ⟨addressRow spec ref.tile (spec.h - 1) + (spec.w - 1) * sizeofRGBA,
           ⟨255, 0, 255, 255⟩⟩]
        = (ClearTile2D spec ref.tile color ++
            [⟨addressRow spec ref.tile 0 + 0 * sizeofRGBA, ⟨255, 0, 0, 255⟩⟩,
             ⟨addressRow spec ref.tile 0 + (spec.w - 1) * sizeofRGBA, ⟨0, 255, 0, 255⟩⟩,
             ⟨addressRow spec ref.tile (spec.h - 1) + 0 * sizeofRGBA, ⟨0, 0, 255, 255⟩⟩]) ++
          (⟨addressRow spec ref.tile (spec.h - 1) + (spec.w - 1) * sizeofRGBA,
               ⟨255, 0, 255, 255⟩⟩ :: []) := by simp
    rw [e]
    apply runStores_mid _ _ _ _ _ (hself _ _ j hj)
    intro t ht
    simp at ht
  have hfill : ∀ x y, x < spec.w → y < spec.h → ¬ isCornerPixel spec x y →
      loadRGBA (runStores (ClearTile2D spec ref.tile color ++
        [⟨addressRow spec ref.tile 0 + 0 * sizeofRGBA, ⟨255, 0, 0, 255⟩⟩,
         ⟨addressRow spec ref.tile 0 + (spec.w - 1) * sizeofRGBA, ⟨0, 255, 0, 255⟩⟩,
         ⟨addressRow spec ref.tile (spec.h - 1) + 0 * sizeofRGBA, ⟨0, 0, 255, 255⟩⟩,
         ⟨addressRow spec ref.tile (spec.h - 1) + (spec.w - 1) * sizeofRGBA,
           ⟨255, 0, 255, 255⟩⟩]) mem)
        (addressRow spec ref.tile y + x * sizeofRGBA) = color := by
    intro x y hx hy hnc
    apply loadRGBA_of_bytes _ ⟨addressRow spec ref.tile y + x * sizeofRGBA, color⟩
    intro j hj
    rw [runStores_append_of_not_covered]
    · exact ClearTile2D_pixel spec ref.tile color mem hrow hext x y hx hy j hj
    · intro t ht hc
      apply hnc
      simp only [List.mem_cons, List.mem_singleton, List.not_mem_nil, or_false] at ht
      simp only [isCornerPixel]
      rcases ht with rfl | rfl | rfl | rfl
      · have := hcov _ _ _ x y j hw0 hh0 hx hy hj hc; omega
      · have := hcov _ _ _ x y j hw1 hh0 hx hy hj hc; omega
      · have := hcov _ _ _ x y j hw0 hh1 hx hy hj hc; omega
      · have := hcov _ _ _ x y j hw1 hh1 hx hy hj hc; omega
  refine ⟨hc0, hc1, hc2, hc3, hfill, ?_, rfl, hpos, ?_⟩
  · simp only [cornerPositions, List.nodup_cons, List.mem_cons, List.mem_singleton,
      List.not_mem_nil, Prod.mk.injEq, List.nodup_nil, not_false_eq_true, and_true, or_false]
    omega
  · intro hcol x y hx hy
    simp only [cornerColours, List.mem_cons, List.mem_singleton, List.not_mem_nil, or_false,
      not_or] at hcol
    obtain ⟨n0, n1, n2, n3⟩ := hcol
    constructor
    · intro hne
      by_contra hnot
      exact hne (hfill x y hx hy (fun h => hnot ((hpos x y hx hy).mp h)))
    · intro hmem
      simp only [cornerPositions, List.mem_cons, List.mem_singleton, List.not_mem_nil,
        or_false, Prod.mk.injEq] at hmem
      rcases hmem with ⟨rfl, rfl⟩ | ⟨rfl, rfl⟩ | ⟨rfl, rfl⟩ | ⟨rfl, rfl⟩
      · rw [hc0]; exact fun h => n0 h.symm
      · rw [hc1]; exact fun h => n1 h.symm
      · rw [hc2]; exact fun h => n2 h.symm
      · rw [hc3]; exact fun h => n3 h.symm

/-- C29 (as stated, refuted): (1) for a tile of 2 × 3 pixels with stride
`2^31` (a multiple of `sizeof(RGBA)`, at least the row length) the index
`(h - 1) * stride / sizeof(RGBA)` of the bottom-left corner wraps to 0, and
after `ClearRGBA8888Tile2D` the top-left pixel holds (0,0,255,255), not
(255,0,0,255); (2) for a tile of 2 × 2 pixels with stride 4 (a multiple of
`sizeof(RGBA)`) the top-right pixel and the bottom-left pixel are the same
four bytes, and after the call the top-right pixel holds (0,0,255,255), not
(0,255,0,255). -/
theorem ClearRGBA8888Tile2D_corner_overwritten :
    (2 ≤ wrapSpec.w ∧ 2 ≤ wrapSpec.h ∧ sizeofRGBA ∣ wrapSpec.stride ∧
      wrapSpec.w * sizeofRGBA ≤ wrapSpec.stride) ∧
    loadRGBA (runStores (ClearRGBA8888Tile2D wrapSpec ⟨0, ⟨0, 0, 0⟩⟩ mainClearColor).stores
        zeroMemory) (addressRow wrapSpec ⟨0, 0, 0⟩ 0 + 0 * sizeofRGBA)
      = ⟨0, 0, 255, 255⟩ ∧
    (2 ≤ overlapSpec.w ∧ 2 ≤ overlapSpec.h ∧ sizeofRGBA ∣ overlapSpec.stride) ∧
    loadRGBA (runStores (ClearRGBA8888Tile2D overlapSpec ⟨0, ⟨0, 0, 0⟩⟩ mainClearColor).stores
        zeroMemory) (addressRow overlapSpec ⟨0, 0, 0⟩ 0 + (overlapSpec.w - 1) * sizeofRGBA)
      = ⟨0, 0, 255, 255⟩ ∧
    (⟨0, 0, 255, 255⟩ : RGBA) ≠ ⟨255, 0, 0, 255⟩ ∧
    (⟨0, 0, 255, 255⟩ : RGBA) ≠ ⟨0, 255, 0, 255⟩ := by
  refine ⟨by decide, by decide, by decide, by decide, by decide, by decide⟩

/-- Instance of the amended C29: one tile of 32 × 32 pixels with stride 128,
cleared to RGBA(192, 224, 255, 255) from a zeroed framebuffer. -/
theorem ClearRGBA8888Tile2D_spec_witness :
    (2 ≤ oneTileSpec.w ∧ 2 ≤ oneTileSpec.h ∧ sizeofRGBA ∣ oneTileSpec.stride ∧
      oneTileSpec.w * sizeofRGBA ≤ oneTileSpec.stride ∧
      (oneTileSpec.h - 1) * oneTileSpec.stride < 4294967296) ∧
    loadRGBA (runStores (ClearRGBA8888Tile2D oneTileSpec ⟨0, ⟨0, 0, 0⟩⟩ mainClearColor).stores
        zeroMemory) (addressRow oneTileSpec ⟨0, 0, 0⟩ 0 + 0 * sizeofRGBA)
      = ⟨255, 0, 0, 255⟩ :=
  ⟨by decide,
    (ClearRGBA8888Tile2D_spec oneTileSpec ⟨0, ⟨0, 0, 0⟩⟩ mainClearColor zeroMemory
      (by decide) (by decide) (by decide) (by decide) (by decide) (by decide)).1⟩

/-! ### `copyTile` and the double flip -/

/-- The state of `copyTile` after the first `n` scanlines. -/
theorem copyTile_rows (spec : TileSpec) (tile : Tile2D) (mem : Memory) (buffer : PixelBuffer) :
    ∀ n,
      (forLoop n (fun y st => copyScanline spec tile mem y st) ⟨buffer, 0, []⟩).out
        = n * spec.w ∧
      (∀ r x, r < n → x < spec.w →
        (forLoop n (fun y st => copyScanline spec tile mem y st) ⟨buffer, 0, []⟩).buffer
            (r * spec.w + x)
          = loadRGBA mem (addressRow spec tile r + x * sizeofRGBA)) ∧
      (∀ i, n * spec.w ≤ i →
        (forLoop n (fun y st => copyScanline spec tile mem y st) ⟨buffer, 0, []⟩).buffer i
          = buffer i)
  | 0 => by
    rw [forLoop_zero]
    exact ⟨by simp, fun r x hr => absurd hr (by omega), fun i _ => rfl⟩
  | n + 1 => by
    obtain ⟨ho, hb, hf⟩ := copyTile_rows spec tile mem buffer n
    rw [forLoop_succ]
    refine ⟨?_, ?_, ?_⟩
    · have e : ∀ y st, (copyScanline spec tile mem y st).out = st.out + spec.w :=
        fun _ _ => rfl
      rw [e, ho, Nat.add_mul, Nat.one_mul]
    · intro r x hr hx
      rw [copyScanline_buffer, ho]
      by_cases hrn : r = n
      · subst hrn
        rw [if_pos (by omega), Nat.add_sub_cancel_left]
      · have hlt : r < n := by omega
        have : (r + 1) * spec.w ≤ n * spec.w := Nat.mul_le_mul_right _ hlt
        rw [Nat.add_mul, Nat.one_mul] at this
        rw [if_neg (by omega)]
        exact hb r x hlt hx
    · intro i hi
      rw [Nat.add_mul, Nat.one_mul] at hi
      rw [copyScanline_buffer, ho, if_neg (by omega)]
      exact hf i (by omega)

/-- The output of `copyTile`: `out[r * w + x]` is the pixel at column `x` of
tile row `r`. -/
theorem copyTile_buffer (spec : TileSpec) (tile : Tile2D) (mem : Memory) (buffer : PixelBuffer)
    (r x : Nat) (hr : r < spec.h) (hx : x < spec.w) :
    (copyTile spec tile mem buffer).buffer (r * spec.w + x)
      = loadRGBA mem (addressRow spec tile r + x * sizeofRGBA) :=
  (copyTile_rows spec tile mem buffer spec.h).2.1 r x hr hx

/-- The output of `copyTileFlipped`: with fuel above `h` it returns, and
`out[r * w + x]` is the pixel at column `x` of tile row `h - 1 - r`. -/
theorem copyTileFlipped_buffer (spec : TileSpec) (tile : Tile2D) (mem : Memory)
    (buffer : PixelBuffer) (fuel : Nat) (hfuel : spec.h < fuel) :
    ∃ st, copyTileFlipped spec tile mem buffer fuel = some st ∧
      ∀ r x, r < spec.h → x < spec.w →
        st.buffer (r * spec.w + x)
          = loadRGBA mem (addressRow spec tile (spec.h - 1 - r) + x * sizeofRGBA) := by
  have hh := spec.h_lt
  rcases Nat.eq_zero_or_pos spec.h with h0 | hpos
  · obtain ⟨f, rfl⟩ : ∃ f, fuel = f + 1 := ⟨fuel - 1, by omega⟩
    refine ⟨⟨buffer, 0, []⟩, ?_, ?_⟩
    · simp only [copyTileFlipped, copyFlippedLoop]
      rw [if_neg (by omega)]
    · intro r x hr; omega
  · have e : (spec.h + 4294967296 - 1) % 4294967296 = spec.h - 1 := by omega
    obtain ⟨_, _, hb, _⟩ := copyDown_spec spec tile mem (spec.h - 1) ⟨buffer, 0, []⟩
    refine ⟨copyDown spec tile mem (spec.h - 1) ⟨buffer, 0, []⟩, ?_, ?_⟩
    · simp only [copyTileFlipped, e]
      exact copyFlippedLoop_eq spec tile mem (spec.h - 1) fuel _ (by omega) (by omega)
    · intro r x hr hx
      have := hb r x (by omega) hx
      simpa using this

/-- The pixel at pixel index `k` of a contiguous buffer, read from its bytes. -/
theorem loadRGBA_bufferMemory (buffer : PixelBuffer) (k : Nat) :
    loadRGBA (bufferMemory buffer) (k * sizeofRGBA) = buffer k := by
  have e0 : k * 4 % 4 = 0 := by omega
  have e1 : (k * 4 + 1) % 4 = 1 := by omega
  have e2 : (k * 4 + 2) % 4 = 2 := by omega
  have e3 : (k * 4 + 3) % 4 = 3 := by omega
  have d0 : k * 4 / 4 = k := by omega
  have d1 : (k * 4 + 1) / 4 = k := by omega
  have d2 : (k * 4 + 2) / 4 = k := by omega
  have d3 : (k * 4 + 3) / 4 = k := by omega
  simp [loadRGBA, bufferMemory, sizeofRGBA, e0, e1, e2, e3, d0, d1, d2, d3]

/-- The pixel that the second flip stores at `out[r * w + x]`: the pixel of the
first flip's output at the pixel index that the row offset
`stride * (h - 1 - r)`, computed in `unsigned`, leads to. -/
theorem double_flip_buffer (spec : TileSpec) (buffer1 buffer2 : PixelBuffer) (fuel : Nat)
    (hfuel : spec.h < fuel) :
    ∃ st, copyTileFlipped (contiguousSpec spec) bufferTile (bufferMemory buffer1) buffer2 fuel
        = some st ∧
      ∀ r x, r < spec.h → x < spec.w →
        st.buffer (r * spec.w + x)
          = buffer1 (spec.w * sizeofRGBA * (spec.h - 1 - r) % 4294967296 / sizeofRGBA + x) := by
  obtain ⟨st, hst, hb⟩ := copyTileFlipped_buffer (contiguousSpec spec) bufferTile
    (bufferMemory buffer1) buffer2 fuel hfuel
  refine ⟨st, hst, ?_⟩
  intro r x hr hx
  have h := hb r x hr hx
  have hdvd : sizeofRGBA ∣ spec.w * sizeofRGBA * (spec.h - 1 - r) % 4294967296 := by
    apply (Nat.dvd_mod_iff (by decide : sizeofRGBA ∣ 4294967296)).mpr
    exact Dvd.dvd.mul_right (Dvd.intro_left _ rfl) _
  have e : addressRow (contiguousSpec spec) bufferTile
        ((contiguousSpec spec).h - 1 - r) + x * sizeofRGBA
      = (spec.w * sizeofRGBA * (spec.h - 1 - r) % 4294967296 / sizeofRGBA + x) * sizeofRGBA := by
    simp only [addressRow, contiguousSpec, bufferTile, Nat.zero_add]
    rw [Nat.add_mul, Nat.div_mul_cancel hdvd]
  rw [e, loadRGBA_bufferMemory] at h
  exact h

/-- C28 (as stated, refuted): for a tile of 32768 × 32769 pixels with stride
131076 in a framebuffer whose byte at offset `b` is `b mod 251`, the first
pixel of `copyTile`'s output is the tile's first pixel (0, 1, 2, 3), but the
first pixel of `copyTileFlipped` applied to the output of `copyTileFlipped`
(viewed as a tile with stride `w * sizeof(RGBA) = 131072`) is (50, 51, 52, 53),
the first pixel of the tile's last row: the row offset `131072 * 32768` of the
second flip wraps to 0 in `unsigned`, so its first output row is the first row
of the flipped buffer again. -/
theorem copyTileFlipped_twice_at_wrap :
    ∃ flipped twice,
      copyTileFlipped hugeSpec ⟨0, 0, 0⟩ rampMemory staleBuffer 32770 = some flipped ∧
      copyTileFlipped (contiguousSpec hugeSpec) bufferTile (bufferMemory flipped.buffer)
        staleBuffer 32770 = some twice ∧
      (contiguousSpec hugeSpec).stride = hugeSpec.w * sizeofRGBA ∧
      twice.buffer 0 = ⟨50, 51, 52, 53⟩ ∧
      (copyTile hugeSpec ⟨0, 0, 0⟩ rampMemory staleBuffer).buffer 0 = ⟨0, 1, 2, 3⟩ ∧
      twice.buffer 0 ≠ (copyTile hugeSpec ⟨0, 0, 0⟩ rampMemory staleBuffer).buffer 0 := by
  obtain ⟨flipped, hf, hfb⟩ := copyTileFlipped_buffer hugeSpec ⟨0, 0, 0⟩ rampMemory
    staleBuffer 32770 (by decide)
  obtain ⟨twice, ht, htb⟩ := double_flip_buffer hugeSpec flipped.buffer staleBuffer 32770
    (by decide)
  have h1 := htb 0 0 (by decide) (by decide)
  have h2 := hfb 0 0 (by decide) (by decide)
  have h3 := copyTile_buffer hugeSpec ⟨0, 0, 0⟩ rampMemory staleBuffer 0 0 (by decide)
    (by decide)
  have e1 : hugeSpec.w * sizeofRGBA * (hugeSpec.h - 1 - 0) % 4294967296 / sizeofRGBA + 0
      = 0 * hugeSpec.w + 0 := by decide
  have e2 : loadRGBA rampMemory
      (addressRow hugeSpec ⟨0, 0, 0⟩ (hugeSpec.h - 1 - 0) + 0 * sizeofRGBA)
      = ⟨50, 51, 52, 53⟩ := by decide
  have e3 : loadRGBA rampMemory (addressRow hugeSpec ⟨0, 0, 0⟩ 0 + 0 * sizeofRGBA)
      = ⟨0, 1, 2, 3⟩ := by decide
  rw [e1, h2, e2] at h1
  rw [e3] at h3
  have z : 0 * hugeSpec.w + 0 = 0 := by decide
  rw [z] at h1 h3
  refine ⟨flipped, twice, hf, ht, rfl, h1, h3, ?_⟩
  rw [h1, h3]
  decide

/-- C28 (amended): for every TileSpec and tile, `copyTileFlipped` returns (any
fuel above `h` suffices) and its output is `copyTile`'s output with the order
of its `h` scanlines reversed; and when the row offsets of the contiguous
buffer do not wrap, `(h - 1) * w * sizeof(RGBA) < 2^32`, applying
`copyTileFlipped` to that output viewed as a tile with stride
`w * sizeof(RGBA)` returns and yields exactly `copyTile`'s output for the
original tile. -/
theorem copyTileFlipped_involution (spec : TileSpec) (tile : Tile2D) (mem : Memory)
    (buffer0 buffer1 buffer2 : PixelBuffer) (fuel : Nat) (hfuel : spec.h < fuel) :
    ∃ flipped, copyTileFlipped spec tile mem buffer1 fuel = some flipped ∧
      (∀ r x, r < spec.h → x < spec.w →
        flipped.buffer (r * spec.w + x)
          = (copyTile spec tile mem buffer0).buffer ((spec.h - 1 - r) * spec.w + x)) ∧
      ((spec.h - 1) * (spec.w * sizeofRGBA) < 4294967296 →
        ∃ twice,
          copyTileFlipped (contiguousSpec spec) bufferTile (bufferMemory flipped.buffer)
            buffer2 fuel = some twice ∧
          ∀ r x, r < spec.h → x < spec.w →
            twice.buffer (r * spec.w + x)
              = (copyTile spec tile mem buffer0).buffer (r * spec.w + x)) := by
  obtain ⟨flipped, hf, hfb⟩ := copyTileFlipped_buffer spec tile mem buffer1 fuel hfuel
  refine ⟨flipped, hf, ?_, ?_⟩
  · intro r x hr hx
    rw [hfb r x hr hx, copyTile_buffer spec tile mem buffer0 (spec.h - 1 - r) x (by omega) hx]
  · intro hext
    obtain ⟨twice, ht, htb⟩ := double_flip_buffer spec flipped.buffer buffer2 fuel hfuel
    refine ⟨twice, ht, ?_⟩
    intro r x hr hx
    have hle : spec.w * sizeofRGBA * (spec.h - 1 - r) ≤ (spec.h - 1) * (spec.w * sizeofRGBA) := by
      rw [Nat.mul_comm]
      exact Nat.mul_le_mul_right _ (by omega)
    have e : spec.w * sizeofRGBA * (spec.h - 1 - r) % 4294967296 / sizeofRGBA
        = (spec.h - 1 - r) * spec.w := by
      rw [Nat.mod_eq_of_lt (by omega), Nat.mul_comm spec.w, Nat.mul_assoc,
        Nat.mul_div_cancel_left _ (by decide : 0 < sizeofRGBA), Nat.mul_comm]
    rw [htb r x hr hx, e, hfb (spec.h - 1 - r) x (by omega) hx,
      copyTile_buffer spec tile mem buffer0 r x hr hx]
    congr 3
    omega

/-- Instance of the amended C28: a 2 × 2 tile at offset 8 of a framebuffer
with stride 32, flipped twice with fuel 3. -/
theorem copyTileFlipped_involution_witness :
    smallSpec.h < 3 ∧ (smallSpec.h - 1) * (smallSpec.w * sizeofRGBA) < 4294967296 ∧
    ∃ flipped, copyTileFlipped smallSpec ⟨8, 1, 0⟩ rampMemory staleBuffer 3 = some flipped ∧
      (∀ r x, r < smallSpec.h → x < smallSpec.w →
        flipped.buffer (r * smallSpec.w + x)
          = (copyTile smallSpec ⟨8, 1, 0⟩ rampMemory staleBuffer).buffer
              ((smallSpec.h - 1 - r) * smallSpec.w + x)) ∧
      ((smallSpec.h - 1) * (smallSpec.w * sizeofRGBA) < 4294967296 →
        ∃ twice,
          copyTileFlipped (contiguousSpec smallSpec) bufferTile (bufferMemory flipped.buffer)
            staleBuffer 3 = some twice ∧
          ∀ r x, r < smallSpec.h → x < smallSpec.w →
            twice.buffer (r * smallSpec.w + x)
              = (copyTile smallSpec ⟨8, 1, 0⟩ rampMemory staleBuffer).buffer
                  (r * smallSpec.w + x)) :=
  ⟨by decide, by decide,
    copyTileFlipped_involution smallSpec ⟨8, 1, 0⟩ rampMemory staleBuffer staleBuffer
      staleBuffer 3 (by decide)⟩

/-! ### Exact binary32 operations -/

namespace F32

/-- The exponent found is at most `K` when the value is below `2^(24 + K)`. -/
theorem ulpExp_le_of_lt (v K : Nat) : ∀ fuel k0, k0 ≤ K → v < 2 ^ (24 + K) →
    ulpExp v fuel k0 ≤ K
  | 0, k0, hk, _ => by simpa [ulpExp] using hk
  | fuel + 1, k0, hk, hv => by
    unfold ulpExp
    split
    · exact hk
    · rename_i hnot
      rcases Nat.lt_or_ge k0 K with hlt | hge
      · exact ulpExp_le_of_lt v K fuel (k0 + 1) hlt hv
      · have : k0 = K := by omega
        subst this
        exact absurd hv hnot

/-- The value is below `2^(24 + k)` for the exponent `k` found, when the fuel
reaches that far. -/
theorem lt_ulpExp (v : Nat) : ∀ fuel k0, v < 2 ^ (24 + k0 + fuel) →
    v < 2 ^ (24 + ulpExp v fuel k0)
  | 0, k0, hv => by simpa [ulpExp] using hv
  | fuel + 1, k0, hv => by
    unfold ulpExp
    split
    · rename_i h; exact h
    · apply lt_ulpExp v fuel (k0 + 1)
      have e : 24 + (k0 + 1) + fuel = 24 + k0 + (fuel + 1) := by omega
      rw [e]
      exact hv

/-- Rounding to the nearest whole number is exact on a whole number. -/
theorem roundHalfEven_exact (x d : Nat) (hd : 0 < d) : roundHalfEven (x * d) d = x := by
  unfold roundHalfEven
  rw [Nat.mul_mod_left, if_pos (by omega), Nat.mul_div_cancel _ hd]

/-- Rounding is exact on a value that is a whole multiple of the spacing of
binary32 numbers around it. -/
theorem round_exact (v q : Nat) (hq : 0 < q) (hdvd : 2 ^ ulpExp v 254 0 ∣ v)
    (hfin : v < 2 ^ 128 * one) : round ((v * q : Nat) : Int) q = fin (v : Int) := by
  unfold round
  simp only [Int.natAbs_ofNat]
  rw [Nat.mul_div_cancel _ hq]
  generalize ulpExp v 254 0 = K at hdvd ⊢
  obtain ⟨c, hc⟩ := hdvd
  have e : v * q = c * (q * 2 ^ K) := by
    rw [hc, Nat.mul_comm (2 ^ K) c, Nat.mul_assoc, Nat.mul_comm (2 ^ K) q]
  have hpos : 0 < q * 2 ^ K := Nat.mul_pos hq (Nat.two_pow_pos _)
  have hn : roundHalfEven (v * q) (q * 2 ^ K) * 2 ^ K = v := by
    rw [e, roundHalfEven_exact c _ hpos, hc, Nat.mul_comm]
  simp only [hn]
  rw [if_neg (by omega), if_neg (by omega)]

/-- A binary32 value is finite and a whole multiple of the spacing of binary32
numbers around it. -/
theorem isBinary32_dvd (n : Nat) (h : isBinary32 n) :
    2 ^ ulpExp n 254 0 ∣ n ∧ n < 2 ^ 128 * one := by
  unfold isBinary32 round at h
  simp only [Int.natAbs_ofNat, Nat.div_one, Nat.one_mul] at h
  split at h
  · exact absurd h (by simp)
  · rename_i hlt
    rw [if_neg (by omega)] at h
    have hn : roundHalfEven n (2 ^ ulpExp n 254 0) * 2 ^ ulpExp n 254 0 = n := by
      have := F32.fin.inj h
      exact_mod_cast this
    refine ⟨⟨roundHalfEven n (2 ^ ulpExp n 254 0), ?_⟩, ?_⟩
    · rw [Nat.mul_comm]; exact hn.symm
    · rw [hn] at hlt; omega

/-- A whole multiple of the spacing around it that is finite is a binary32
value. -/
theorem isBinary32_of_dvd (n : Nat) (hdvd : 2 ^ ulpExp n 254 0 ∣ n)
    (hfin : n < 2 ^ 128 * one) : isBinary32 n := by
  unfold isBinary32
  have := round_exact n 1 (by decide) hdvd hfin
  rwa [Nat.mul_one] at this

set_option exponentiation.threshold 10000 in
/-- The spacing of binary32 numbers around a binary32 value scaled by a power
of two divides the scaled value. -/
theorem isBinary32_scale (a j : Nat) (h : isBinary32 a) :
    2 ^ ulpExp (a * 2 ^ j) 254 0 ∣ a * 2 ^ j := by
  obtain ⟨hdvd, hfin⟩ := isBinary32_dvd a h
  have hlt : a < 2 ^ (24 + ulpExp a 254 0) := by
    apply lt_ulpExp
    have h1 : (2 : Nat) ^ 128 * one ≤ 2 ^ (24 + 0 + 254) := by decide
    omega
  have hlt' : a * 2 ^ j < 2 ^ (24 + (ulpExp a 254 0 + j)) := by
    have e : 24 + (ulpExp a 254 0 + j) = 24 + ulpExp a 254 0 + j := by omega
    rw [e, Nat.pow_add _ _ j]
    exact Nat.mul_lt_mul_of_pos_right hlt (Nat.two_pow_pos _)
  have hle := ulpExp_le_of_lt (a * 2 ^ j) (ulpExp a 254 0 + j) 254 0 (Nat.zero_le _) hlt'
  have h1 : 2 ^ ulpExp (a * 2 ^ j) 254 0 ∣ 2 ^ (ulpExp a 254 0 + j) :=
    Nat.pow_dvd_pow 2 hle
  rw [Nat.pow_add] at h1
  exact Dvd.dvd.trans h1 (Nat.mul_dvd_mul_right hdvd _)

/-- The product of a binary32 value with a power of two is exact. -/
theorem mul_pow2 (a j : Nat) (h : isBinary32 a) (hfin : a * 2 ^ j < 2 ^ 128 * one) :
    mul (fin (a : Int)) (fin ((2 ^ j * one : Nat) : Int)) = fin ((a * 2 ^ j : Nat) : Int) := by
  have e : (a : Int) * ((2 ^ j * one : Nat) : Int) = ((a * 2 ^ j * one : Nat) : Int) := by
    push_cast; ring
  show round ((a : Int) * ((2 ^ j * one : Nat) : Int)) one = _
  rw [e]
  exact round_exact (a * 2 ^ j) one (by decide) (isBinary32_scale a j h) hfin

set_option exponentiation.threshold 10000 in
/-- The conversion to `unsigned` of the quotient of a binary32 value by a
power of two is the whole part of the exact quotient, modulo `2^32`. -/
theorem toUnsigned_div_pow2 (a j : Nat) (h : isBinary32 a) :
    toUnsigned (div (fin (a : Int)) (fin ((2 ^ j * one : Nat) : Int)))
      = a / (2 ^ j * one) % 4294967296 := by
  obtain ⟨hdvd, hfin⟩ := isBinary32_dvd a h
  have hpos : 0 < 2 ^ j * one := Nat.mul_pos (Nat.two_pow_pos _) (by decide)
  have hlt : a < 2 ^ (24 + ulpExp a 254 0) := by
    apply lt_ulpExp
    have h1 : (2 : Nat) ^ 128 * one ≤ 2 ^ (24 + 0 + 254) := by decide
    omega
  have hdiv : div (fin (a : Int)) (fin ((2 ^ j * one : Nat) : Int))
      = round (((a * one : Nat)) : Int) (2 ^ j * one) := by
    unfold div
    simp only
    rw [if_neg (by exact_mod_cast Nat.pos_iff_ne_zero.mp hpos),
      if_neg (by exact_mod_cast Nat.not_lt_zero _), Int.natAbs_ofNat]
    congr 1
  rw [hdiv]
  rcases Nat.lt_or_ge (ulpExp a 254 0) j with hk | hk
  · -- the value is below the divisor's spacing: the quotient is below one
    have ha : a < 2 ^ (24 + j) :=
      Nat.lt_of_lt_of_le hlt (Nat.pow_le_pow_right (by decide) (by omega))
    have hB : (((a * one : Nat) : Int)).natAbs ≤ 1 * 2 ^ 24 * (2 ^ j * one) := by
      rw [Int.natAbs_ofNat, Nat.one_mul, ← Nat.mul_assoc, ← Nat.pow_add]
      exact Nat.mul_le_mul_right _ (Nat.le_of_lt ha)
    obtain ⟨n, hn, hnb, hn0, _⟩ := round_bound ((a * one : Nat) : Int) (2 ^ j * one) 1 24
      hpos (by decide) hB (by decide)
    rw [hn]
    have hn0' := hn0 (Int.natCast_nonneg _)
    have hsmall : n.toNat < one := by
      have h1 : (1 : Nat) * 2 ^ 24 < one := by decide
      omega
    have hq : a / (2 ^ j * one) = 0 := by
      apply Nat.div_eq_of_lt
      have h2 : (2 : Nat) ^ (24 + j) ≤ 2 ^ j * one := by
        rw [Nat.pow_add, Nat.mul_comm]
        exact Nat.mul_le_mul_left _ (by decide)
      omega
    simp only [toUnsigned]
    rw [Nat.div_eq_of_lt hsmall, hq]
  · -- the quotient is exact
    obtain ⟨c, hc⟩ := hdvd
    obtain ⟨d, hd⟩ : ∃ d, ulpExp a 254 0 = j + d := ⟨ulpExp a 254 0 - j, by omega⟩
    have hsplit : a = 2 ^ d * c * 2 ^ j := by
      rw [hc, hd, Nat.pow_add]; ring
    have hv : a / 2 ^ j = 2 ^ d * c := by
      rw [hsplit, Nat.mul_div_cancel _ (Nat.two_pow_pos _)]
    have hvlt : 2 ^ d * c < 2 ^ (24 + d) := by
      have : 2 ^ d * c * 2 ^ j < 2 ^ (24 + d) * 2 ^ j := by
        rw [← hsplit, ← Nat.pow_add]
        have e : 24 + d + j = 24 + ulpExp a 254 0 := by omega
        rw [e]; exact hlt
      exact Nat.lt_of_mul_lt_mul_right this
    have hle := ulpExp_le_of_lt (2 ^ d * c) d 254 0 (Nat.zero_le _) hvlt
    have hdv : 2 ^ ulpExp (2 ^ d * c) 254 0 ∣ 2 ^ d * c :=
      Dvd.dvd.trans (Nat.pow_dvd_pow 2 hle) (Dvd.intro _ rfl)
    have hvfin : 2 ^ d * c < 2 ^ 128 * one := by
      have : 2 ^ d * c ≤ a := by
        rw [hsplit]; exact Nat.le_mul_of_pos_right _ (Nat.two_pow_pos _)
      omega
    have e : a * one = 2 ^ d * c * (2 ^ j * one) := by
      rw [hsplit]; ring
    rw [e, round_exact (2 ^ d * c) (2 ^ j * one) hpos hdv hvfin]
    simp only [toUnsigned, Int.toNat_ofNat]
    rw [← hv, Nat.div_div_eq_div_mul]

end F32

/-! ### The framebuffer of the launcher-waiter -/

set_option exponentiation.threshold 10000 in
/-- The stride and the tile grid of the launcher-waiter for a physical view
size of binary32 values `a` and `b` units: `floor(4 W)` and
`floor(W / 32) × floor(H / 32)`, modulo `2^32`. -/
theorem launcher_quantities (a b : Nat) (ha : F32.isBinary32 a) (hb : F32.isBinary32 b)
    (hfin : a * 2 ^ 2 < 2 ^ 128 * F32.one) :
    (launcherSpec TILE_DIMS ⟨F32.fin a, F32.fin b⟩).w = 32 ∧
    (launcherSpec TILE_DIMS ⟨F32.fin a, F32.fin b⟩).h = 32 ∧
    (launcherSpec TILE_DIMS ⟨F32.fin a, F32.fin b⟩).stride = 4 * a / F32.one % 4294967296 ∧
    (launcherGrid TILE_DIMS ⟨F32.fin a, F32.fin b⟩).w = a / (32 * F32.one) % 4294967296 ∧
    (launcherGrid TILE_DIMS ⟨F32.fin a, F32.fin b⟩).h = b / (32 * F32.one) % 4294967296 := by
  have e4 : F32.ofNat sizeofRGBA = F32.fin ((2 ^ 2 * F32.one : Nat) : Int) := by decide
  have e32 : F32.ofNat TILE_DIMS = F32.fin ((2 ^ 5 * F32.one : Nat) : Int) := by decide
  refine ⟨rfl, rfl, ?_, ?_, ?_⟩
  · show F32.toUnsigned (F32.mul (F32.fin a) (F32.ofNat sizeofRGBA)) = _
    rw [e4, F32.mul_pow2 a 2 ha hfin]
    simp only [F32.toUnsigned, Int.toNat_ofNat]
    rw [Nat.mul_comm a]
    rfl
  · show F32.toUnsigned (F32.div (F32.fin a) (F32.ofNat TILE_DIMS)) = _
    rw [e32, F32.toUnsigned_div_pow2 a 5 ha]
    rfl
  · show F32.toUnsigned (F32.div (F32.fin b) (F32.ofNat TILE_DIMS)) = _
    rw [e32, F32.toUnsigned_div_pow2 b 5 hb]
    rfl

/-- The arithmetic of the framebuffer bounds: with a sprite grid of
`tx × ty` tiles of 32 × 32 pixels whose byte count fits 32 bits, a stride `S`
of at most a framebuffer row and a launch grid `G × Gh` inside the sprite
grid, every scanline of every launched tile ends inside the framebuffer. -/
theorem framebuffer_bounds_arith (tx ty S G Gh : Nat) (h2 : 1 ≤ ty)
    (hfit : 4 * (tx * 32 * (ty * 32)) < 4294967296) (hGS : G * 128 ≤ S)
    (hS : S ≤ 128 * tx) (hGh : Gh ≤ ty) :
    Gh * 32 * S + G * 128 ≤ 4 * (tx * 32 * (ty * 32)) + S ∧
    Gh * 32 * S < 4294967296 ∧
    ∀ X Y r, X < G → Y < Gh → r < 32 →
      (Y * 32 + r) * S + X * 32 * 4 + 32 * 4 ≤ 4 * (tx * 32 * (ty * 32)) := by
  have hprod : 4 * (tx * 32 * (ty * 32)) = ty * 32 * (128 * tx) := by ring
  obtain ⟨k, hk⟩ : ∃ k, ty * 32 = k + 1 := ⟨ty * 32 - 1, by omega⟩
  have hsplit : ty * 32 * (128 * tx) = k * (128 * tx) + 128 * tx := by
    rw [hk, Nat.add_mul, Nat.one_mul]
  have hrows : ∀ n, n ≤ k → n * S ≤ k * (128 * tx) := fun n hn => Nat.mul_le_mul hn hS
  refine ⟨?_, ?_, ?_⟩
  · rcases Nat.eq_zero_or_pos Gh with h0 | hpos
    · subst h0
      omega
    · obtain ⟨g, hg⟩ : ∃ g, Gh * 32 = g + 1 := ⟨Gh * 32 - 1, by omega⟩
      have := hrows g (by omega)
      rw [hg, Nat.add_mul, Nat.one_mul, hprod, hsplit]
      omega
  · have : Gh * 32 * S ≤ ty * 32 * (128 * tx) := Nat.mul_le_mul (by omega) hS
    omega
  · intro X Y r hX hY hr
    have := hrows (Y * 32 + r) (by omega)
    rw [hprod, hsplit]
    omega


set_option exponentiation.threshold 10000 in
/-- C26 (amended): for every physical view size `(W, H)` of positive binary32
values, with the sprite grid `ceil(W/32) × ceil(H/32)` and a framebuffer whose
byte count `4 · (ceil(W/32)·32) · (ceil(H/32)·32)` fits 32-bit unsigned
arithmetic, the launcher-waiter resizes the framebuffer to
`(ceil(W/32)·32) · (ceil(H/32)·32)` pixels, uses the stride `floor(4 W)` and
launches the grid `floor(W/32) × floor(H/32)`;
`(floor(H/32)·32 - 1) · stride + floor(W/32)·32·4` is at most four times the
pixel count, and the stride is at least `floor(W/32)·32·4`; every byte of every
scanline of every launched tile, and every store of every kernel, lies inside
the framebuffer, and two launched tiles with different grid coordinates have
no byte in common. -/
theorem launcherLaunch_in_bounds (st st' : HelloWorld) (zoomLevel transaction : Nat)
    (reads : Nat → Nat → Nat) (a b : Nat) (spec : TileSpec) (grid : Dims2U)
    (ha : F32.isBinary32 a) (hb : F32.isBinary32 b) (hapos : 0 < a) (hbpos : 0 < b)
    (hsw : (st.zoomLevels zoomLevel).tileSprites.width
      = (a + 32 * F32.one - 1) / (32 * F32.one))
    (hsh : (st.zoomLevels zoomLevel).tileSprites.height
      = (b + 32 * F32.one - 1) / (32 * F32.one))
    (hfit : 4 * ((st.zoomLevels zoomLevel).tileSprites.width * 32
      * ((st.zoomLevels zoomLevel).tileSprites.height * 32)) < 4294967296)
    (hst' : st' = launcherLaunch st zoomLevel transaction TILE_DIMS ⟨F32.fin a, F32.fin b⟩ reads)
    (hspec : spec = launcherSpec TILE_DIMS ⟨F32.fin a, F32.fin b⟩)
    (hgrid : grid = launcherGrid TILE_DIMS ⟨F32.fin a, F32.fin b⟩) :
    (st'.zoomLevels zoomLevel).framebufferSize
      = (st.zoomLevels zoomLevel).tileSprites.width * 32
        * ((st.zoomLevels zoomLevel).tileSprites.height * 32) ∧
    (spec.w = 32 ∧ spec.h = 32 ∧ spec.stride = 4 * a / F32.one ∧
      grid.w = a / (32 * F32.one) ∧ grid.h = b / (32 * F32.one)) ∧
    ((grid.h : Int) * 32 - 1) * (spec.stride : Int) + (grid.w : Int) * 32 * 4
      ≤ 4 * ((st'.zoomLevels zoomLevel).framebufferSize : Int) ∧
    grid.w * 32 * 4 ≤ spec.stride ∧
    (st'.zoomLevels zoomLevel).tiles.length = grid.h * grid.w ∧
    (∀ t ∈ (st'.zoomLevels zoomLevel).tiles, ∀ byte, inSlice spec t byte →
      byte < 4 * (st'.zoomLevels zoomLevel).framebufferSize) ∧
    (∀ task ∈ (st'.zoomLevels zoomLevel).tileCompletions, ∀ s ∈ task.stores,
      s.addr + sizeofRGBA ≤ 4 * (st'.zoomLevels zoomLevel).framebufferSize) ∧
    (∀ t1 ∈ (st'.zoomLevels zoomLevel).tiles, ∀ t2 ∈ (st'.zoomLevels zoomLevel).tiles,
      (t1.x ≠ t2.x ∨ t1.y ≠ t2.y) → ∀ byte, ¬ (inSlice spec t1 byte ∧ inSlice spec t2 byte)) := by
  obtain ⟨hfa, hapos', hTpos, hopos⟩ :
      a * 2 ^ 2 < 2 ^ 128 * F32.one ∧ 0 < a ∧ 0 < 32 * F32.one ∧ 0 < F32.one := by
    refine ⟨?_, hapos, by decide, by decide⟩
    have hxa : a ≤ (st.zoomLevels zoomLevel).tileSprites.width * (32 * F32.one) := by
      rw [hsw]
      have := Nat.lt_div_mul_add (a := a + 32 * F32.one - 1) (b := 32 * F32.one) (by decide)
      omega
    have hw : (st.zoomLevels zoomLevel).tileSprites.width < 33554432 := by
      by_contra hge
      have h1 : 1 ≤ (st.zoomLevels zoomLevel).tileSprites.height := by
        rw [hsh]; exact (Nat.le_div_iff_mul_le (by decide)).mpr (by omega)
      have h2 : (st.zoomLevels zoomLevel).tileSprites.width * 32 * 32
          ≤ (st.zoomLevels zoomLevel).tileSprites.width * 32
            * ((st.zoomLevels zoomLevel).tileSprites.height * 32) :=
        Nat.mul_le_mul_left _ (by omega)
      omega
    have h3 : (st.zoomLevels zoomLevel).tileSprites.width * (32 * F32.one)
        ≤ 33554432 * (32 * F32.one) := Nat.mul_le_mul_right _ (Nat.le_of_lt hw)
    have h4 : 33554432 * (32 * F32.one) * 2 ^ 2 < 2 ^ 128 * F32.one := by decide
    have h5 : a * 2 ^ 2 ≤ 33554432 * (32 * F32.one) * 2 ^ 2 :=
      Nat.mul_le_mul_right _ (Nat.le_trans hxa h3)
    omega
  obtain ⟨qw, qh, qs, qgw, qgh⟩ := launcher_quantities a b ha hb hfa
  rw [← hspec] at qw qh qs
  rw [← hgrid] at qgw qgh
  have hfs : (st'.zoomLevels zoomLevel).framebufferSize
      = (st.zoomLevels zoomLevel).tileSprites.width * 32 % 4294967296
        * ((st.zoomLevels zoomLevel).tileSprites.height * 32 % 4294967296) % 4294967296 := by
    rw [hst']
    unfold launcherLaunch
    simp only
    rw [setZoomLevel_same]
    rfl
  obtain ⟨env, htiles, htasks⟩ : ∃ env : KernelEnv,
      (st'.zoomLevels zoomLevel).tiles
        = (LaunchTiles spec grid (st.zoomLevels zoomLevel).tiles
            (mandelbrotKernel env)).outTiles ∧
      (st'.zoomLevels zoomLevel).tileCompletions
        = (LaunchTiles spec grid (st.zoomLevels zoomLevel).tiles
            (mandelbrotKernel env)).tasks := by
    rw [hst', hspec, hgrid]
    unfold launcherLaunch
    simp only
    rw [setZoomLevel_same]
    exact ⟨_, rfl, rfl⟩
  -- the sprite grid and the quotients as numbers
  generalize (st.zoomLevels zoomLevel).tileSprites.width = tx at hsw hfit hfs ⊢
  generalize (st.zoomLevels zoomLevel).tileSprites.height = ty at hsh hfit hfs ⊢
  generalize (st'.zoomLevels zoomLevel).framebufferSize = fs at hfs ⊢
  generalize (st'.zoomLevels zoomLevel).tiles = tiles at htiles ⊢
  generalize (st'.zoomLevels zoomLevel).tileCompletions = tasks at htasks ⊢
  obtain ⟨T, hT⟩ : ∃ T, T = 32 * F32.one := ⟨_, rfl⟩
  rw [← hT] at hsw hsh hTpos qgw qgh
  have hxa : a ≤ tx * T := by
    rw [hsw]
    have := Nat.lt_div_mul_add (a := a + T - 1) hTpos
    omega
  have hyb : b ≤ ty * T := by
    rw [hsh]
    have := Nat.lt_div_mul_add (a := b + T - 1) hTpos
    omega
  have htx1 : 1 ≤ tx := by
    rw [hsw]; exact (Nat.le_div_iff_mul_le hTpos).mpr (by omega)
  have hty1 : 1 ≤ ty := by
    rw [hsh]; exact (Nat.le_div_iff_mul_le hTpos).mpr (by omega)
  have hprod : tx * 32 * (ty * 32) = 1024 * (tx * ty) := by ring
  have hxy1 : tx ≤ tx * ty := Nat.le_mul_of_pos_right _ hty1
  have hxy2 : ty ≤ tx * ty := Nat.le_mul_of_pos_left _ htx1
  -- the launch grid lies inside the sprite grid
  have hG : a / T ≤ tx := by
    have h1 := Nat.div_mul_le_self a T
    exact Nat.le_of_mul_le_mul_right (Nat.le_trans h1 hxa) hTpos
  have hGh : b / T ≤ ty := by
    have h1 := Nat.div_mul_le_self b T
    exact Nat.le_of_mul_le_mul_right (Nat.le_trans h1 hyb) hTpos
  -- the stride is at most a framebuffer row and at least a row of the launch grid
  have hS : 4 * a / F32.one ≤ 128 * tx := by
    apply Nat.div_le_of_le_mul
    have : 4 * a ≤ 4 * (tx * T) := Nat.mul_le_mul_left _ hxa
    rw [hT] at this
    calc 4 * a ≤ 4 * (tx * (32 * F32.one)) := this
      _ = F32.one * (128 * tx) := by ring
  have hGS : a / T * 128 ≤ 4 * a / F32.one := by
    apply (Nat.le_div_iff_mul_le hopos).mpr
    have h1 := Nat.div_mul_le_self a T
    calc a / T * 128 * F32.one = 4 * (a / T * T) := by rw [hT]; ring
      _ ≤ 4 * a := Nat.mul_le_mul_left _ h1
  have htxb : tx < 1048576 := by omega
  have htyb : ty < 1048576 := by omega
  rw [Nat.mod_eq_of_lt (show 4 * a / F32.one < 4294967296 by omega)] at qs
  rw [Nat.mod_eq_of_lt (show a / T < 4294967296 by omega)] at qgw
  rw [Nat.mod_eq_of_lt (show b / T < 4294967296 by omega)] at qgh
  rw [Nat.mod_eq_of_lt (show tx * 32 < 4294967296 by omega),
    Nat.mod_eq_of_lt (show ty * 32 < 4294967296 by omega),
    Nat.mod_eq_of_lt (show tx * 32 * (ty * 32) < 4294967296 by omega)] at hfs
  have rgw : grid.w = a / (32 * F32.one) := by rw [qgw, hT]
  have rgh : grid.h = b / (32 * F32.one) := by rw [qgh, hT]
  generalize 4 * a / F32.one = S at qs hS hGS
  generalize a / T = G at qgw hG hGS
  generalize b / T = Gh at qgh hGh
  obtain ⟨harith1, hext, hin⟩ := framebuffer_bounds_arith tx ty S G Gh hty1 hfit hGS hS hGh
  have hrow : grid.w * spec.w * sizeofRGBA ≤ spec.stride := by
    rw [qgw, qw, qs]; simp only [sizeofRGBA]; omega
  have hext' : grid.h * spec.h * spec.stride < 4294967296 := by
    rw [qgh, qh, qs]; exact hext
  have hslice : ∀ t ∈ tiles, ∀ byte, inSlice spec t byte → byte < 4 * fs := by
    intro t ht byte hb
    rw [htiles] at ht
    obtain ⟨X, Y, hX, hY, rfl⟩ := LaunchTiles_mem spec grid _ _ t ht
    obtain ⟨r, hr, hlo, hhi⟩ := hb
    rw [addressRow_tileAt spec grid X Y r hX hY hr hrow hext'] at hhi
    rw [qw, qh, qs] at hhi
    have := hin X Y r (by omega) (by omega) (by omega)
    simp only [sizeofRGBA] at hhi
    rw [hfs]
    omega
  refine ⟨hfs, ⟨qw, qh, qs, rgw, rgh⟩, ?_, ?_, ?_, hslice, ?_, ?_⟩
  · rw [qgh, qs, qgw, hfs]
    have := harith1
    zify at this
    push_cast
    linarith
  · rw [qgw, qs]; omega
  · rw [htiles, LaunchTiles_length]
  · intro task htask s hs
    rw [htasks, LaunchTiles_eq] at htask
    simp only [launched, List.mem_map, List.mem_range] at htask
    obtain ⟨k, hk, rfl⟩ := htask
    obtain ⟨y, x, _, hy, hx, rfl⟩ := scanlineLoop_stores env spec _ spec.h 0 s hs
    have hmem : tileAt spec (k % grid.w) (k / grid.w) ∈ tiles := by
      rw [htiles, LaunchTiles_eq]
      simp only [launched, List.mem_map, List.mem_range]
      exact ⟨k, hk, rfl⟩
    have hb := hslice _ hmem (addressRow spec (tileAt spec (k % grid.w) (k / grid.w)) y
        + x * sizeofRGBA + 3) ⟨y, by omega, by omega, by
      have := Nat.mul_le_mul_right sizeofRGBA (Nat.succ_le_of_lt hx)
      simp only [sizeofRGBA, Nat.succ_mul] at this ⊢
      omega⟩
    simp only [pixelStore, sizeofRGBA] at hb ⊢
    omega
  · intro t1 ht1 t2 ht2 hne byte hboth
    rw [htiles] at ht1 ht2
    obtain ⟨x1, y1, hx1, hy1, rfl⟩ := LaunchTiles_mem spec grid _ _ t1 ht1
    obtain ⟨x2, y2, hx2, hy2, rfl⟩ := LaunchTiles_mem spec grid _ _ t2 ht2
    obtain ⟨hx, hy⟩ := cells_eq_of_common_byte spec grid hrow hext'
      x1 y1 x2 y2 hx1 hy1 hx2 hy2 byte hboth.1 hboth.2
    subst hx; subst hy
    rcases hne with h | h <;> exact h rfl

/-- The pixel count the launcher-waiter resizes the framebuffer to, and the
tiles it launches. -/
theorem launcherLaunch_fields (st : HelloWorld) (zoomLevel transaction tileDims : Nat)
    (trueSize : Size) (reads : Nat → Nat → Nat) :
    ((launcherLaunch st zoomLevel transaction tileDims trueSize reads).zoomLevels
        zoomLevel).framebufferSize
      = (st.zoomLevels zoomLevel).tileSprites.width * tileDims % 4294967296
        * ((st.zoomLevels zoomLevel).tileSprites.height * tileDims % 4294967296)
        % 4294967296 ∧
    ∃ env : KernelEnv,
      ((launcherLaunch st zoomLevel transaction tileDims trueSize reads).zoomLevels
          zoomLevel).tiles
        = (LaunchTiles (launcherSpec tileDims trueSize) (launcherGrid tileDims trueSize)
            (st.zoomLevels zoomLevel).tiles (mandelbrotKernel env)).outTiles ∧
      ((launcherLaunch st zoomLevel transaction tileDims trueSize reads).zoomLevels
          zoomLevel).tileCompletions
        = (LaunchTiles (launcherSpec tileDims trueSize) (launcherGrid tileDims trueSize)
            (st.zoomLevels zoomLevel).tiles (mandelbrotKernel env)).tasks := by
  unfold launcherLaunch
  simp only
  rw [setZoomLevel_same]
  exact ⟨rfl, _, rfl, rfl⟩

/-- The first tile of a grid that is not empty is among the launched tiles. -/
theorem first_tile_launched {R : Type} (spec : TileSpec) (bufferTiles : Dims2U)
    (outTiles : List Tile2D) (func : TileSpec → TileRef → R)
    (h : 0 < bufferTiles.h * bufferTiles.w) :
    tileAt spec 0 0 ∈ (LaunchTiles spec bufferTiles outTiles func).outTiles := by
  simp only [LaunchTiles_eq, launched, List.mem_map, List.mem_range]
  refine ⟨0, h, ?_⟩
  rw [Nat.zero_mod, Nat.zero_div]

set_option maxRecDepth 100000 in
/-- The tile counts of the grid geometry of the scene of 65536 × 65536
pixels. -/
theorem wideScene_geometry (region : Region2D) :
    (gridGeometry wideSize (F32.ofNat (F32.toUnsigned (F32.ofNat 1)))
      (TILE_DIMS <<< 16 ||| TILE_DIMS) region).tilesX = 2048 ∧
    (gridGeometry wideSize (F32.ofNat (F32.toUnsigned (F32.ofNat 1)))
      (TILE_DIMS <<< 16 ||| TILE_DIMS) region).tilesY = 2048 := by
  have e := gridGeometry_tiles wideSize (F32.ofNat (F32.toUnsigned (F32.ofNat 1)))
    (TILE_DIMS <<< 16 ||| TILE_DIMS) region ⟨F64.fin 0, F64.fin 0, F64.fin 0, F64.fin 0, F64.fin 0⟩
  rw [e.1, e.2]
  refine ⟨by decide, by decide⟩

/-- The visible size and the content scale factor of the scene of
65536 × 65536 pixels. -/
theorem wideScene_size :
    wideScene.visibleSize = wideSize ∧ wideScene.contentScaleFactor = F32.ofNat 1 :=
  ⟨rfl, rfl⟩

/-- The sprite grid of the scene of 65536 × 65536 pixels. -/
theorem wideScene_sprites :
    (wideScene.zoomLevels 0).tileSprites.width = 2048 ∧
    (wideScene.zoomLevels 0).tileSprites.height = 2048 := by
  have h := reachable_sprites_fit wideSize (F32.ofNat 1) [] wideScene rfl 0
    (initialRegion wideSize)
  rw [wideScene_size.1, wideScene_size.2] at h
  have e := wideScene_geometry (initialRegion wideSize)
  exact ⟨h.1.trans e.1, h.2.trans e.2⟩

set_option maxRecDepth 100000 in
/-- The physical size, the stride and the launch grid of the scene of
65536 × 65536 pixels. -/
theorem wideScene_launch :
    trueSizeOf wideScene
      = ⟨F32.fin ((65536 * F32.one : Nat) : Int), F32.fin ((65536 * F32.one : Nat) : Int)⟩ ∧
    (launcherSpec TILE_DIMS (trueSizeOf wideScene)).stride = 262144 ∧
    (launcherGrid TILE_DIMS (trueSizeOf wideScene)).w = 2048 ∧
    (launcherGrid TILE_DIMS (trueSizeOf wideScene)).h = 2048 := by
  have e : trueSizeOf wideScene
      = ⟨F32.fin ((65536 * F32.one : Nat) : Int), F32.fin ((65536 * F32.one : Nat) : Int)⟩ := by
    unfold trueSizeOf
    rw [wideScene_size.1, wideScene_size.2]
    decide
  rw [e]
  refine ⟨rfl, by decide, by decide, by decide⟩

set_option maxRecDepth 100000 in
/-- C26 (as stated, refuted): for the physical view size 65536 × 65536 (scene
built by `init` at content scale 1) the sprite grid is
`ceil(65536/32) × ceil(65536/32) = 2048 × 2048`, the stride is
`floor(4 · 65536) = 262144` and the launch grid is 2048 × 2048, but the pixel
count `(2048·32) · (2048·32) = 2^32` of the resize wraps to 0 in `unsigned`:
`(2048·32 - 1) · 262144 + 2048·32·4` is not at most four times the pixel
count, and byte 0, the first byte of the first launched tile, is not inside
the framebuffer of 0 pixels. -/
theorem launcherLaunch_size_wraps :
    trueSizeOf wideScene
      = ⟨F32.fin ((65536 * F32.one : Nat) : Int), F32.fin ((65536 * F32.one : Nat) : Int)⟩ ∧
    (wideScene.zoomLevels 0).tileSprites.width
      = (65536 * F32.one + 32 * F32.one - 1) / (32 * F32.one) ∧
    (wideScene.zoomLevels 0).tileSprites.height
      = (65536 * F32.one + 32 * F32.one - 1) / (32 * F32.one) ∧
    (wideScene.zoomLevels 0).tileSprites.width = 2048 ∧
    ((launcherLaunch wideScene 0 0 TILE_DIMS (trueSizeOf wideScene) neverSuperseded).zoomLevels
      0).framebufferSize = 0 ∧
    (launcherSpec TILE_DIMS (trueSizeOf wideScene)).stride = 262144 ∧
    (launcherGrid TILE_DIMS (trueSizeOf wideScene)).w = 2048 ∧
    (launcherGrid TILE_DIMS (trueSizeOf wideScene)).h = 2048 ∧
    ¬ (((2048 : Int) * 32 - 1) * 262144 + 2048 * 32 * 4 ≤ 4 * 0) ∧
    tileAt (launcherSpec TILE_DIMS (trueSizeOf wideScene)) 0 0
      ∈ ((launcherLaunch wideScene 0 0 TILE_DIMS (trueSizeOf wideScene)
          neverSuperseded).zoomLevels 0).tiles ∧
    inSlice (launcherSpec TILE_DIMS (trueSizeOf wideScene))
      (tileAt (launcherSpec TILE_DIMS (trueSizeOf wideScene)) 0 0) 0 ∧
    ¬ (0 < 4 * ((launcherLaunch wideScene 0 0 TILE_DIMS (trueSizeOf wideScene)
        neverSuperseded).zoomLevels 0).framebufferSize) := by
  obtain ⟨hw, hh⟩ := wideScene_sprites
  obtain ⟨hsize, hstride, hgw, hgh⟩ := wideScene_launch
  obtain ⟨hfs0, env, htiles, _⟩ := launcherLaunch_fields wideScene 0 0 TILE_DIMS
    (trueSizeOf wideScene) neverSuperseded
  have hfs : ((launcherLaunch wideScene 0 0 TILE_DIMS (trueSizeOf wideScene)
      neverSuperseded).zoomLevels 0).framebufferSize = 0 := by
    rw [hfs0, hw, hh]
    decide
  have hceil : (65536 * F32.one + 32 * F32.one - 1) / (32 * F32.one) = 2048 := by decide
  have hmem : tileAt (launcherSpec TILE_DIMS (trueSizeOf wideScene)) 0 0
      ∈ ((launcherLaunch wideScene 0 0 TILE_DIMS (trueSizeOf wideScene)
          neverSuperseded).zoomLevels 0).tiles := by
    rw [htiles]
    apply first_tile_launched
    rw [hgw, hgh]
    decide
  have hslice : inSlice (launcherSpec TILE_DIMS (trueSizeOf wideScene))
      (tileAt (launcherSpec TILE_DIMS (trueSizeOf wideScene)) 0 0) 0 := by
    rw [hsize]
    exact ⟨0, by decide, by decide, by decide⟩
  refine ⟨hsize, by rw [hceil]; exact hw, by rw [hceil]; exact hh, hw, hfs, hstride, hgw, hgh,
    by decide, hmem, hslice, ?_⟩
  rw [hfs]
  decide

set_option maxRecDepth 100000 in
/-- The example scene of 900 × 600 pixels: its physical size and its sprite
grid of 29 × 19 tiles. -/
theorem exampleScene_layout :
    trueSizeOf exampleScene
      = ⟨F32.fin ((900 * F32.one : Nat) : Int), F32.fin ((600 * F32.one : Nat) : Int)⟩ ∧
    (exampleScene.zoomLevels 0).tileSprites.width
      = (900 * F32.one + 32 * F32.one - 1) / (32 * F32.one) ∧
    (exampleScene.zoomLevels 0).tileSprites.height
      = (600 * F32.one + 32 * F32.one - 1) / (32 * F32.one) ∧
    4 * ((exampleScene.zoomLevels 0).tileSprites.width * 32
      * ((exampleScene.zoomLevels 0).tileSprites.height * 32)) < 4294967296 := by
  have hv : exampleScene.visibleSize = exampleSize := rfl
  have hc : exampleScene.contentScaleFactor = F32.ofNat 1 := rfl
  have h := reachable_sprites_fit exampleSize (F32.ofNat 1) [] exampleScene rfl 0
    ⟨F64.fin 0, F64.fin 0, F64.fin 0, F64.fin 0, F64.fin 0⟩
  rw [hv, hc] at h
  have e : (gridGeometry exampleSize (F32.ofNat (F32.toUnsigned (F32.ofNat 1)))
        (TILE_DIMS <<< 16 ||| TILE_DIMS)
        ⟨F64.fin 0, F64.fin 0, F64.fin 0, F64.fin 0, F64.fin 0⟩).tilesX = 29 ∧
      (gridGeometry exampleSize (F32.ofNat (F32.toUnsigned (F32.ofNat 1)))
        (TILE_DIMS <<< 16 ||| TILE_DIMS)
        ⟨F64.fin 0, F64.fin 0, F64.fin 0, F64.fin 0, F64.fin 0⟩).tilesY = 19 := by
    refine ⟨by decide, by decide⟩
  have hw := h.1.trans e.1
  have hh := h.2.trans e.2
  have c1 : (900 * F32.one + 32 * F32.one - 1) / (32 * F32.one) = 29 := by decide
  have c2 : (600 * F32.one + 32 * F32.one - 1) / (32 * F32.one) = 19 := by decide
  refine ⟨?_, by rw [c1]; exact hw, by rw [c2]; exact hh, ?_⟩
  · unfold trueSizeOf
    rw [hv, hc]
    decide
  · rw [hw, hh]
    decide

set_option maxRecDepth 100000 in
/-- Instance of the amended C26: the example scene of 900 × 600 pixels, with
a framebuffer of 928 × 608 pixels, stride 3600 and a launch grid of
28 × 18 tiles. -/
theorem launcherLaunch_in_bounds_witness :
    trueSizeOf exampleScene
      = ⟨F32.fin ((900 * F32.one : Nat) : Int), F32.fin ((600 * F32.one : Nat) : Int)⟩ ∧
    F32.isBinary32 (900 * F32.one) ∧ F32.isBinary32 (600 * F32.one) ∧
    ((launcherLaunch exampleScene 0 0 TILE_DIMS
        ⟨F32.fin ((900 * F32.one : Nat) : Int), F32.fin ((600 * F32.one : Nat) : Int)⟩
        neverSuperseded).zoomLevels 0).framebufferSize
      = (exampleScene.zoomLevels 0).tileSprites.width * 32
        * ((exampleScene.zoomLevels 0).tileSprites.height * 32) ∧
    (launcherSpec TILE_DIMS
      ⟨F32.fin ((900 * F32.one : Nat) : Int), F32.fin ((600 * F32.one : Nat) : Int)⟩).stride
      = 3600 :=
  ⟨exampleScene_layout.1, by decide, by decide,
    (launcherLaunch_in_bounds exampleScene _ 0 0 neverSuperseded (900 * F32.one)
      (600 * F32.one) _ _ (by decide) (by decide) (by decide) (by decide)
      exampleScene_layout.2.1 exampleScene_layout.2.2.1 exampleScene_layout.2.2.2
      rfl rfl rfl).1,
    by decide⟩

/-! ### Kernel coordinates and sprite positions -/

/-- The tasks of the launcher-waiter are the kernels with the values of
`launcherEnv`. -/
theorem launcherLaunch_tasks (st : HelloWorld) (zoomLevel transaction tileDims : Nat)
    (trueSize : Size) (reads : Nat → Nat → Nat) :
    ((launcherLaunch st zoomLevel transaction tileDims trueSize reads).zoomLevels
        zoomLevel).tileCompletions
      = (LaunchTiles (launcherSpec tileDims trueSize) (launcherGrid tileDims trueSize)
          (st.zoomLevels zoomLevel).tiles
          (mandelbrotKernel
            (launcherEnv st zoomLevel transaction tileDims trueSize reads))).tasks := by
  unfold launcherLaunch
  simp only
  rw [setZoomLevel_same]
  rfl

set_option maxRecDepth 100000 in
/-- The sprite grid of the scene of 160 × 160 pixels has 5 × 5 sprites. -/
theorem fiveScene_sprites :
    (fiveScene.zoomLevels 0).tileSprites.width = 5 ∧
    (fiveScene.zoomLevels 0).tileSprites.height = 5 := by
  have hv : fiveScene.visibleSize = fiveSize := rfl
  have hc : fiveScene.contentScaleFactor = F32.ofNat 1 := rfl
  have h := reachable_sprites_fit fiveSize (F32.ofNat 1) [] fiveScene rfl 0
    ⟨F64.fin 0, F64.fin 0, F64.fin 0, F64.fin 0, F64.fin 0⟩
  rw [hv, hc] at h
  have e : (gridGeometry fiveSize (F32.ofNat (F32.toUnsigned (F32.ofNat 1)))
        (TILE_DIMS <<< 16 ||| TILE_DIMS)
        ⟨F64.fin 0, F64.fin 0, F64.fin 0, F64.fin 0, F64.fin 0⟩).tilesX = 5 ∧
      (gridGeometry fiveSize (F32.ofNat (F32.toUnsigned (F32.ofNat 1)))
        (TILE_DIMS <<< 16 ||| TILE_DIMS)
        ⟨F64.fin 0, F64.fin 0, F64.fin 0, F64.fin 0, F64.fin 0⟩).tilesY = 5 := by
    refine ⟨by decide, by decide⟩
  exact ⟨h.1.trans e.1, h.2.trans e.2⟩

set_option exponentiation.threshold 10000 in
set_option maxRecDepth 100000 in
/-- The launch grid and the tile size of the scene of 160 × 160 pixels, the
position `fitTileGridToRegion` gives the sprite of cell `(2, 0)` and the real
part the kernel gives the first pixel of the tile of that cell. -/
theorem fiveScene_values :
    (launcherGrid TILE_DIMS (trueSizeOf fiveScene)).w = 5 ∧
    (launcherGrid TILE_DIMS (trueSizeOf fiveScene)).h = 5 ∧
    (launcherSpec TILE_DIMS (trueSizeOf fiveScene)).w = 32 ∧
    (fittedSprite fiveScene 0 2 0).map (fun s => s.positionX)
      = some (F32.fin (-(13421773 * 2 ^ 125))) ∧
    coordI (launcherEnv fiveScene 0 0 TILE_DIMS (trueSizeOf fiveScene) neverSuperseded)
      (launcherSpec TILE_DIMS (trueSizeOf fiveScene))
      (tileAt (launcherSpec TILE_DIMS (trueSizeOf fiveScene)) 2 0) 0
      = F32.fin (-(13421772 * 2 ^ 125)) ∧
    F32.fin (-(13421772 * 2 ^ 125)) ≠ F32.fin (-(13421773 * 2 ^ 125)) := by
  refine ⟨by decide, by decide, by decide, by decide, by decide, by decide⟩

set_option exponentiation.threshold 10000 in
/-- C27 (as stated, refuted on the code): in the scene that `init` builds for a
160 × 160 view with content scale factor 1, the view is five tiles wide and
high, the launch grid and the sprite grid are both 5 × 5, and for the tile of
cell `(2, 0)` the kernel gives the first pixel of the tile the real part
`-13421772 · 2^-24` while `fitTileGridToRegion` sets the sprite of the cell at
`x = -13421773 · 2^-24`: the two differ by one unit in the last place. -/
theorem kernel_sprite_misaligned :
    (launcherGrid TILE_DIMS (trueSizeOf fiveScene)).w = 5 ∧
    (launcherGrid TILE_DIMS (trueSizeOf fiveScene)).h = 5 ∧
    (launcherSpec TILE_DIMS (trueSizeOf fiveScene)).w = 32 ∧
    (fiveScene.zoomLevels 0).tileSprites.width = 5 ∧
    (fiveScene.zoomLevels 0).tileSprites.height = 5 ∧
    (fittedSprite fiveScene 0 2 0).map (fun s => s.positionX)
      = some (F32.fin (-(13421773 * 2 ^ 125))) ∧
    coordI (launcherEnv fiveScene 0 0 TILE_DIMS (trueSizeOf fiveScene) neverSuperseded)
      (launcherSpec TILE_DIMS (trueSizeOf fiveScene))
      (tileAt (launcherSpec TILE_DIMS (trueSizeOf fiveScene)) 2 0) 0
      = F32.fin (-(13421772 * 2 ^ 125)) ∧
    F32.fin (-(13421772 * 2 ^ 125)) ≠ F32.fin (-(13421773 * 2 ^ 125)) :=
  ⟨fiveScene_values.1, fiveScene_values.2.1, fiveScene_values.2.2.1, fiveScene_sprites.1,
    fiveScene_sprites.2, fiveScene_values.2.2.2.1, fiveScene_values.2.2.2.2.1,
    fiveScene_values.2.2.2.2.2⟩

set_option exponentiation.threshold 10000 in
set_option maxRecDepth 100000 in
/-- On the code, in the scene of 64 × 32 pixels (2 × 1 tiles), whose
coordinates need no rounding, the kernel gives the first pixel of the tile of
cell `(1, 0)` the position of the sprite of the cell. -/
theorem twoTileScene_aligned :
    (fittedSprite twoTileScene 0 1 0).map (fun s => (s.positionX, s.positionY))
      = some
        (coordI (launcherEnv twoTileScene 0 0 TILE_DIMS (trueSizeOf twoTileScene) neverSuperseded)
          (launcherSpec TILE_DIMS (trueSizeOf twoTileScene))
          (tileAt (launcherSpec TILE_DIMS (trueSizeOf twoTileScene)) 1 0) 0,
         coordJ (launcherEnv twoTileScene 0 0 TILE_DIMS (trueSizeOf twoTileScene) neverSuperseded)
          (launcherSpec TILE_DIMS (trueSizeOf twoTileScene))
          (tileAt (launcherSpec TILE_DIMS (trueSizeOf twoTileScene)) 1 0) 0) := by
  decide

/-! ### The sprites after `fitTileGridToRegion` -/

/-- Induction over a counted loop with a property that depends on the
count. -/
theorem forLoop_induction {σ : Type} (P : Nat → σ → Prop) (n : Nat) (body : Nat → σ → σ)
    (s : σ) (h0 : P 0 s) (hstep : ∀ i t, i < n → P i t → P (i + 1) (body i t)) :
    P n (forLoop n body s) := by
  induction n with
  | zero => rw [forLoop_zero]; exact h0
  | succ n ih =>
    rw [forLoop_succ]
    exact hstep n _ (Nat.lt_succ_self n) (ih (fun i t hi => hstep i t (Nat.lt_succ_of_lt hi)))

/-- An element of an array after an assignment. -/
theorem Array2D_set_elements {α : Type} (array : Array2D α) (k : Nat) (e : α) (n : Nat) :
    (array.set k e).elements n = if n = k then e else array.elements n := rfl

/-- The two nested loops over a sprite grid, each pass assigning
`tileSprites[gridY][gridX]`: a property that every assigned sprite has holds
of every sprite of the grid afterwards. -/
theorem gridLoop_all (Q : TileSprite → Prop) (tilesX tilesY : Nat)
    (e : Nat → Nat → Array2D TileSprite → TileSprite) (hQ : ∀ gx gy t, Q (e gx gy t))
    (tileSprites : Array2D TileSprite) :
    (forLoop tilesY (fun gridY sprites =>
        forLoop tilesX (fun gridX (sprites : Array2D TileSprite) =>
          sprites.set (gridY * sprites.width % 4294967296 + gridX) (e gridX gridY sprites))
          sprites) tileSprites).width = tileSprites.width ∧
    ∀ gy, gy < tilesY → ∀ gx, gx < tilesX →
      Q ((forLoop tilesY (fun gridY sprites =>
        forLoop tilesX (fun gridX (sprites : Array2D TileSprite) =>
          sprites.set (gridY * sprites.width % 4294967296 + gridX) (e gridX gridY sprites))
          sprites) tileSprites).elements (gy * tileSprites.width % 4294967296 + gx)) := by
  have hset : ∀ (u : Array2D TileSprite) (k : Nat) (s : TileSprite) (n : Nat), Q s →
      (Q (u.elements n) ∨ n = k) → Q ((u.set k s).elements n) := by
    intro u k s n he h
    rw [Array2D_set_elements]
    by_cases hn : n = k
    · rw [if_pos hn]; exact he
    · rw [if_neg hn]; exact h.resolve_right hn
  refine forLoop_induction
    (fun Y (t : Array2D TileSprite) => t.width = tileSprites.width ∧
      ∀ gy, gy < Y → ∀ gx, gx < tilesX →
        Q (t.elements (gy * tileSprites.width % 4294967296 + gx)))
    _ _ _ ⟨rfl, fun gy h => absurd h (Nat.not_lt_zero _)⟩ ?_
  intro Y t _ ht
  have hin := forLoop_induction
    (fun X (u : Array2D TileSprite) => u.width = tileSprites.width ∧
      (∀ gy, gy < Y → ∀ gx, gx < tilesX →
        Q (u.elements (gy * tileSprites.width % 4294967296 + gx))) ∧
      ∀ gx, gx < X → Q (u.elements (Y * tileSprites.width % 4294967296 + gx)))
    tilesX
    (fun gridX (sprites : Array2D TileSprite) =>
      sprites.set (Y * sprites.width % 4294967296 + gridX) (e gridX Y sprites))
    t ⟨ht.1, ht.2, fun gx h => absurd h (Nat.not_lt_zero _)⟩ ?_
  · refine ⟨hin.1, ?_⟩
    intro gy hgy gx hgx
    rcases Nat.lt_succ_iff_lt_or_eq.mp hgy with h | h
    · exact hin.2.1 gy h gx hgx
    · rw [h]; exact hin.2.2 gx hgx
  · intro X u _ hu
    refine ⟨hu.1, ?_, ?_⟩
    · intro gy hgy gx hgx
      exact hset _ _ _ _ (hQ _ _ _) (Or.inl (hu.2.1 gy hgy gx hgx))
    · intro gx hgx
      rcases Nat.lt_succ_iff_lt_or_eq.mp hgx with h | h
      · exact hset _ _ _ _ (hQ _ _ _) (Or.inl (hu.2.2 gx h))
      · refine hset _ _ _ _ (hQ _ _ _) (Or.inr ?_)
        rw [h, hu.1]

/-- After `fitTileGridToRegion` has positioned the sprites, every sprite
`tileSprites[gridY][gridX]` of the grid has the scale
`(tileWidthWorld / tileWidthLogical, tileHeightWorld / tileHeightLogical)`,
narrowed to `float`, and the visibility passed. -/
theorem positionSprites_scale (g : GridGeometry) (visible : Bool)
    (tileSprites : Array2D TileSprite) (gridX gridY : Nat) (hx : gridX < g.tilesX)
    (hy : gridY < g.tilesY) :
    ((positionSprites g visible tileSprites).elements
        (gridY * tileSprites.width % 4294967296 + gridX)).scaleX
      = F64.toF32 (F64.div g.tileWidthWorld (F64.ofF32 g.tileWidthLogical)) ∧
    ((positionSprites g visible tileSprites).elements
        (gridY * tileSprites.width % 4294967296 + gridX)).scaleY
      = F64.toF32 (F64.div g.tileHeightWorld (F64.ofF32 g.tileHeightLogical)) ∧
    ((positionSprites g visible tileSprites).elements
        (gridY * tileSprites.width % 4294967296 + gridX)).visible = visible :=
  (gridLoop_all (fun s =>
      s.scaleX = F64.toF32 (F64.div g.tileWidthWorld (F64.ofF32 g.tileWidthLogical)) ∧
      s.scaleY = F64.toF32 (F64.div g.tileHeightWorld (F64.ofF32 g.tileHeightLogical)) ∧
      s.visible = visible) g.tilesX g.tilesY
    (fun gridX gridY sprites =>
      positionTileSprite (sprites.elements (gridY * sprites.width % 4294967296 + gridX))
        g.tileWidthWorld (F64.ofF32 g.tileWidthLogical) g.tileHeightWorld
        (F64.ofF32 g.tileHeightLogical) g.gridOriginWorldX (F64.ofNat gridX)
        g.gridOriginWorldY (F64.ofNat gridY) visible)
    (fun _ _ _ => ⟨rfl, rfl, rfl⟩) tileSprites).2 gridY hy gridX hx

/-- Every sprite of the grid `buildTileGrid` builds has the scale
`(tileWidthWorld / tileWidthLogical, tileHeightWorld / tileHeightLogical)`,
narrowed to `float`. -/
theorem buildTileGrid_scale (visibleSize : Size) (pixelScale : F32) (tileDimsXY : Nat)
    (tiledRegion : Region2D) (gridX gridY : Nat)
    (hx : gridX < (gridGeometry visibleSize pixelScale tileDimsXY tiledRegion).tilesX)
    (hy : gridY < (gridGeometry visibleSize pixelScale tileDimsXY tiledRegion).tilesY) :
    ((buildTileGrid visibleSize pixelScale tileDimsXY tiledRegion).elements
        (gridY * (gridGeometry visibleSize pixelScale tileDimsXY tiledRegion).tilesX
          % 4294967296 + gridX)).scaleX
      = F64.toF32 (F64.div
          (gridGeometry visibleSize pixelScale tileDimsXY tiledRegion).tileWidthWorld
          (F64.ofF32
            (gridGeometry visibleSize pixelScale tileDimsXY tiledRegion).tileWidthLogical)) ∧
    ((buildTileGrid visibleSize pixelScale tileDimsXY tiledRegion).elements
        (gridY * (gridGeometry visibleSize pixelScale tileDimsXY tiledRegion).tilesX
          % 4294967296 + gridX)).scaleY
      = F64.toF32 (F64.div
          (gridGeometry visibleSize pixelScale tileDimsXY tiledRegion).tileHeightWorld
          (F64.ofF32
            (gridGeometry visibleSize pixelScale tileDimsXY tiledRegion).tileHeightLogical)) := by
  obtain ⟨g, hg⟩ : ∃ g, g = gridGeometry visibleSize pixelScale tileDimsXY tiledRegion :=
    ⟨_, rfl⟩
  rw [← hg] at hx hy ⊢
  have h := (gridLoop_all (fun s =>
      s.scaleX = F64.toF32 (F64.div g.tileWidthWorld (F64.ofF32 g.tileWidthLogical)) ∧
      s.scaleY = F64.toF32 (F64.div g.tileHeightWorld (F64.ofF32 g.tileHeightLogical)))
    g.tilesX g.tilesY
    (fun gridX gridY _ =>
      positionTileSprite
        ⟨true, List.replicate ((tileDimsXY >>> 16) * (tileDimsXY &&& 65535))
            (checkerColour gridX gridY),
          F32.ofNat 1, F32.ofNat 1, F32.ofNat 0, F32.ofNat 0⟩
        g.tileWidthWorld (F64.ofF32 g.tileWidthLogical) g.tileHeightWorld
        (F64.ofF32 g.tileHeightLogical) g.gridOriginWorldX (F64.ofNat gridX)
        g.gridOriginWorldY (F64.ofNat gridY) false)
    (fun _ _ _ => ⟨rfl, rfl⟩)
    ⟨fun _ => ⟨false, [], F32.ofNat 1, F32.ofNat 1, F32.ofNat 0, F32.ofNat 0⟩,
      g.tilesX, g.tilesY⟩).2 gridY hy gridX hx
  unfold buildTileGrid
  rw [← hg]
  exact h

/-- After `fitTileGridToRegion` has positioned the sprites of a grid whose
element count does not wrap the `unsigned` index, the sprite
`tileSprites[gridY][gridX]` is the sprite that was there, positioned by
`positionTileSprite` for the cell `(gridX, gridY)`. -/
theorem positionSprites_element (g : GridGeometry) (visible : Bool)
    (tileSprites : Array2D TileSprite) (hw : tileSprites.width = g.tilesX)
    (hfit : g.tilesY * g.tilesX ≤ 4294967296) (gridX gridY : Nat) (hx : gridX < g.tilesX)
    (hy : gridY < g.tilesY) :
    (positionSprites g visible tileSprites).elements (gridY * tileSprites.width + gridX)
      = positionTileSprite (tileSprites.elements (gridY * tileSprites.width + gridX))
          g.tileWidthWorld (F64.ofF32 g.tileWidthLogical) g.tileHeightWorld
          (F64.ofF32 g.tileHeightLogical) g.gridOriginWorldX (F64.ofNat gridX)
          g.gridOriginWorldY (F64.ofNat gridY) visible := by
  obtain ⟨W, hW⟩ : ∃ W, W = tileSprites.width := ⟨_, rfl⟩
  have hWx : W = g.tilesX := hW.trans hw
  obtain ⟨pos, hposd⟩ : ∃ pos : Nat → Nat → TileSprite, pos = fun gx gy =>
      positionTileSprite (tileSprites.elements (gy * W + gx))
          g.tileWidthWorld (F64.ofF32 g.tileWidthLogical) g.tileHeightWorld
          (F64.ofF32 g.tileHeightLogical) g.gridOriginWorldX (F64.ofNat gx)
          g.gridOriginWorldY (F64.ofNat gy) visible := ⟨_, rfl⟩
  have hnowrap : ∀ Y, Y < g.tilesY → Y * W % 4294967296 = Y * W := by
    intro Y hY
    apply Nat.mod_eq_of_lt
    have : Y * W < g.tilesY * g.tilesX := by
      rw [hWx]
      exact Nat.mul_lt_mul_of_lt_of_le hY (Nat.le_refl _) (by omega)
    omega
  have hinj : ∀ gy gx gy' gx', gx < W → gx' < W → gy * W + gx = gy' * W + gx' →
      gy = gy' ∧ gx = gx' := by
    intro gy gx gy' gx' h1 h2 h
    have hWpos : 0 < W := by omega
    have e1 : (gy * W + gx) / W = gy := by
      rw [Nat.mul_comm, Nat.mul_add_div hWpos, Nat.div_eq_of_lt h1, Nat.add_zero]
    have e2 : (gy' * W + gx') / W = gy' := by
      rw [Nat.mul_comm, Nat.mul_add_div hWpos, Nat.div_eq_of_lt h2, Nat.add_zero]
    have hy : gy = gy' := by rw [← e1, h, e2]
    subst hy
    exact ⟨rfl, by omega⟩
  have hmain : (positionSprites g visible tileSprites).width = W ∧
      (∀ gy, gy < g.tilesY → ∀ gx, gx < W →
        (positionSprites g visible tileSprites).elements (gy * W + gx) = pos gx gy) ∧
      ∀ gy, g.tilesY ≤ gy → ∀ gx, gx < W →
        (positionSprites g visible tileSprites).elements (gy * W + gx)
          = tileSprites.elements (gy * W + gx) := by
    unfold positionSprites
    refine forLoop_induction
      (fun Y (t : Array2D TileSprite) => t.width = W ∧
        (∀ gy, gy < Y → ∀ gx, gx < W → t.elements (gy * W + gx) = pos gx gy) ∧
        ∀ gy, Y ≤ gy → ∀ gx, gx < W →
          t.elements (gy * W + gx) = tileSprites.elements (gy * W + gx))
      _ _ _ ⟨hW.symm, fun gy h => absurd h (Nat.not_lt_zero _), fun _ _ _ _ => rfl⟩ ?_
    intro Y t hY ht
    have hin := forLoop_induction
      (fun X (u : Array2D TileSprite) => u.width = W ∧
        (∀ gy, gy < Y → ∀ gx, gx < W → u.elements (gy * W + gx) = pos gx gy) ∧
        (∀ gx, gx < X → u.elements (Y * W + gx) = pos gx Y) ∧
        (∀ gx, X ≤ gx → gx < W →
          u.elements (Y * W + gx) = tileSprites.elements (Y * W + gx)) ∧
        ∀ gy, Y < gy → ∀ gx, gx < W →
          u.elements (gy * W + gx) = tileSprites.elements (gy * W + gx))
      g.tilesX
      (fun gridX (sprites : Array2D TileSprite) =>
        sprites.set (Y * sprites.width % 4294967296 + gridX)
          (positionTileSprite (sprites.elements (Y * sprites.width % 4294967296 + gridX))
            g.tileWidthWorld (F64.ofF32 g.tileWidthLogical) g.tileHeightWorld
            (F64.ofF32 g.tileHeightLogical) g.gridOriginWorldX (F64.ofNat gridX)
            g.gridOriginWorldY (F64.ofNat Y) visible))
      t ⟨ht.1, ht.2.1, fun gx h => absurd h (Nat.not_lt_zero _),
        fun gx _ hgx => ht.2.2 Y (Nat.le_refl _) gx hgx,
        fun gy hgy gx hgx => ht.2.2 gy (Nat.le_of_lt hgy) gx hgx⟩ ?_
    · refine ⟨hin.1, ?_, ?_⟩
      · intro gy hgy gx hgx
        rcases Nat.lt_succ_iff_lt_or_eq.mp hgy with h | h
        · exact hin.2.1 gy h gx hgx
        · rw [h]; exact hin.2.2.1 gx (by omega)
      · intro gy hgy gx hgx
        exact hin.2.2.2.2 gy (by omega) gx hgx
    · intro X u hX hu
      have hk : Y * u.width % 4294967296 + X = Y * W + X := by
        rw [hu.1, hnowrap Y hY]
      have hXW : X < W := by omega
      simp only [hk]
      refine ⟨hu.1, ?_, ?_, ?_, ?_⟩
      · intro gy hgy gx hgx
        rw [Array2D_set_elements, if_neg, hu.2.1 gy hgy gx hgx]
        intro h
        have := (hinj gy gx Y X hgx hXW h).1
        omega
      · intro gx hgx
        rw [Array2D_set_elements]
        rcases Nat.lt_succ_iff_lt_or_eq.mp hgx with h | h
        · rw [if_neg, hu.2.2.1 gx h]
          intro h'
          have := (hinj Y gx Y X (by omega) hXW h').2
          omega
        · rw [h, if_pos rfl, hu.2.2.2.1 X (Nat.le_refl _) hXW, hposd]
      · intro gx hgx hgxW
        rw [Array2D_set_elements, if_neg, hu.2.2.2.1 gx (by omega) hgxW]
        intro h'
        have := (hinj Y gx Y X hgxW hXW h').2
        omega
      · intro gy hgy gx hgx
        rw [Array2D_set_elements, if_neg, hu.2.2.2.2 gy hgy gx hgx]
        intro h'
        have := (hinj gy gx Y X hgx hXW h').1
        omega
  have h := hmain.2.1 gridY hy gridX (by omega)
  rw [hposd] at h
  rw [← hW]
  exact h

/-- The sprites of a slot after `updateTilesForRegion`: the slot's sprites
positioned by `fitTileGridToRegion` for the slot's region, not visible. -/
theorem updateTilesForRegion_sprites (st st' : HelloWorld) (zoomLevel transaction : Nat)
    (h : updateTilesForRegion st zoomLevel transaction = some st') :
    (st'.zoomLevels zoomLevel).tileSprites
      = positionSprites
          (gridGeometry st.visibleSize (F32.ofNat (F32.toUnsigned st.contentScaleFactor))
            (TILE_DIMS <<< 16 ||| TILE_DIMS) (st.zoomLevels zoomLevel).zoomRegion)
          false (st.zoomLevels zoomLevel).tileSprites := by
  unfold updateTilesForRegion fitTileGridToRegion at h
  simp only at h
  split at h
  · exact absurd h (by simp)
  · rename_i sprites hs
    injection h with h
    subst h
    split at hs
    · injection hs with hs
      subst hs
      unfold generateTiles
      simp only [setZoomLevel_same]
    · exact absurd hs (by simp)

/-- The scale of every sprite of the new slot after a handler that starts a
generation: the new region's size divided by the tile count and by the logical
tile size, narrowed to `float`. -/
theorem generation_sprite_scale (st st' : HelloWorld) (change : Region2D → Region2D)
    (region : Region2D)
    (hfit : (st.zoomLevels (selectSlots st.zoomTransaction).zoomLevel).tileSprites.width
        = (gridGeometry st.visibleSize (F32.ofNat (F32.toUnsigned st.contentScaleFactor))
            (TILE_DIMS <<< 16 ||| TILE_DIMS) region).tilesX ∧
      (st.zoomLevels (selectSlots st.zoomTransaction).zoomLevel).tileSprites.height
        = (gridGeometry st.visibleSize (F32.ofNat (F32.toUnsigned st.contentScaleFactor))
            (TILE_DIMS <<< 16 ||| TILE_DIMS) region).tilesY)
    (hst' : updateTilesForRegion (beginGeneration st change)
        (selectSlots st.zoomTransaction).zoomLevel (selectSlots st.zoomTransaction).transaction
        = some st') :
    (st'.zoomLevels (selectSlots st.zoomTransaction).zoomLevel).tileSprites.width
      = (st.zoomLevels (selectSlots st.zoomTransaction).zoomLevel).tileSprites.width ∧
    (st'.zoomLevels (selectSlots st.zoomTransaction).zoomLevel).tileSprites.height
      = (st.zoomLevels (selectSlots st.zoomTransaction).zoomLevel).tileSprites.height ∧
    ∀ gridX gridY,
      gridX < (st.zoomLevels (selectSlots st.zoomTransaction).zoomLevel).tileSprites.width →
      gridY < (st.zoomLevels (selectSlots st.zoomTransaction).zoomLevel).tileSprites.height →
      ((st'.zoomLevels (selectSlots st.zoomTransaction).zoomLevel).tileSprites.elements
          (gridY * (st.zoomLevels (selectSlots st.zoomTransaction).zoomLevel).tileSprites.width
            % 4294967296 + gridX)).scaleX
        = F64.toF32 (F64.div
            (F64.div (change (st.zoomLevels (st.zoomTransaction &&& 1)).zoomRegion).width
              (F64.ofNat
                (st.zoomLevels (selectSlots st.zoomTransaction).zoomLevel).tileSprites.width))
            (F64.ofF32 (F32.div (F32.ofNat TILE_DIMS)
              (F32.ofNat (F32.toUnsigned st.contentScaleFactor))))) ∧
      ((st'.zoomLevels (selectSlots st.zoomTransaction).zoomLevel).tileSprites.elements
          (gridY * (st.zoomLevels (selectSlots st.zoomTransaction).zoomLevel).tileSprites.width
            % 4294967296 + gridX)).scaleY
        = F64.toF32 (F64.div
            (F64.div (change (st.zoomLevels (st.zoomTransaction &&& 1)).zoomRegion).height
              (F64.ofNat
                (st.zoomLevels (selectSlots st.zoomTransaction).zoomLevel).tileSprites.height))
            (F64.ofF32 (F32.div (F32.ofNat TILE_DIMS)
              (F32.ofNat (F32.toUnsigned st.contentScaleFactor))))) := by
  obtain ⟨hne, hlast, htr⟩ := selectSlots_slots st.zoomTransaction
  have hsp := updateTilesForRegion_sprites _ _ _ _ hst'
  have hsprites : ((beginGeneration st change).zoomLevels
      (selectSlots st.zoomTransaction).zoomLevel).tileSprites
      = (st.zoomLevels (selectSlots st.zoomTransaction).zoomLevel).tileSprites := by
    unfold beginGeneration
    simp only [setZoomLevel_same]
  have hregion : ((beginGeneration st change).zoomLevels
      (selectSlots st.zoomTransaction).zoomLevel).zoomRegion
      = change (st.zoomLevels (st.zoomTransaction &&& 1)).zoomRegion := by
    unfold beginGeneration
    simp only [setZoomLevel_same, hlast]
  have hv : (beginGeneration st change).visibleSize = st.visibleSize := rfl
  have hc : (beginGeneration st change).contentScaleFactor = st.contentScaleFactor := rfl
  rw [hsprites, hregion, hv, hc] at hsp
  obtain ⟨g, hg⟩ : ∃ g, g = gridGeometry st.visibleSize
      (F32.ofNat (F32.toUnsigned st.contentScaleFactor)) (TILE_DIMS <<< 16 ||| TILE_DIMS)
      (change (st.zoomLevels (st.zoomTransaction &&& 1)).zoomRegion) := ⟨_, rfl⟩
  rw [← hg] at hsp
  have ht := gridGeometry_tiles st.visibleSize
    (F32.ofNat (F32.toUnsigned st.contentScaleFactor)) (TILE_DIMS <<< 16 ||| TILE_DIMS)
    (change (st.zoomLevels (st.zoomTransaction &&& 1)).zoomRegion) region
  rw [← hg] at ht
  have hgx : g.tilesX
      = (st.zoomLevels (selectSlots st.zoomTransaction).zoomLevel).tileSprites.width :=
    ht.1.trans hfit.1.symm
  have hgy : g.tilesY
      = (st.zoomLevels (selectSlots st.zoomTransaction).zoomLevel).tileSprites.height :=
    ht.2.trans hfit.2.symm
  have hww : g.tileWidthWorld
      = F64.div (change (st.zoomLevels (st.zoomTransaction &&& 1)).zoomRegion).width
          (F64.ofNat g.tilesX) := by rw [hg]; rfl
  have hhw : g.tileHeightWorld
      = F64.div (change (st.zoomLevels (st.zoomTransaction &&& 1)).zoomRegion).height
          (F64.ofNat g.tilesY) := by rw [hg]; rfl
  have hwl : g.tileWidthLogical
      = F32.div (F32.ofNat TILE_DIMS) (F32.ofNat (F32.toUnsigned st.contentScaleFactor)) := by
    rw [hg]; rfl
  have hhl : g.tileHeightLogical
      = F32.div (F32.ofNat TILE_DIMS) (F32.ofNat (F32.toUnsigned st.contentScaleFactor)) := by
    rw [hg]; rfl
  rw [hsp]
  refine ⟨(positionSprites_dims g false _).1, (positionSprites_dims g false _).2, ?_⟩
  intro gridX gridY hx hy
  have h := positionSprites_scale g false
    (st.zoomLevels (selectSlots st.zoomTransaction).zoomLevel).tileSprites gridX gridY
    (by rw [hgx]; exact hx) (by rw [hgy]; exact hy)
  rw [hww, hhw, hwl, hhl, hgx, hgy] at h
  exact ⟨h.1, h.2.1⟩

set_option exponentiation.threshold 10000 in
set_option maxRecDepth 100000 in
/-- The example scene: its 29 × 19 sprites of slot 0 and slot 1, the region of
slot 0 and the scales before and after a zoom-in as numbers. -/
theorem exampleScene_scales :
    (exampleScene.zoomLevels 0).tileSprites.width = 29 ∧
    (exampleScene.zoomLevels 0).tileSprites.height = 19 ∧
    (exampleScene.zoomLevels 1).tileSprites.width = 29 ∧
    (exampleScene.zoomLevels 1).tileSprites.height = 19 ∧
    (gridGeometry exampleSize (F32.ofNat (F32.toUnsigned (F32.ofNat 1)))
      ((TILE_DIMS <<< 16) + TILE_DIMS) (initialRegion exampleSize)).tilesX = 29 ∧
    (gridGeometry exampleSize (F32.ofNat (F32.toUnsigned (F32.ofNat 1)))
      ((TILE_DIMS <<< 16) + TILE_DIMS) (initialRegion exampleSize)).tilesY = 19 ∧
    F64.toF32 (F64.div (F64.div (F64.mul (F64.ofRatio 45 10) F64.half) (F64.ofNat 29))
        (F64.ofF32 (F32.div (F32.ofNat TILE_DIMS) (F32.ofNat (F32.toUnsigned (F32.ofNat 1))))))
      = F32.mul (F64.toF32 (F64.div
          (gridGeometry exampleSize (F32.ofNat (F32.toUnsigned (F32.ofNat 1)))
            ((TILE_DIMS <<< 16) + TILE_DIMS) (initialRegion exampleSize)).tileWidthWorld
          (F64.ofF32 (gridGeometry exampleSize (F32.ofNat (F32.toUnsigned (F32.ofNat 1)))
            ((TILE_DIMS <<< 16) + TILE_DIMS) (initialRegion exampleSize)).tileWidthLogical)))
        (F32.ofRatio 1 2) ∧
    F64.toF32 (F64.div (F64.div (F64.mul (F64.ofNat 3) F64.half) (F64.ofNat 19))
        (F64.ofF32 (F32.div (F32.ofNat TILE_DIMS) (F32.ofNat (F32.toUnsigned (F32.ofNat 1))))))
      = F32.mul (F64.toF32 (F64.div
          (gridGeometry exampleSize (F32.ofNat (F32.toUnsigned (F32.ofNat 1)))
            ((TILE_DIMS <<< 16) + TILE_DIMS) (initialRegion exampleSize)).tileHeightWorld
          (F64.ofF32 (gridGeometry exampleSize (F32.ofNat (F32.toUnsigned (F32.ofNat 1)))
            ((TILE_DIMS <<< 16) + TILE_DIMS) (initialRegion exampleSize)).tileHeightLogical)))
        (F32.ofRatio 1 2) ∧
    (exampleScene.zoomLevels (exampleScene.zoomTransaction &&& 1)).zoomRegion.width
      = F64.ofRatio 45 10 ∧
    (exampleScene.zoomLevels (exampleScene.zoomTransaction &&& 1)).zoomRegion.height
      = F64.ofNat 3 := by
  have hv : exampleScene.visibleSize = exampleSize := rfl
  have hc : exampleScene.contentScaleFactor = F32.ofNat 1 := rfl
  have e : (gridGeometry exampleSize (F32.ofNat (F32.toUnsigned (F32.ofNat 1)))
        (TILE_DIMS <<< 16 ||| TILE_DIMS)
        ⟨F64.fin 0, F64.fin 0, F64.fin 0, F64.fin 0, F64.fin 0⟩).tilesX = 29 ∧
      (gridGeometry exampleSize (F32.ofNat (F32.toUnsigned (F32.ofNat 1)))
        (TILE_DIMS <<< 16 ||| TILE_DIMS)
        ⟨F64.fin 0, F64.fin 0, F64.fin 0, F64.fin 0, F64.fin 0⟩).tilesY = 19 := by
    refine ⟨by decide, by decide⟩
  have h0 := reachable_sprites_fit exampleSize (F32.ofNat 1) [] exampleScene rfl 0
    ⟨F64.fin 0, F64.fin 0, F64.fin 0, F64.fin 0, F64.fin 0⟩
  have h1 := reachable_sprites_fit exampleSize (F32.ofNat 1) [] exampleScene rfl 1
    ⟨F64.fin 0, F64.fin 0, F64.fin 0, F64.fin 0, F64.fin 0⟩
  rw [hv, hc] at h0 h1
  refine ⟨h0.1.trans e.1, h0.2.trans e.2, h1.1.trans e.1, h1.2.trans e.2, by decide,
    by decide, by decide, by decide, by decide, by decide⟩

/-- The sprites of the example scene's slot 0 are those `buildTileGrid` built
over the initial region. -/
theorem exampleScene_sprites0 :
    (exampleScene.zoomLevels 0).tileSprites
      = buildTileGrid exampleSize (F32.ofNat (F32.toUnsigned (F32.ofNat 1)))
          ((TILE_DIMS <<< 16) + TILE_DIMS) (initialRegion exampleSize) := by
  unfold exampleScene init generateTiles
  simp only [setZoomLevel_same]
  rfl

/-- In the example scene a zoom-in gives every sprite of the new slot half
the scale the sprite of the same cell has in the current slot. -/
theorem exampleScene_zoom_scale (gridX gridY : Nat) (hx : gridX < 29) (hy : gridY < 19) :
    (menuZoomInCallback exampleScene).map
        (fun st' =>
          (((st'.zoomLevels 1).tileSprites.elements (gridY * 29 + gridX)).scaleX,
           ((st'.zoomLevels 1).tileSprites.elements (gridY * 29 + gridX)).scaleY))
      = some
        (F32.mul ((exampleScene.zoomLevels 0).tileSprites.elements (gridY * 29 + gridX)).scaleX
          (F32.ofRatio 1 2),
         F32.mul ((exampleScene.zoomLevels 0).tileSprites.elements (gridY * 29 + gridX)).scaleY
          (F32.ofRatio 1 2)) := by
  obtain ⟨w0, h0, w1, h1, gx, gy, sx, sy, rw0, rh0⟩ := exampleScene_scales
  have hslot : (selectSlots exampleScene.zoomTransaction).zoomLevel = 1 := by decide
  have hc : exampleScene.contentScaleFactor = F32.ofNat 1 := rfl
  have hfit : (exampleScene.zoomLevels
        (selectSlots exampleScene.zoomTransaction).zoomLevel).tileSprites.width
        = (gridGeometry exampleScene.visibleSize
            (F32.ofNat (F32.toUnsigned exampleScene.contentScaleFactor))
            (TILE_DIMS <<< 16 ||| TILE_DIMS)
            ⟨F64.fin 0, F64.fin 0, F64.fin 0, F64.fin 0, F64.fin 0⟩).tilesX ∧
      (exampleScene.zoomLevels
        (selectSlots exampleScene.zoomTransaction).zoomLevel).tileSprites.height
        = (gridGeometry exampleScene.visibleSize
            (F32.ofNat (F32.toUnsigned exampleScene.contentScaleFactor))
            (TILE_DIMS <<< 16 ||| TILE_DIMS)
            ⟨F64.fin 0, F64.fin 0, F64.fin 0, F64.fin 0, F64.fin 0⟩).tilesY :=
    reachable_sprites_fit exampleSize (F32.ofNat 1) [] exampleScene rfl _ _
  obtain ⟨st', hst', -⟩ := generation_spec exampleScene (fun zoomRegion =>
      { zoomRegion with
        width := F64.mul zoomRegion.width F64.half
        height := F64.mul zoomRegion.height F64.half }) _ hfit
  have hs := (generation_sprite_scale exampleScene st' _ _ hfit hst').2.2 gridX gridY
    (by rw [hslot, w1]; exact hx) (by rw [hslot, h1]; exact hy)
  rw [hslot, w1, h1, hc] at hs
  have hmk : ∀ a b c d e : F64, (Region2D.mk a b c d e).width = c ∧
      (Region2D.mk a b c d e).height = d := fun _ _ _ _ _ => ⟨rfl, rfl⟩
  rw [(hmk _ _ _ _ _).1, (hmk _ _ _ _ _).2] at hs
  obtain ⟨hs1, hs2⟩ := hs
  rw [rw0, Nat.mod_eq_of_lt (by omega : gridY * 29 < 4294967296), sx] at hs1
  rw [rh0, Nat.mod_eq_of_lt (by omega : gridY * 29 < 4294967296), sy] at hs2
  have hb := buildTileGrid_scale exampleSize (F32.ofNat (F32.toUnsigned (F32.ofNat 1)))
    ((TILE_DIMS <<< 16) + TILE_DIMS) (initialRegion exampleSize) gridX gridY
    (by rw [gx]; exact hx) (by rw [gy]; exact hy)
  rw [gx, Nat.mod_eq_of_lt (by omega : gridY * 29 < 4294967296), ← exampleScene_sprites0] at hb
  have hcall : menuZoomInCallback exampleScene = some st' := hst'
  rw [hcall, Option.map_some', hs1, hs2, hb.1, hb.2]

set_option exponentiation.threshold 10000 in
set_option maxRecDepth 100000 in
/-- C16: when the sprite array of the new slot has the dimensions of the
grid (the assertion of `fitTileGridToRegion`), `menuZoomInCallback` returns,
the transaction is incremented once (modulo `2^16`), the new slot's region is
the current region with the same centre and rotation and with width and height
multiplied by 0.5, and the region of the slot that was current is unchanged;
the sprite array of the new slot keeps its dimensions and every sprite
`tileSprites[gridY][gridX]` of it has got the scale
`(width * 0.5 / tilesX / tileWidthLogical, height * 0.5 / tilesY / tileHeightLogical)`
narrowed to `float`, the world size of a tile (region size / tile count) of
the halved region over the logical size of a tile.  `menuZoomOutCallback` does
the same with the factor 2.  In the example scene (width 4.5, height 3.0) the
zoom-in yields width 2.25 and height 1.5, the world size of a tile, region
size / tile count for 29 × 19 tiles, is half of what it was, and every sprite
of the new slot has half the scale of the sprite of the same cell of the
current slot. -/
theorem menuZoom_spec (st : HelloWorld) (region : Region2D)
    (hfit : (st.zoomLevels (selectSlots st.zoomTransaction).zoomLevel).tileSprites.width
        = (gridGeometry st.visibleSize (F32.ofNat (F32.toUnsigned st.contentScaleFactor))
            (TILE_DIMS <<< 16 ||| TILE_DIMS) region).tilesX ∧
      (st.zoomLevels (selectSlots st.zoomTransaction).zoomLevel).tileSprites.height
        = (gridGeometry st.visibleSize (F32.ofNat (F32.toUnsigned st.contentScaleFactor))
            (TILE_DIMS <<< 16 ||| TILE_DIMS) region).tilesY) :
    (∃ st', menuZoomInCallback st = some st' ∧
      st'.zoomTransaction = (st.zoomTransaction + 1) % 65536 ∧
      (st'.zoomLevels (st'.zoomTransaction &&& 1)).zoomRegion
        = { (st.zoomLevels (st.zoomTransaction &&& 1)).zoomRegion with
            width := F64.mul (st.zoomLevels (st.zoomTransaction &&& 1)).zoomRegion.width
              F64.half
            height := F64.mul (st.zoomLevels (st.zoomTransaction &&& 1)).zoomRegion.height
              F64.half } ∧
      (st'.zoomLevels (st.zoomTransaction &&& 1)).zoomRegion
        = (st.zoomLevels (st.zoomTransaction &&& 1)).zoomRegion ∧
      (st'.zoomLevels (st'.zoomTransaction &&& 1)).tileSprites.width
        = (st.zoomLevels (st'.zoomTransaction &&& 1)).tileSprites.width ∧
      (st'.zoomLevels (st'.zoomTransaction &&& 1)).tileSprites.height
        = (st.zoomLevels (st'.zoomTransaction &&& 1)).tileSprites.height ∧
      ∀ gridX gridY,
        gridX < (st'.zoomLevels (st'.zoomTransaction &&& 1)).tileSprites.width →
        gridY < (st'.zoomLevels (st'.zoomTransaction &&& 1)).tileSprites.height →
        ((st'.zoomLevels (st'.zoomTransaction &&& 1)).tileSprites.elements
            (gridY * (st'.zoomLevels (st'.zoomTransaction &&& 1)).tileSprites.width
              % 4294967296 + gridX)).scaleX
          = F64.toF32 (F64.div
              (F64.div
                (F64.mul (st.zoomLevels (st.zoomTransaction &&& 1)).zoomRegion.width F64.half)
                (F64.ofNat (st'.zoomLevels (st'.zoomTransaction &&& 1)).tileSprites.width))
              (F64.ofF32 (F32.div (F32.ofNat TILE_DIMS)
                (F32.ofNat (F32.toUnsigned st.contentScaleFactor))))) ∧
        ((st'.zoomLevels (st'.zoomTransaction &&& 1)).tileSprites.elements
            (gridY * (st'.zoomLevels (st'.zoomTransaction &&& 1)).tileSprites.width
              % 4294967296 + gridX)).scaleY
          = F64.toF32 (F64.div
              (F64.div
                (F64.mul (st.zoomLevels (st.zoomTransaction &&& 1)).zoomRegion.height F64.half)
                (F64.ofNat (st'.zoomLevels (st'.zoomTransaction &&& 1)).tileSprites.height))
              (F64.ofF32 (F32.div (F32.ofNat TILE_DIMS)
                (F32.ofNat (F32.toUnsigned st.contentScaleFactor)))))) ∧
    (∃ st', menuZoomOutCallback st = some st' ∧
      st'.zoomTransaction = (st.zoomTransaction + 1) % 65536 ∧
      (st'.zoomLevels (st'.zoomTransaction &&& 1)).zoomRegion
        = { (st.zoomLevels (st.zoomTransaction &&& 1)).zoomRegion with
            width := F64.mul (st.zoomLevels (st.zoomTransaction &&& 1)).zoomRegion.width
              (F64.ofNat 2)
            height := F64.mul (st.zoomLevels (st.zoomTransaction &&& 1)).zoomRegion.height
              (F64.ofNat 2) } ∧
      (st'.zoomLevels (st.zoomTransaction &&& 1)).zoomRegion
        = (st.zoomLevels (st.zoomTransaction &&& 1)).zoomRegion ∧
      (st'.zoomLevels (st'.zoomTransaction &&& 1)).tileSprites.width
        = (st.zoomLevels (st'.zoomTransaction &&& 1)).tileSprites.width ∧
      (st'.zoomLevels (st'.zoomTransaction &&& 1)).tileSprites.height
        = (st.zoomLevels (st'.zoomTransaction &&& 1)).tileSprites.height ∧
      ∀ gridX gridY,
        gridX < (st'.zoomLevels (st'.zoomTransaction &&& 1)).tileSprites.width →
        gridY < (st'.zoomLevels (st'.zoomTransaction &&& 1)).tileSprites.height →
        ((st'.zoomLevels (st'.zoomTransaction &&& 1)).tileSprites.elements
            (gridY * (st'.zoomLevels (st'.zoomTransaction &&& 1)).tileSprites.width
              % 4294967296 + gridX)).scaleX
          = F64.toF32 (F64.div
              (F64.div
                (F64.mul (st.zoomLevels (st.zoomTransaction &&& 1)).zoomRegion.width
                  (F64.ofNat 2))
                (F64.ofNat (st'.zoomLevels (st'.zoomTransaction &&& 1)).tileSprites.width))
              (F64.ofF32 (F32.div (F32.ofNat TILE_DIMS)
                (F32.ofNat (F32.toUnsigned st.contentScaleFactor))))) ∧
        ((st'.zoomLevels (st'.zoomTransaction &&& 1)).tileSprites.elements
            (gridY * (st'.zoomLevels (st'.zoomTransaction &&& 1)).tileSprites.width
              % 4294967296 + gridX)).scaleY
          = F64.toF32 (F64.div
              (F64.div
                (F64.mul (st.zoomLevels (st.zoomTransaction &&& 1)).zoomRegion.height
                  (F64.ofNat 2))
                (F64.ofNat (st'.zoomLevels (st'.zoomTransaction &&& 1)).tileSprites.height))
              (F64.ofF32 (F32.div (F32.ofNat TILE_DIMS)
                (F32.ofNat (F32.toUnsigned st.contentScaleFactor)))))) ∧
    ((exampleScene.zoomLevels 0).zoomRegion.width, (exampleScene.zoomLevels 0).zoomRegion.height)
      = (F64.ofRatio 45 10, F64.ofNat 3) ∧
    (menuZoomInCallback exampleScene).map
        (fun st' => ((st'.zoomLevels 1).zoomRegion.width, (st'.zoomLevels 1).zoomRegion.height))
      = some (F64.ofRatio 225 100, F64.ofRatio 15 10) ∧
    (menuZoomInCallback exampleScene).map
        (fun st' =>
          ((exampleGeometry (st'.zoomLevels 1).zoomRegion).tilesX,
           (exampleGeometry (st'.zoomLevels 1).zoomRegion).tilesY,
           (exampleGeometry (st'.zoomLevels 1).zoomRegion).tileWidthWorld,
           (exampleGeometry (st'.zoomLevels 1).zoomRegion).tileHeightWorld))
      = some (29, 19,
          F64.mul (exampleGeometry (exampleScene.zoomLevels 0).zoomRegion).tileWidthWorld
            F64.half,
          F64.mul (exampleGeometry (exampleScene.zoomLevels 0).zoomRegion).tileHeightWorld
            F64.half) ∧
    ((exampleScene.zoomLevels 0).tileSprites.width = 29 ∧
      (exampleScene.zoomLevels 0).tileSprites.height = 19) ∧
    ∀ gridX gridY, gridX < 29 → gridY < 19 →
      (menuZoomInCallback exampleScene).map
          (fun st' =>
            (((st'.zoomLevels 1).tileSprites.elements (gridY * 29 + gridX)).scaleX,
             ((st'.zoomLevels 1).tileSprites.elements (gridY * 29 + gridX)).scaleY))
        = some
          (F32.mul
            ((exampleScene.zoomLevels 0).tileSprites.elements (gridY * 29 + gridX)).scaleX
            (F32.ofRatio 1 2),
           F32.mul
            ((exampleScene.zoomLevels 0).tileSprites.elements (gridY * 29 + gridX)).scaleY
            (F32.ofRatio 1 2)) := by
  obtain ⟨hne, hlast, htr⟩ := selectSlots_slots st.zoomTransaction
  have hslot : ∀ st' : HelloWorld, st'.zoomTransaction = preIncrement st.zoomTransaction →
      st'.zoomTransaction &&& 1 = (selectSlots st.zoomTransaction).zoomLevel := by
    intro st' h
    rw [h]
    rfl
  refine ⟨?_, ?_, by decide, by decide, by decide,
    ⟨exampleScene_scales.1, exampleScene_scales.2.1⟩, exampleScene_zoom_scale⟩
  · obtain ⟨st', hst', h1, h2, h3⟩ := generation_spec st (fun zoomRegion =>
      { zoomRegion with
        width := F64.mul zoomRegion.width F64.half
        height := F64.mul zoomRegion.height F64.half }) region hfit
    obtain ⟨hw, hh, hs⟩ := generation_sprite_scale st st' _ region hfit hst'
    rw [← hslot st' h1] at hw hh hs
    refine ⟨st', hst', h1, ?_, h3, hw, hh, ?_⟩
    · rw [hslot st' h1]
      exact h2
    · intro gridX gridY hx hy
      rw [hw] at hx ⊢
      rw [hh] at hy ⊢
      exact hs gridX gridY hx hy
  · obtain ⟨st', hst', h1, h2, h3⟩ := generation_spec st (fun zoomRegion =>
      { zoomRegion with
        width := F64.mul zoomRegion.width (F64.ofNat 2)
        height := F64.mul zoomRegion.height (F64.ofNat 2) }) region hfit
    obtain ⟨hw, hh, hs⟩ := generation_sprite_scale st st' _ region hfit hst'
    rw [← hslot st' h1] at hw hh hs
    refine ⟨st', hst', h1, ?_, h3, hw, hh, ?_⟩
    · rw [hslot st' h1]
      exact h2
    · intro gridX gridY hx hy
      rw [hw] at hx ⊢
      rw [hh] at hy ⊢
      exact hs gridX gridY hx hy

set_option exponentiation.threshold 10000 in
set_option maxRecDepth 100000 in
/-- Instance of C16: the example scene, whose zoom-in returns with the
transaction 1 and gives the sprite `tileSprites[0][0]` of slot 1 half the scale
of the sprite `tileSprites[0][0]` of slot 0. -/
theorem menuZoom_spec_witness :
    ((exampleScene.zoomLevels (selectSlots exampleScene.zoomTransaction).zoomLevel).tileSprites.width
        = (exampleGeometry (exampleScene.zoomLevels 0).zoomRegion).tilesX ∧
      (exampleScene.zoomLevels (selectSlots exampleScene.zoomTransaction).zoomLevel).tileSprites.height
        = (exampleGeometry (exampleScene.zoomLevels 0).zoomRegion).tilesY) ∧
    (∃ st', menuZoomInCallback exampleScene = some st' ∧
      st'.zoomTransaction = (exampleScene.zoomTransaction + 1) % 65536) ∧
    (menuZoomInCallback exampleScene).map
        (fun st' =>
          (((st'.zoomLevels 1).tileSprites.elements (0 * 29 + 0)).scaleX,
           ((st'.zoomLevels 1).tileSprites.elements (0 * 29 + 0)).scaleY))
      = some
        (F32.mul ((exampleScene.zoomLevels 0).tileSprites.elements (0 * 29 + 0)).scaleX
          (F32.ofRatio 1 2),
         F32.mul ((exampleScene.zoomLevels 0).tileSprites.elements (0 * 29 + 0)).scaleY
          (F32.ofRatio 1 2)) :=
  have h := menuZoom_spec exampleScene (exampleScene.zoomLevels 0).zoomRegion (by decide)
  ⟨by decide, h.1.imp (fun _ hst => ⟨hst.1, hst.2.1⟩),
    h.2.2.2.2.2.2 0 0 (by decide) (by decide)⟩

/-! ## Rounding errors -/

namespace F32

/-- The integer nearest to `a / d` is within half of `a / d`. -/
theorem roundHalfEven_near (a d : Nat) (hd : 0 < d) :
    2 * a ≤ 2 * (roundHalfEven a d * d) + d ∧ 2 * (roundHalfEven a d * d) ≤ 2 * a + d := by
  have hdm := Nat.div_add_mod a d
  have hr := Nat.mod_lt a hd
  rw [Nat.mul_comm d (a / d)] at hdm
  have hsucc : (a / d + 1) * d = a / d * d + d := by rw [Nat.add_mul, Nat.one_mul]
  unfold roundHalfEven
  split
  · omega
  · split
    · rw [hsucc]; omega
    · split
      · omega
      · rw [hsucc]; omega

/-- The error of rounding at the spacing `2^k`, when `k` is 0 or the value is
at least `2^(t + k)`: at most the value over `2^(t + 1)`, plus half a unit. -/
theorem round_core (t a q k : Nat) (hq : 0 < q) (hk : k = 0 ∨ 2 ^ (t + k) ≤ a / q) :
    |((roundHalfEven a (q * 2 ^ k) * 2 ^ k : Nat) : ℚ) - (a : ℚ) / (q : ℚ)|
      ≤ (a : ℚ) / (q : ℚ) / 2 ^ (t + 1) + 1 / 2 := by
  have hd : 0 < q * 2 ^ k := Nat.mul_pos hq (Nat.two_pow_pos _)
  obtain ⟨h1, h2⟩ := roundHalfEven_near a (q * 2 ^ k) hd
  have hqpos : (0 : ℚ) < (q : ℚ) := by exact_mod_cast hq
  have hkpos : (0 : ℚ) < (2 : ℚ) ^ k := by positivity
  generalize roundHalfEven a (q * 2 ^ k) = r at h1 h2 ⊢
  have h1q : (2 : ℚ) * a ≤ 2 * (r * (q * 2 ^ k)) + q * 2 ^ k := by exact_mod_cast h1
  have h2q : (2 : ℚ) * (r * (q * 2 ^ k)) ≤ 2 * a + q * 2 ^ k := by exact_mod_cast h2
  obtain ⟨y, hy⟩ : ∃ y : ℚ, y = (a : ℚ) / (q : ℚ) := ⟨_, rfl⟩
  have hay : (a : ℚ) = y * q := by rw [hy]; field_simp
  have e1 : 2 * y ≤ 2 * (r * 2 ^ k) + 2 ^ k := by
    have h' : (2 * y) * q ≤ (2 * (r * 2 ^ k) + 2 ^ k) * q := by
      rw [hay] at h1q
      linarith
    exact le_of_mul_le_mul_right h' hqpos
  have e2 : 2 * (r * 2 ^ k) ≤ 2 * y + (2 : ℚ) ^ k := by
    have h' : (2 * (r * 2 ^ k)) * q ≤ (2 * y + (2 : ℚ) ^ k) * q := by
      rw [hay] at h2q
      linarith
    exact le_of_mul_le_mul_right h' hqpos
  rw [← hy]
  have herr : |((r * 2 ^ k : Nat) : ℚ) - y| ≤ (2 : ℚ) ^ k / 2 := by
    rw [abs_le]
    push_cast
    constructor <;> linarith
  have ha0 : (0 : ℚ) ≤ y := by rw [hy]; positivity
  refine le_trans herr ?_
  rcases hk with h0 | hbig
  · rw [h0]
    have : (0 : ℚ) ≤ y / 2 ^ (t + 1) := by positivity
    norm_num
    linarith
  · have hv : ((2 : ℚ) ^ (t + k)) ≤ y := by
      have h3 : (2 ^ (t + k) : Nat) * q ≤ a := (Nat.le_div_iff_mul_le hq).mp hbig
      rw [hy, le_div_iff₀ hqpos]
      exact_mod_cast h3
    have e : (2 : ℚ) ^ k / 2 = 2 ^ (t + k) / 2 ^ (t + 1) := by
      rw [pow_add, pow_add]
      field_simp
      ring
    rw [e]
    have : (2 : ℚ) ^ (t + k) / 2 ^ (t + 1) ≤ y / 2 ^ (t + 1) :=
      div_le_div_of_nonneg_right hv (by positivity)
    linarith

set_option exponentiation.threshold 10000 in
/-- Rounding to binary32 of a value of magnitude at most `2^276` units
(`2^127`): the result is finite, and within the value over `2^24` plus half a
unit of the value. -/
theorem round_q (p : Int) (q : Nat) (hq : 0 < q) (hB : p.natAbs ≤ 2 ^ 276 * q) :
    ∃ n : Int, round p q = fin n ∧
      |(n : ℚ) - (p : ℚ) / (q : ℚ)| ≤ |(p : ℚ) / (q : ℚ)| / 2 ^ 24 + 1 / 2 := by
  have hv : p.natAbs / q ≤ 2 ^ 276 := Nat.div_le_of_le_mul (by rw [Nat.mul_comm]; exact hB)
  have hmin := ulpExp_min (p.natAbs / q) 254 0
  have hkj : ulpExp (p.natAbs / q) 254 0 ≤ 276 := by
    rcases hmin with h0 | h
    · omega
    · by_contra hlt
      have h1 : (2 : Nat) ^ 277 ≤ 2 ^ (23 + ulpExp (p.natAbs / q) 254 0) :=
        Nat.pow_le_pow_right (by decide) (by omega)
      have h2 : (2 : Nat) ^ 276 < 2 ^ 277 := Nat.pow_lt_pow_right (by decide) (by decide)
      omega
  have hN := roundHalfEven_bound p.natAbs q (ulpExp (p.natAbs / q) 254 0) 1 276 hq hkj
    (by omega)
  have hnot : ¬ (2 ^ 128 * one ≤
      roundHalfEven p.natAbs (q * 2 ^ ulpExp (p.natAbs / q) 254 0)
        * 2 ^ ulpExp (p.natAbs / q) 254 0) := by
    have e : 2 ^ 128 * one = 2 ^ 277 := by
      rw [one, ← Nat.pow_add]
    have h2 : (2 : Nat) ^ 276 < 2 ^ 277 := Nat.pow_lt_pow_right (by decide) (by decide)
    omega
  have hround : round p q
      = fin (if p < 0 then
          -((roundHalfEven p.natAbs (q * 2 ^ ulpExp (p.natAbs / q) 254 0)
            * 2 ^ ulpExp (p.natAbs / q) 254 0 : Nat) : Int)
        else ((roundHalfEven p.natAbs (q * 2 ^ ulpExp (p.natAbs / q) 254 0)
            * 2 ^ ulpExp (p.natAbs / q) 254 0 : Nat) : Int)) := by
    simp only [round, if_neg hnot]
  have hcore := round_core 23 p.natAbs q (ulpExp (p.natAbs / q) 254 0) hq
    (by rcases hmin with h | h
        · exact Or.inl h
        · exact Or.inr h)
  generalize roundHalfEven p.natAbs (q * 2 ^ ulpExp (p.natAbs / q) 254 0)
    * 2 ^ ulpExp (p.natAbs / q) 254 0 = N at hround hcore
  have hqpos : (0 : ℚ) < (q : ℚ) := by exact_mod_cast hq
  rw [hround]
  by_cases hneg : p < 0
  · refine ⟨-(N : Int), by rw [if_pos hneg], ?_⟩
    have hp : (p : ℚ) = -((p.natAbs : Nat) : ℚ) := by
      have h1 : ((p.natAbs : Nat) : Int) = -p := by omega
      rw [← Int.cast_natCast, h1]
      push_cast
      ring
    rw [hp, neg_div, abs_neg, abs_of_nonneg (by positivity : (0 : ℚ) ≤ (p.natAbs : ℚ) / q)]
    push_cast
    rw [neg_sub_neg, abs_sub_comm]
    exact hcore
  · refine ⟨(N : Int), by rw [if_neg hneg], ?_⟩
    have hp : (p : ℚ) = ((p.natAbs : Nat) : ℚ) := by
      have h1 : ((p.natAbs : Nat) : Int) = p := by omega
      rw [← Int.cast_natCast, h1]
    rw [hp, abs_of_nonneg (by positivity : (0 : ℚ) ≤ (p.natAbs : ℚ) / q)]
    push_cast
    exact hcore

end F32

namespace F64

set_option exponentiation.threshold 10000 in
/-- Rounding to binary64 of a value of magnitude at most `2^2097` units
(`2^1023`): the result is finite, and within the value over `2^53` plus half a
unit of the value. -/
theorem round_q64 (p : Int) (q : Nat) (hq : 0 < q) (hB : p.natAbs ≤ 2 ^ 2097 * q) :
    ∃ n : Int, round p q = fin n ∧
      |(n : ℚ) - (p : ℚ) / (q : ℚ)| ≤ |(p : ℚ) / (q : ℚ)| / 2 ^ 53 + 1 / 2 := by
  have hv : p.natAbs / q ≤ 2 ^ 2097 := Nat.div_le_of_le_mul (by rw [Nat.mul_comm]; exact hB)
  have hmin := ulpExp_min64 (p.natAbs / q)
  have hkj : ulpExp (p.natAbs / q) ≤ 2097 := by
    rcases hmin with h0 | h
    · omega
    · by_contra hlt
      have h1 : (2 : Nat) ^ 2098 ≤ 2 ^ (52 + ulpExp (p.natAbs / q)) :=
        Nat.pow_le_pow_right (by decide) (by omega)
      have h2 : (2 : Nat) ^ 2097 < 2 ^ 2098 := Nat.pow_lt_pow_right (by decide) (by decide)
      omega
  have hN := F32.roundHalfEven_bound p.natAbs q (ulpExp (p.natAbs / q)) 1 2097 hq hkj
    (by omega)
  have hnot : ¬ (2 ^ 1024 * one ≤
      F32.roundHalfEven p.natAbs (q * 2 ^ ulpExp (p.natAbs / q))
        * 2 ^ ulpExp (p.natAbs / q)) := by
    have e : 2 ^ 1024 * one = 2 ^ 2098 := by
      rw [one, ← Nat.pow_add]
    have h2 : (2 : Nat) ^ 2097 < 2 ^ 2098 := Nat.pow_lt_pow_right (by decide) (by decide)
    omega
  have hround : round p q
      = fin (if p < 0 then
          -((F32.roundHalfEven p.natAbs (q * 2 ^ ulpExp (p.natAbs / q))
            * 2 ^ ulpExp (p.natAbs / q) : Nat) : Int)
        else ((F32.roundHalfEven p.natAbs (q * 2 ^ ulpExp (p.natAbs / q))
            * 2 ^ ulpExp (p.natAbs / q) : Nat) : Int)) := by
    simp only [round, if_neg hnot]
  have hcore := F32.round_core 52 p.natAbs q (ulpExp (p.natAbs / q)) hq
    (by rcases hmin with h | h
        · exact Or.inl h
        · exact Or.inr h)
  generalize F32.roundHalfEven p.natAbs (q * 2 ^ ulpExp (p.natAbs / q))
    * 2 ^ ulpExp (p.natAbs / q) = N at hround hcore
  have hqpos : (0 : ℚ) < (q : ℚ) := by exact_mod_cast hq
  rw [hround]
  by_cases hneg : p < 0
  · refine ⟨-(N : Int), by rw [if_pos hneg], ?_⟩
    have hp : (p : ℚ) = -((p.natAbs : Nat) : ℚ) := by
      have h1 : ((p.natAbs : Nat) : Int) = -p := by omega
      rw [← Int.cast_natCast, h1]
      push_cast
      ring
    rw [hp, neg_div, abs_neg, abs_of_nonneg (by positivity : (0 : ℚ) ≤ (p.natAbs : ℚ) / q)]
    push_cast
    rw [neg_sub_neg, abs_sub_comm]
    exact hcore
  · refine ⟨(N : Int), by rw [if_neg hneg], ?_⟩
    have hp : (p : ℚ) = ((p.natAbs : Nat) : ℚ) := by
      have h1 : ((p.natAbs : Nat) : Int) = p := by omega
      rw [← Int.cast_natCast, h1]
    rw [hp, abs_of_nonneg (by positivity : (0 : ℚ) ≤ (p.natAbs : ℚ) / q)]
    push_cast
    exact hcore

end F64

namespace F32

/-- A bound on the magnitude of a quotient as a bound on the numerator. -/
theorem natAbs_le_of_abs_le (p : Int) (q K : Nat) (hq : 0 < q)
    (h : |(p : ℚ) / (q : ℚ)| ≤ 2 ^ K) : p.natAbs ≤ 2 ^ K * q := by
  have hqpos : (0 : ℚ) < (q : ℚ) := by exact_mod_cast hq
  rw [abs_div, abs_of_pos hqpos, div_le_iff₀ hqpos] at h
  have e : ((p.natAbs : Nat) : ℚ) = |(p : ℚ)| := by
    rw [← Int.cast_abs, ← Int.natCast_natAbs, Int.cast_natCast]
  rw [← e] at h
  exact_mod_cast h

set_option exponentiation.threshold 10000 in
/-- Rounding to binary32 of a value of magnitude at most `B ≤ 2^276` units:
the result is finite and within `B / 2^24 + 1/2` units of the value. -/
theorem round_B (p : Int) (q : Nat) (B : ℚ) (hq : 0 < q) (hB : B ≤ 2 ^ 276)
    (h : |(p : ℚ) / (q : ℚ)| ≤ B) :
    ∃ n : Int, round p q = fin n ∧ |(n : ℚ) - (p : ℚ) / (q : ℚ)| ≤ B / 2 ^ 24 + 1 / 2 := by
  obtain ⟨n, hn, herr⟩ := round_q p q hq (natAbs_le_of_abs_le p q 276 hq (le_trans h hB))
  refine ⟨n, hn, le_trans herr ?_⟩
  have : |(p : ℚ) / (q : ℚ)| / 2 ^ 24 ≤ B / 2 ^ 24 :=
    div_le_div_of_nonneg_right h (by positivity)
  linarith

/-- Single-precision addition of finite numbers, with its rounding error. -/
theorem add_B (a b : Int) (B : ℚ) (hB : B ≤ 2 ^ 276) (h : |(a : ℚ) + (b : ℚ)| ≤ B) :
    ∃ n : Int, add (fin a) (fin b) = fin n ∧
      |(n : ℚ) - ((a : ℚ) + (b : ℚ))| ≤ B / 2 ^ 24 + 1 / 2 := by
  have e : ((a + b : Int) : ℚ) / ((1 : Nat) : ℚ) = (a : ℚ) + (b : ℚ) := by
    push_cast; ring
  obtain ⟨n, hn, herr⟩ := round_B (a + b) 1 B (by decide) hB (by rw [e]; exact h)
  rw [e] at herr
  exact ⟨n, hn, herr⟩

/-- Single-precision subtraction of finite numbers, with its rounding
error. -/
theorem sub_B (a b : Int) (B : ℚ) (hB : B ≤ 2 ^ 276) (h : |(a : ℚ) - (b : ℚ)| ≤ B) :
    ∃ n : Int, sub (fin a) (fin b) = fin n ∧
      |(n : ℚ) - ((a : ℚ) - (b : ℚ))| ≤ B / 2 ^ 24 + 1 / 2 := by
  have e : (a : ℚ) + ((-b : Int) : ℚ) = (a : ℚ) - (b : ℚ) := by
    push_cast; ring
  obtain ⟨n, hn, herr⟩ := add_B a (-b) B hB (by rw [e]; exact h)
  rw [e] at herr
  exact ⟨n, hn, herr⟩

/-- Single-precision multiplication of finite numbers, with its rounding
error; the values are in units of `2^(-149)`. -/
theorem mul_B (a b : Int) (B : ℚ) (hB : B ≤ 2 ^ 276)
    (h : |(a : ℚ) * (b : ℚ) / 2 ^ 149| ≤ B) :
    ∃ n : Int, mul (fin a) (fin b) = fin n ∧
      |(n : ℚ) - (a : ℚ) * (b : ℚ) / 2 ^ 149| ≤ B / 2 ^ 24 + 1 / 2 := by
  have e : ((a * b : Int) : ℚ) / ((one : Nat) : ℚ) = (a : ℚ) * (b : ℚ) / 2 ^ 149 := by
    rw [one]; push_cast; ring
  obtain ⟨n, hn, herr⟩ := round_B (a * b) one B (Nat.two_pow_pos _) hB (by rw [e]; exact h)
  rw [e] at herr
  exact ⟨n, hn, herr⟩

/-- Single-precision division of a finite number by a positive finite number,
with its rounding error; the values are in units of `2^(-149)`. -/
theorem div_B (a : Int) (d : Nat) (B : ℚ) (hd : 0 < d) (hB : B ≤ 2 ^ 276)
    (h : |(a : ℚ) * 2 ^ 149 / (d : ℚ)| ≤ B) :
    ∃ n : Int, div (fin a) (fin (d : Int)) = fin n ∧
      |(n : ℚ) - (a : ℚ) * 2 ^ 149 / (d : ℚ)| ≤ B / 2 ^ 24 + 1 / 2 := by
  have h0 : ¬ ((d : Int) = 0) := by omega
  have h1 : ¬ ((d : Int) < 0) := by omega
  have hdiv : div (fin a) (fin (d : Int)) = round (a * (one : Int)) d := by
    simp only [div, if_neg h0, if_neg h1, Int.natAbs_ofNat]
  have e : ((a * (one : Int) : Int) : ℚ) / ((d : Nat) : ℚ) = (a : ℚ) * 2 ^ 149 / (d : ℚ) := by
    rw [one]; push_cast; ring
  obtain ⟨n, hn, herr⟩ := round_B (a * (one : Int)) d B hd hB (by rw [e]; exact h)
  rw [e] at herr
  exact ⟨n, hdiv.trans hn, herr⟩

set_option exponentiation.threshold 10000 in
/-- The conversion of an `unsigned` below `2^24` to `float` is exact. -/
theorem ofNat_exact (m : Nat) (hm : m < 2 ^ 24) : ofNat m = fin ((m * one : Nat) : Int) := by
  have hk : ulpExp (m * one) 254 0 ≤ 149 := by
    apply ulpExp_le_of_lt (m * one) 149 254 0 (Nat.zero_le _)
    have : m * one < 2 ^ 24 * one := Nat.mul_lt_mul_of_pos_right hm (Nat.two_pow_pos _)
    rw [one, ← Nat.pow_add] at this
    rw [one]
    exact this
  have hdvd : 2 ^ ulpExp (m * one) 254 0 ∣ m * one := by
    have h1 : 2 ^ ulpExp (m * one) 254 0 ∣ 2 ^ 149 := Nat.pow_dvd_pow 2 hk
    exact Dvd.dvd.mul_left h1 m
  have hfin : m * one < 2 ^ 128 * one :=
    Nat.mul_lt_mul_of_pos_right (lt_trans hm (by decide)) (Nat.two_pow_pos _)
  have h := round_exact (m * one) 1 (by decide) hdvd hfin
  rw [Nat.mul_one] at h
  exact h

end F32

namespace F64

set_option exponentiation.threshold 10000 in
/-- Rounding to binary64 of a value of magnitude at most `B · 2^925` units
with `1 ≤ B ≤ 2^276`: the result is finite and, in units of `2^(-149)`,
within `B / 2^52` of the value. -/
theorem round_B64 (p : Int) (q : Nat) (B : ℚ) (hq : 0 < q) (hB1 : 1 ≤ B) (hB : B ≤ 2 ^ 276)
    (h : |(p : ℚ) / (q : ℚ) / 2 ^ 925| ≤ B) :
    ∃ n : Int, round p q = fin n ∧
      |(n : ℚ) / 2 ^ 925 - (p : ℚ) / (q : ℚ) / 2 ^ 925| ≤ B / 2 ^ 52 := by
  have hs : (0 : ℚ) < 2 ^ 925 := by positivity
  have hx : |(p : ℚ) / (q : ℚ)| ≤ B * 2 ^ 925 := by
    rw [abs_div, abs_of_pos hs, div_le_iff₀ hs] at h
    exact h
  have hcap : |(p : ℚ) / (q : ℚ)| ≤ 2 ^ 2097 := by
    have h1 : B * 2 ^ 925 ≤ 2 ^ 276 * 2 ^ 925 := mul_le_mul_of_nonneg_right hB hs.le
    have h2 : (2 : ℚ) ^ 276 * 2 ^ 925 ≤ 2 ^ 2097 := by
      rw [← pow_add]
      exact pow_le_pow_right₀ (by norm_num) (by norm_num)
    linarith
  obtain ⟨n, hn, herr⟩ := round_q64 p q hq (F32.natAbs_le_of_abs_le p q 2097 hq hcap)
  refine ⟨n, hn, ?_⟩
  rw [← sub_div, abs_div, abs_of_pos hs, div_le_iff₀ hs]
  refine le_trans herr ?_
  have h3 : |(p : ℚ) / (q : ℚ)| / 2 ^ 53 ≤ B * 2 ^ 925 / 2 ^ 53 :=
    div_le_div_of_nonneg_right hx (by positivity)
  have h4 : (1 : ℚ) / 2 ≤ B * 2 ^ 925 / 2 ^ 53 := by
    have h5 : (2 : ℚ) ^ 925 / 2 ^ 53 ≤ B * 2 ^ 925 / 2 ^ 53 :=
      div_le_div_of_nonneg_right (by nlinarith) (by positivity)
    have h6 : (1 : ℚ) / 2 ≤ 2 ^ 925 / 2 ^ 53 := by
      have h7 : (1 : ℚ) ≤ 2 ^ 925 / 2 ^ 53 := by
        rw [le_div_iff₀ (by positivity), one_mul]
        exact pow_le_pow_right₀ (by norm_num) (by norm_num)
      linarith
    linarith
  have e : B / 2 ^ 52 * 2 ^ 925 = B * 2 ^ 925 / 2 ^ 53 + B * 2 ^ 925 / 2 ^ 53 := by
    have : (2 : ℚ) ^ 53 = 2 * 2 ^ 52 := by rw [pow_succ]; ring
    rw [this]
    field_simp
    ring
  rw [e]
  linarith

/-- Double-precision addition of finite numbers, with its rounding error in
units of `2^(-149)`. -/
theorem add_B64 (a b : Int) (B : ℚ) (hB1 : 1 ≤ B) (hB : B ≤ 2 ^ 276)
    (h : |(a : ℚ) / 2 ^ 925 + (b : ℚ) / 2 ^ 925| ≤ B) :
    ∃ n : Int, add (fin a) (fin b) = fin n ∧
      |(n : ℚ) / 2 ^ 925 - ((a : ℚ) / 2 ^ 925 + (b : ℚ) / 2 ^ 925)| ≤ B / 2 ^ 52 := by
  have e : ((a + b : Int) : ℚ) / ((1 : Nat) : ℚ) / 2 ^ 925
      = (a : ℚ) / 2 ^ 925 + (b : ℚ) / 2 ^ 925 := by
    push_cast; ring
  obtain ⟨n, hn, herr⟩ := round_B64 (a + b) 1 B (by decide) hB1 hB (by rw [e]; exact h)
  rw [e] at herr
  exact ⟨n, hn, herr⟩

/-- Double-precision subtraction of finite numbers, with its rounding error
in units of `2^(-149)`. -/
theorem sub_B64 (a b : Int) (B : ℚ) (hB1 : 1 ≤ B) (hB : B ≤ 2 ^ 276)
    (h : |(a : ℚ) / 2 ^ 925 - (b : ℚ) / 2 ^ 925| ≤ B) :
    ∃ n : Int, sub (fin a) (fin b) = fin n ∧
      |(n : ℚ) / 2 ^ 925 - ((a : ℚ) / 2 ^ 925 - (b : ℚ) / 2 ^ 925)| ≤ B / 2 ^ 52 := by
  have e : (a : ℚ) / 2 ^ 925 + ((-b : Int) : ℚ) / 2 ^ 925
      = (a : ℚ) / 2 ^ 925 - (b : ℚ) / 2 ^ 925 := by
    push_cast; ring
  obtain ⟨n, hn, herr⟩ := add_B64 a (-b) B hB1 hB (by rw [e]; exact h)
  rw [e] at herr
  exact ⟨n, hn, herr⟩

set_option exponentiation.threshold 10000 in
/-- Double-precision multiplication of finite numbers, with its rounding
error in units of `2^(-149)`; the factors are in units of `2^(-1074)`. -/
theorem mul_B64 (a b : Int) (B : ℚ) (hB1 : 1 ≤ B) (hB : B ≤ 2 ^ 276)
    (h : |(a : ℚ) * (b : ℚ) / 2 ^ 1074 / 2 ^ 925| ≤ B) :
    ∃ n : Int, mul (fin a) (fin b) = fin n ∧
      |(n : ℚ) / 2 ^ 925 - (a : ℚ) * (b : ℚ) / 2 ^ 1074 / 2 ^ 925| ≤ B / 2 ^ 52 := by
  have e : ((a * b : Int) : ℚ) / ((one : Nat) : ℚ) / 2 ^ 925
      = (a : ℚ) * (b : ℚ) / 2 ^ 1074 / 2 ^ 925 := by
    rw [one]; push_cast; ring
  obtain ⟨n, hn, herr⟩ := round_B64 (a * b) one B (Nat.two_pow_pos _) hB1 hB
    (by rw [e]; exact h)
  rw [e] at herr
  exact ⟨n, hn, herr⟩

set_option exponentiation.threshold 10000 in
/-- Double-precision division of a finite number by a positive finite
number, with its rounding error in units of `2^(-149)`. -/
theorem div_B64 (a : Int) (d : Nat) (B : ℚ) (hd : 0 < d) (hB1 : 1 ≤ B) (hB : B ≤ 2 ^ 276)
    (h : |(a : ℚ) * 2 ^ 1074 / (d : ℚ) / 2 ^ 925| ≤ B) :
    ∃ n : Int, div (fin a) (fin (d : Int)) = fin n ∧
      |(n : ℚ) / 2 ^ 925 - (a : ℚ) * 2 ^ 1074 / (d : ℚ) / 2 ^ 925| ≤ B / 2 ^ 52 := by
  have h0 : ¬ ((d : Int) = 0) := by omega
  have h1 : ¬ ((d : Int) < 0) := by omega
  have hdiv : div (fin a) (fin (d : Int)) = round (a * (one : Int)) d := by
    simp only [div, if_neg h0, if_neg h1, Int.natAbs_ofNat]
  have e : ((a * (one : Int) : Int) : ℚ) / ((d : Nat) : ℚ) / 2 ^ 925
      = (a : ℚ) * 2 ^ 1074 / (d : ℚ) / 2 ^ 925 := by
    rw [one]; push_cast; ring
  obtain ⟨n, hn, herr⟩ := round_B64 (a * (one : Int)) d B hd hB1 hB (by rw [e]; exact h)
  rw [e] at herr
  exact ⟨n, hdiv.trans hn, herr⟩

set_option exponentiation.threshold 10000 in
/-- The conversion of a finite `double` to `float`, with its rounding error
in units of `2^(-149)`. -/
theorem toF32_B (a : Int) (B : ℚ) (hB : B ≤ 2 ^ 276) (h : |(a : ℚ) / 2 ^ 925| ≤ B) :
    ∃ n : Int, toF32 (fin a) = F32.fin n ∧
      |(n : ℚ) - (a : ℚ) / 2 ^ 925| ≤ B / 2 ^ 24 + 1 / 2 := by
  have e : (a : ℚ) / ((2 ^ 925 : Nat) : ℚ) = (a : ℚ) / 2 ^ 925 := by
    push_cast; ring
  obtain ⟨n, hn, herr⟩ := F32.round_B a (2 ^ 925) B (Nat.two_pow_pos _) hB
    (by rw [e]; exact h)
  rw [e] at herr
  exact ⟨n, hn, herr⟩

set_option exponentiation.threshold 10000 in
/-- The conversion of an `unsigned` to `double` is exact. -/
theorem ofNat_exact64 (m : Nat) (hm : m < 2 ^ 53) :
    ofNat m = fin ((m * one : Nat) : Int) := by
  have hlt : m * one < 2 ^ 1127 := by
    have : m * one < 2 ^ 53 * one := Nat.mul_lt_mul_of_pos_right hm (Nat.two_pow_pos _)
    rw [one, ← Nat.pow_add] at this
    rw [one]
    exact this
  have hk : ulpExp (m * one) ≤ 1074 := by
    rcases ulpExp_min64 (m * one) with h0 | h
    · omega
    · by_contra hgt
      have h1 : (2 : Nat) ^ 1127 ≤ 2 ^ (52 + ulpExp (m * one)) :=
        Nat.pow_le_pow_right (by decide) (by omega)
      omega
  have hdvd : 2 ^ ulpExp (m * one) ∣ m * one := by
    have h1 : 2 ^ ulpExp (m * one) ∣ 2 ^ 1074 := Nat.pow_dvd_pow 2 hk
    exact Dvd.dvd.mul_left h1 m
  unfold ofNat round
  simp only [Int.natAbs_ofNat, Nat.div_one, Nat.one_mul]
  generalize ulpExp (m * one) = K at hdvd
  obtain ⟨c, hc⟩ := hdvd
  have hpos : 0 < 2 ^ K := Nat.two_pow_pos _
  have hn : F32.roundHalfEven (m * one) (2 ^ K) * 2 ^ K = m * one := by
    rw [hc, Nat.mul_comm (2 ^ K) c, F32.roundHalfEven_exact c _ hpos]
  simp only [hn]
  have hfin : ¬ (2 ^ 1024 * one ≤ m * one) := by
    have e : 2 ^ 1024 * one = 2 ^ 2098 := by rw [one, ← Nat.pow_add]
    have : (2 : Nat) ^ 1127 < 2 ^ 2098 := Nat.pow_lt_pow_right (by decide) (by decide)
    omega
  rw [if_neg hfin, if_neg (by omega)]

end F64

/-! ## The rounding error of the kernel's coordinates and of the sprite positions -/

set_option exponentiation.threshold 10000 in
/-- The bounds `c - W * 0.5` and `c + W * 0.5` of a region along one axis, in
`double`: for the centre `c` and the size `W ≥ 0` (the `double`s `cx` and `w`
units of `2^(-1074)`) with `|c| + W ≤ T` units of `2^(-149)`, both are finite
and within `T / 2^49` units of `2^(-149)` of the exact value. -/
theorem region_bounds_err (cx w : Int) (T : ℚ) (hw : 0 ≤ w) (hT1 : 2 ^ 48 ≤ T)
    (hT2 : T ≤ 2 ^ 270) (hM : |(cx : ℚ)| / 2 ^ 925 + (w : ℚ) / 2 ^ 925 ≤ T) :
    ∃ l1 r1 : Int,
      F64.sub (F64.fin cx) (F64.mul (F64.fin w) F64.half) = F64.fin l1 ∧
      F64.add (F64.fin cx) (F64.mul (F64.fin w) F64.half) = F64.fin r1 ∧
      |(l1 : ℚ) / 2 ^ 925 - ((cx : ℚ) / 2 ^ 925 - (w : ℚ) / 2 ^ 925 / 2)| ≤ T / 2 ^ 49 ∧
      |(r1 : ℚ) / 2 ^ 925 - ((cx : ℚ) / 2 ^ 925 + (w : ℚ) / 2 ^ 925 / 2)| ≤ T / 2 ^ 49 := by
  have hT1' : (281474976710656 : ℚ) ≤ T := by norm_num at hT1; exact hT1
  obtain ⟨C, hC⟩ : ∃ C : ℚ, C = 2 ^ 270 := ⟨_, rfl⟩
  have hC276 : (2 : ℚ) ^ 276 = 64 * C := by
    have h6 : (2 : ℚ) ^ 6 = 64 := by norm_num
    rw [hC, show (276 : ℕ) = 6 + 270 from rfl, pow_add, h6]
  rw [← hC] at hT2
  have hs : (0 : ℚ) < 2 ^ 925 := pow_pos (by norm_num) _
  obtain ⟨c, hc⟩ : ∃ c : ℚ, c = (cx : ℚ) / 2 ^ 925 := ⟨_, rfl⟩
  obtain ⟨W, hW⟩ : ∃ W : ℚ, W = (w : ℚ) / 2 ^ 925 := ⟨_, rfl⟩
  have hW0 : 0 ≤ W := by
    rw [hW]
    have : (0 : ℚ) ≤ (w : ℚ) := by exact_mod_cast hw
    exact div_nonneg this hs.le
  have hcW : |c| + W ≤ T := by
    rw [hc, hW, abs_div, abs_of_pos hs]
    exact hM
  obtain ⟨hc1, hc2⟩ := abs_le.mp (by linarith only [hcW] : |c| ≤ T - W)
  rw [← hc, ← hW]
  have ehalf : (w : ℚ) * (((2 ^ 1073 : Nat) : Int) : ℚ) / 2 ^ 1074 / 2 ^ 925 = W / 2 := by
    have e1 : (((2 ^ 1073 : Nat) : Int) : ℚ) = 2 ^ 1073 := by
      rw [Int.cast_natCast, Nat.cast_pow, Nat.cast_ofNat]
    have e2 : (2 : ℚ) ^ 1074 = 2 ^ 1073 * 2 := by
      rw [show (1074 : ℕ) = 1073 + 1 from rfl, pow_succ]
    have hP : (0 : ℚ) < 2 ^ 1073 := pow_pos (by norm_num) _
    rw [hW, e1, e2]
    generalize (2 : ℚ) ^ 1073 = P at hP
    generalize (2 : ℚ) ^ 925 = S at hs
    field_simp
    ring
  obtain ⟨h1, hh1, he1⟩ := F64.mul_B64 w ((2 ^ 1073 : Nat) : Int) (4 * T)
    (by linarith only [hT1']) (by rw [hC276]; linarith only [hT2, hT1'])
    (by rw [ehalf, abs_of_nonneg (by linarith only [hW0])]; linarith only [hW0, hcW, abs_nonneg c])
  rw [ehalf] at he1
  have hhalf : F64.half = F64.fin ((2 ^ 1073 : Nat) : Int) := rfl
  rw [hhalf, hh1]
  obtain ⟨g1, hg1⟩ : ∃ g1 : ℚ, g1 = (h1 : ℚ) / 2 ^ 925 := ⟨_, rfl⟩
  rw [← hg1] at he1
  obtain ⟨he1a, he1b⟩ := abs_le.mp he1
  have hsmall : 4 * T / 2 ^ 52 ≤ T := by
    rw [div_le_iff₀ (by positivity)]
    have : (1 : ℚ) ≤ 2 ^ 52 := one_le_pow₀ (by norm_num)
    nlinarith only [this, hT1']
  obtain ⟨l1, hl1, hel1⟩ := F64.sub_B64 cx h1 (4 * T) (by linarith only [hT1'])
    (by rw [hC276]; linarith only [hT2, hT1'])
    (by rw [← hc, ← hg1]
        exact abs_le.mpr ⟨by linarith only [hc1, he1b, hW0, hsmall],
          by linarith only [hc2, he1a, hW0, hsmall, hT1']⟩)
  obtain ⟨r1, hr1, her1⟩ := F64.add_B64 cx h1 (4 * T) (by linarith only [hT1'])
    (by rw [hC276]; linarith only [hT2, hT1'])
    (by rw [← hc, ← hg1]
        exact abs_le.mpr ⟨by linarith only [hc1, he1a, hW0, hsmall, hT1'],
          by linarith only [hc2, he1b, hW0, hsmall]⟩)
  rw [← hc, ← hg1] at hel1 her1
  obtain ⟨hel1a, hel1b⟩ := abs_le.mp hel1
  obtain ⟨her1a, her1b⟩ := abs_le.mp her1
  have e49 : T / 2 ^ 49 = 2 * (4 * T / 2 ^ 52) := by
    rw [show (52 : ℕ) = 49 + 3 from rfl, pow_add]
    field_simp
    ring
  refine ⟨l1, r1, hl1, hr1, ?_, ?_⟩
  · rw [e49]
    exact abs_le.mpr ⟨by linarith only [hel1a, he1b], by linarith only [hel1b, he1a]⟩
  · rw [e49]
    exact abs_le.mpr ⟨by linarith only [her1a, he1a], by linarith only [her1b, he1b]⟩

set_option exponentiation.threshold 10000 in
/-- Narrowing a `double` that is within `T / 2^32` units of a value `L` with
`|L| ≤ T` to `float` gives a finite number within `(9/8) · T / 2^24` units
of `L`. -/
theorem narrow_err (l1 : Int) (L T : ℚ) (hT1 : 2 ^ 48 ≤ T) (hT2 : T ≤ 2 ^ 270)
    (hL : |L| ≤ T) (h : |(l1 : ℚ) / 2 ^ 925 - L| ≤ T / 2 ^ 32) :
    ∃ a : Int, F64.toF32 (F64.fin l1) = F32.fin a ∧ |(a : ℚ) - L| ≤ 9 / 8 * (T / 2 ^ 24) := by
  have hT1' : (281474976710656 : ℚ) ≤ T := by norm_num at hT1; exact hT1
  obtain ⟨C, hC⟩ : ∃ C : ℚ, C = 2 ^ 270 := ⟨_, rfl⟩
  have hC276 : (2 : ℚ) ^ 276 = 64 * C := by
    have h6 : (2 : ℚ) ^ 6 = 64 := by norm_num
    rw [hC, show (276 : ℕ) = 6 + 270 from rfl, pow_add, h6]
  rw [← hC] at hT2
  have hs : (0 : ℚ) < 2 ^ 925 := pow_pos (by norm_num) _
  obtain ⟨hL1, hL2⟩ := abs_le.mp hL
  obtain ⟨h1, h2⟩ := abs_le.mp h
  obtain ⟨lq, hlq⟩ : ∃ lq : ℚ, lq = (l1 : ℚ) / 2 ^ 925 := ⟨_, rfl⟩
  rw [← hlq] at h1 h2
  obtain ⟨a, ha, hea⟩ := F64.toF32_B l1 (T + T / 2 ^ 32)
    (by rw [hC276]; norm_num; linarith only [hT2, hT1'])
    (by rw [← hlq]
        exact abs_le.mpr ⟨by linarith only [h1, hL1], by linarith only [h2, hL2]⟩)
  rw [← hlq] at hea
  refine ⟨a, ha, ?_⟩
  obtain ⟨hea1, hea2⟩ := abs_le.mp hea
  norm_num at hea1 hea2 h1 h2 ⊢
  exact abs_le.mpr ⟨by linarith only [hea1, h1, hT1'], by linarith only [hea2, h2, hT1']⟩

set_option exponentiation.threshold 10000 in
/-- The kernel's `float` expression `lo + (hi - lo) / D * px` for `float`s `lo`
and `hi` within `(9/8) · T / 2^24` units of `L` and `L + W`, with `0 ≤ W ≤ T`,
`|L| ≤ T`, `|L + W| ≤ T`, `D < 2^24` and `px ≤ D`: it is finite and within
`T / 2^20` units of `L + W * px / D`. -/
theorem kernel_float_err (a b : Int) (L W T : ℚ) (D px : Nat) (hT1 : 2 ^ 48 ≤ T)
    (hT2 : T ≤ 2 ^ 270) (hW0 : 0 ≤ W) (hWT : W ≤ T) (hL : |L| ≤ T) (hR : |L + W| ≤ T)
    (ha : |(a : ℚ) - L| ≤ 9 / 8 * (T / 2 ^ 24))
    (hb : |(b : ℚ) - (L + W)| ≤ 9 / 8 * (T / 2 ^ 24))
    (hD : 0 < D) (hD2 : D < 2 ^ 24) (hpx : px ≤ D) :
    ∃ n : Int,
      F32.add (F32.fin a)
        (F32.mul (F32.div (F32.sub (F32.fin b) (F32.fin a)) (F32.ofNat D)) (F32.ofNat px))
        = F32.fin n ∧
      |(n : ℚ) - (L + W * (px : ℚ) / (D : ℚ))| ≤ T / 2 ^ 20 := by
  obtain ⟨C, hC⟩ : ∃ C : ℚ, C = 2 ^ 270 := ⟨_, rfl⟩
  have hC276 : (2 : ℚ) ^ 276 = 64 * C := by
    have h6 : (2 : ℚ) ^ 6 = 64 := by norm_num
    rw [hC, show (276 : ℕ) = 6 + 270 from rfl, pow_add, h6]
  rw [← hC] at hT2
  obtain ⟨E, hE⟩ : ∃ E : ℚ, E = T / 2 ^ 24 := ⟨_, rfl⟩
  have hTE : T = 16777216 * E := by rw [hE]; norm_num; ring
  have hE1 : (16777216 : ℚ) ≤ E := by
    rw [hE]; norm_num at hT1 ⊢; linarith only [hT1]
  rw [← hE] at ha hb
  have e20 : T / 2 ^ 20 = 16 * E := by rw [hTE]; norm_num; ring
  rw [e20]
  obtain ⟨hL1, hL2⟩ := abs_le.mp hL
  obtain ⟨hR1, hR2⟩ := abs_le.mp hR
  obtain ⟨ha1, ha2⟩ := abs_le.mp ha
  obtain ⟨hb1, hb2⟩ := abs_le.mp hb
  have hDq : (0 : ℚ) < (D : ℚ) := by exact_mod_cast hD
  have hDq1 : (1 : ℚ) ≤ (D : ℚ) := by exact_mod_cast hD
  have hDq2 : (D : ℚ) ≤ 16777216 := by
    have : D ≤ 16777216 := by
      have : (2 : Nat) ^ 24 = 16777216 := by norm_num
      omega
    exact_mod_cast this
  obtain ⟨t, ht⟩ : ∃ t : ℚ, t = (px : ℚ) / (D : ℚ) := ⟨_, rfl⟩
  have hpxq : (px : ℚ) ≤ (D : ℚ) := by exact_mod_cast hpx
  have hpx0 : (0 : ℚ) ≤ (px : ℚ) := Nat.cast_nonneg px
  have ht0 : 0 ≤ t := by rw [ht]; exact div_nonneg hpx0 hDq.le
  have ht1 : t ≤ 1 := by rw [ht, div_le_one hDq]; exact hpxq
  -- `hi - lo`
  obtain ⟨sp, hsp, hesp⟩ := F32.sub_B b a (W + 9 / 4 * E)
    (by rw [hC276]; linarith only [hWT, hT2, hTE, hE1])
    (abs_le.mpr ⟨by linarith only [ha2, hb1, hW0, hE1], by linarith only [ha1, hb2]⟩)
  rw [hsp]
  obtain ⟨hesp1, hesp2⟩ := abs_le.mp hesp
  norm_num at hesp1 hesp2
  have hspW : |(sp : ℚ) - W| ≤ 7 / 2 * E :=
    abs_le.mpr ⟨by linarith only [hesp1, ha2, hb1, hWT, hTE, hE1],
      by linarith only [hesp2, ha1, hb2, hWT, hTE, hE1]⟩
  obtain ⟨hspW1, hspW2⟩ := abs_le.mp hspW
  have hspabs : |(sp : ℚ)| ≤ W + 7 / 2 * E :=
    abs_le.mpr ⟨by linarith only [hspW1, hW0, hE1], by linarith only [hspW2]⟩
  -- `(hi - lo) / D`
  rw [F32.ofNat_exact D hD2]
  have e149 : (((F32.one : Nat) : Int) : ℚ) = 2 ^ 149 := by
    rw [F32.one, Int.cast_natCast, Nat.cast_pow, Nat.cast_ofNat]
  have h149 : (0 : ℚ) < 2 ^ 149 := pow_pos (by norm_num) _
  have ediv : (sp : ℚ) * 2 ^ 149 / ((D * F32.one : Nat) : ℚ) = (sp : ℚ) / (D : ℚ) := by
    rw [Nat.cast_mul, F32.one, Nat.cast_pow, Nat.cast_ofNat]
    generalize (2 : ℚ) ^ 149 = P at h149
    field_simp
    ring
  have hdivabs : |(sp : ℚ) / (D : ℚ)| ≤ (W + 7 / 2 * E) / (D : ℚ) := by
    rw [abs_div, abs_of_pos hDq]
    exact div_le_div_of_nonneg_right hspabs hDq.le
  have hBst : (W + 7 / 2 * E) / (D : ℚ) ≤ 2 ^ 276 := by
    have h1 : (W + 7 / 2 * E) / (D : ℚ) ≤ W + 7 / 2 * E := by
      rw [div_le_iff₀ hDq]
      nlinarith only [hDq1, hW0, hE1]
    rw [hC276]
    linarith only [h1, hWT, hT2, hTE, hE1]
  obtain ⟨st, hst, hest⟩ := F32.div_B sp (D * F32.one) ((W + 7 / 2 * E) / (D : ℚ))
    (Nat.mul_pos hD (Nat.two_pow_pos _)) hBst (by rw [ediv]; exact hdivabs)
  rw [ediv] at hest
  rw [hst]
  -- `... * px`
  rw [F32.ofNat_exact px (lt_of_le_of_lt hpx hD2)]
  have emul : (st : ℚ) * (((px * F32.one : Nat) : Int) : ℚ) / 2 ^ 149
      = (st : ℚ) * (px : ℚ) := by
    rw [Int.cast_natCast, Nat.cast_mul, F32.one, Nat.cast_pow, Nat.cast_ofNat]
    generalize (2 : ℚ) ^ 149 = P at h149
    field_simp
    ring
  obtain ⟨u, hu⟩ : ∃ u : ℚ, u = (st : ℚ) * (px : ℚ) := ⟨_, rfl⟩
  obtain ⟨v, hv⟩ : ∃ v : ℚ, v = (sp : ℚ) * t := ⟨_, rfl⟩
  obtain ⟨z, hz⟩ : ∃ z : ℚ, z = W * t := ⟨_, rfl⟩
  have hz0 : 0 ≤ z := by rw [hz]; exact mul_nonneg hW0 ht0
  have hzW : z ≤ W := by rw [hz]; nlinarith only [hW0, ht1]
  have huv : |u - v| ≤ 13 / 8 * E := by
    have e : u - v = ((st : ℚ) - (sp : ℚ) / (D : ℚ)) * (px : ℚ) := by
      rw [hu, hv, ht]; field_simp; ring
    rw [e, abs_mul, abs_of_nonneg hpx0]
    have h1 : |(st : ℚ) - (sp : ℚ) / (D : ℚ)| * (px : ℚ)
        ≤ ((W + 7 / 2 * E) / (D : ℚ) / 2 ^ 24 + 1 / 2) * (px : ℚ) :=
      mul_le_mul_of_nonneg_right hest hpx0
    have h2 : ((W + 7 / 2 * E) / (D : ℚ) / 2 ^ 24 + 1 / 2) * (px : ℚ)
        = (W + 7 / 2 * E) / 16777216 * t + (px : ℚ) / 2 := by
      rw [ht]; field_simp; ring
    have h3 : (W + 7 / 2 * E) / 16777216 * t ≤ (W + 7 / 2 * E) / 16777216 := by
      have h4 : (0 : ℚ) ≤ (W + 7 / 2 * E) / 16777216 :=
        div_nonneg (by linarith only [hW0, hE1]) (by norm_num)
      nlinarith only [h4, ht1]
    rw [h2] at h1
    linarith only [h1, h3, hpxq, hDq2, hWT, hTE, hE1]
  have hvz : |v - z| ≤ 7 / 2 * E := by
    have e : v - z = ((sp : ℚ) - W) * t := by rw [hv, hz]; ring
    rw [e, abs_mul, abs_of_nonneg ht0]
    have h1 : |(sp : ℚ) - W| * t ≤ 7 / 2 * E * t := mul_le_mul_of_nonneg_right hspW ht0
    nlinarith only [h1, ht1, hE1]
  obtain ⟨huv1, huv2⟩ := abs_le.mp huv
  obtain ⟨hvz1, hvz2⟩ := abs_le.mp hvz
  obtain ⟨pr, hpr, hepr⟩ := F32.mul_B st ((px * F32.one : Nat) : Int) (W + 6 * E)
    (by rw [hC276]; linarith only [hWT, hT2, hTE, hE1])
    (by rw [emul, ← hu]
        exact abs_le.mpr ⟨by linarith only [huv1, hvz1, hz0, hW0, hE1],
          by linarith only [huv2, hvz2, hzW, hE1]⟩)
  rw [emul, ← hu] at hepr
  rw [hpr]
  obtain ⟨hepr1, hepr2⟩ := abs_le.mp hepr
  norm_num at hepr1 hepr2
  -- `lo + ...`
  obtain ⟨n, hn, hen⟩ := F32.add_B a pr (T + 8 * E)
    (by rw [hC276]; linarith only [hT2, hTE, hE1])
    (abs_le.mpr
      ⟨by linarith only [ha1, hepr1, huv1, hvz1, hz0, hL1, hWT, hTE, hE1],
        by linarith only [ha2, hepr2, huv2, hvz2, hzW, hR2, hWT, hTE, hE1]⟩)
  obtain ⟨hen1, hen2⟩ := abs_le.mp hen
  norm_num at hen1 hen2
  refine ⟨n, hn, ?_⟩
  have ez : W * (px : ℚ) / (D : ℚ) = z := by rw [hz, ht]; ring
  rw [ez]
  exact abs_le.mpr
    ⟨by linarith only [hen1, ha1, hepr1, huv1, hvz1, hWT, hTE, hE1],
      by linarith only [hen2, ha2, hepr2, huv2, hvz2, hWT, hTE, hE1]⟩

set_option exponentiation.threshold 10000 in
/-- The kernel's coordinate along one axis: for a region with centre `c` and
size `W ≥ 0` along the axis (the `double`s `cx` and `w` units of `2^(-1074)`)
with `|c| + W ≤ T` units of `2^(-149)`, a framebuffer of `D < 2^24` pixels
and a pixel position `px ≤ D`, the `float` expression
`lo + (hi - lo) / D * px` with `lo = float(c - W * 0.5)` and
`hi = float(c + W * 0.5)` is finite and within `T / 2^20` units of
`c - W / 2 + W * px / D`. -/
theorem kernel_axis_err (cx w : Int) (T : ℚ) (D px : Nat) (hw : 0 ≤ w) (hT1 : 2 ^ 48 ≤ T)
    (hT2 : T ≤ 2 ^ 270) (hM : |(cx : ℚ)| / 2 ^ 925 + (w : ℚ) / 2 ^ 925 ≤ T)
    (hD : 0 < D) (hD2 : D < 2 ^ 24) (hpx : px ≤ D) :
    ∃ n : Int,
      F32.add (F64.toF32 (F64.sub (F64.fin cx) (F64.mul (F64.fin w) F64.half)))
        (F32.mul
          (F32.div
            (F32.sub (F64.toF32 (F64.add (F64.fin cx) (F64.mul (F64.fin w) F64.half)))
              (F64.toF32 (F64.sub (F64.fin cx) (F64.mul (F64.fin w) F64.half))))
            (F32.ofNat D))
          (F32.ofNat px)) = F32.fin n ∧
      |(n : ℚ) - ((cx : ℚ) / 2 ^ 925 - (w : ℚ) / 2 ^ 925 / 2
          + (w : ℚ) / 2 ^ 925 * (px : ℚ) / (D : ℚ))| ≤ T / 2 ^ 20 := by
  have hs : (0 : ℚ) < 2 ^ 925 := pow_pos (by norm_num) _
  have hT0 : (0 : ℚ) ≤ T := le_trans (by norm_num) hT1
  obtain ⟨l1, r1, hl1, hr1, hel, her⟩ := region_bounds_err cx w T hw hT1 hT2 hM
  obtain ⟨c, hc⟩ : ∃ c : ℚ, c = (cx : ℚ) / 2 ^ 925 := ⟨_, rfl⟩
  obtain ⟨W, hW⟩ : ∃ W : ℚ, W = (w : ℚ) / 2 ^ 925 := ⟨_, rfl⟩
  have hW0 : 0 ≤ W := by
    rw [hW]
    have : (0 : ℚ) ≤ (w : ℚ) := by exact_mod_cast hw
    exact div_nonneg this hs.le
  have hcW : |c| + W ≤ T := by
    rw [hc, hW, abs_div, abs_of_pos hs]
    exact hM
  obtain ⟨hc1, hc2⟩ := abs_le.mp (by linarith only [hcW] : |c| ≤ T - W)
  rw [← hc, ← hW] at hel her ⊢
  have h4932 : T / 2 ^ 49 ≤ T / 2 ^ 32 :=
    div_le_div_of_nonneg_left hT0 (by norm_num) (by norm_num)
  have hL : |c - W / 2| ≤ T :=
    abs_le.mpr ⟨by linarith only [hc1, hW0], by linarith only [hc2, hW0]⟩
  have hR : |c - W / 2 + W| ≤ T :=
    abs_le.mpr ⟨by linarith only [hc1, hW0], by linarith only [hc2, hW0]⟩
  obtain ⟨a, ha, hea⟩ := narrow_err l1 (c - W / 2) T hT1 hT2 hL (le_trans hel h4932)
  have eR : c + W / 2 = c - W / 2 + W := by ring
  rw [eR] at her
  obtain ⟨b, hb, heb⟩ := narrow_err r1 (c - W / 2 + W) T hT1 hT2 hR (le_trans her h4932)
  rw [hl1, hr1, ha, hb]
  obtain ⟨n, hn, hen⟩ := kernel_float_err a b (c - W / 2) W T D px hT1 hT2 hW0
    (by linarith only [hcW, abs_nonneg c]) hL hR hea heb hD hD2 hpx
  exact ⟨n, hn, hen⟩

set_option exponentiation.threshold 10000 in
/-- The position `fitTileGridToRegion` gives a sprite along one axis: for a
region with centre `c` and size `W ≥ 0` along the axis (the `double`s `cx` and
`w` units of `2^(-1074)`) with `|c| + W ≤ T` units of `2^(-149)`, and cell
`gx ≤ tiles` of a grid of `tiles ≤ 65536` tiles, the world size
`W / tiles` of a tile in `double` is within `T / 2^50` units of `2^(-149)` of
the exact quotient, and the position
`float(c - W * 0.5 + gx * (W / tiles))` is finite and within
`(9/8) · T / 2^24` units of `c - W / 2 + gx * (W / tiles)`. -/
theorem sprite_axis_err (cx w : Int) (T : ℚ) (tiles gx : Nat) (hw : 0 ≤ w)
    (hT1 : 2 ^ 48 ≤ T) (hT2 : T ≤ 2 ^ 270)
    (hM : |(cx : ℚ)| / 2 ^ 925 + (w : ℚ) / 2 ^ 925 ≤ T)
    (ht : 0 < tiles) (ht2 : tiles ≤ 65536) (hgx : gx ≤ tiles) :
    ∃ q1 p : Int,
      F64.div (F64.fin w) (F64.ofNat tiles) = F64.fin q1 ∧
      |(q1 : ℚ) / 2 ^ 925 - (w : ℚ) / 2 ^ 925 / (tiles : ℚ)| ≤ T / 2 ^ 50 ∧
      F64.toF32
        (F64.add (F64.sub (F64.fin cx) (F64.mul (F64.fin w) F64.half))
          (F64.mul (F64.ofNat gx) (F64.div (F64.fin w) (F64.ofNat tiles)))) = F32.fin p ∧
      |(p : ℚ) - ((cx : ℚ) / 2 ^ 925 - (w : ℚ) / 2 ^ 925 / 2
          + (gx : ℚ) * ((w : ℚ) / 2 ^ 925 / (tiles : ℚ)))| ≤ 9 / 8 * (T / 2 ^ 24) := by
  have hs : (0 : ℚ) < 2 ^ 925 := pow_pos (by norm_num) _
  have h1074 : (0 : ℚ) < 2 ^ 1074 := pow_pos (by norm_num) _
  have hT1' : (281474976710656 : ℚ) ≤ T := by norm_num at hT1; exact hT1
  have hT0 : (0 : ℚ) ≤ T := le_trans (by norm_num) hT1
  obtain ⟨C, hC⟩ : ∃ C : ℚ, C = 2 ^ 270 := ⟨_, rfl⟩
  have hC276 : (2 : ℚ) ^ 276 = 64 * C := by
    have h6 : (2 : ℚ) ^ 6 = 64 := by norm_num
    rw [hC, show (276 : ℕ) = 6 + 270 from rfl, pow_add, h6]
  have hT2' : T ≤ C := by rw [hC]; exact hT2
  obtain ⟨l1, r1, hl1, hr1, hel, her⟩ := region_bounds_err cx w T hw hT1 hT2 hM
  obtain ⟨c, hc⟩ : ∃ c : ℚ, c = (cx : ℚ) / 2 ^ 925 := ⟨_, rfl⟩
  obtain ⟨W, hW⟩ : ∃ W : ℚ, W = (w : ℚ) / 2 ^ 925 := ⟨_, rfl⟩
  have hW0 : 0 ≤ W := by
    rw [hW]
    have : (0 : ℚ) ≤ (w : ℚ) := by exact_mod_cast hw
    exact div_nonneg this hs.le
  have hcW : |c| + W ≤ T := by
    rw [hc, hW, abs_div, abs_of_pos hs]
    exact hM
  obtain ⟨hc1, hc2⟩ := abs_le.mp (by linarith only [hcW] : |c| ≤ T - W)
  rw [← hc, ← hW] at hel ⊢
  obtain ⟨hel1, hel2⟩ := abs_le.mp hel
  obtain ⟨lq, hlq⟩ : ∃ lq : ℚ, lq = (l1 : ℚ) / 2 ^ 925 := ⟨_, rfl⟩
  rw [← hlq] at hel1 hel2
  have htq : (0 : ℚ) < (tiles : ℚ) := by exact_mod_cast ht
  have htq1 : (1 : ℚ) ≤ (tiles : ℚ) := by exact_mod_cast ht
  have htq2 : (tiles : ℚ) ≤ 65536 := by exact_mod_cast ht2
  have hgq : (gx : ℚ) ≤ (tiles : ℚ) := by exact_mod_cast hgx
  have hg0 : (0 : ℚ) ≤ (gx : ℚ) := Nat.cast_nonneg gx
  -- the world size of a tile
  rw [F64.ofNat_exact64 tiles (lt_of_le_of_lt ht2 (by norm_num)),
    F64.ofNat_exact64 gx (lt_of_le_of_lt (le_trans hgx ht2) (by norm_num))]
  have ediv : (w : ℚ) * 2 ^ 1074 / ((tiles * F64.one : Nat) : ℚ) / 2 ^ 925
      = W / (tiles : ℚ) := by
    rw [hW, Nat.cast_mul, F64.one, Nat.cast_pow, Nat.cast_ofNat]
    generalize (2 : ℚ) ^ 1074 = P at h1074
    generalize (2 : ℚ) ^ 925 = S at hs
    field_simp
    ring
  obtain ⟨y, hy⟩ : ∃ y : ℚ, y = W / (tiles : ℚ) := ⟨_, rfl⟩
  have hy0 : 0 ≤ y := by rw [hy]; exact div_nonneg hW0 htq.le
  have hyW : y ≤ W := by
    rw [hy, div_le_iff₀ htq]
    nlinarith only [hW0, htq1]
  have hgy : (gx : ℚ) * y ≤ W := by
    have h1 : (gx : ℚ) * y ≤ (tiles : ℚ) * y := mul_le_mul_of_nonneg_right hgq hy0
    have h2 : (tiles : ℚ) * y = W := by rw [hy]; field_simp
    linarith only [h1, h2]
  have hgy0 : 0 ≤ (gx : ℚ) * y := mul_nonneg hg0 hy0
  have h52 : 4 * T / 2 ^ 52 = T / 2 ^ 50 := by
    rw [show (52 : ℕ) = 50 + 2 from rfl, pow_add]
    field_simp
    ring
  obtain ⟨q1, hq1, heq1⟩ := F64.div_B64 w (tiles * F64.one) (4 * T)
    (Nat.mul_pos ht (Nat.two_pow_pos _)) (by linarith only [hT1'])
    (by rw [hC276]; linarith only [hT2', hT1'])
    (by rw [ediv, ← hy, abs_of_nonneg hy0]; linarith only [hyW, hcW, abs_nonneg c, hT1'])
  rw [ediv, ← hy, h52] at heq1
  rw [hl1, hq1]
  obtain ⟨qq, hqq⟩ : ∃ qq : ℚ, qq = (q1 : ℚ) / 2 ^ 925 := ⟨_, rfl⟩
  rw [← hqq] at heq1
  obtain ⟨heq1a, heq1b⟩ := abs_le.mp heq1
  have h50 : T / 2 ^ 50 = T / 1125899906842624 := by norm_num
  rw [h50] at heq1a heq1b
  -- `gx * tileWidthWorld`
  have emul : (((gx * F64.one : Nat) : Int) : ℚ) * (q1 : ℚ) / 2 ^ 1074 / 2 ^ 925
      = (gx : ℚ) * qq := by
    rw [hqq, Int.cast_natCast, Nat.cast_mul, F64.one, Nat.cast_pow, Nat.cast_ofNat]
    generalize (2 : ℚ) ^ 1074 = P at h1074
    generalize (2 : ℚ) ^ 925 = S at hs
    field_simp
    ring
  have hgq1 : (gx : ℚ) * qq ≤ (gx : ℚ) * y + 65536 * (T / 1125899906842624) := by
    have h1 : (gx : ℚ) * (qq - y) ≤ (gx : ℚ) * (T / 1125899906842624) :=
      mul_le_mul_of_nonneg_left (by linarith only [heq1b]) hg0
    have h2 : (gx : ℚ) * (T / 1125899906842624) ≤ 65536 * (T / 1125899906842624) :=
      mul_le_mul_of_nonneg_right (by linarith only [hgq, htq2])
        (div_nonneg hT0 (by norm_num))
    linarith only [h1, h2]
  have hgq2 : (gx : ℚ) * y - 65536 * (T / 1125899906842624) ≤ (gx : ℚ) * qq := by
    have h1 : (gx : ℚ) * (-(T / 1125899906842624)) ≤ (gx : ℚ) * (qq - y) :=
      mul_le_mul_of_nonneg_left (by linarith only [heq1a]) hg0
    have h2 : (gx : ℚ) * (T / 1125899906842624) ≤ 65536 * (T / 1125899906842624) :=
      mul_le_mul_of_nonneg_right (by linarith only [hgq, htq2])
        (div_nonneg hT0 (by norm_num))
    linarith only [h1, h2]
  obtain ⟨g2, hg2, heg2⟩ := F64.mul_B64 ((gx * F64.one : Nat) : Int) q1 (4 * T)
    (by linarith only [hT1']) (by rw [hC276]; linarith only [hT2', hT1'])
    (by rw [emul]
        exact abs_le.mpr ⟨by linarith only [hgq2, hgy0, hT1'],
          by linarith only [hgq1, hgy, hcW, abs_nonneg c, hT1']⟩)
  rw [emul, h52, h50] at heg2
  rw [hg2]
  obtain ⟨gq, hgqd⟩ : ∃ gq : ℚ, gq = (g2 : ℚ) / 2 ^ 925 := ⟨_, rfl⟩
  rw [← hgqd] at heg2
  obtain ⟨heg2a, heg2b⟩ := abs_le.mp heg2
  -- the sum and its narrowing
  obtain ⟨ps, hps, heps⟩ := F64.add_B64 l1 g2 (4 * T) (by linarith only [hT1'])
    (by rw [hC276]; linarith only [hT2', hT1'])
    (by rw [← hlq, ← hgqd]
        norm_num at hel1 hel2
        exact abs_le.mpr
          ⟨by linarith only [hel1, heg2a, hgq2, hgy0, hc1, hW0, hT1'],
            by linarith only [hel2, heg2b, hgq1, hgy, hc2, hW0, hT1']⟩)
  rw [← hlq, ← hgqd, h52, h50] at heps
  rw [hps]
  obtain ⟨heps1, heps2⟩ := abs_le.mp heps
  have hX : |c - W / 2 + (gx : ℚ) * y| ≤ T :=
    abs_le.mpr ⟨by linarith only [hc1, hW0, hgy0], by linarith only [hc2, hW0, hgy]⟩
  norm_num at hel1 hel2
  obtain ⟨p, hp, hep⟩ := narrow_err ps (c - W / 2 + (gx : ℚ) * y) T hT1 hT2 hX
    (by norm_num
        exact abs_le.mpr
          ⟨by linarith only [heps1, hel1, heg2a, hgq2, hT1'],
            by linarith only [heps2, hel2, heg2b, hgq1, hT1']⟩)
  refine ⟨q1, p, rfl, ?_, hp, ?_⟩
  · rw [← hqq, ← hy, h50]
    exact abs_le.mpr ⟨by linarith only [heq1a], by linarith only [heq1b]⟩
  · rw [← hy]
    exact hep

/-! ## Kernel coordinates and sprite positions on the code -/

set_option exponentiation.threshold 10000 in
/-- The real part the kernels launched by the launcher-waiter give a pixel:
for a slot whose region has the finite centre `cx` and width `w ≥ 0` (units of
`2^(-1074)`) with `|centre| + width ≤ T` units of `2^(-149)`, a launch grid of
`tilesX ≤ 65536` tiles and the pixel at tile-local column `x ≤ 32` of the tile
of cell `(tx, ty)`, it is finite and within `T / 2^20` units of
`centre - width / 2 + width * (32 tx + x) / (32 tilesX)`. -/
theorem coordI_launcher_err (st : HelloWorld) (zoomLevel transaction : Nat) (trueSize : Size)
    (reads : Nat → Nat → Nat) (cx w : Int) (T : ℚ) (tx ty x : Nat)
    (hcx : (st.zoomLevels zoomLevel).zoomRegion.centreX = F64.fin cx)
    (hwid : (st.zoomLevels zoomLevel).zoomRegion.width = F64.fin w)
    (hw : 0 ≤ w) (hT1 : 2 ^ 48 ≤ T) (hT2 : T ≤ 2 ^ 270)
    (hM : |(cx : ℚ)| / 2 ^ 925 + (w : ℚ) / 2 ^ 925 ≤ T)
    (hg : (launcherGrid TILE_DIMS trueSize).w ≤ 65536)
    (htx : tx < (launcherGrid TILE_DIMS trueSize).w) (hty : ty < 65536) (hx : x ≤ 32) :
    ∃ i : Int,
      coordI (launcherEnv st zoomLevel transaction TILE_DIMS trueSize reads)
        (launcherSpec TILE_DIMS trueSize) (tileAt (launcherSpec TILE_DIMS trueSize) tx ty) x
        = F32.fin i ∧
      |(i : ℚ) - ((cx : ℚ) / 2 ^ 925 - (w : ℚ) / 2 ^ 925 / 2
          + (w : ℚ) / 2 ^ 925 * ((32 * tx + x : Nat) : ℚ)
            / ((32 * (launcherGrid TILE_DIMS trueSize).w : Nat) : ℚ))| ≤ T / 2 ^ 20 := by
  obtain ⟨G, hG⟩ : ∃ G, G = (launcherGrid TILE_DIMS trueSize).w := ⟨_, rfl⟩
  rw [← hG] at hg htx ⊢
  obtain ⟨hcoordx, -⟩ := tileAt_coords (launcherSpec TILE_DIMS trueSize) tx ty (by omega) hty
  have hspecw : (launcherSpec TILE_DIMS trueSize).w = 32 := rfl
  have e1 : ((pixelPosition (launcherSpec TILE_DIMS trueSize)
      (tileAt (launcherSpec TILE_DIMS trueSize) tx ty)).x + x) % 4294967296 = 32 * tx + x := by
    unfold pixelPosition
    simp only [hcoordx, hspecw]
    omega
  have e2 : (pixelDims (launcherSpec TILE_DIMS trueSize) (launcherGrid TILE_DIMS trueSize)).w
      = 32 * G := by
    unfold pixelDims
    simp only [hspecw, ← hG]
    omega
  have hunfold : coordI (launcherEnv st zoomLevel transaction TILE_DIMS trueSize reads)
        (launcherSpec TILE_DIMS trueSize) (tileAt (launcherSpec TILE_DIMS trueSize) tx ty) x
      = F32.add
          (F64.toF32 (F64.sub (st.zoomLevels zoomLevel).zoomRegion.centreX
            (F64.mul (st.zoomLevels zoomLevel).zoomRegion.width F64.half)))
          (F32.mul
            (F32.div
              (F32.sub
                (F64.toF32 (F64.add (st.zoomLevels zoomLevel).zoomRegion.centreX
                  (F64.mul (st.zoomLevels zoomLevel).zoomRegion.width F64.half)))
                (F64.toF32 (F64.sub (st.zoomLevels zoomLevel).zoomRegion.centreX
                  (F64.mul (st.zoomLevels zoomLevel).zoomRegion.width F64.half))))
              (F32.ofNat (pixelDims (launcherSpec TILE_DIMS trueSize)
                (launcherGrid TILE_DIMS trueSize)).w))
            (F32.ofNat (((pixelPosition (launcherSpec TILE_DIMS trueSize)
              (tileAt (launcherSpec TILE_DIMS trueSize) tx ty)).x + x) % 4294967296))) := rfl
  rw [hunfold, e1, e2, hcx, hwid]
  exact kernel_axis_err cx w T (32 * G) (32 * tx + x) hw hT1 hT2 hM (by omega)
    (by have : (2 : Nat) ^ 24 = 16777216 := by norm_num
        omega)
    (by omega)

set_option exponentiation.threshold 10000 in
/-- The imaginary part the kernels launched by the launcher-waiter give a
pixel: as the real part, with the region's `centreY` and `height`, the launch
grid's height and the tile-local row `y`. -/
theorem coordJ_launcher_err (st : HelloWorld) (zoomLevel transaction : Nat) (trueSize : Size)
    (reads : Nat → Nat → Nat) (cy h : Int) (T : ℚ) (tx ty y : Nat)
    (hcy : (st.zoomLevels zoomLevel).zoomRegion.centreY = F64.fin cy)
    (hhei : (st.zoomLevels zoomLevel).zoomRegion.height = F64.fin h)
    (hh : 0 ≤ h) (hT1 : 2 ^ 48 ≤ T) (hT2 : T ≤ 2 ^ 270)
    (hM : |(cy : ℚ)| / 2 ^ 925 + (h : ℚ) / 2 ^ 925 ≤ T)
    (hg : (launcherGrid TILE_DIMS trueSize).h ≤ 65536)
    (htx : tx < 65536) (hty : ty < (launcherGrid TILE_DIMS trueSize).h) (hy : y ≤ 32) :
    ∃ j : Int,
      coordJ (launcherEnv st zoomLevel transaction TILE_DIMS trueSize reads)
        (launcherSpec TILE_DIMS trueSize) (tileAt (launcherSpec TILE_DIMS trueSize) tx ty) y
        = F32.fin j ∧
      |(j : ℚ) - ((cy : ℚ) / 2 ^ 925 - (h : ℚ) / 2 ^ 925 / 2
          + (h : ℚ) / 2 ^ 925 * ((32 * ty + y : Nat) : ℚ)
            / ((32 * (launcherGrid TILE_DIMS trueSize).h : Nat) : ℚ))| ≤ T / 2 ^ 20 := by
  obtain ⟨G, hG⟩ : ∃ G, G = (launcherGrid TILE_DIMS trueSize).h := ⟨_, rfl⟩
  rw [← hG] at hg hty ⊢
  obtain ⟨-, hcoordy⟩ := tileAt_coords (launcherSpec TILE_DIMS trueSize) tx ty htx (by omega)
  have hspech : (launcherSpec TILE_DIMS trueSize).h = 32 := rfl
  have e1 : ((pixelPosition (launcherSpec TILE_DIMS trueSize)
      (tileAt (launcherSpec TILE_DIMS trueSize) tx ty)).y + y) % 4294967296 = 32 * ty + y := by
    unfold pixelPosition
    simp only [hcoordy, hspech]
    omega
  have e2 : (pixelDims (launcherSpec TILE_DIMS trueSize) (launcherGrid TILE_DIMS trueSize)).h
      = 32 * G := by
    unfold pixelDims
    simp only [hspech, ← hG]
    omega
  have hunfold : coordJ (launcherEnv st zoomLevel transaction TILE_DIMS trueSize reads)
        (launcherSpec TILE_DIMS trueSize) (tileAt (launcherSpec TILE_DIMS trueSize) tx ty) y
      = F32.add
          (F64.toF32 (F64.sub (st.zoomLevels zoomLevel).zoomRegion.centreY
            (F64.mul (st.zoomLevels zoomLevel).zoomRegion.height F64.half)))
          (F32.mul
            (F32.div
              (F32.sub
                (F64.toF32 (F64.add (st.zoomLevels zoomLevel).zoomRegion.centreY
                  (F64.mul (st.zoomLevels zoomLevel).zoomRegion.height F64.half)))
                (F64.toF32 (F64.sub (st.zoomLevels zoomLevel).zoomRegion.centreY
                  (F64.mul (st.zoomLevels zoomLevel).zoomRegion.height F64.half))))
              (F32.ofNat (pixelDims (launcherSpec TILE_DIMS trueSize)
                (launcherGrid TILE_DIMS trueSize)).h))
            (F32.ofNat (((pixelPosition (launcherSpec TILE_DIMS trueSize)
              (tileAt (launcherSpec TILE_DIMS trueSize) tx ty)).y + y) % 4294967296))) := rfl
  rw [hunfold, e1, e2, hcy, hhei]
  exact kernel_axis_err cy h T (32 * G) (32 * ty + y) hh hT1 hT2 hM (by omega)
    (by have : (2 : Nat) ^ 24 = 16777216 := by norm_num
        omega)
    (by omega)

set_option exponentiation.threshold 10000 in
/-- The sprite of a cell after `fitTileGridToRegion`: for a slot whose region
has the finite centre `(cx, cy)`, width `w ≥ 0` and height `h ≥ 0` (units of
`2^(-1074)`) with `|centreX| + width ≤ T` and `|centreY| + height ≤ T` units
of `2^(-149)`, and whose sprite array has the dimensions of the grid, at most
65536 a side, the sprite `tileSprites[gridY][gridX]` is positioned at a finite
`(p, q)` within `(9/8) · T / 2^24` units of
`(centreX - width / 2 + gridX * (width / tilesX),
  centreY - height / 2 + gridY * (height / tilesY))`, and the world size
`(tileWidthWorld, tileHeightWorld)` is within `T / 2^50` units of `2^(-149)`
of `(width / tilesX, height / tilesY)`. -/
theorem fittedSprite_err (st : HelloWorld) (zoomLevel : Nat) (cx cy w h : Int) (rot : F64)
    (T : ℚ) (gridX gridY : Nat)
    (hregion : (st.zoomLevels zoomLevel).zoomRegion
      = ⟨F64.fin cx, F64.fin cy, F64.fin w, F64.fin h, rot⟩)
    (hw : 0 ≤ w) (hh : 0 ≤ h) (hT1 : 2 ^ 48 ≤ T) (hT2 : T ≤ 2 ^ 270)
    (hMx : |(cx : ℚ)| / 2 ^ 925 + (w : ℚ) / 2 ^ 925 ≤ T)
    (hMy : |(cy : ℚ)| / 2 ^ 925 + (h : ℚ) / 2 ^ 925 ≤ T)
    (hfit : (st.zoomLevels zoomLevel).tileSprites.width
        = (gridGeometry st.visibleSize (F32.ofNat (F32.toUnsigned st.contentScaleFactor))
            (TILE_DIMS <<< 16 ||| TILE_DIMS) (st.zoomLevels zoomLevel).zoomRegion).tilesX ∧
      (st.zoomLevels zoomLevel).tileSprites.height
        = (gridGeometry st.visibleSize (F32.ofNat (F32.toUnsigned st.contentScaleFactor))
            (TILE_DIMS <<< 16 ||| TILE_DIMS) (st.zoomLevels zoomLevel).zoomRegion).tilesY)
    (hsx : (st.zoomLevels zoomLevel).tileSprites.width ≤ 65536)
    (hsy : (st.zoomLevels zoomLevel).tileSprites.height ≤ 65536)
    (hx : gridX < (st.zoomLevels zoomLevel).tileSprites.width)
    (hy : gridY < (st.zoomLevels zoomLevel).tileSprites.height) :
    ∃ (sprite : TileSprite) (p q tw th : Int),
      fittedSprite st zoomLevel gridX gridY = some sprite ∧
      sprite.positionX = F32.fin p ∧ sprite.positionY = F32.fin q ∧
      (gridGeometry st.visibleSize (F32.ofNat (F32.toUnsigned st.contentScaleFactor))
        (TILE_DIMS <<< 16 ||| TILE_DIMS) (st.zoomLevels zoomLevel).zoomRegion).tileWidthWorld
        = F64.fin tw ∧
      (gridGeometry st.visibleSize (F32.ofNat (F32.toUnsigned st.contentScaleFactor))
        (TILE_DIMS <<< 16 ||| TILE_DIMS) (st.zoomLevels zoomLevel).zoomRegion).tileHeightWorld
        = F64.fin th ∧
      |(p : ℚ) - ((cx : ℚ) / 2 ^ 925 - (w : ℚ) / 2 ^ 925 / 2
          + (gridX : ℚ) * ((w : ℚ) / 2 ^ 925
            / ((st.zoomLevels zoomLevel).tileSprites.width : ℚ)))| ≤ 9 / 8 * (T / 2 ^ 24) ∧
      |(q : ℚ) - ((cy : ℚ) / 2 ^ 925 - (h : ℚ) / 2 ^ 925 / 2
          + (gridY : ℚ) * ((h : ℚ) / 2 ^ 925
            / ((st.zoomLevels zoomLevel).tileSprites.height : ℚ)))| ≤ 9 / 8 * (T / 2 ^ 24) ∧
      |(tw : ℚ) / 2 ^ 925
          - (w : ℚ) / 2 ^ 925 / ((st.zoomLevels zoomLevel).tileSprites.width : ℚ)|
        ≤ T / 2 ^ 50 ∧
      |(th : ℚ) / 2 ^ 925
          - (h : ℚ) / 2 ^ 925 / ((st.zoomLevels zoomLevel).tileSprites.height : ℚ)|
        ≤ T / 2 ^ 50 := by
  obtain ⟨g, hg⟩ : ∃ g, g = gridGeometry st.visibleSize
      (F32.ofNat (F32.toUnsigned st.contentScaleFactor)) (TILE_DIMS <<< 16 ||| TILE_DIMS)
      (st.zoomLevels zoomLevel).zoomRegion := ⟨_, rfl⟩
  rw [← hg] at hfit ⊢
  obtain ⟨sprites, hsprites⟩ : ∃ s, s = (st.zoomLevels zoomLevel).tileSprites := ⟨_, rfl⟩
  rw [← hsprites] at hfit hsx hsy hx hy ⊢
  have hcx : (st.zoomLevels zoomLevel).zoomRegion.centreX = F64.fin cx := by rw [hregion]
  have hcy : (st.zoomLevels zoomLevel).zoomRegion.centreY = F64.fin cy := by rw [hregion]
  have hwid : (st.zoomLevels zoomLevel).zoomRegion.width = F64.fin w := by rw [hregion]
  have hhei : (st.zoomLevels zoomLevel).zoomRegion.height = F64.fin h := by rw [hregion]
  have hox : g.gridOriginWorldX = F64.sub (F64.fin cx) (F64.mul (F64.fin w) F64.half) := by
    rw [hg, ← hcx, ← hwid]; rfl
  have hoy : g.gridOriginWorldY = F64.sub (F64.fin cy) (F64.mul (F64.fin h) F64.half) := by
    rw [hg, ← hcy, ← hhei]; rfl
  have hww : g.tileWidthWorld = F64.div (F64.fin w) (F64.ofNat sprites.width) := by
    rw [hfit.1, ← hwid, hg]; rfl
  have hhw : g.tileHeightWorld = F64.div (F64.fin h) (F64.ofNat sprites.height) := by
    rw [hfit.2, ← hhei, hg]; rfl
  -- the sprite
  have hfitted : fittedSprite st zoomLevel gridX gridY
      = some ((positionSprites g false sprites).elements (gridY * sprites.width + gridX)) := by
    unfold fittedSprite fitTileGridToRegion
    simp only
    rw [← hg, ← hsprites, if_pos hfit]
    simp only
    unfold Array2D.index
    rw [(positionSprites_dims g false sprites).1, (positionSprites_dims g false sprites).2,
      if_pos hy, Option.map_some']
    have hnowrap : gridY * sprites.width % 4294967296 = gridY * sprites.width := by
      apply Nat.mod_eq_of_lt
      have : gridY * sprites.width ≤ 65535 * 65536 := Nat.mul_le_mul (by omega) hsx
      omega
    rw [hnowrap]
  have hel := positionSprites_element g false sprites hfit.1
    (by rw [← hfit.1, ← hfit.2]
        have : sprites.height * sprites.width ≤ 65536 * 65536 := Nat.mul_le_mul hsy hsx
        omega)
    gridX gridY (by rw [← hfit.1]; exact hx) (by rw [← hfit.2]; exact hy)
  obtain ⟨tw, p, htw, hetw, hp, hep⟩ := sprite_axis_err cx w T sprites.width gridX hw hT1 hT2
    hMx (by omega) hsx (by omega)
  obtain ⟨th, q, hth, heth, hq, heq⟩ := sprite_axis_err cy h T sprites.height gridY hh hT1 hT2
    hMy (by omega) hsy (by omega)
  refine ⟨_, p, q, tw, th, hfitted, ?_, ?_, ?_, ?_, hep, heq, hetw, heth⟩
  · rw [hel]
    show F64.toF32 (F64.add g.gridOriginWorldX (F64.mul (F64.ofNat gridX) g.tileWidthWorld)) = _
    rw [hox, hww]
    exact hp
  · rw [hel]
    show F64.toF32 (F64.add g.gridOriginWorldY (F64.mul (F64.ofNat gridY) g.tileHeightWorld)) = _
    rw [hoy, hhw]
    exact hq
  · rw [hww]; exact htw
  · rw [hhw]; exact hth

set_option exponentiation.threshold 10000 in
/-- C27 (amended): kernel/sprite alignment up to rounding.  Take a slot whose
region has a finite centre `(cx, cy)`, width `w ≥ 0` and height `h ≥ 0` (in
units of `2^(-1074)`) with `|centreX| + width ≤ 2^m` and
`|centreY| + height ≤ 2^m` units of `2^(-149)`, `48 ≤ m ≤ 270`, whose sprite
grid has the dimensions `tilesX × tilesY` of the tile grid (the assertion of
`fitTileGridToRegion`), at most 65536 a side, and is also the launch grid of
the launcher-waiter (the physical view size is a whole multiple of the tile
size).  Then for every tile `(tx, ty)` and tile-local pixel `(x, y)` with
`x, y ≤ 32`, in units of `2^(-149)`: the coordinates `(i, j)` the kernel gives
the pixel are finite and within `2^m / 2^20` of the point
`origin + ((tx + x/32) · W / tilesX, (ty + y/32) · H / tilesY)` of the stated
rectangle, `origin = centre - size / 2`; the position `(p, q)` at which
`fitTileGridToRegion` puts the sprite of the tile is finite and within
`2^m / 2^23` of `origin + (tx · W / tilesX, ty · H / tilesY)`; the world size
`(tileWidthWorld, tileHeightWorld)` is finite and within `2^m / 2^50` of
`(W / tilesX, H / tilesY)`; and the kernel's coordinates are within
`2^m / 2^19` of the sprite's position plus `x` and `y` pixel steps of a 32nd
of the world size, so the first pixel of the tile is within `2^m / 2^19` of
the sprite's position and the pixel one tile further within `2^m / 2^19` of
the position plus the world size. -/
theorem kernel_sprite_alignment (st : HelloWorld) (zoomLevel transaction : Nat)
    (reads : Nat → Nat → Nat) (cx cy w h : Int) (rot : F64) (m tx ty x y : Nat)
    (hregion : (st.zoomLevels zoomLevel).zoomRegion
      = ⟨F64.fin cx, F64.fin cy, F64.fin w, F64.fin h, rot⟩)
    (hw : 0 ≤ w) (hh : 0 ≤ h) (hm1 : 48 ≤ m) (hm2 : m ≤ 270)
    (hMx : cx.natAbs + w.natAbs ≤ 2 ^ (m + 925))
    (hMy : cy.natAbs + h.natAbs ≤ 2 ^ (m + 925))
    (hfit : (st.zoomLevels zoomLevel).tileSprites.width
        = (gridGeometry st.visibleSize (F32.ofNat (F32.toUnsigned st.contentScaleFactor))
            (TILE_DIMS <<< 16 ||| TILE_DIMS) (st.zoomLevels zoomLevel).zoomRegion).tilesX ∧
      (st.zoomLevels zoomLevel).tileSprites.height
        = (gridGeometry st.visibleSize (F32.ofNat (F32.toUnsigned st.contentScaleFactor))
            (TILE_DIMS <<< 16 ||| TILE_DIMS) (st.zoomLevels zoomLevel).zoomRegion).tilesY)
    (hgrid : (launcherGrid TILE_DIMS (trueSizeOf st)).w
        = (st.zoomLevels zoomLevel).tileSprites.width ∧
      (launcherGrid TILE_DIMS (trueSizeOf st)).h
        = (st.zoomLevels zoomLevel).tileSprites.height)
    (hsx : (st.zoomLevels zoomLevel).tileSprites.width ≤ 65536)
    (hsy : (st.zoomLevels zoomLevel).tileSprites.height ≤ 65536)
    (htx : tx < (st.zoomLevels zoomLevel).tileSprites.width)
    (hty : ty < (st.zoomLevels zoomLevel).tileSprites.height)
    (hx : x ≤ 32) (hy : y ≤ 32) :
    ∃ (i j p q tw th : Int) (sprite : TileSprite),
      coordI (launcherEnv st zoomLevel transaction TILE_DIMS (trueSizeOf st) reads)
        (launcherSpec TILE_DIMS (trueSizeOf st))
        (tileAt (launcherSpec TILE_DIMS (trueSizeOf st)) tx ty) x = F32.fin i ∧
      coordJ (launcherEnv st zoomLevel transaction TILE_DIMS (trueSizeOf st) reads)
        (launcherSpec TILE_DIMS (trueSizeOf st))
        (tileAt (launcherSpec TILE_DIMS (trueSizeOf st)) tx ty) y = F32.fin j ∧
      fittedSprite st zoomLevel tx ty = some sprite ∧
      sprite.positionX = F32.fin p ∧ sprite.positionY = F32.fin q ∧
      (gridGeometry st.visibleSize (F32.ofNat (F32.toUnsigned st.contentScaleFactor))
        (TILE_DIMS <<< 16 ||| TILE_DIMS) (st.zoomLevels zoomLevel).zoomRegion).tileWidthWorld
        = F64.fin tw ∧
      (gridGeometry st.visibleSize (F32.ofNat (F32.toUnsigned st.contentScaleFactor))
        (TILE_DIMS <<< 16 ||| TILE_DIMS) (st.zoomLevels zoomLevel).zoomRegion).tileHeightWorld
        = F64.fin th ∧
      |(i : ℚ) - ((cx : ℚ) / 2 ^ 925 - (w : ℚ) / 2 ^ 925 / 2
          + ((tx : ℚ) + (x : ℚ) / 32) * ((w : ℚ) / 2 ^ 925
            / ((st.zoomLevels zoomLevel).tileSprites.width : ℚ)))| ≤ 2 ^ m / 2 ^ 20 ∧
      |(j : ℚ) - ((cy : ℚ) / 2 ^ 925 - (h : ℚ) / 2 ^ 925 / 2
          + ((ty : ℚ) + (y : ℚ) / 32) * ((h : ℚ) / 2 ^ 925
            / ((st.zoomLevels zoomLevel).tileSprites.height : ℚ)))| ≤ 2 ^ m / 2 ^ 20 ∧
      |(p : ℚ) - ((cx : ℚ) / 2 ^ 925 - (w : ℚ) / 2 ^ 925 / 2
          + (tx : ℚ) * ((w : ℚ) / 2 ^ 925
            / ((st.zoomLevels zoomLevel).tileSprites.width : ℚ)))| ≤ 2 ^ m / 2 ^ 23 ∧
      |(q : ℚ) - ((cy : ℚ) / 2 ^ 925 - (h : ℚ) / 2 ^ 925 / 2
          + (ty : ℚ) * ((h : ℚ) / 2 ^ 925
            / ((st.zoomLevels zoomLevel).tileSprites.height : ℚ)))| ≤ 2 ^ m / 2 ^ 23 ∧
      |(tw : ℚ) / 2 ^ 925
          - (w : ℚ) / 2 ^ 925 / ((st.zoomLevels zoomLevel).tileSprites.width : ℚ)|
        ≤ 2 ^ m / 2 ^ 50 ∧
      |(th : ℚ) / 2 ^ 925
          - (h : ℚ) / 2 ^ 925 / ((st.zoomLevels zoomLevel).tileSprites.height : ℚ)|
        ≤ 2 ^ m / 2 ^ 50 ∧
      |(i : ℚ) - ((p : ℚ) + (x : ℚ) * ((tw : ℚ) / 2 ^ 925 / 32))| ≤ 2 ^ m / 2 ^ 19 ∧
      |(j : ℚ) - ((q : ℚ) + (y : ℚ) * ((th : ℚ) / 2 ^ 925 / 32))| ≤ 2 ^ m / 2 ^ 19 := by
  obtain ⟨T, hT⟩ : ∃ T : ℚ, T = 2 ^ m := ⟨_, rfl⟩
  have hT1 : (2 : ℚ) ^ 48 ≤ T := by rw [hT]; exact pow_le_pow_right₀ (by norm_num) hm1
  have hT2 : T ≤ (2 : ℚ) ^ 270 := by rw [hT]; exact pow_le_pow_right₀ (by norm_num) hm2
  have hT0 : (0 : ℚ) ≤ T := le_trans (by norm_num) hT1
  have hs : (0 : ℚ) < 2 ^ 925 := pow_pos (by norm_num) _
  have hbound : ∀ a b : Int, a.natAbs + b.natAbs ≤ 2 ^ (m + 925) → 0 ≤ b →
      |(a : ℚ)| / 2 ^ 925 + (b : ℚ) / 2 ^ 925 ≤ T := by
    intro a b hab hb
    have e1 : ((a.natAbs : Nat) : ℚ) = |(a : ℚ)| := by
      rw [← Int.cast_abs, ← Int.natCast_natAbs, Int.cast_natCast]
    have e2 : ((b.natAbs : Nat) : ℚ) = (b : ℚ) := by
      have : ((b.natAbs : Nat) : Int) = b := Int.natAbs_of_nonneg hb
      rw [← Int.cast_natCast, this]
    have h1 : ((a.natAbs + b.natAbs : Nat) : ℚ) ≤ ((2 ^ (m + 925) : Nat) : ℚ) :=
      Nat.cast_le.mpr hab
    rw [Nat.cast_add, e1, e2, Nat.cast_pow, Nat.cast_ofNat, pow_add, ← hT] at h1
    rw [← add_div, div_le_iff₀ hs]
    exact h1
  have hMx' := hbound cx w hMx hw
  have hMy' := hbound cy h hMy hh
  have hcx : (st.zoomLevels zoomLevel).zoomRegion.centreX = F64.fin cx := by rw [hregion]
  have hcy : (st.zoomLevels zoomLevel).zoomRegion.centreY = F64.fin cy := by rw [hregion]
  have hwid : (st.zoomLevels zoomLevel).zoomRegion.width = F64.fin w := by rw [hregion]
  have hhei : (st.zoomLevels zoomLevel).zoomRegion.height = F64.fin h := by rw [hregion]
  obtain ⟨i, hi, hei⟩ := coordI_launcher_err st zoomLevel transaction (trueSizeOf st) reads
    cx w T tx ty x hcx hwid hw hT1 hT2 hMx' (by rw [hgrid.1]; exact hsx)
    (by rw [hgrid.1]; exact htx) (by omega) hx
  obtain ⟨j, hj, hej⟩ := coordJ_launcher_err st zoomLevel transaction (trueSizeOf st) reads
    cy h T tx ty y hcy hhei hh hT1 hT2 hMy' (by rw [hgrid.2]; exact hsy)
    (by omega) (by rw [hgrid.2]; exact hty) hy
  obtain ⟨sprite, p, q, tw, th, hsprite, hp, hq, htw, hth, hep, heq, hetw, heth⟩ :=
    fittedSprite_err st zoomLevel cx cy w h rot T tx ty hregion hw hh hT1 hT2 hMx' hMy' hfit
      hsx hsy htx hty
  rw [hgrid.1] at hei
  rw [hgrid.2] at hej
  rw [← hT]
  obtain ⟨NX, hNX⟩ : ∃ n, n = (st.zoomLevels zoomLevel).tileSprites.width := ⟨_, rfl⟩
  obtain ⟨NY, hNY⟩ : ∃ n, n = (st.zoomLevels zoomLevel).tileSprites.height := ⟨_, rfl⟩
  rw [← hNX] at hei hep hetw htx ⊢
  rw [← hNY] at hej heq heth hty ⊢
  have hNXq : (0 : ℚ) < (NX : ℚ) := by exact_mod_cast (by omega : 0 < NX)
  have hNYq : (0 : ℚ) < (NY : ℚ) := by exact_mod_cast (by omega : 0 < NY)
  have hxq : (x : ℚ) ≤ 32 := by exact_mod_cast hx
  have hyq : (y : ℚ) ≤ 32 := by exact_mod_cast hy
  have hx0 : (0 : ℚ) ≤ (x : ℚ) := Nat.cast_nonneg x
  have hy0 : (0 : ℚ) ≤ (y : ℚ) := Nat.cast_nonneg y
  -- the axis argument, once for each axis
  have haxis : ∀ (c W N a b e t k : ℚ), 0 < N → 0 ≤ k → k ≤ 32 →
      |a - (c - W / 2 + W * (32 * t + k) / (32 * N))| ≤ T / 2 ^ 20 →
      |b - (c - W / 2 + t * (W / N))| ≤ 9 / 8 * (T / 2 ^ 24) →
      |e - W / N| ≤ T / 2 ^ 50 →
      |a - (c - W / 2 + (t + k / 32) * (W / N))| ≤ T / 2 ^ 20 ∧
      |b - (c - W / 2 + t * (W / N))| ≤ T / 2 ^ 23 ∧
      |a - (b + k * (e / 32))| ≤ T / 2 ^ 19 := by
    intro c W N a b e t k hN hk0 hk32 ha hb he
    have e1 : W * (32 * t + k) / (32 * N) = (t + k / 32) * (W / N) := by
      field_simp
      ring
    rw [e1] at ha
    obtain ⟨ha1, ha2⟩ := abs_le.mp ha
    obtain ⟨hb1, hb2⟩ := abs_le.mp hb
    obtain ⟨he1, he2⟩ := abs_le.mp he
    obtain ⟨d, hd⟩ : ∃ d : ℚ, d = e - W / N := ⟨_, rfl⟩
    rw [← hd] at he1 he2
    have hkd1 : k * d ≤ 32 * (T / 2 ^ 50) := by
      have h1 : k * d ≤ k * (T / 2 ^ 50) := mul_le_mul_of_nonneg_left he2 hk0
      have h2 : k * (T / 2 ^ 50) ≤ 32 * (T / 2 ^ 50) :=
        mul_le_mul_of_nonneg_right hk32 (div_nonneg hT0 (by norm_num))
      linarith only [h1, h2]
    have hkd2 : -(32 * (T / 2 ^ 50)) ≤ k * d := by
      have h1 : k * (-(T / 2 ^ 50)) ≤ k * d := mul_le_mul_of_nonneg_left he1 hk0
      have h2 : k * (T / 2 ^ 50) ≤ 32 * (T / 2 ^ 50) :=
        mul_le_mul_of_nonneg_right hk32 (div_nonneg hT0 (by norm_num))
      linarith only [h1, h2]
    have e2 : a - (b + k * (e / 32))
        = (a - (c - W / 2 + (t + k / 32) * (W / N))) - (b - (c - W / 2 + t * (W / N)))
          - k * d / 32 := by
      rw [hd]; ring
    norm_num at ha1 ha2 hb1 hb2 hkd1 hkd2 ⊢
    refine ⟨abs_le.mpr ⟨by linarith only [ha1], by linarith only [ha2]⟩,
      abs_le.mpr ⟨by linarith only [hb1, hT0], by linarith only [hb2, hT0]⟩, ?_⟩
    rw [e2]
    exact abs_le.mpr ⟨by linarith only [ha1, hb2, hkd1, hT0],
      by linarith only [ha2, hb1, hkd2, hT0]⟩
  have ecast : ∀ a b c : Nat, ((32 * a + b : Nat) : ℚ) = 32 * (a : ℚ) + (b : ℚ) ∧
      ((32 * c : Nat) : ℚ) = 32 * (c : ℚ) := by
    intro a b c
    constructor <;> push_cast <;> ring
  rw [(ecast tx x NX).1, (ecast tx x NX).2] at hei
  rw [(ecast ty y NY).1, (ecast ty y NY).2] at hej
  obtain ⟨hX1, hX2, hX3⟩ := haxis _ _ _ _ _ _ _ _ hNXq hx0 hxq hei hep hetw
  obtain ⟨hY1, hY2, hY3⟩ := haxis _ _ _ _ _ _ _ _ hNYq hy0 hyq hej heq heth
  exact ⟨i, j, p, q, tw, th, sprite, hi, hj, hsprite, hp, hq, htw, hth, hX1, hY1, hX2, hY2,
    hetw, heth, hX3, hY3⟩

set_option exponentiation.threshold 10000 in
set_option maxRecDepth 100000 in
/-- The region of slot 0 of the scene of 160 × 160 pixels: centre `(-0.5, 0)`,
width 3 and height 3, no rotation. -/
theorem fiveScene_region :
    (fiveScene.zoomLevels 0).zoomRegion
      = ⟨F64.fin (-((2 ^ 1073 : Nat) : Int)), F64.fin 0, F64.fin ((3 * 2 ^ 1074 : Nat) : Int),
          F64.fin ((3 * 2 ^ 1074 : Nat) : Int), F64.fin 0⟩ := by
  decide

set_option exponentiation.threshold 10000 in
set_option maxRecDepth 100000 in
/-- The alignment up to rounding in the scene of 160 × 160 pixels, whose region
has `|centre| + size = 3.5 ≤ 4 = 2^151` units of `2^(-149)`: for the tile of
cell `(2, 0)` the real part the kernel gives the first pixel and the position
of the sprite are finite and within `2^151 / 2^19` units, `2^(-17)`, of each
other. -/
theorem kernel_sprite_alignment_witness :
    (fiveScene.zoomLevels 0).zoomRegion
      = ⟨F64.fin (-((2 ^ 1073 : Nat) : Int)), F64.fin 0, F64.fin ((3 * 2 ^ 1074 : Nat) : Int),
          F64.fin ((3 * 2 ^ 1074 : Nat) : Int), F64.fin 0⟩ ∧
    (-((2 ^ 1073 : Nat) : Int)).natAbs + ((3 * 2 ^ 1074 : Nat) : Int).natAbs ≤ 2 ^ (151 + 925) ∧
    (launcherGrid TILE_DIMS (trueSizeOf fiveScene)).w
      = (fiveScene.zoomLevels 0).tileSprites.width ∧
    (launcherGrid TILE_DIMS (trueSizeOf fiveScene)).h
      = (fiveScene.zoomLevels 0).tileSprites.height ∧
    (2 : Nat) < (fiveScene.zoomLevels 0).tileSprites.width ∧
    ∃ (i p : Int) (sprite : TileSprite),
      coordI (launcherEnv fiveScene 0 0 TILE_DIMS (trueSizeOf fiveScene) neverSuperseded)
        (launcherSpec TILE_DIMS (trueSizeOf fiveScene))
        (tileAt (launcherSpec TILE_DIMS (trueSizeOf fiveScene)) 2 0) 0 = F32.fin i ∧
      fittedSprite fiveScene 0 2 0 = some sprite ∧
      sprite.positionX = F32.fin p ∧
      |(i : ℚ) - (p : ℚ)| ≤ 2 ^ 151 / 2 ^ 19 := by
  have hg : (launcherGrid TILE_DIMS (trueSizeOf fiveScene)).w
        = (fiveScene.zoomLevels 0).tileSprites.width ∧
      (launcherGrid TILE_DIMS (trueSizeOf fiveScene)).h
        = (fiveScene.zoomLevels 0).tileSprites.height :=
    ⟨fiveScene_values.1.trans fiveScene_sprites.1.symm,
      fiveScene_values.2.1.trans fiveScene_sprites.2.symm⟩
  have hM : (-((2 ^ 1073 : Nat) : Int)).natAbs + ((3 * 2 ^ 1074 : Nat) : Int).natAbs ≤ 2 ^ (151 + 925) := by
    decide
  have hM0 : (0 : Int).natAbs + ((3 * 2 ^ 1074 : Nat) : Int).natAbs ≤ 2 ^ (151 + 925) := by
    decide
  have h2 : (2 : Nat) < (fiveScene.zoomLevels 0).tileSprites.width := by
    rw [fiveScene_sprites.1]; decide
  have h0 : (0 : Nat) < (fiveScene.zoomLevels 0).tileSprites.height := by
    rw [fiveScene_sprites.2]; decide
  obtain ⟨i, j, p, q, tw, th, sprite, hi, -, hs, hp, -, -, -, -, -, -, -, -, -, hA, -⟩ :=
    kernel_sprite_alignment fiveScene 0 0 neverSuperseded (-((2 ^ 1073 : Nat) : Int)) 0
      ((3 * 2 ^ 1074 : Nat) : Int) ((3 * 2 ^ 1074 : Nat) : Int) (F64.fin 0) 151 2 0 0 0 fiveScene_region (by decide) (by decide)
      (by decide) (by decide) hM hM0
      (reachable_sprites_fit fiveSize (F32.ofNat 1) [] fiveScene rfl 0
        (fiveScene.zoomLevels 0).zoomRegion)
      hg (by rw [fiveScene_sprites.1]; decide) (by rw [fiveScene_sprites.2]; decide) h2 h0
      (by decide) (by decide)
  refine ⟨fiveScene_region, hM, hg.1, hg.2, h2, i, p, sprite, hi, hs, hp, ?_⟩
  rw [Nat.cast_zero, zero_mul, add_zero] at hA
  exact hA

end AsyncTiled
